import Mathlib

/-!
# Verification of the Kami puzzle search engine

A shallow embedding, in Lean 4, of the core of the Kami flood-fill puzzle
repository: the colored-graph puzzle state model with its collapse operation
(`core.py`), the isomorphism-based canonical identity tracker (`core.py`),
the generic breadth-first search solver (`search_algs.py`), the puzzle
adapter with its heuristics (`solver.py`), and the two indexed binary heaps
(`minheap.py`, `maxheap.py`).

Conventions of the embedding:
* node identifiers and colors are natural numbers (`InfiniteColor` admits an
  arbitrary integer-valued member, so colors form an unbounded discrete type);
* a Python `str` is modelled as its list of characters (`Str := List Char`);
* a Python `dict` is modelled as an association list with first-match lookup,
  in-place overwrite and key deletion;
* a Python `set` that is only queried for membership is modelled as a
  duplicate-free list;
* raising an exception is modelled by returning `none` / an `Option` that is
  `none`, and is distinguished from a regular `None` result by the function's
  type (documented at each operation);
* loops whose termination is a claim to be proved are modelled with an
  explicit fuel parameter; running out of fuel yields `none`, and fuel
  sufficiency is proved as a theorem.
-/

namespace Kami

/-- Characters of a Python `str`, modelled as a list. -/
abbrev Str := List Char

/-! ## Association lists: the model of Python `dict` -/

/-- First-match association-list lookup (model of `dict.__getitem__` /
`dict.get`). -/
def alookup {α β : Type} [DecidableEq α] : List (α × β) → α → Option β
  | [], _ => none
  | (k, v) :: rest, a => if a = k then some v else alookup rest a

/-- Remove a key (model of `del d[k]`; deleting an absent key is a no-op
here, the callers in the source only delete present keys). -/
def adel {α β : Type} [DecidableEq α] (l : List (α × β)) (a : α) :
    List (α × β) :=
  l.filter (fun kv => kv.1 ≠ a)

/-- Set a key (model of `d[k] = v`: overwrite if present, insert if not).
The model removes the old binding and appends the new one; only `alookup`
and `adel` ever observe the list, so the ordering of distinct keys is
irrelevant. -/
def aset {α β : Type} [DecidableEq α] (l : List (α × β)) (a : α) (b : β) :
    List (α × β) :=
  adel l a ++ [(a, b)]

/-! ## Decimal digits: the model of Python `str(index)` / `f"{index}"` -/

/-- The character of a decimal digit. -/
def digitChar (d : Nat) : Char := Char.ofNat (48 + d)

/-- Accumulator loop producing the decimal digits of `n`, most significant
first, in front of `acc`.  The loop halves `n` (at least) each round, so
the structural fuel `n` itself always suffices; the fuel-exhausted arm is
never reached with the fuel the wrapper supplies. -/
def decDigitsAux : Nat → Nat → List Char → List Char
  | 0, n, acc => digitChar n :: acc
  | fuel + 1, n, acc =>
    if n < 10 then digitChar n :: acc
    else decDigitsAux fuel (n / 10) (digitChar (n % 10) :: acc)

/-- Decimal representation of a natural number (model of Python `str(n)`
for `n : int`, `n ≥ 0`). -/
def decDigits (n : Nat) : List Char := decDigitsAux n n []

/-! ## The puzzle state model (`core.py`, class `Puzzle`)

A `Puzzle` owns an undirected `networkx.Graph` whose nodes carry a color
attribute.  The embedding stores the node list (networkx keeps insertion
order), a total coloring function (only its values on `nodes` are ever
meaningful), and the list of undirected edges in insertion order, each
stored once in the orientation in which it was added. -/

structure Puzzle where
  nodes : List Nat
  color : Nat → Nat
  edges : List (Nat × Nat)

/-- `Puzzle.get_color` (total in the model; the Python version raises
`KeyError` on a node that is absent, so theorems only invoke it on present
nodes). -/
def Puzzle.getColor (p : Puzzle) (v : Nat) : Nat := p.color v

/-- `Puzzle.get_neighbors`: all nodes adjacent to `v`, in edge-insertion
order, as `networkx` reports them. -/
def Puzzle.neighbors (p : Puzzle) (v : Nat) : List Nat :=
  p.edges.filterMap fun e =>
    if e.1 = v then some e.2 else if e.2 = v then some e.1 else none

/-- Undirected adjacency as a proposition. -/
def Puzzle.Adj (p : Puzzle) (u v : Nat) : Prop :=
  (u, v) ∈ p.edges ∨ (v, u) ∈ p.edges

instance (p : Puzzle) (u v : Nat) : Decidable (p.Adj u v) := by
  unfold Puzzle.Adj; infer_instance

/-- `Puzzle.get_same_color_neighbors`: direct neighbors sharing `v`'s
current color. -/
def Puzzle.sameColorNeighbors (p : Puzzle) (v : Nat) : List Nat :=
  (p.neighbors v).filter fun n => p.color n = p.color v

/-- `Puzzle.is_solved`: true iff exactly one distinct color remains among
all nodes (`len({colors}) == 1`). -/
def Puzzle.isSolved (p : Puzzle) : Bool :=
  (p.nodes.map p.color).dedup.length = 1

/-- `Puzzle.set_color(node_id, color, propagate)`: with `propagate`, first
recolors every same-original-color direct neighbor (one hop, computed
before any mutation), then the node itself. -/
def Puzzle.setColor (p : Puzzle) (v : Nat) (c : Nat) (propagate : Bool) :
    Puzzle :=
  if propagate then
    let scn := p.sameColorNeighbors v
    { p with color := fun u => if u = v ∨ u ∈ scn then c else p.color u }
  else
    { p with color := fun u => if u = v then c else p.color u }

/-- `Puzzle.add_node(node_id, color)` (networkx `add_node`: re-adding an
existing node only overwrites its attributes). -/
def Puzzle.addNode (p : Puzzle) (v : Nat) (c : Nat) : Puzzle :=
  { p with
    nodes := if v ∈ p.nodes then p.nodes else p.nodes ++ [v]
    color := fun u => if u = v then c else p.color u }

/-- `Puzzle.add_edge(node1, node2)` (networkx `add_edge`: inserts missing
endpoints, ignores an edge already present in either orientation). -/
def Puzzle.addEdge (p : Puzzle) (a b : Nat) : Puzzle :=
  let withNodes :=
    let n1 := if a ∈ p.nodes then p.nodes else p.nodes ++ [a]
    if b ∈ n1 then n1 else n1 ++ [b]
  if (a, b) ∈ p.edges ∨ (b, a) ∈ p.edges then { p with nodes := withNodes }
  else { p with nodes := withNodes, edges := p.edges ++ [(a, b)] }

/-- Well-formedness of a puzzle, as maintained by the `networkx.Graph`
representation: node list duplicate-free, each undirected edge stored
exactly once, all edge endpoints present as nodes. -/
def PuzzleWF (p : Puzzle) : Prop :=
  p.nodes.Nodup ∧
  p.edges.Nodup ∧
  (∀ e ∈ p.edges, e.1 ∈ p.nodes ∧ e.2 ∈ p.nodes) ∧
  (∀ e ∈ p.edges, e.1 ≠ e.2 → (e.2, e.1) ∉ p.edges)

instance (p : Puzzle) : Decidable (PuzzleWF p) := by
  unfold PuzzleWF; infer_instance

/-! ### Collapse (`Puzzle.collapse` with `node_id = None`)

`_component(start)` is a stack-driven traversal collecting the maximal
connected component of nodes sharing `start`'s color.  The Python stack
pops from the right and `extend` appends on the right; the model keeps the
top of the stack at the head, so a push of the neighbor list reverses it.
The set `comp` is modelled as the list of its elements in insertion order
(most recent first).  The loop's termination on cyclic graphs is a claim
(C3), so the model spends one unit of fuel per iteration and the required
amount of fuel is established by theorem `compLoop_fuel_sufficient`. -/

def compLoop (p : Puzzle) (col : Nat) :
    Nat → List Nat → List Nat → Option (List Nat)
  | 0, stack, comp => if stack.isEmpty then some comp else none
  | _ + 1, [], comp => some comp
  | fuel + 1, cur :: stack, comp =>
    if cur ∈ comp then compLoop p col fuel stack comp
    else if p.color cur ≠ col then compLoop p col fuel stack comp
    else compLoop p col fuel ((p.neighbors cur).reverse ++ stack) (cur :: comp)

/-- Fuel amply covering every `_component` traversal: one unit for the
initial stack entry plus, for each of the at most `|nodes|` additions to
`comp`, one unit per pushed neighbor (at most `|edges|`) and one for the
added node itself. -/
def compFuel (p : Puzzle) : Nat :=
  p.nodes.length * (p.edges.length + 1) + 2

/-- `_component(start)`: the same-color component of `start`. -/
def Puzzle.component (p : Puzzle) (start : Nat) : List Nat :=
  (compLoop p (p.color start) (compFuel p) [start] []).getD []

/-- `_collapse(start, comp)`: delete every node of `comp` (and with it, as
in networkx `remove_node`, every incident edge), re-add `start` with the
component's color, and connect `start` to every distinct outside neighbor
of the component. -/
def collapseStep (p : Puzzle) (start : Nat) (comp : List Nat) : Puzzle :=
  let newNbrs :=
    ((comp.flatMap fun n => p.neighbors n).filter fun nb => nb ∉ comp).dedup
  { nodes := (p.nodes.filter fun v => v ∉ comp) ++ [start]
    color := p.color
    edges := (p.edges.filter fun e => e.1 ∉ comp ∧ e.2 ∉ comp) ++
      newNbrs.map fun nb => (start, nb) }

/-- The `node_id = None` branch of `collapse`: iterate over a snapshot of
the node list, skipping nodes already absorbed into an earlier component
(the `visited` check; the snapshot also protects against nodes deleted by
`_collapse`, which the `visited` set already covers). -/
def collapseAllGo : Puzzle → List Nat → List Nat → Puzzle
  | p, [], _ => p
  | p, v :: todo, visited =>
    if v ∈ visited ∨ v ∉ p.nodes then collapseAllGo p todo visited
    else
      let comp := p.component v
      collapseAllGo (collapseStep p v comp) todo (visited ++ comp)

/-- `Puzzle.collapse()` with no node argument (the body that runs when the
puzzle is marked dirty; a clean puzzle short-circuits, which is sound
because every mutating operation re-marks the puzzle dirty). -/
def Puzzle.collapseAll (p : Puzzle) : Puzzle :=
  collapseAllGo p p.nodes []

/-- The five-node cycle `[Orange, Orange, DarkBlue, Cream, Cream]` with
edges `(1,2),(2,3),(3,4),(4,5),(5,1)` built in `core.demo` (§8's concrete
scenario), with the colors as their `InfiniteColor` values. -/
def demoCycle : Puzzle :=
  ((((((((((Puzzle.mk [] (fun _ => 0) []).addNode 1 0).addNode 2 0).addNode
    3 1).addNode 4 2).addNode 5 2).addEdge 1 2).addEdge 2 3).addEdge
    3 4).addEdge 4 5).addEdge 5 1

/-! ## The canonical graph (`Puzzle.to_colored_digraph`)

The derived `networkx.DiGraph` has one node `("v", id)` per puzzle vertex
and one node `("c", color)` per color class, an edge color → vertex for
each vertex of that color, and both orientations of each puzzle edge. -/

/-- A node of the canonical digraph: either a puzzle vertex or a color
class (the `("v", id)` / `("c", color)` tuples of the source). -/
inductive CNode where
  | v (id : Nat)
  | c (col : Nat)
deriving DecidableEq, Repr

/-- The canonical digraph (`IsomorphicPuzzleGraph = nx.DiGraph`): node list
and directed edge list, both in insertion order and duplicate-free as
`networkx` keeps them. -/
structure IsoGraph where
  nodes : List CNode
  edges : List (CNode × CNode)
deriving DecidableEq, Repr

/-- `DiGraph.add_node` (ignores a node already present). -/
def IsoGraph.addNodeD (g : IsoGraph) (n : CNode) : IsoGraph :=
  if n ∈ g.nodes then g else { g with nodes := g.nodes ++ [n] }

/-- `DiGraph.add_edge` (inserts missing endpoints, ignores an edge already
present). -/
def IsoGraph.addEdgeD (g : IsoGraph) (e : CNode × CNode) : IsoGraph :=
  let g1 := (g.addNodeD e.1).addNodeD e.2
  if e ∈ g1.edges then g1 else { g1 with edges := g1.edges ++ [e] }

/-- `Puzzle.to_colored_digraph`: step 1 adds all vertex nodes, step 2 adds
one color node per first-seen color value together with the color → vertex
edge, step 3 adds the two orientations of each puzzle edge.  The
`color_to_node` bookkeeping dict of the source holds color `col` exactly
when node `("c", col)` is already in the digraph, so the membership test of
`addNodeD` reproduces it. -/
def Puzzle.toColoredDigraph (p : Puzzle) : IsoGraph :=
  let g0 : IsoGraph := { nodes := p.nodes.map CNode.v, edges := [] }
  let g1 := p.nodes.foldl
    (fun g v =>
      let col := p.color v
      ((g.addNodeD (CNode.c col)).addEdgeD (CNode.c col, CNode.v v))) g0
  p.edges.foldl
    (fun g e =>
      ((g.addEdgeD (CNode.v e.1, CNode.v e.2)).addEdgeD
        (CNode.v e.2, CNode.v e.1))) g1

/-- Well-formedness of a canonical digraph as `networkx` maintains it. -/
def IsoGraphWF (g : IsoGraph) : Prop :=
  g.nodes.Nodup ∧ g.edges.Nodup ∧
    ∀ e ∈ g.edges, e.1 ∈ g.nodes ∧ e.2 ∈ g.nodes

instance (g : IsoGraph) : Decidable (IsoGraphWF g) := by
  unfold IsoGraphWF; infer_instance

/-! ## Digraph isomorphism (the model of `nx.is_isomorphic`)

`nx.is_isomorphic` (called without node or edge matchers, as the tracker
calls it) decides existence of a node bijection respecting directed
adjacency.  The library function is external to the repository; the model
decides true digraph isomorphism by searching over node matchings. -/

/-- All ways of inserting `a` into one position of a list. -/
def insertsOf {α : Type} (a : α) : List α → List (List α)
  | [] => [[a]]
  | b :: l => (a :: b :: l) :: (insertsOf a l).map fun l' => b :: l'

/-- All permutations of a list (a structurally recursive enumeration). -/
def permsOf {α : Type} : List α → List (List α)
  | [] => [[]]
  | a :: l => (permsOf l).flatMap (insertsOf a)

/-- Node-to-node correspondence induced by matching `xs` positionally with
`ys` (identity outside `xs`). -/
def mapThrough (xs ys : List CNode) : CNode → CNode := fun a =>
  match alookup (xs.zip ys) a with
  | some b => b
  | none => a

/-- Whether `f` carries the adjacency of `G` exactly onto the adjacency of
`H`, over all pairs of nodes of `G`. -/
def edgesMatch (G H : IsoGraph) (f : CNode → CNode) : Bool :=
  G.nodes.all fun a => G.nodes.all fun b =>
    decide ((a, b) ∈ G.edges) = decide ((f a, f b) ∈ H.edges)

/-- Executable digraph isomorphism check (the model of
`nx.is_isomorphic(G, H)`): some arrangement of `H`'s nodes matches `G`'s
node list and carries adjacency across exactly. -/
def nxIsIsomorphic (G H : IsoGraph) : Bool :=
  (permsOf H.nodes).any fun ys =>
    decide (G.nodes.length = ys.length) && edgesMatch G H (mapThrough G.nodes ys)

/-- Digraph isomorphism as a proposition: a map matching the node lists
bijectively and carrying adjacency across exactly. -/
def GIso (G H : IsoGraph) : Prop :=
  ∃ f : CNode → CNode, (G.nodes.map f).Perm H.nodes ∧
    ∀ a b, a ∈ G.nodes → b ∈ G.nodes →
      ((a, b) ∈ G.edges ↔ (f a, f b) ∈ H.edges)

/-- Colored-graph isomorphism of puzzles: a relabeling of node identifiers
preserving adjacency and preserving every node's color ("same topology and
coloring up to node relabeling"). -/
def PuzzleColorIso (p q : Puzzle) : Prop :=
  ∃ f : Nat → Nat, (p.nodes.map f).Perm q.nodes ∧
    (∀ x ∈ p.nodes, q.color (f x) = p.color x) ∧
    ∀ a b, a ∈ p.nodes → b ∈ p.nodes → (p.Adj a b ↔ q.Adj (f a) (f b))

/-! ## The canonical identity tracker (`core.py`, class `HashTracker`) -/

/-- The tracker's `hashes` dict: quick hash → insertion-ordered bucket of
representative canonical graphs. -/
abbrev HashTracker := List (Str × List IsoGraph)

/-- `HashTracker._merge`: `f"{hash}_{index}"`. -/
def mergeHash (qh : Str) (index : Nat) : Str :=
  qh ++ '_' :: decDigits index

/-- Index of the first graph of the bucket isomorphic to `g` (the linear
scan of `full_hash`). -/
def findIsoIdxGo (g : IsoGraph) : List IsoGraph → Nat → Option Nat
  | [], _ => none
  | h :: rest, i =>
    if nxIsIsomorphic g h then some i else findIsoIdxGo g rest (i + 1)

/-- Modelled from the spec: `nx.weisfeiler_lehman_graph_hash`, the quick
structural signature, is a library function external to the repository.
Per §4.2 its contract is exactly: isomorphic graphs receive equal
signatures, and equal signatures are necessary but not sufficient for
isomorphism.  The model is an isomorphism-invariant structural signature
with that contract (the theorems about the tracker are additionally proved
for an arbitrary isomorphism-invariant signature). -/
def wlHashModel (g : IsoGraph) : Str := decDigits g.nodes.length

/-- `HashTracker.full_hash` acting on a canonical graph `g` whose quick
hash is `qhash g`: register `g` (or find its isomorphic representative)
and return the merged identity together with the updated tracker. -/
def trackerFullHash (qhash : IsoGraph → Str) (t : HashTracker)
    (g : IsoGraph) : Str × HashTracker :=
  let qh := qhash g
  match alookup t qh with
  | none => (mergeHash qh 0, aset t qh [g])
  | some bucket =>
    match findIsoIdxGo g bucket 0 with
    | some i => (mergeHash qh i, t)
    | none => (mergeHash qh bucket.length, aset t qh (bucket ++ [g]))

/-- `HashTracker.quick_hash`'s graph: collapse a copy of the puzzle fully,
then build the canonical digraph. -/
def canonOf (p : Puzzle) : IsoGraph :=
  p.collapseAll.toColoredDigraph

/-- `HashTracker.full_hash(puzzle)`: the tracker operation applied to the
puzzle's collapsed canonical graph. -/
def puzzleFullHash (qhash : IsoGraph → Str) (t : HashTracker) (p : Puzzle) :
    Str × HashTracker :=
  trackerFullHash qhash t (canonOf p)

/-- Hash a sequence of puzzles through one shared tracker (each
`puzzle.full_hash` read adds the puzzle to the tracker), collecting the
returned full identities. -/
def runFullHashes (qhash : IsoGraph → Str) :
    HashTracker → List Puzzle → List Str
  | _, [] => []
  | t, p :: ps =>
    let r := puzzleFullHash qhash t p
    r.1 :: runFullHashes qhash r.2 ps

/-! ## The puzzle adapter (`solver.py`, class `SolvablePuzzle`) -/

/-- A move: recolor `node` to `color` (propagating), then collapse. -/
abbrev Move := Nat × Nat

/-- `SolvablePuzzle`: a puzzle together with its declared palette
(`valid_colors`; the integer form `k` denotes the first `k` colors). -/
structure SolvablePuzzle extends Puzzle where
  validColors : List Nat

/-- `SolvablePuzzle.get_valid_moves`: every pair of a node and a palette
color different from the node's current color. -/
def getValidMoves (sp : SolvablePuzzle) : List Move :=
  sp.nodes.flatMap fun node =>
    (sp.validColors.filter fun c => c ≠ sp.color node).map
      fun c => (node, c)

/-- `SolvablePuzzle.search_follower`: copy, `set_color(node, color,
propagate=True)`, `collapse()`. -/
def searchFollower (sp : SolvablePuzzle) (m : Move) : SolvablePuzzle :=
  { sp with toPuzzle := (sp.toPuzzle.setColor m.1 m.2 true).collapseAll }

/-- `color_heuristic`: number of distinct colors present minus one (a
Python `int`, negative on the empty puzzle). -/
def colorHeuristic (p : Puzzle) : Int :=
  ((p.nodes.map p.color).dedup.length : Int) - 1

/-- Sequential validity of a move list: each move is legal in the state it
is played from. -/
def ValidMoveSeq : SolvablePuzzle → List Move → Prop
  | _, [] => True
  | sp, m :: ms => m ∈ getValidMoves sp ∧ ValidMoveSeq (searchFollower sp m) ms

/-- Play a move list. -/
def applyMoves (sp : SolvablePuzzle) (ms : List Move) : SolvablePuzzle :=
  ms.foldl searchFollower sp

/-- A move list solves the puzzle: it is legal move by move and the final
state is monochrome. -/
def SolvesPz (sp : SolvablePuzzle) (ms : List Move) : Prop :=
  ValidMoveSeq sp ms ∧ (applyMoves sp ms).isSolved = true

/-! ## Generic breadth-first search (`search_algs.py`)

`NodeSolver` packages the four client callbacks; `BFSSolver.solve` with
`progress=False` runs `_solve_without_progress`.  The `while queue` loop
is fuelled (one unit per dequeue); the outer `Option` is `none` exactly
when fuel runs out or a dequeued name misses the table (the latter never
happens, the table always covers the queue). -/

structure NodeSolver (I N M : Type) where
  getName : I → N
  isGoal : I → Bool
  getMoves : I → List M
  followMove : I → M → I

/-- The `for move in expanded_moves` body: follow each move, return the
child path on a goal child, record and enqueue unseen names. -/
def bfsExpand {I N M : Type} [DecidableEq N] (S : NodeSolver I N M)
    (cur : I) (path : List M) :
    List M → List (N × I × List M) → List N →
    Option (List M) × List (N × I × List M) × List N
  | [], tbl, q => (none, tbl, q)
  | m :: ms, tbl, q =>
    let child := S.followMove cur m
    let cpath := path ++ [m]
    if S.isGoal child then (some cpath, tbl, q)
    else
      let cname := S.getName child
      match alookup tbl cname with
      | some _ => bfsExpand S cur path ms tbl q
      | none => bfsExpand S cur path ms (tbl ++ [(cname, child, cpath)]) (q ++ [cname])

/-- The `while queue` loop of `_solve_without_progress`. -/
def bfsLoop {I N M : Type} [DecidableEq N] (S : NodeSolver I N M) :
    Nat → List (N × I × List M) → List N → Option (Option (List M))
  | 0, _, _ => none
  | _ + 1, _, [] => some none
  | fuel + 1, tbl, curName :: q =>
    match alookup tbl curName with
    | none => none
    | some (info, path) =>
      match bfsExpand S info path (S.getMoves info) tbl q with
      | (some sol, _, _) => some (some sol)
      | (none, tbl', q') => bfsLoop S fuel tbl' q'

/-- `BFSSolver.solve(start_info, progress=False)`
(= `_solve_without_progress`). -/
def NodeSolver.solveNP {I N M : Type} [DecidableEq N] (S : NodeSolver I N M)
    (fuel : Nat) (start : I) : Option (Option (List M)) :=
  if S.isGoal start then some (some [])
  else
    let n := S.getName start
    bfsLoop S fuel [(n, start, [])] [n]

/-- Validity of a move list against a generic `NodeSolver`: each move is
offered by `get_moves` in the state it is played from. -/
def ValidSeqN {I N M : Type} (S : NodeSolver I N M) : I → List M → Prop
  | _, [] => True
  | i, m :: ms => m ∈ S.getMoves i ∧ ValidSeqN S (S.followMove i m) ms

/-- Play a move list through `follow_move`. -/
def runMovesN {I N M : Type} (S : NodeSolver I N M) (i : I) (ms : List M) :
    I :=
  ms.foldl S.followMove i

/-- A move list solves the generic search problem. -/
def SolvesN {I N M : Type} (S : NodeSolver I N M) (i : I) (ms : List M) :
    Prop :=
  ValidSeqN S i ms ∧ S.isGoal (runMovesN S i ms) = true

/-- The path length recorded in the BFS table under a name (`0` when the
name is absent). -/
def bfsLenOf {I N M : Type} [DecidableEq N] (tbl : List (N × I × List M))
    (n : N) : Nat :=
  (alookup tbl n).elim 0 fun e => e.2.length

/-- The invariant of the BFS loop state: table keys are unique, the queue
is covered by the table, entries record valid non-goal search states, a
dequeued entry has all its children recorded as non-goal entries one step
longer at most, the queued path lengths are non-decreasing, and every
recorded path is at most one longer than the front of the queue. -/
structure BfsInv {I N M : Type} [DecidableEq N] (S : NodeSolver I N M)
    (start : I) (tbl : List (N × I × List M)) (q : List N) : Prop where
  keys_nodup : (tbl.map Prod.fst).Nodup
  covered : ∀ n ∈ q, n ∈ tbl.map Prod.fst
  sound : ∀ e ∈ tbl, e.1 = S.getName e.2.1 ∧ ValidSeqN S start e.2.2 ∧
    runMovesN S start e.2.2 = e.2.1 ∧ S.isGoal e.2.1 = false
  expanded : ∀ e ∈ tbl, e.1 ∉ q → ∀ m ∈ S.getMoves e.2.1,
    S.isGoal (S.followMove e.2.1 m) = false ∧
    ∃ p, (S.getName (S.followMove e.2.1 m), S.followMove e.2.1 m, p) ∈
      tbl ∧ p.length ≤ e.2.2.length + 1
  sorted : List.Chain' (fun a b => a ≤ b) (q.map (bfsLenOf tbl))
  bounded : ∀ e ∈ tbl, ∀ h, q.head? = some h →
    e.2.2.length ≤ bfsLenOf tbl h + 1

/-! ## `SolvablePuzzle.bfs_solve`

The adapter's namer is `search_namer = puzzle.full_hash`, which reads and
mutates the shared `HashTracker`; the instantiated search therefore
threads the tracker state through the generic loop. -/

/-- The expansion body of the instantiated BFS, with the stateful namer. -/
def bfsPzExpand (cur : SolvablePuzzle) (path : List Move) :
    List Move → HashTracker → List (Str × SolvablePuzzle × List Move) →
    List Str →
    Option (List Move) × HashTracker ×
      List (Str × SolvablePuzzle × List Move) × List Str
  | [], t, tbl, q => (none, t, tbl, q)
  | m :: ms, t, tbl, q =>
    let child := searchFollower cur m
    let cpath := path ++ [m]
    if child.isSolved then (some cpath, t, tbl, q)
    else
      let r := puzzleFullHash wlHashModel t child.toPuzzle
      match alookup tbl r.1 with
      | some _ => bfsPzExpand cur path ms r.2 tbl q
      | none =>
        bfsPzExpand cur path ms r.2 (tbl ++ [(r.1, child, cpath)]) (q ++ [r.1])

/-- The `while queue` loop of the instantiated BFS. -/
def bfsPzLoop :
    Nat → HashTracker → List (Str × SolvablePuzzle × List Move) →
    List Str → Option (Option (List Move))
  | 0, _, _, _ => none
  | _ + 1, _, _, [] => some none
  | fuel + 1, t, tbl, curName :: q =>
    match alookup tbl curName with
    | none => none
    | some (info, path) =>
      match bfsPzExpand info path (getValidMoves info) t tbl q with
      | (some sol, _, _, _) => some (some sol)
      | (none, t', tbl', q') => bfsPzLoop fuel t' tbl' q'

/-- `SolvablePuzzle.bfs_solve(progress=False)`: collapse a copy of the
puzzle and run the generic BFS on it, naming states through the puzzle's
(initially empty) tracker. -/
def bfsSolve (fuel : Nat) (sp : SolvablePuzzle) : Option (Option (List Move)) :=
  let collapsed : SolvablePuzzle := { sp with toPuzzle := sp.toPuzzle.collapseAll }
  if collapsed.isSolved then some (some [])
  else
    let r := puzzleFullHash wlHashModel [] collapsed.toPuzzle
    bfsPzLoop fuel r.2 [(r.1, collapsed, [])] [r.1]

/-- The puzzle with no nodes (over the default two-color palette
`valid_colors = 2`). -/
def emptySolvable : SolvablePuzzle :=
  { nodes := [], color := fun _ => 0, edges := [], validColors := [0, 1] }

/-- The demo cycle as a `SolvablePuzzle` over its three colors. -/
def demoSolvable : SolvablePuzzle :=
  { toPuzzle := demoCycle, validColors := [0, 1, 2] }

/-! ## The indexed binary heaps (`minheap.py` and `maxheap.py`)

Both heaps store duck-typed items; the embedding is parameterized by the
two projections the protocols require (`.name` and `.cost`, respectively
`.name` and `.score`).  The backing array is a list, the `_pos` dict an
association list.  `_sift_up` recurses towards the root, `_sift_down`
towards the leaves; both carry the item being placed, exactly as the
source shifts entries and writes the item once at the end. -/

/-- The state of a `MinHeap` (also of a `MaxHeap`: the two classes share
the `(_heap, _pos)` representation). -/
structure HeapSt (It N : Type) where
  heap : List It
  pos : List (N × Nat)

/-- `MinHeap()` / `MaxHeap()` with no initial items. -/
def emptyHeap {It N : Type} : HeapSt It N := ⟨[], []⟩

section MinHeapOps

variable {It N C : Type} [DecidableEq N] [LinearOrder C]

/-- `MinHeap._sift_up`'s loop, carrying `item`; each round either places
the item at `idx` or moves the parent down and ascends.  The index
strictly decreases, so structural fuel `idx` always suffices; the
fuel-exhausted arm coincides with the placement the loop performs at the
root, so it is only ever taken at `idx = 0`. -/
def msiftUpGo (nm : It → N) (cst : It → C) :
    Nat → List It → List (N × Nat) → Nat → It → List It × List (N × Nat)
  | 0, heap, pos, idx, item => (heap.set idx item, aset pos (nm item) idx)
  | fuel + 1, heap, pos, idx, item =>
    if idx = 0 then (heap.set idx item, aset pos (nm item) idx)
    else
      let parent := (idx - 1) / 2
      match heap.get? parent with
      | none => (heap.set idx item, aset pos (nm item) idx)
      | some pit =>
        if cst item ≥ cst pit then (heap.set idx item, aset pos (nm item) idx)
        else msiftUpGo nm cst fuel (heap.set idx pit) (aset pos (nm pit) idx)
          parent item

/-- `MinHeap._sift_down`'s loop, carrying `item`: `smaller` is the right
child when it exists and has the strictly smaller key, otherwise the left
child; the round places the item at `idx` when `heap[smaller].cost >=
item.cost` and otherwise moves the smaller child up and descends. -/
def msiftDownGo (nm : It → N) (cst : It → C) :
    Nat → List It → List (N × Nat) → Nat → It → List It × List (N × Nat)
  | 0, heap, pos, idx, item => (heap.set idx item, aset pos (nm item) idx)
  | fuel + 1, heap, pos, idx, item =>
    if heap.length ≤ 2 * idx + 1 then
      (heap.set idx item, aset pos (nm item) idx)
    else
      match heap.get? (2 * idx + 1) with
      | none => (heap.set idx item, aset pos (nm item) idx)
      | some lit =>
        match heap.get? (2 * idx + 2) with
        | some rit =>
          if 2 * idx + 2 < heap.length ∧ cst rit < cst lit then
            if cst rit ≥ cst item then
              (heap.set idx item, aset pos (nm item) idx)
            else msiftDownGo nm cst fuel (heap.set idx rit)
              (aset pos (nm rit) idx) (2 * idx + 2) item
          else
            if cst lit ≥ cst item then
              (heap.set idx item, aset pos (nm item) idx)
            else msiftDownGo nm cst fuel (heap.set idx lit)
              (aset pos (nm lit) idx) (2 * idx + 1) item
        | none =>
          if cst lit ≥ cst item then (heap.set idx item, aset pos (nm item) idx)
          else msiftDownGo nm cst fuel (heap.set idx lit)
            (aset pos (nm lit) idx) (2 * idx + 1) item

/-- `MinHeap.add_or_update`: insert a new name and sift it up, or replace
the item stored under an existing name and restore order in the direction
the key moved. -/
def mAddOrUpdate (nm : It → N) (cst : It → C) (h : HeapSt It N) (obj : It) :
    HeapSt It N :=
  match alookup h.pos (nm obj) with
  | none =>
    let idx := h.heap.length
    let r := msiftUpGo nm cst idx (h.heap ++ [obj]) (aset h.pos (nm obj) idx)
      idx obj
    ⟨r.1, r.2⟩
  | some idx =>
    match h.heap.get? idx with
    | none => h
    | some old =>
      let heap1 := h.heap.set idx obj
      if cst obj < cst old then
        let r := msiftUpGo nm cst idx heap1 h.pos idx obj
        ⟨r.1, r.2⟩
      else if cst obj > cst old then
        let r := msiftDownGo nm cst heap1.length heap1 h.pos idx obj
        ⟨r.1, r.2⟩
      else ⟨heap1, h.pos⟩

/-- `MinHeap.pop`: `none` models `raise IndexError("pop from empty
heap")`; otherwise remove the root, move the last element to the root and
sift it down. -/
def mPop (nm : It → N) (cst : It → C) (h : HeapSt It N) :
    Option (It × HeapSt It N) :=
  match h.heap with
  | [] => none
  | [top] => some (top, ⟨[], adel h.pos (nm top)⟩)
  | top :: next :: rest =>
    let pos1 := adel h.pos (nm top)
    let last := (top :: next :: rest).getLast (by simp)
    let body := ((top :: next :: rest).dropLast).set 0 last
    let r := msiftDownGo nm cst body.length body (aset pos1 (nm last) 0) 0 last
    some (top, ⟨r.1, r.2⟩)

/-- `MinHeap.peek`: the root, or `None` (a regular value, not an error)
when empty. -/
def mPeek (h : HeapSt It N) : Option It := h.heap.head?

end MinHeapOps

section MaxHeapOps

variable {It N C : Type} [DecidableEq N] [LinearOrder C]

/-- `MaxHeap._sift_up`'s loop (comparisons reversed relative to
`MinHeap`), fuelled like `msiftUpGo`. -/
def xsiftUpGo (nm : It → N) (scr : It → C) :
    Nat → List It → List (N × Nat) → Nat → It → List It × List (N × Nat)
  | 0, heap, pos, idx, item => (heap.set idx item, aset pos (nm item) idx)
  | fuel + 1, heap, pos, idx, item =>
    if idx = 0 then (heap.set idx item, aset pos (nm item) idx)
    else
      let parent := (idx - 1) / 2
      match heap.get? parent with
      | none => (heap.set idx item, aset pos (nm item) idx)
      | some pit =>
        if scr item ≤ scr pit then (heap.set idx item, aset pos (nm item) idx)
        else xsiftUpGo nm scr fuel (heap.set idx pit) (aset pos (nm pit) idx)
          parent item

/-- `MaxHeap._sift_down`'s loop: `larger` is the right child when it
exists and has the strictly larger key, otherwise the left child; fuelled
like `msiftDownGo`. -/
def xsiftDownGo (nm : It → N) (scr : It → C) :
    Nat → List It → List (N × Nat) → Nat → It → List It × List (N × Nat)
  | 0, heap, pos, idx, item => (heap.set idx item, aset pos (nm item) idx)
  | fuel + 1, heap, pos, idx, item =>
    if heap.length ≤ 2 * idx + 1 then
      (heap.set idx item, aset pos (nm item) idx)
    else
      match heap.get? (2 * idx + 1) with
      | none => (heap.set idx item, aset pos (nm item) idx)
      | some lit =>
        match heap.get? (2 * idx + 2) with
        | some rit =>
          if 2 * idx + 2 < heap.length ∧ scr rit > scr lit then
            if scr rit ≤ scr item then
              (heap.set idx item, aset pos (nm item) idx)
            else xsiftDownGo nm scr fuel (heap.set idx rit)
              (aset pos (nm rit) idx) (2 * idx + 2) item
          else
            if scr lit ≤ scr item then
              (heap.set idx item, aset pos (nm item) idx)
            else xsiftDownGo nm scr fuel (heap.set idx lit)
              (aset pos (nm lit) idx) (2 * idx + 1) item
        | none =>
          if scr lit ≤ scr item then (heap.set idx item, aset pos (nm item) idx)
          else xsiftDownGo nm scr fuel (heap.set idx lit)
            (aset pos (nm lit) idx) (2 * idx + 1) item

/-- `MaxHeap.add_or_update`. -/
def xAddOrUpdate (nm : It → N) (scr : It → C) (h : HeapSt It N) (obj : It) :
    HeapSt It N :=
  match alookup h.pos (nm obj) with
  | none =>
    let idx := h.heap.length
    let r := xsiftUpGo nm scr idx (h.heap ++ [obj]) (aset h.pos (nm obj) idx)
      idx obj
    ⟨r.1, r.2⟩
  | some idx =>
    match h.heap.get? idx with
    | none => h
    | some old =>
      let heap1 := h.heap.set idx obj
      if scr obj > scr old then
        let r := xsiftUpGo nm scr idx heap1 h.pos idx obj
        ⟨r.1, r.2⟩
      else if scr obj < scr old then
        let r := xsiftDownGo nm scr heap1.length heap1 h.pos idx obj
        ⟨r.1, r.2⟩
      else ⟨heap1, h.pos⟩

/-- `MaxHeap.pop`: `none` models the `IndexError` on an empty heap. -/
def xPop (nm : It → N) (scr : It → C) (h : HeapSt It N) :
    Option (It × HeapSt It N) :=
  match h.heap with
  | [] => none
  | [top] => some (top, ⟨[], adel h.pos (nm top)⟩)
  | top :: next :: rest =>
    let pos1 := adel h.pos (nm top)
    let last := (top :: next :: rest).getLast (by simp)
    let body := ((top :: next :: rest).dropLast).set 0 last
    let r := xsiftDownGo nm scr body.length body (aset pos1 (nm last) 0) 0 last
    some (top, ⟨r.1, r.2⟩)

/-- `MaxHeap.peek`. -/
def xPeek (h : HeapSt It N) : Option It := h.heap.head?

end MaxHeapOps

/-- An operation on an indexed heap: `add_or_update` an item, or `pop`. -/
inductive HeapOp (It : Type) where
  | add (obj : It)
  | pop

section HeapRuns

variable {It N C : Type} [DecidableEq N] [LinearOrder C]

/-- Run a sequence of operations on a min-heap, collecting popped items in
order; `none` when some `pop` hit an empty heap (the raised error). -/
def mRunOps (nm : It → N) (cst : It → C) :
    List (HeapOp It) → HeapSt It N → Option (HeapSt It N × List It)
  | [], h => some (h, [])
  | HeapOp.add o :: ops, h => mRunOps nm cst ops (mAddOrUpdate nm cst h o)
  | HeapOp.pop :: ops, h =>
    match mPop nm cst h with
    | none => none
    | some (it, h') =>
      match mRunOps nm cst ops h' with
      | none => none
      | some (h'', outs) => some (h'', it :: outs)

/-- Pop a min-heap until empty (with fuel; `heap.length` always
suffices). -/
def mDrain (nm : It → N) (cst : It → C) :
    Nat → HeapSt It N → List It
  | 0, _ => []
  | fuel + 1, h =>
    match mPop nm cst h with
    | none => []
    | some (it, h') => it :: mDrain nm cst fuel h'

/-- Run a sequence of operations on a max-heap. -/
def xRunOps (nm : It → N) (scr : It → C) :
    List (HeapOp It) → HeapSt It N → Option (HeapSt It N × List It)
  | [], h => some (h, [])
  | HeapOp.add o :: ops, h => xRunOps nm scr ops (xAddOrUpdate nm scr h o)
  | HeapOp.pop :: ops, h =>
    match xPop nm scr h with
    | none => none
    | some (it, h') =>
      match xRunOps nm scr ops h' with
      | none => none
      | some (h'', outs) => some (h'', it :: outs)

/-- Pop a max-heap until empty (with fuel). -/
def xDrain (nm : It → N) (scr : It → C) :
    Nat → HeapSt It N → List It
  | 0, _ => []
  | fuel + 1, h =>
    match xPop nm scr h with
    | none => []
    | some (it, h') => it :: xDrain nm scr fuel h'

end HeapRuns

/-- A concrete heap item shape for instantiating the protocols (`.name`
and a key that serves as `.cost` or `.score`). -/
structure HItem (N C : Type) where
  name : N
  key : C
deriving DecidableEq, Repr

/-! ### Specification-side notions for the heaps -/

/-- Key comparison of two optional array entries (trivially true when
either is out of range). -/
def optLE {It C : Type} [LinearOrder C] (cst : It → C) :
    Option It → Option It → Prop
  | some a, some b => cst a ≤ cst b
  | some _, none => True
  | none, _ => True

instance {It C : Type} [LinearOrder C] (cst : It → C) (a b : Option It) :
    Decidable (optLE cst a b) := by
  unfold optLE
  rcases a with _ | x
  · exact isTrue trivial
  · rcases b with _ | y
    · exact isTrue trivial
    · exact inferInstanceAs (Decidable (cst x ≤ cst y))

/-- The binary-heap ordering invariant of the backing array: every entry
is at least its parent. -/
def HeapProp {It C : Type} [LinearOrder C] (cst : It → C)
    (heap : List It) : Prop :=
  ∀ j, j < heap.length → 0 < j →
    optLE cst (heap.get? ((j - 1) / 2)) (heap.get? j)

/-- The `_pos` dict is exactly the name-to-index map of the array. -/
def PosExact {It N : Type} [DecidableEq N] (nm : It → N) (heap : List It)
    (pos : List (N × Nat)) : Prop :=
  (∀ kv ∈ pos, ∃ it, heap.get? kv.2 = some it ∧ nm it = kv.1) ∧
  (∀ j, j < heap.length →
    ((heap.get? j).elim True fun it => (nm it, j) ∈ pos)) ∧
  (pos.map Prod.fst).Nodup

/-- As `PosExact`, except that the binding of the one name `n0` (the item
being sifted) is allowed to be stale or absent. -/
def PosExactExcept {It N : Type} [DecidableEq N] (nm : It → N)
    (heap : List It) (pos : List (N × Nat)) (n0 : N) : Prop :=
  (∀ kv ∈ pos, kv.1 ≠ n0 →
    ∃ it, heap.get? kv.2 = some it ∧ nm it = kv.1) ∧
  (∀ j, j < heap.length →
    ((heap.get? j).elim True fun it => nm it ≠ n0 → (nm it, j) ∈ pos)) ∧
  (pos.map Prod.fst).Nodup

/-- Full well-formedness of an indexed min-heap state. -/
def MinHeapWF {It N C : Type} [DecidableEq N] [LinearOrder C]
    (nm : It → N) (cst : It → C) (h : HeapSt It N) : Prop :=
  HeapProp cst h.heap ∧ (h.heap.map nm).Nodup ∧ PosExact nm h.heap h.pos

/-- Every `pop` of the run returns a key-minimal element of the heap it
pops (a run aborted by the empty-heap error imposes nothing further). -/
def PopsAreMin {It N C : Type} [DecidableEq N] [LinearOrder C]
    (nm : It → N) (cst : It → C) :
    List (HeapOp It) → HeapSt It N → Prop
  | [], _ => True
  | HeapOp.add o :: ops, h => PopsAreMin nm cst ops (mAddOrUpdate nm cst h o)
  | HeapOp.pop :: ops, h =>
    match mPop nm cst h with
    | none => True
    | some (it, h') =>
      (∀ x ∈ h.heap, cst it ≤ cst x) ∧ PopsAreMin nm cst ops h'

/-- Every `pop` of the run returns a key-maximal element (max-heap). -/
def PopsAreMax {It N C : Type} [DecidableEq N] [LinearOrder C]
    (nm : It → N) (scr : It → C) :
    List (HeapOp It) → HeapSt It N → Prop
  | [], _ => True
  | HeapOp.add o :: ops, h => PopsAreMax nm scr ops (xAddOrUpdate nm scr h o)
  | HeapOp.pop :: ops, h =>
    match xPop nm scr h with
    | none => True
    | some (it, h') =>
      (∀ x ∈ h.heap, scr x ≤ scr it) ∧ PopsAreMax nm scr ops h'

/-- Full well-formedness of an indexed max-heap state. -/
def MaxHeapWF {It N C : Type} [DecidableEq N] [LinearOrder C]
    (nm : It → N) (scr : It → C) (h : HeapSt It N) : Prop :=
  MinHeapWF nm (fun it => OrderDual.toDual (scr it)) h

/-! ## Specification-side notions for collapse -/

/-- One step between same-colored adjacent nodes (both of color `col`). -/
def MStep (p : Puzzle) (col : Nat) (a b : Nat) : Prop :=
  p.Adj a b ∧ p.color a = col ∧ p.color b = col

/-- Same-color connectedness: a chain of adjacent nodes of color `col`. -/
def MonoReach (p : Puzzle) (col : Nat) : Nat → Nat → Prop :=
  Relation.ReflTransGen (MStep p col)

/-- `x` and `y` lie in the same maximal same-colored connected region. -/
def MonoEquiv (p : Puzzle) (x y : Nat) : Prop :=
  p.color x = p.color y ∧ MonoReach p (p.color x) x y

/-- An undirected edge in its normal orientation. -/
def normEdge (e : Nat × Nat) : Nat × Nat :=
  if e.1 ≤ e.2 then e else (e.2, e.1)

/-- The set of nodes of a puzzle. -/
def nodeFinset (p : Puzzle) : Finset Nat := p.nodes.toFinset

/-- The set of undirected edges of a puzzle. -/
def edgeFinset (p : Puzzle) : Finset (Nat × Nat) :=
  (p.edges.map normEdge).toFinset

/-- The set of colors present in a puzzle. -/
def colorFinset (p : Puzzle) : Finset Nat :=
  (p.nodes.map p.color).toFinset

/-- The number of maximal same-colored connected components of a puzzle
(components listed per node via `_component`, then deduplicated as sets;
theorem `component_spec` identifies `component` with the claim's maximal
same-colored connected regions). -/
def classesCount (p : Puzzle) : Nat :=
  ((p.nodes.map fun v => (p.component v).toFinset).dedup).length

/-- What full collapse guarantees, relative to the pre-collapse puzzle
`p`: well-formedness, untouched coloring, surviving nodes drawn from `p`
with exactly one survivor per same-colored region, no same-colored
adjacency, and quotient adjacency (two survivors are adjacent iff their
regions are distinct and some pre-collapse edge crosses between the
regions). -/
structure CollapseSpec (p q : Puzzle) : Prop where
  wf : PuzzleWF q
  color_eq : q.color = p.color
  nodes_sub : ∀ x ∈ q.nodes, x ∈ p.nodes
  adj_ne : ∀ u v, q.Adj u v → p.color u ≠ p.color v
  rep_exists : ∀ x ∈ p.nodes, ∃ r ∈ q.nodes, MonoEquiv p x r
  rep_unique : ∀ r ∈ q.nodes, ∀ s ∈ q.nodes, MonoEquiv p r s → r = s
  adj_iff : ∀ r ∈ q.nodes, ∀ s ∈ q.nodes,
    (q.Adj r s ↔ ¬MonoEquiv p r s ∧
      ∃ x y, MonoEquiv p r x ∧ MonoEquiv p s y ∧ p.Adj x y)

/-- Well-formedness of a tracker state as `HashTracker` maintains it: the
dict's keys are unique, and every stored representative graph came out of
`to_colored_digraph`, hence has a duplicate-free node list. -/
def TrackerWF (t : HashTracker) : Prop :=
  (t.map Prod.fst).Nodup ∧ ∀ kv ∈ t, ∀ g ∈ kv.2, g.nodes.Nodup

/-- A single node of color `0` (already collapsed). -/
def p0cex : Puzzle := { nodes := [0], color := fun _ => 0, edges := [] }

/-- A single node of color `1`: same topology as `p0cex` but a different
coloring, so not isomorphic to it as a colored graph. -/
def p1cex : Puzzle := { nodes := [0], color := fun _ => 1, edges := [] }

/-! ### Specification-side notions for the instantiated BFS (C2) -/

/-- Palette-blind colored-graph isomorphism of puzzles: a node bijection
preserving adjacency and the color *partition* (which nodes share a
color), not necessarily the color values themselves.  This is the state
equivalence induced by the canonical digraph, whose color classes are
anonymous structural nodes. -/
def PalIso (p q : Puzzle) : Prop :=
  ∃ f : Nat → Nat, (p.nodes.map f).Perm q.nodes ∧
    (∀ x y, x ∈ p.nodes → y ∈ p.nodes →
      (p.color x = p.color y ↔ q.color (f x) = q.color (f y))) ∧
    ∀ a b, a ∈ p.nodes → b ∈ p.nodes → (p.Adj a b ↔ q.Adj (f a) (f b))

/-- The class of search states `bfs_solve` reaches from a well-formed
puzzle with palette `V` and node set `N`: declared palette `V`,
well-formed graph, all colors within the palette, nodes within `N`, and
the state is an image of `collapse()` (so collapsing it again changes
nothing). -/
def GoodSt (V : List Nat) (N : Finset Nat) (sp : SolvablePuzzle) : Prop :=
  sp.validColors = V ∧ PuzzleWF sp.toPuzzle ∧
    (∀ x ∈ sp.toPuzzle.nodes, sp.toPuzzle.color x ∈ V) ∧
    sp.toPuzzle.nodes.toFinset ⊆ N ∧
    ∃ p0 : Puzzle, PuzzleWF p0 ∧ sp.toPuzzle = p0.collapseAll

/-- `g`'s isomorphism class is on file in the tracker under identity `s`:
the bucket of `g`'s quick hash holds, at the position `s` encodes, a
representative isomorphic to `g`, and holds no earlier one. -/
def Reg (t : HashTracker) (g : IsoGraph) (s : Str) : Prop :=
  ∃ bucket, alookup t (wlHashModel g) = some bucket ∧
    ∃ i h, bucket.get? i = some h ∧ GIso g h ∧
      (∀ j h', j < i → bucket.get? j = some h' → ¬GIso g h') ∧
      s = mergeHash (wlHashModel g) i

/-- An upper bound on the number of pairwise non-isomorphic search states
reachable from `sp`: a state is determined by its node set (a subset of
`sp`'s nodes), its undirected edge set, and its node-to-color assignment
into the palette. -/
def stateBound (sp : SolvablePuzzle) : Nat :=
  ((nodeFinset sp.toPuzzle).powerset ×ˢ
    (((nodeFinset sp.toPuzzle) ×ˢ (nodeFinset sp.toPuzzle)).powerset ×ˢ
      ((nodeFinset sp.toPuzzle) ×ˢ sp.validColors.toFinset).powerset)).card

/-- The data determining a search state up to `PalIso`-irrelevant detail:
node set, undirected edge set, and color assignment. -/
def stateAbs (sp : SolvablePuzzle) :
    Finset Nat × Finset (Nat × Nat) × Finset (Nat × Nat) :=
  (nodeFinset sp.toPuzzle, edgeFinset sp.toPuzzle,
    (sp.toPuzzle.nodes.map fun v => (v, sp.toPuzzle.color v)).toFinset)

/-- The invariant of the instantiated BFS loop state (`bfs_solve`'s
`while queue` loop with the stateful tracker-based namer): the tracker is
well-formed, table keys are unique identities, the queue is covered by the
table, each entry is a reachable good non-goal state registered in the
tracker under its key, a dequeued entry has all its children non-goal and
represented (up to canonical-graph isomorphism) by entries at most one
step longer, the queued path lengths are non-decreasing, and every
recorded path is at most one longer than the front of the queue. -/
structure PzBfsInv (V : List Nat) (N : Finset Nat)
    (start : SolvablePuzzle) (t : HashTracker)
    (tbl : List (Str × SolvablePuzzle × List Move)) (q : List Str) :
    Prop where
  twf : TrackerWF t
  keys_nodup : (tbl.map Prod.fst).Nodup
  covered : ∀ n ∈ q, n ∈ tbl.map Prod.fst
  entries : ∀ e ∈ tbl, GoodSt V N e.2.1 ∧
    Reg t (canonOf e.2.1.toPuzzle) e.1 ∧ ValidMoveSeq start e.2.2 ∧
    applyMoves start e.2.2 = e.2.1 ∧ e.2.1.isSolved = false
  expanded : ∀ e ∈ tbl, e.1 ∉ q → ∀ m ∈ getValidMoves e.2.1,
    (searchFollower e.2.1 m).isSolved = false ∧
    ∃ e2 ∈ tbl, GIso (canonOf (searchFollower e.2.1 m).toPuzzle)
      (canonOf e2.2.1.toPuzzle) ∧ e2.2.2.length ≤ e.2.2.length + 1
  sorted : List.Chain' (fun a b => a ≤ b) (q.map (bfsLenOf tbl))
  bounded : ∀ e ∈ tbl, ∀ h, q.head? = some h →
    e.2.2.length ≤ bfsLenOf tbl h + 1

/-!
# Theorems
-/

/-! ## Ground lemmas about the puzzle model -/

theorem mem_neighbors {p : Puzzle} {v u : Nat} :
    u ∈ p.neighbors v ↔ p.Adj v u := by
  unfold Puzzle.neighbors Puzzle.Adj
  simp only [List.mem_filterMap]
  constructor
  · rintro ⟨⟨a, b⟩, hab, he⟩
    split at he
    · next h1 =>
      simp only [Option.some.injEq] at he
      subst he; subst h1; exact Or.inl hab
    · split at he
      · next _ h2 =>
        simp only [Option.some.injEq] at he
        subst he; subst h2; exact Or.inr hab
      · simp at he
  · rintro (h | h)
    · exact ⟨(v, u), h, by simp⟩
    · refine ⟨(u, v), h, ?_⟩
      by_cases h1 : u = v
      · subst h1; simp
      · simp [h1]

theorem adj_comm {p : Puzzle} {u v : Nat} : p.Adj u v ↔ p.Adj v u := by
  unfold Puzzle.Adj; tauto

/-- Membership in `get_same_color_neighbors`. -/
theorem mem_sameColorNeighbors {p : Puzzle} {v u : Nat} :
    u ∈ p.sameColorNeighbors v ↔
      u ∈ p.neighbors v ∧ p.color u = p.color v := by
  simp [Puzzle.sameColorNeighbors]

theorem adj_mem_nodes {p : Puzzle} (hwf : PuzzleWF p) {u v : Nat}
    (h : p.Adj u v) : u ∈ p.nodes ∧ v ∈ p.nodes := by
  rcases h with h | h
  · exact hwf.2.2.1 _ h
  · exact ⟨(hwf.2.2.1 _ h).2, (hwf.2.2.1 _ h).1⟩

theorem mstep_symm {p : Puzzle} {col a b : Nat} (h : MStep p col a b) :
    MStep p col b a :=
  ⟨adj_comm.mp h.1, h.2.2, h.2.1⟩

theorem monoReach_symm {p : Puzzle} {col a b : Nat}
    (h : MonoReach p col a b) : MonoReach p col b a := by
  induction h with
  | refl => exact Relation.ReflTransGen.refl
  | tail _ hstep ih =>
    exact Relation.ReflTransGen.head (mstep_symm hstep) ih

theorem monoReach_color {p : Puzzle} {col a b : Nat}
    (h : MonoReach p col a b) (ha : p.color a = col) : p.color b = col := by
  induction h with
  | refl => exact ha
  | tail _ hstep _ => exact hstep.2.2

theorem monoEquiv_refl {p : Puzzle} (x : Nat) : MonoEquiv p x x :=
  ⟨rfl, Relation.ReflTransGen.refl⟩

theorem monoEquiv_symm {p : Puzzle} {x y : Nat} (h : MonoEquiv p x y) :
    MonoEquiv p y x := by
  refine ⟨h.1.symm, ?_⟩
  have h2 : MonoReach p (p.color x) y x := monoReach_symm h.2
  rw [h.1] at h2
  exact h2

theorem monoEquiv_trans {p : Puzzle} {x y z : Nat} (h1 : MonoEquiv p x y)
    (h2 : MonoEquiv p y z) : MonoEquiv p x z := by
  refine ⟨h1.1.trans h2.1, ?_⟩
  have hr2 : MonoReach p (p.color x) y z := by rw [h1.1]; exact h2.2
  exact h1.2.trans hr2

/-- A node from which no same-color step leaves is alone in its region. -/
theorem monoEquiv_eq_of_frozen {p : Puzzle} {u x : Nat}
    (hfr : ∀ b, ¬MStep p (p.color u) u b) (h : MonoEquiv p u x) : x = u := by
  rcases Relation.ReflTransGen.cases_head h.2 with rfl | ⟨b, hstep, _⟩
  · rfl
  · exact absurd hstep (hfr b)

/-! ## The component traversal: termination and characterization -/

theorem length_neighbors_le {p : Puzzle} (v : Nat) :
    (p.neighbors v).length ≤ p.edges.length := by
  unfold Puzzle.neighbors
  exact List.length_filterMap_le _ _

theorem nodup_subset_length {l l' : List Nat} (hnd : l.Nodup)
    (hsub : ∀ x ∈ l, x ∈ l') : l.length ≤ l'.length := by
  classical
  calc l.length = l.toFinset.card := (List.toFinset_card_of_nodup hnd).symm
    _ ≤ l'.toFinset.card := by
        apply Finset.card_le_card
        intro x hx
        simp only [List.mem_toFinset] at hx ⊢
        exact hsub x hx
    _ ≤ l'.length := List.toFinset_card_le l'

/-- Fuel sufficiency for the `_component` traversal: the stack machine
always reaches the empty stack within `compFuel`, on cyclic graphs
included. -/
theorem compLoop_sufficient (p : Puzzle) (col : Nat) (hwf : PuzzleWF p) :
    ∀ fuel stack comp,
      comp.Nodup → (∀ x ∈ comp, x ∈ p.nodes ∧ p.color x = col) →
      (∀ s ∈ stack, s ∈ p.nodes) →
      stack.length + (p.nodes.length - comp.length) * (p.edges.length + 1)
        < fuel →
      (compLoop p col fuel stack comp).isSome := by
  intro fuel
  induction fuel with
  | zero => intro stack comp _ _ _ hlt; omega
  | succ fuel ih =>
    intro stack comp hnd hcomp hstack hlt
    match stack with
    | [] => simp [compLoop]
    | cur :: rest =>
      by_cases hmem : cur ∈ comp
      · rw [compLoop, if_pos hmem]
        apply ih rest comp hnd hcomp (fun s hs => hstack s (by simp [hs]))
        simp only [List.length_cons] at hlt
        omega
      · by_cases hcol : p.color cur = col
        · rw [compLoop, if_neg hmem, if_neg (by simp [hcol])]
          have hcur : cur ∈ p.nodes := hstack cur (by simp)
          apply ih _ (cur :: comp) (List.nodup_cons.mpr ⟨hmem, hnd⟩)
          · intro x hx
            rcases List.mem_cons.mp hx with rfl | hx
            · exact ⟨hcur, hcol⟩
            · exact hcomp x hx
          · intro s hs
            rcases List.mem_append.mp hs with hs | hs
            · have := List.mem_reverse.mp hs
              rcases (mem_neighbors.mp this) with h | h
              · exact (hwf.2.2.1 _ h).2
              · exact (hwf.2.2.1 _ h).1
            · exact hstack s (by simp [hs])
          · have hlen : ((p.neighbors cur).reverse ++ rest).length ≤
                p.edges.length + rest.length := by
              simp only [List.length_append, List.length_reverse]
              have := length_neighbors_le (p := p) cur
              omega
            have hcomplen : comp.length + 1 ≤ p.nodes.length := by
              have : (cur :: comp).length ≤ p.nodes.length := by
                apply nodup_subset_length (List.nodup_cons.mpr ⟨hmem, hnd⟩)
                intro x hx
                rcases List.mem_cons.mp hx with rfl | hx
                · exact hcur
                · exact (hcomp x hx).1
              simpa using this
            simp only [List.length_cons] at hlt
            have hexp : (p.nodes.length - comp.length) * (p.edges.length + 1)
                = (p.nodes.length - (comp.length + 1)) * (p.edges.length + 1)
                  + (p.edges.length + 1) := by
              have h1 : p.nodes.length - comp.length
                  = (p.nodes.length - (comp.length + 1)) + 1 := by omega
              rw [h1, Nat.add_mul, Nat.one_mul]
            simp only [List.length_cons]
            omega
        · rw [compLoop, if_neg hmem, if_pos (by simp [hcol])]
          apply ih rest comp hnd hcomp (fun s hs => hstack s (by simp [hs]))
          simp only [List.length_cons] at hlt
          omega

/-- A region closed under same-color steps and containing `start`
contains everything monochromatically reachable from `start`. -/
theorem closed_contains_reach {p : Puzzle} {col start : Nat}
    {comp : List Nat}
    (hstart : start ∈ comp)
    (hclosed : ∀ c ∈ comp, ∀ nb, p.Adj c nb → p.color nb = col → nb ∈ comp) :
    ∀ x, MonoReach p col start x → x ∈ comp := by
  intro x hx
  induction hx with
  | refl => exact hstart
  | tail _ hstep ih => exact hclosed _ ih _ hstep.1 hstep.2.2

/-- Invariant-based characterization of the `_component` traversal: when
it terminates, it has computed exactly the same-colored connected region
of the start node. -/
theorem compLoop_char (p : Puzzle) (col start : Nat) (hwf : PuzzleWF p)
    (hstartcol : p.color start = col) :
    ∀ fuel stack comp res,
      compLoop p col fuel stack comp = some res →
      comp.Nodup →
      (∀ x ∈ comp, x ∈ p.nodes ∧ p.color x = col ∧ MonoReach p col start x) →
      (∀ s ∈ stack, s ∈ p.nodes ∧
        (p.color s = col → MonoReach p col start s)) →
      (∀ c ∈ comp, ∀ nb, p.Adj c nb → p.color nb = col →
        nb ∈ comp ∨ nb ∈ stack) →
      (start ∈ comp ∨ start ∈ stack) →
      res.Nodup ∧
        (∀ x, x ∈ res ↔ x ∈ p.nodes ∧ p.color x = col ∧
          MonoReach p col start x) := by
  intro fuel
  induction fuel with
  | zero =>
    intro stack comp res hres
    match stack with
    | [] =>
      simp only [compLoop, List.isEmpty_nil, if_true, Option.some.injEq]
        at hres
      subst hres
      intro hnd hcomp _ hclosed hstart
      refine ⟨hnd, fun x => ⟨fun hx => hcomp x hx, fun ⟨_, hcol, hreach⟩ => ?_⟩⟩
      rcases hstart with hstart | hstart
      · exact closed_contains_reach hstart
          (fun c hc nb hadj hncol =>
            (hclosed c hc nb hadj hncol).resolve_right (by simp)) x hreach
      · simp at hstart
    | cur :: rest => simp [compLoop] at hres
  | succ fuel ih =>
    intro stack comp res hres hnd hcomp hstack hclosed hstart
    match stack with
    | [] =>
      simp only [compLoop, Option.some.injEq] at hres
      subst hres
      refine ⟨hnd, fun x => ⟨fun hx => hcomp x hx, fun ⟨_, hcol, hreach⟩ => ?_⟩⟩
      rcases hstart with hstart | hstart
      · exact closed_contains_reach hstart
          (fun c hc nb hadj hncol =>
            (hclosed c hc nb hadj hncol).resolve_right (by simp)) x hreach
      · simp at hstart
    | cur :: rest =>
      by_cases hmem : cur ∈ comp
      · rw [compLoop, if_pos hmem] at hres
        refine ih rest comp res hres hnd hcomp
          (fun s hs => hstack s (by simp [hs])) ?_ ?_
        · intro c hc nb hadj hncol
          rcases hclosed c hc nb hadj hncol with h | h
          · exact Or.inl h
          · rcases List.mem_cons.mp h with rfl | h
            · exact Or.inl hmem
            · exact Or.inr h
        · rcases hstart with h | h
          · exact Or.inl h
          · rcases List.mem_cons.mp h with rfl | h
            · exact Or.inl hmem
            · exact Or.inr h
      · by_cases hcol : p.color cur = col
        · rw [compLoop, if_neg hmem, if_neg (by simp [hcol])] at hres
          have hcur : cur ∈ p.nodes := (hstack cur (by simp)).1
          have hreach : MonoReach p col start cur :=
            (hstack cur (by simp)).2 hcol
          refine ih _ (cur :: comp) res hres
            (List.nodup_cons.mpr ⟨hmem, hnd⟩) ?_ ?_ ?_ ?_
          · intro x hx
            rcases List.mem_cons.mp hx with rfl | hx
            · exact ⟨hcur, hcol, hreach⟩
            · exact hcomp x hx
          · intro s hs
            rcases List.mem_append.mp hs with hs | hs
            · have hnb := List.mem_reverse.mp hs
              have hadj : p.Adj cur s := mem_neighbors.mp hnb
              refine ⟨(adj_mem_nodes hwf hadj).2, fun hscol => ?_⟩
              exact Relation.ReflTransGen.tail hreach ⟨hadj, hcol, hscol⟩
            · exact hstack s (by simp [hs])
          · intro c hc nb hadj hncol
            rcases List.mem_cons.mp hc with rfl | hc
            · refine Or.inr (List.mem_append.mpr (Or.inl ?_))
              exact List.mem_reverse.mpr (mem_neighbors.mpr hadj)
            · rcases hclosed c hc nb hadj hncol with h | h
              · exact Or.inl (by simp [h])
              · rcases List.mem_cons.mp h with rfl | h
                · exact Or.inl (by simp)
                · exact Or.inr (by simp [h])
          · rcases hstart with h | h
            · exact Or.inl (by simp [h])
            · rcases List.mem_cons.mp h with rfl | h
              · exact Or.inl (by simp)
              · exact Or.inr (by simp [h])
        · rw [compLoop, if_neg hmem, if_pos (by simp [hcol])] at hres
          refine ih rest comp res hres hnd hcomp
            (fun s hs => hstack s (by simp [hs])) ?_ ?_
          · intro c hc nb hadj hncol
            rcases hclosed c hc nb hadj hncol with h | h
            · exact Or.inl h
            · rcases List.mem_cons.mp h with rfl | h
              · exact absurd hncol hcol
              · exact Or.inr h
          · rcases hstart with h | h
            · exact Or.inl h
            · rcases List.mem_cons.mp h with rfl | h
              · exact absurd hstartcol hcol
              · exact Or.inr h

theorem monoEquiv_mem_nodes {p : Puzzle} (hwf : PuzzleWF p) {v x : Nat}
    (hv : v ∈ p.nodes) (h : MonoEquiv p v x) : x ∈ p.nodes := by
  rcases Relation.ReflTransGen.cases_tail h.2 with heq | ⟨c, _, hstep⟩
  · rw [heq]; exact hv
  · exact (adj_mem_nodes hwf hstep.1).2

/-- The traversal of `_component(v)` terminates and returns exactly the
maximal same-colored connected region of `v`. -/
theorem component_spec (p : Puzzle) (hwf : PuzzleWF p) (v : Nat)
    (hv : v ∈ p.nodes) :
    (compLoop p (p.color v) (compFuel p) [v] []).isSome ∧
      (p.component v).Nodup ∧
      ∀ x, x ∈ p.component v ↔ MonoEquiv p v x := by
  have hstackinv : ∀ s ∈ [v], s ∈ p.nodes := by
    intro s hs
    rcases List.mem_singleton.mp hs with rfl
    exact hv
  have hsuf := compLoop_sufficient p (p.color v) hwf (compFuel p) [v] []
    List.nodup_nil (by simp) hstackinv
    (by unfold compFuel; simp; omega)
  obtain ⟨res, hres⟩ := Option.isSome_iff_exists.mp hsuf
  have hchar := compLoop_char p (p.color v) v hwf rfl (compFuel p) [v] [] res
    hres List.nodup_nil (by simp)
    (by
      intro s hs
      rcases List.mem_singleton.mp hs with rfl
      exact ⟨hv, fun _ => Relation.ReflTransGen.refl⟩)
    (by simp)
    (Or.inr (List.mem_singleton.mpr rfl))
  have hcompeq : p.component v = res := by
    unfold Puzzle.component
    rw [hres]
    rfl
  refine ⟨hsuf, hcompeq ▸ hchar.1, ?_⟩
  intro x
  rw [hcompeq]
  rw [hchar.2 x]
  constructor
  · rintro ⟨_, hcol, hreach⟩
    exact ⟨hcol.symm, hreach⟩
  · rintro ⟨hcol, hreach⟩
    exact ⟨monoEquiv_mem_nodes hwf hv ⟨hcol, hreach⟩, hcol.symm, hreach⟩

theorem self_mem_component {p : Puzzle} (hwf : PuzzleWF p) {v : Nat}
    (hv : v ∈ p.nodes) : v ∈ p.component v :=
  ((component_spec p hwf v hv).2.2 v).mpr (monoEquiv_refl v)

theorem mem_component_iff {p : Puzzle} (hwf : PuzzleWF p) {v : Nat}
    (hv : v ∈ p.nodes) {x : Nat} :
    x ∈ p.component v ↔ MonoEquiv p v x :=
  (component_spec p hwf v hv).2.2 x

theorem component_mem_nodes {p : Puzzle} (hwf : PuzzleWF p) {v : Nat}
    (hv : v ∈ p.nodes) {x : Nat} (hx : x ∈ p.component v) : x ∈ p.nodes :=
  monoEquiv_mem_nodes hwf hv ((mem_component_iff hwf hv).mp hx)

theorem component_color {p : Puzzle} (hwf : PuzzleWF p) {v : Nat}
    (hv : v ∈ p.nodes) {x : Nat} (hx : x ∈ p.component v) :
    p.color x = p.color v :=
  ((mem_component_iff hwf hv).mp hx).1.symm

/-- Two nodes of a common region have the same region. -/
theorem component_eq_of_equiv {p : Puzzle} (hwf : PuzzleWF p) {v w : Nat}
    (hv : v ∈ p.nodes) (heq : MonoEquiv p v w) :
    ∀ x, x ∈ p.component v ↔ x ∈ p.component w := by
  have hw : w ∈ p.nodes := monoEquiv_mem_nodes hwf hv heq
  intro x
  rw [mem_component_iff hwf hv, mem_component_iff hwf hw]
  constructor
  · intro h
    exact monoEquiv_trans (monoEquiv_symm heq) h
  · intro h
    exact monoEquiv_trans heq h

/-! ## The per-component collapse step -/

theorem comp_closed {p : Puzzle} (hwf : PuzzleWF p) {v : Nat}
    (hv : v ∈ p.nodes) {x b : Nat} (hx : x ∈ p.component v)
    (hadj : p.Adj x b) (hb : p.color b = p.color v) : b ∈ p.component v := by
  have hxe := (mem_component_iff hwf hv).mp hx
  refine (mem_component_iff hwf hv).mpr ⟨hb.symm, ?_⟩
  exact Relation.ReflTransGen.tail hxe.2 ⟨hadj, hxe.1.symm, hb⟩

theorem cs_nodes_def (p : Puzzle) (v : Nat) (comp : List Nat) :
    (collapseStep p v comp).nodes =
      (p.nodes.filter fun x => x ∉ comp) ++ [v] := rfl

theorem cs_edges_def (p : Puzzle) (v : Nat) (comp : List Nat) :
    (collapseStep p v comp).edges =
      (p.edges.filter fun e => e.1 ∉ comp ∧ e.2 ∉ comp) ++
        (((comp.flatMap fun n => p.neighbors n).filter
          fun nb => nb ∉ comp).dedup).map fun nb => (v, nb) := rfl

theorem cs_color {p : Puzzle} {v : Nat} {comp : List Nat} :
    (collapseStep p v comp).color = p.color := rfl

theorem cs_nodes_mem {p : Puzzle} {v : Nat} {comp : List Nat} {x : Nat} :
    x ∈ (collapseStep p v comp).nodes ↔
      (x ∈ p.nodes ∧ x ∉ comp) ∨ x = v := by
  rw [cs_nodes_def, List.mem_append, List.mem_filter, List.mem_singleton]
  simp

/-- Membership of `new_neighbors` in `_collapse`: an outside node adjacent
to some component member. -/
theorem cs_newNbrs_mem {p : Puzzle} {comp : List Nat} {nb : Nat} :
    (nb ∈ ((comp.flatMap fun n => p.neighbors n).filter
        fun nb => nb ∉ comp).dedup) ↔
      nb ∉ comp ∧ ∃ c ∈ comp, p.Adj c nb := by
  rw [List.mem_dedup, List.mem_filter]
  simp only [List.mem_flatMap, decide_not, Bool.not_eq_eq_eq_not,
    Bool.not_true, decide_eq_false_iff_not]
  constructor
  · rintro ⟨⟨c, hc, hnb⟩, hout⟩
    exact ⟨hout, c, hc, mem_neighbors.mp hnb⟩
  · rintro ⟨hout, c, hc, hadj⟩
    exact ⟨⟨c, hc, mem_neighbors.mpr hadj⟩, hout⟩

theorem cs_edges_mem {p : Puzzle} {v : Nat} {comp : List Nat} {x y : Nat} :
    ((x, y) ∈ (collapseStep p v comp).edges) ↔
      ((x, y) ∈ p.edges ∧ x ∉ comp ∧ y ∉ comp) ∨
      (x = v ∧ y ∉ comp ∧ ∃ c ∈ comp, p.Adj c y) := by
  rw [cs_edges_def, List.mem_append, List.mem_filter, List.mem_map]
  constructor
  · rintro (⟨he, hf⟩ | ⟨nb, hnb, heq⟩)
    · simp only [decide_eq_true_eq] at hf
      exact Or.inl ⟨he, hf⟩
    · injection heq with h1 h2
      subst h1; subst h2
      exact Or.inr ⟨rfl, cs_newNbrs_mem.mp hnb⟩
  · rintro (⟨he, h1, h2⟩ | ⟨heq, hnb⟩)
    · exact Or.inl ⟨he, by simp [h1, h2]⟩
    · subst heq
      refine Or.inr ⟨y, ?_, rfl⟩
      exact cs_newNbrs_mem.mpr hnb

theorem cs_adj_iff {p : Puzzle} {v : Nat} {comp : List Nat} {a b : Nat} :
    (collapseStep p v comp).Adj a b ↔
      (a ∉ comp ∧ b ∉ comp ∧ p.Adj a b) ∨
      (a = v ∧ b ∉ comp ∧ ∃ c ∈ comp, p.Adj c b) ∨
      (b = v ∧ a ∉ comp ∧ ∃ c ∈ comp, p.Adj c a) := by
  show ((a, b) ∈ (collapseStep p v comp).edges ∨
      (b, a) ∈ (collapseStep p v comp).edges) ↔ _
  constructor
  · rintro (h | h)
    · rcases cs_edges_mem.mp h with ⟨he, h1, h2⟩ | ⟨rfl, hout, hc⟩
      · exact Or.inl ⟨h1, h2, Or.inl he⟩
      · exact Or.inr (Or.inl ⟨rfl, hout, hc⟩)
    · rcases cs_edges_mem.mp h with ⟨he, h1, h2⟩ | ⟨rfl, hout, hc⟩
      · exact Or.inl ⟨h2, h1, Or.inr he⟩
      · exact Or.inr (Or.inr ⟨rfl, hout, hc⟩)
  · rintro (⟨h1, h2, he | he⟩ | ⟨rfl, hout, hc⟩ | ⟨rfl, hout, hc⟩)
    · exact Or.inl (cs_edges_mem.mpr (Or.inl ⟨he, h1, h2⟩))
    · exact Or.inr (cs_edges_mem.mpr (Or.inl ⟨he, h2, h1⟩))
    · exact Or.inl (cs_edges_mem.mpr (Or.inr ⟨rfl, hout, hc⟩))
    · exact Or.inr (cs_edges_mem.mpr (Or.inr ⟨rfl, hout, hc⟩))

theorem cs_wf {p : Puzzle} (hwf : PuzzleWF p) {v : Nat}
    (hv : v ∈ p.nodes) (hvc : v ∈ p.component v) :
    PuzzleWF (collapseStep p v (p.component v)) := by
  classical
  refine ⟨?_, ?_, ?_, ?_⟩
  · rw [cs_nodes_def, List.nodup_append]
    refine ⟨hwf.1.filter _, List.nodup_singleton v, ?_⟩
    intro a ha hb
    rcases List.mem_singleton.mp hb with rfl
    have h2 := (List.mem_filter.mp ha).2
    simp only [decide_not, Bool.not_eq_eq_eq_not, Bool.not_true,
      decide_eq_false_iff_not] at h2
    exact h2 hvc
  · rw [cs_edges_def, List.nodup_append]
    refine ⟨hwf.2.1.filter _, ?_, ?_⟩
    · refine List.Nodup.map ?_ (List.nodup_dedup _)
      intro x y hxy
      simpa using hxy
    · intro e he hmem
      rcases List.mem_map.mp hmem with ⟨nb, hnb, heq⟩
      have h2 := (List.mem_filter.mp he).2
      simp only [decide_eq_true_eq] at h2
      subst heq
      exact h2.1 hvc
  · intro e he
    obtain ⟨x, y⟩ := e
    rcases cs_edges_mem.mp he with ⟨h1, h2, h3⟩ | ⟨rfl, hout, c, hc, hadj⟩
    · exact ⟨cs_nodes_mem.mpr (Or.inl ⟨(hwf.2.2.1 _ h1).1, h2⟩),
        cs_nodes_mem.mpr (Or.inl ⟨(hwf.2.2.1 _ h1).2, h3⟩)⟩
    · exact ⟨cs_nodes_mem.mpr (Or.inr rfl),
        cs_nodes_mem.mpr (Or.inl ⟨(adj_mem_nodes hwf hadj).2, hout⟩)⟩
  · intro e he hne hrev
    obtain ⟨x, y⟩ := e
    simp only at hne
    rcases cs_edges_mem.mp he with ⟨h1, h2, h3⟩ | ⟨rfl, hout, c, hc, hadj⟩
    · rcases cs_edges_mem.mp hrev with ⟨g1, g2, g3⟩ | ⟨g1, g2, g3⟩
      · exact hwf.2.2.2 _ h1 hne g1
      · have g1' : y = v := g1
        exact h3 (by rw [g1']; exact hvc)
    · rcases cs_edges_mem.mp hrev with ⟨g1, g2, g3⟩ | ⟨g1, g2, g3⟩
      · exact g3 hvc
      · have g1' : y = x := g1
        exact hout (by rw [g1']; exact hvc)

/-- A new edge of the collapse step joins different colors: an outside
neighbor of the component cannot carry the component's color. -/
theorem cs_newNbr_color {p : Puzzle} (hwf : PuzzleWF p) {v : Nat}
    (hv : v ∈ p.nodes) {nb : Nat} (hout : nb ∉ p.component v)
    {c : Nat} (hc : c ∈ p.component v) (hadj : p.Adj c nb) :
    p.color nb ≠ p.color v := by
  intro hcol
  exact hout (comp_closed hwf hv hc hadj hcol)

/-- No same-color step leaves the representative after its component is
collapsed. -/
theorem cs_frozen {p : Puzzle} (hwf : PuzzleWF p) {v : Nat}
    (hv : v ∈ p.nodes) :
    ∀ col b, ¬MStep (collapseStep p v (p.component v)) col v b := by
  intro col b hstep
  obtain ⟨hadj, hcv, hcb⟩ := hstep
  rw [cs_color] at hcv hcb
  have hvc : v ∈ p.component v := self_mem_component hwf hv
  rcases cs_adj_iff.mp hadj with ⟨h1, _, _⟩ | ⟨_, hout, c, hc, hadjc⟩ |
      ⟨hbv, hout, _, _, _⟩
  · exact h1 hvc
  · exact cs_newNbr_color hwf hv hout hc hadjc (hcb.trans hcv.symm)
  · exact hout (hbv ▸ hvc)

/-- Steps between surviving outside nodes are untouched by the collapse
step. -/
theorem cs_step_iff {p : Puzzle} (hwf : PuzzleWF p) {v : Nat}
    (hv : v ∈ p.nodes) {col a b : Nat} (ha : a ∉ p.component v)
    (hb : b ∉ p.component v) :
    MStep (collapseStep p v (p.component v)) col a b ↔ MStep p col a b := by
  have hvc : v ∈ p.component v := self_mem_component hwf hv
  constructor
  · rintro ⟨hadj, h1, h2⟩
    rw [cs_color] at h1 h2
    rcases cs_adj_iff.mp hadj with ⟨_, _, hpa⟩ | ⟨rfl, _, _⟩ | ⟨rfl, _, _⟩
    · exact ⟨hpa, h1, h2⟩
    · exact absurd hvc ha
    · exact absurd hvc hb
  · rintro ⟨hadj, h1, h2⟩
    exact ⟨cs_adj_iff.mpr (Or.inl ⟨ha, hb, hadj⟩), h1, h2⟩

/-- A monochromatic chain of the original puzzle starting outside the
collapsed component stays outside it and survives the collapse step. -/
theorem cs_reach_fwd {p : Puzzle} (hwf : PuzzleWF p) {v : Nat}
    (hv : v ∈ p.nodes) {x y : Nat}
    (hx : x ∉ p.component v)
    (hreach : MonoReach p (p.color x) x y) :
    MonoReach (collapseStep p v (p.component v)) (p.color x) x y ∧
      y ∉ p.component v := by
  induction hreach with
  | refl => exact ⟨Relation.ReflTransGen.refl, hx⟩
  | @tail b c hab hstep ih =>
    obtain ⟨ihr, ihb⟩ := ih
    have hc_out : c ∉ p.component v := by
      intro hcin
      have hxc : MonoEquiv p x c :=
        ⟨hstep.2.2.symm, Relation.ReflTransGen.tail hab hstep⟩
      have hvc : MonoEquiv p v c := (mem_component_iff hwf hv).mp hcin
      exact hx ((mem_component_iff hwf hv).mpr
        (monoEquiv_trans hvc (monoEquiv_symm hxc)))
    exact ⟨Relation.ReflTransGen.tail ihr
      ((cs_step_iff hwf hv ihb hc_out).mpr hstep), hc_out⟩

/-- A monochromatic chain of the collapsed puzzle starting outside the
collapsed component never meets the representative and lifts back. -/
theorem cs_reach_bwd {p : Puzzle} (hwf : PuzzleWF p) {v : Nat}
    (hv : v ∈ p.nodes) {x y : Nat}
    (hx : x ∉ p.component v)
    (hreach : MonoReach (collapseStep p v (p.component v)) (p.color x) x y) :
    MonoReach p (p.color x) x y ∧ y ∉ p.component v := by
  induction hreach with
  | refl => exact ⟨Relation.ReflTransGen.refl, hx⟩
  | @tail b c hab hstep ih =>
    obtain ⟨ihr, ihb⟩ := ih
    have hcv : c ≠ v := by
      intro hceq
      subst hceq
      exact cs_frozen hwf hv (p.color x) b (mstep_symm hstep)
    have hcn : c ∈ (collapseStep p v (p.component v)).nodes :=
      (adj_mem_nodes (cs_wf hwf hv (self_mem_component hwf hv)) hstep.1).2
    have hc_out : c ∉ p.component v := by
      rcases cs_nodes_mem.mp hcn with ⟨_, h⟩ | h
      · exact h
      · exact absurd h hcv
    exact ⟨Relation.ReflTransGen.tail ihr
      ((cs_step_iff hwf hv ihb hc_out).mp hstep), hc_out⟩

/-- Same-region relation among surviving outside nodes is unchanged by the
collapse step. -/
theorem cs_monoequiv {p : Puzzle} (hwf : PuzzleWF p) {v : Nat}
    (hv : v ∈ p.nodes) {x y : Nat} (hx : x ∉ p.component v) :
    MonoEquiv (collapseStep p v (p.component v)) x y ↔ MonoEquiv p x y := by
  constructor
  · rintro ⟨hc, hr⟩
    exact ⟨hc, (cs_reach_bwd hwf hv hx hr).1⟩
  · rintro ⟨hc, hr⟩
    exact ⟨hc, (cs_reach_fwd hwf hv hx hr).1⟩

/-! ## Full collapse: the iteration over all components -/

theorem collapseAllGo_skip {p : Puzzle} {t : Nat} {rest visited : List Nat}
    (h : t ∈ visited ∨ t ∉ p.nodes) :
    collapseAllGo p (t :: rest) visited = collapseAllGo p rest visited := by
  rw [collapseAllGo, if_pos h]

theorem collapseAllGo_process {p : Puzzle} {t : Nat}
    {rest visited : List Nat} (h : ¬(t ∈ visited ∨ t ∉ p.nodes)) :
    collapseAllGo p (t :: rest) visited =
      collapseAllGo (collapseStep p t (p.component t)) rest
        (visited ++ p.component t) := by
  rw [collapseAllGo, if_neg h]

/-- The master induction behind collapse correctness: processing the
remaining work list turns the puzzle into a well-formed quotient, one
survivor per original same-colored region, while keeping every already
finished representative. -/
theorem collapseAllGo_spec :
    ∀ (todo : List Nat) (p : Puzzle) (visited : List Nat),
      PuzzleWF p →
      (∀ x ∈ p.nodes, x ∈ visited ∨ x ∈ todo) →
      (∀ u ∈ visited, u ∈ p.nodes → ∀ b, ¬MStep p (p.color u) u b) →
      (∀ u ∈ visited, u ∈ p.nodes →
        u ∈ (collapseAllGo p todo visited).nodes) ∧
        CollapseSpec p (collapseAllGo p todo visited) := by
  intro todo
  induction todo with
  | nil =>
    intro p visited hwf htodo hfrozen
    constructor
    · intro u _ hu
      exact hu
    · have hfr : ∀ u ∈ p.nodes, ∀ b, ¬MStep p (p.color u) u b := by
        intro u hu
        rcases htodo u hu with h | h
        · exact hfrozen u h hu
        · simp at h
      refine ⟨hwf, rfl, fun x hx => hx, ?_, ?_, ?_, ?_⟩
      · intro u v hadj heq
        exact hfr u (adj_mem_nodes hwf hadj).1 v ⟨hadj, rfl, heq.symm⟩
      · intro x hx
        exact ⟨x, hx, monoEquiv_refl x⟩
      · intro r hr s _ heq
        exact (monoEquiv_eq_of_frozen (hfr r hr) heq).symm
      · intro r hr s hs
        constructor
        · intro hadj
          refine ⟨?_, r, s, monoEquiv_refl r, monoEquiv_refl s, hadj⟩
          intro heq
          have hrs := monoEquiv_eq_of_frozen (hfr r hr) heq
          rw [hrs] at hadj
          exact hfr r hr r ⟨hadj, rfl, rfl⟩
        · rintro ⟨hne, x, y, hrx, hsy, hadj⟩
          have hx := monoEquiv_eq_of_frozen (hfr r hr) hrx
          have hy := monoEquiv_eq_of_frozen (hfr s hs) hsy
          rw [hx, hy] at hadj
          exact hadj
  | cons t rest ih =>
    intro p visited hwf htodo hfrozen
    by_cases hskip : t ∈ visited ∨ t ∉ p.nodes
    · rw [collapseAllGo_skip hskip]
      apply ih p visited hwf ?_ hfrozen
      intro x hx
      rcases htodo x hx with h | h
      · exact Or.inl h
      · rcases List.mem_cons.mp h with rfl | h
        · rcases hskip with h' | h'
          · exact Or.inl h'
          · exact absurd hx h'
        · exact Or.inr h
    · have htnv : t ∉ visited := fun h => hskip (Or.inl h)
      have ht : t ∈ p.nodes := by
        by_contra h
        exact hskip (Or.inr h)
      rw [collapseAllGo_process hskip]
      have hvc : t ∈ p.component t := self_mem_component hwf ht
      have hcompmem : ∀ x, x ∈ p.component t ↔ MonoEquiv p t x :=
        fun x => mem_component_iff hwf ht
      have hwf' : PuzzleWF (collapseStep p t (p.component t)) :=
        cs_wf hwf ht hvc
      have htodo' : ∀ x ∈ (collapseStep p t (p.component t)).nodes,
          x ∈ visited ++ p.component t ∨ x ∈ rest := by
        intro x hx
        rcases cs_nodes_mem.mp hx with ⟨hxp, hxout⟩ | rfl
        · rcases htodo x hxp with h | h
          · exact Or.inl (List.mem_append.mpr (Or.inl h))
          · rcases List.mem_cons.mp h with rfl | h
            · exact absurd hvc hxout
            · exact Or.inr h
        · exact Or.inl (List.mem_append.mpr (Or.inr hvc))
      have hfrozen' : ∀ u ∈ visited ++ p.component t,
          u ∈ (collapseStep p t (p.component t)).nodes →
          ∀ b, ¬MStep (collapseStep p t (p.component t))
            ((collapseStep p t (p.component t)).color u) u b := by
        intro u hu hun b hstep
        rcases cs_nodes_mem.mp hun with ⟨hup, huout⟩ | hut
        · have huv : u ∈ visited := by
            rcases List.mem_append.mp hu with h | h
            · exact h
            · exact absurd h huout
          obtain ⟨hadj, hc1, hc2⟩ := hstep
          rcases cs_adj_iff.mp hadj with ⟨_, hbout, hpub⟩ |
              ⟨hut, _, _⟩ | ⟨hbt, _, c, hc, hadjc⟩
          · exact hfrozen u huv hup b ⟨hpub, rfl, hc2.trans hc1.symm⟩
          · exact huout (by rw [hut]; exact hvc)
          · have hcolc : p.color c = p.color u := by
              have h1 : p.color c = p.color t := component_color hwf ht hc
              have h2 : p.color t = p.color u := by
                rw [← hbt]
                exact hc2.trans hc1.symm
              exact h1.trans h2
            exact hfrozen u huv hup c ⟨adj_comm.mp hadjc, rfl, hcolc⟩
        · rw [hut] at hstep
          exact cs_frozen hwf ht _ b hstep
      obtain ⟨ihkept, ihspec⟩ :=
        ih (collapseStep p t (p.component t)) (visited ++ p.component t)
          hwf' htodo' hfrozen'
      have hteq : t ∈ (collapseAllGo (collapseStep p t (p.component t)) rest
          (visited ++ p.component t)).nodes :=
        ihkept t (List.mem_append.mpr (Or.inr hvc))
          (cs_nodes_mem.mpr (Or.inr rfl))
      have hsingleton' : ∀ x,
          MonoEquiv (collapseStep p t (p.component t)) t x → x = t :=
        fun x hx => monoEquiv_eq_of_frozen (cs_frozen hwf ht _) hx
      have hqcase : ∀ x ∈ (collapseAllGo (collapseStep p t (p.component t))
          rest (visited ++ p.component t)).nodes,
          (x ∈ p.nodes ∧ x ∉ p.component t) ∨ x = t := by
        intro x hx
        exact cs_nodes_mem.mp (ihspec.nodes_sub x hx)
      have hequiv_iff : ∀ r ∈ (collapseAllGo (collapseStep p t
            (p.component t)) rest (visited ++ p.component t)).nodes,
          ∀ s ∈ (collapseAllGo (collapseStep p t (p.component t)) rest
            (visited ++ p.component t)).nodes,
          (MonoEquiv (collapseStep p t (p.component t)) r s ↔
            MonoEquiv p r s) := by
        intro r hr s hs
        rcases hqcase r hr with ⟨hrp, hrout⟩ | hrt
        · rcases hqcase s hs with ⟨hsp, hsout⟩ | hst
          · exact cs_monoequiv hwf ht hrout
          · rw [hst]
            constructor
            · intro h
              have hr_t := hsingleton' r (monoEquiv_symm h)
              exact absurd (by rw [hr_t]; exact hvc) hrout
            · intro h
              have : r ∈ p.component t := (hcompmem r).mpr (monoEquiv_symm h)
              exact absurd this hrout
        · rw [hrt]
          rcases hqcase s hs with ⟨hsp, hsout⟩ | hst
          · constructor
            · intro h
              have hs_t := hsingleton' s h
              exact absurd (by rw [hs_t]; exact hvc) hsout
            · intro h
              exact absurd ((hcompmem s).mpr h) hsout
          · rw [hst]
            constructor
            · intro _; exact monoEquiv_refl t
            · intro _; exact monoEquiv_refl t
      constructor
      · intro u hu hun
        have huout : u ∉ p.component t := by
          intro hc
          have h1 : MonoEquiv p u t := monoEquiv_symm ((hcompmem u).mp hc)
          have h2 := monoEquiv_eq_of_frozen (hfrozen u hu hun) h1
          exact htnv (h2 ▸ hu)
        exact ihkept u (List.mem_append.mpr (Or.inl hu))
          (cs_nodes_mem.mpr (Or.inl ⟨hun, huout⟩))
      · refine ⟨ihspec.wf, ihspec.color_eq.trans cs_color, ?_, ?_, ?_, ?_, ?_⟩
        · intro x hx
          rcases hqcase x hx with ⟨hxp, _⟩ | hxt
          · exact hxp
          · rw [hxt]; exact ht
        · exact ihspec.adj_ne
        · intro x hx
          by_cases hxc : x ∈ p.component t
          · exact ⟨t, hteq, monoEquiv_symm ((hcompmem x).mp hxc)⟩
          · obtain ⟨r, hr, hxr⟩ := ihspec.rep_exists x
              (cs_nodes_mem.mpr (Or.inl ⟨hx, hxc⟩))
            refine ⟨r, hr, ?_⟩
            rcases hqcase r hr with ⟨_, hrout⟩ | hrt
            · exact (cs_monoequiv hwf ht hxc).mp hxr
            · rw [hrt] at hxr
              have hxt := hsingleton' x (monoEquiv_symm hxr)
              exact absurd (by rw [hxt]; exact hvc) hxc
        · intro r hr s hs heq
          exact ihspec.rep_unique r hr s hs ((hequiv_iff r hr s hs).mpr heq)
        · intro r hr s hs
          rw [ihspec.adj_iff r hr s hs]
          constructor
          · rintro ⟨hne, x, y, hrx, hsy, hadj⟩
            refine ⟨fun h => hne ((hequiv_iff r hr s hs).mpr h), ?_⟩
            rcases cs_adj_iff.mp hadj with ⟨hxout, hyout, hpxy⟩ |
                ⟨hxt, hyout, c, hc, hpcy⟩ | ⟨hyt, hxout, c, hc, hpcx⟩
            · have hrout : r ∉ p.component t := by
                rcases hqcase r hr with ⟨_, h⟩ | hrt
                · exact h
                · rw [hrt] at hrx
                  have hxt := hsingleton' x hrx
                  exact absurd (by rw [hxt]; exact hvc) hxout
              have hsout : s ∉ p.component t := by
                rcases hqcase s hs with ⟨_, h⟩ | hst
                · exact h
                · rw [hst] at hsy
                  have hyt := hsingleton' y hsy
                  exact absurd (by rw [hyt]; exact hvc) hyout
              exact ⟨x, y, (cs_monoequiv hwf ht hrout).mp hrx,
                (cs_monoequiv hwf ht hsout).mp hsy, hpxy⟩
            · rw [hxt] at hrx
              have hrt : r = t := by
                rcases hqcase r hr with ⟨_, hrout⟩ | h
                · have hr_t := hsingleton' r (monoEquiv_symm hrx)
                  exact absurd (by rw [hr_t]; exact hvc) hrout
                · exact h
              have hsout : s ∉ p.component t := by
                rcases hqcase s hs with ⟨_, h⟩ | hst
                · exact h
                · rw [hst] at hsy
                  have hyt := hsingleton' y hsy
                  exact absurd (by rw [hyt]; exact hvc) hyout
              refine ⟨c, y, ?_, (cs_monoequiv hwf ht hsout).mp hsy, hpcy⟩
              rw [hrt]
              exact (hcompmem c).mp hc
            · rw [hyt] at hsy
              have hst : s = t := by
                rcases hqcase s hs with ⟨_, hsout⟩ | h
                · have hs_t := hsingleton' s (monoEquiv_symm hsy)
                  exact absurd (by rw [hs_t]; exact hvc) hsout
                · exact h
              have hrout : r ∉ p.component t := by
                rcases hqcase r hr with ⟨_, h⟩ | hrt
                · exact h
                · rw [hrt] at hrx
                  have hxt := hsingleton' x hrx
                  exact absurd (by rw [hxt]; exact hvc) hxout
              refine ⟨x, c, (cs_monoequiv hwf ht hrout).mp hrx, ?_, ?_⟩
              · rw [hst]
                exact (hcompmem c).mp hc
              · exact adj_comm.mp hpcx
          · rintro ⟨hne, x, y, hrx, hsy, hadj⟩
            have hrsne : r ≠ s := by
              rintro rfl
              exact hne (monoEquiv_refl r)
            refine ⟨fun h => hne ((hequiv_iff r hr s hs).mp h), ?_⟩
            by_cases hxc : x ∈ p.component t
            · have hrt : r = t := by
                rcases hqcase r hr with ⟨_, hrout⟩ | h
                · have : MonoEquiv p t r :=
                    monoEquiv_trans ((hcompmem x).mp hxc) (monoEquiv_symm hrx)
                  exact absurd ((hcompmem r).mpr this) hrout
                · exact h
              have hyout : y ∉ p.component t := by
                intro hyc
                have hst : s = t := by
                  rcases hqcase s hs with ⟨_, hsout⟩ | h
                  · have : MonoEquiv p t s := monoEquiv_trans
                      ((hcompmem y).mp hyc) (monoEquiv_symm hsy)
                    exact absurd ((hcompmem s).mpr this) hsout
                  · exact h
                exact hrsne (hrt.trans hst.symm)
              have hsout : s ∉ p.component t := by
                rcases hqcase s hs with ⟨_, h⟩ | hst
                · exact h
                · rw [hst] at hsy
                  exact absurd ((hcompmem y).mpr hsy) hyout
              refine ⟨t, y, ?_, (cs_monoequiv hwf ht hsout).mpr hsy, ?_⟩
              · rw [hrt]
                exact monoEquiv_refl t
              · exact cs_adj_iff.mpr (Or.inr (Or.inl ⟨rfl, hyout, x, hxc,
                  hadj⟩))
            · by_cases hyc : y ∈ p.component t
              · have hst : s = t := by
                  rcases hqcase s hs with ⟨_, hsout⟩ | h
                  · have : MonoEquiv p t s := monoEquiv_trans
                      ((hcompmem y).mp hyc) (monoEquiv_symm hsy)
                    exact absurd ((hcompmem s).mpr this) hsout
                  · exact h
                have hrout : r ∉ p.component t := by
                  rcases hqcase r hr with ⟨_, h⟩ | hrt
                  · exact h
                  · rw [hrt] at hrx
                    exact absurd ((hcompmem x).mpr hrx) hxc
                refine ⟨x, t, (cs_monoequiv hwf ht hrout).mpr hrx, ?_, ?_⟩
                · rw [hst]
                  exact monoEquiv_refl t
                · exact cs_adj_iff.mpr (Or.inr (Or.inr ⟨rfl, hxc, y, hyc,
                    adj_comm.mp hadj⟩))
              · have hrout : r ∉ p.component t := by
                  rcases hqcase r hr with ⟨_, h⟩ | hrt
                  · exact h
                  · rw [hrt] at hrx
                    exact absurd ((hcompmem x).mpr hrx) hxc
                have hsout : s ∉ p.component t := by
                  rcases hqcase s hs with ⟨_, h⟩ | hst
                  · exact h
                  · rw [hst] at hsy
                    exact absurd ((hcompmem y).mpr hsy) hyc
                exact ⟨x, y, (cs_monoequiv hwf ht hrout).mpr hrx,
                  (cs_monoequiv hwf ht hsout).mpr hsy,
                  cs_adj_iff.mpr (Or.inl ⟨hxc, hyc, hadj⟩)⟩

/-- Full collapse satisfies the collapse specification. -/
theorem collapseAll_spec (p : Puzzle) (hwf : PuzzleWF p) :
    CollapseSpec p p.collapseAll :=
  (collapseAllGo_spec p.nodes p [] hwf (fun _ hx => Or.inr hx)
    (by simp)).2

theorem collapseAll_frozen (p : Puzzle) (hwf : PuzzleWF p) :
    ∀ u b, ¬MStep p.collapseAll (p.collapseAll.color u) u b := by
  intro u b hstep
  obtain ⟨hadj, _, hcb⟩ := hstep
  have hspec := collapseAll_spec p hwf
  have hne := hspec.adj_ne u b hadj
  rw [← hspec.color_eq] at hne
  exact hne hcb.symm

theorem mem_edgeFinset {p : Puzzle} {e : Nat × Nat} :
    e ∈ edgeFinset p ↔ ∃ ed ∈ p.edges, normEdge ed = e := by
  unfold edgeFinset
  rw [List.mem_toFinset, List.mem_map]

theorem normEdge_swap (a b : Nat) : normEdge (a, b) = normEdge (b, a) := by
  unfold normEdge
  rcases Nat.lt_trichotomy a b with h | h | h
  · simp only [if_pos (Nat.le_of_lt h)]
    rw [if_neg (by omega)]
  · subst h; rfl
  · rw [if_neg (by omega), if_pos (Nat.le_of_lt h)]

theorem normEdge_eq_cases {e : Nat × Nat} {a b : Nat}
    (h : normEdge e = normEdge (a, b)) : e = (a, b) ∨ e = (b, a) := by
  obtain ⟨x, y⟩ := e
  unfold normEdge at h
  split at h <;> split at h <;>
    simp only [Prod.mk.injEq] at h <;>
    obtain ⟨h1, h2⟩ := h <;> subst h1 <;> subst h2
  · exact Or.inl rfl
  · exact Or.inr rfl
  · exact Or.inr rfl
  · exact Or.inl rfl

theorem adj_iff_mem_edgeFinset {p : Puzzle} {a b : Nat} :
    p.Adj a b ↔ normEdge (a, b) ∈ edgeFinset p := by
  constructor
  · intro h
    rcases h with h | h
    · exact mem_edgeFinset.mpr ⟨(a, b), h, rfl⟩
    · exact mem_edgeFinset.mpr ⟨(b, a), h, (normEdge_swap a b).symm⟩
  · intro h
    obtain ⟨ed, hed, heq⟩ := mem_edgeFinset.mp h
    rcases normEdge_eq_cases heq with rfl | rfl
    · exact Or.inl hed
    · exact Or.inr hed

theorem edgeFinset_elem_shape {p : Puzzle} {e : Nat × Nat}
    (h : e ∈ edgeFinset p) : ∃ a b, e = normEdge (a, b) ∧ p.Adj a b := by
  obtain ⟨ed, hed, heq⟩ := mem_edgeFinset.mp h
  exact ⟨ed.1, ed.2, heq.symm, Or.inl hed⟩

/-! ## C3: collapse correctness -/

/-- C3: after `collapse()` with no node argument on a well-formed puzzle:
the component traversal terminates (also on cyclic graphs) and computes
exactly the maximal same-colored connected regions; the result is again a
well-formed simple graph (each undirected edge stored once, in one
orientation); no two adjacent nodes share a color; there are no
self-loops; and the number of surviving nodes equals the number of maximal
same-colored connected components of the pre-collapse puzzle. -/
theorem collapse_correct (p : Puzzle) (hwf : PuzzleWF p) :
    (∀ v ∈ p.nodes,
      (compLoop p (p.color v) (compFuel p) [v] []).isSome ∧
        ∀ x, x ∈ p.component v ↔ MonoEquiv p v x) ∧
    PuzzleWF p.collapseAll ∧
    (∀ u v, p.collapseAll.Adj u v →
      p.collapseAll.color u ≠ p.collapseAll.color v) ∧
    (∀ v, ¬p.collapseAll.Adj v v) ∧
    p.collapseAll.nodes.length = classesCount p := by
  classical
  have hspec := collapseAll_spec p hwf
  refine ⟨?_, hspec.wf, ?_, ?_, ?_⟩
  · intro v hv
    have h := component_spec p hwf v hv
    exact ⟨h.1, h.2.2⟩
  · intro u v hadj
    rw [hspec.color_eq]
    exact hspec.adj_ne u v hadj
  · intro v hadj
    exact hspec.adj_ne v v hadj rfl
  · have hnd : p.collapseAll.nodes.Nodup := hspec.wf.1
    have hmapnd : (p.collapseAll.nodes.map
        fun v => (p.component v).toFinset).Nodup := by
      refine List.Nodup.map_on ?_ hnd
      intro r hr s hs hfs
      by_contra hne
      have hrp : r ∈ p.nodes := hspec.nodes_sub r hr
      have hsp : s ∈ p.nodes := hspec.nodes_sub s hs
      have hrin : r ∈ (p.component r).toFinset :=
        List.mem_toFinset.mpr (self_mem_component hwf hrp)
      rw [hfs] at hrin
      have hrs : MonoEquiv p s r :=
        (mem_component_iff hwf hsp).mp (List.mem_toFinset.mp hrin)
      exact hne (hspec.rep_unique s hs r hr hrs).symm
    have hsetseq : (p.collapseAll.nodes.map
          fun v => (p.component v).toFinset).toFinset =
        (p.nodes.map fun v => (p.component v).toFinset).toFinset := by
      apply Finset.ext
      intro a
      simp only [List.mem_toFinset, List.mem_map]
      constructor
      · rintro ⟨r, hr, rfl⟩
        exact ⟨r, hspec.nodes_sub r hr, rfl⟩
      · rintro ⟨x, hx, rfl⟩
        obtain ⟨r, hr, hxr⟩ := hspec.rep_exists x hx
        refine ⟨r, hr, ?_⟩
        apply Finset.ext
        intro z
        simp only [List.mem_toFinset]
        exact (component_eq_of_equiv hwf hx hxr z).symm
    calc p.collapseAll.nodes.length
        = (p.collapseAll.nodes.map fun v => (p.component v).toFinset).length
          := (List.length_map _ _).symm
      _ = (p.collapseAll.nodes.map
            fun v => (p.component v).toFinset).toFinset.card :=
          (List.toFinset_card_of_nodup hmapnd).symm
      _ = (p.nodes.map fun v => (p.component v).toFinset).toFinset.card := by
          rw [hsetseq]
      _ = classesCount p := List.card_toFinset _

/-- C3 witness: the 5-cycle of the source demo — a cyclic graph — is
well-formed, its collapse keeps exactly 3 nodes (the components `{1,2}`,
`{3}`, `{4,5}`). -/
theorem collapse_correct_witness :
    PuzzleWF demoCycle ∧ demoCycle.collapseAll.nodes.length = 3 ∧
      classesCount demoCycle = 3 := by
  have h := collapse_correct demoCycle (by decide)
  refine ⟨by decide, ?_, by decide⟩
  rw [h.2.2.2.2]
  decide

/-! ## C4: collapse idempotence -/

/-- C4: collapsing twice gives the same node set, undirected edge set and
coloring as collapsing once — collapsing an already fully-collapsed
puzzle changes nothing. -/
theorem collapse_idempotent (p : Puzzle) (hwf : PuzzleWF p) :
    nodeFinset p.collapseAll.collapseAll = nodeFinset p.collapseAll ∧
    edgeFinset p.collapseAll.collapseAll = edgeFinset p.collapseAll ∧
    ∀ v, p.collapseAll.collapseAll.color v = p.collapseAll.color v := by
  classical
  have hspec1 := collapseAll_spec p hwf
  have hfr := collapseAll_frozen p hwf
  have hspec2 := collapseAll_spec p.collapseAll hspec1.wf
  have hnodes : ∀ x, x ∈ p.collapseAll.collapseAll.nodes ↔
      x ∈ p.collapseAll.nodes := by
    intro x
    constructor
    · exact hspec2.nodes_sub x
    · intro hx
      obtain ⟨r, hr, hxr⟩ := hspec2.rep_exists x hx
      have := monoEquiv_eq_of_frozen (hfr x) hxr
      rw [← this]
      exact hr
  have hadj : ∀ a b, p.collapseAll.collapseAll.Adj a b ↔
      p.collapseAll.Adj a b := by
    intro a b
    constructor
    · intro h
      have ha := (adj_mem_nodes hspec2.wf h).1
      have hb := (adj_mem_nodes hspec2.wf h).2
      obtain ⟨_, x, y, hax, hby, hxy⟩ := (hspec2.adj_iff a ha b hb).mp h
      have hx := monoEquiv_eq_of_frozen (hfr a) hax
      have hy := monoEquiv_eq_of_frozen (hfr b) hby
      rw [hx, hy] at hxy
      exact hxy
    · intro h
      have ha := (adj_mem_nodes hspec1.wf h).1
      have hb := (adj_mem_nodes hspec1.wf h).2
      refine (hspec2.adj_iff a ((hnodes a).mpr ha) b
        ((hnodes b).mpr hb)).mpr ⟨?_, a, b, monoEquiv_refl a,
          monoEquiv_refl b, h⟩
      intro heq
      have hba := monoEquiv_eq_of_frozen (hfr a) heq
      rw [← hba] at h
      exact hspec1.adj_ne b b h rfl
  refine ⟨?_, ?_, fun v => congrFun hspec2.color_eq v⟩
  · apply Finset.ext
    intro a
    unfold nodeFinset
    rw [List.mem_toFinset, List.mem_toFinset]
    exact hnodes a
  · apply Finset.ext
    intro e
    constructor
    · intro he
      obtain ⟨a, b, rfl, hab⟩ := edgeFinset_elem_shape he
      exact adj_iff_mem_edgeFinset.mp ((hadj a b).mp hab)
    · intro he
      obtain ⟨a, b, rfl, hab⟩ := edgeFinset_elem_shape he
      exact adj_iff_mem_edgeFinset.mp ((hadj a b).mpr hab)

/-- C4 witness: on the demo 5-cycle, the double collapse agrees with the
single collapse. -/
theorem collapse_idempotent_witness :
    nodeFinset demoCycle.collapseAll.collapseAll =
      nodeFinset demoCycle.collapseAll ∧
    edgeFinset demoCycle.collapseAll.collapseAll =
      edgeFinset demoCycle.collapseAll :=
  ⟨(collapse_idempotent demoCycle (by decide)).1,
    (collapse_idempotent demoCycle (by decide)).2.1⟩

/-! ## C7: admissibility of the color-count heuristic -/

theorem setColor_wf {p : Puzzle} (hwf : PuzzleWF p) (v c : Nat) (b : Bool) :
    PuzzleWF (p.setColor v c b) := by
  unfold Puzzle.setColor
  split <;> exact hwf

theorem mem_colorFinset {p : Puzzle} {col : Nat} :
    col ∈ colorFinset p ↔ ∃ u ∈ p.nodes, p.color u = col := by
  unfold colorFinset
  rw [List.mem_toFinset, List.mem_map]

/-- Collapse does not change the set of colors present. -/
theorem colorFinset_collapseAll {p : Puzzle} (hwf : PuzzleWF p) :
    colorFinset p.collapseAll = colorFinset p := by
  have hspec := collapseAll_spec p hwf
  apply Finset.ext
  intro col
  rw [mem_colorFinset, mem_colorFinset]
  constructor
  · rintro ⟨r, hr, hcr⟩
    refine ⟨r, hspec.nodes_sub r hr, ?_⟩
    rw [← congrFun hspec.color_eq r]
    exact hcr
  · rintro ⟨x, hx, hcx⟩
    obtain ⟨r, hr, hxr⟩ := hspec.rep_exists x hx
    refine ⟨r, hr, ?_⟩
    rw [congrFun hspec.color_eq r, ← hxr.1]
    exact hcx

/-- One propagating recolor removes at most the target's original color
from the color set. -/
theorem setColor_colors_bound (p : Puzzle) (v c : Nat) :
    colorFinset p ⊆
      insert (p.color v) (colorFinset (p.setColor v c true)) := by
  intro col hcol
  obtain ⟨u, hu, hcu⟩ := mem_colorFinset.mp hcol
  by_cases hrep : u = v ∨ u ∈ p.sameColorNeighbors v
  · refine Finset.mem_insert.mpr (Or.inl ?_)
    rcases hrep with rfl | hscn
    · exact hcu.symm
    · rw [← hcu]
      exact (mem_sameColorNeighbors.mp hscn).2
  · refine Finset.mem_insert.mpr (Or.inr (mem_colorFinset.mpr ⟨u, hu, ?_⟩))
    show (if u = v ∨ u ∈ p.sameColorNeighbors v then c else p.color u) = col
    rw [if_neg hrep]
    exact hcu

/-- A solved puzzle has exactly one color present. -/
theorem isSolved_colorFinset {p : Puzzle} (h : p.isSolved = true) :
    (colorFinset p).card = 1 := by
  unfold Puzzle.isSolved at h
  simp only [decide_eq_true_eq] at h
  unfold colorFinset
  rw [List.card_toFinset]
  exact h

/-- Following a move never loses more than one color. -/
theorem follow_colors_bound (sp : SolvablePuzzle)
    (hwf : PuzzleWF sp.toPuzzle) (m : Move) :
    (colorFinset sp.toPuzzle).card ≤
      (colorFinset (searchFollower sp m).toPuzzle).card + 1 := by
  have h1 : colorFinset (searchFollower sp m).toPuzzle =
      colorFinset (sp.toPuzzle.setColor m.1 m.2 true) := by
    show colorFinset (sp.toPuzzle.setColor m.1 m.2 true).collapseAll = _
    exact colorFinset_collapseAll (setColor_wf hwf m.1 m.2 true)
  rw [h1]
  calc (colorFinset sp.toPuzzle).card
      ≤ (insert (sp.toPuzzle.color m.1)
          (colorFinset (sp.toPuzzle.setColor m.1 m.2 true))).card :=
        Finset.card_le_card (setColor_colors_bound sp.toPuzzle m.1 m.2)
    _ ≤ (colorFinset (sp.toPuzzle.setColor m.1 m.2 true)).card + 1 :=
        Finset.card_insert_le _ _

theorem follow_wf (sp : SolvablePuzzle) (hwf : PuzzleWF sp.toPuzzle)
    (m : Move) : PuzzleWF (searchFollower sp m).toPuzzle :=
  (collapseAll_spec _ (setColor_wf hwf m.1 m.2 true)).wf

/-- Solving from `sp` in `n` moves forces at most `n + 1` colors. -/
theorem solves_colors_bound :
    ∀ (ms : List Move) (sp : SolvablePuzzle), PuzzleWF sp.toPuzzle →
      (applyMoves sp ms).isSolved = true →
      (colorFinset sp.toPuzzle).card ≤ ms.length + 1 := by
  intro ms
  induction ms with
  | nil =>
    intro sp _ hsol
    exact le_of_eq (isSolved_colorFinset hsol)
  | cons m rest ih =>
    intro sp hwf hsol
    have hstep := follow_colors_bound sp hwf m
    have hrec := ih (searchFollower sp m) (follow_wf sp hwf m) hsol
    simp only [List.length_cons]
    omega

/-- C7: the color-count heuristic (number of distinct colors present
minus one) never exceeds the length of any move sequence that solves the
puzzle — it is an admissible lower bound on the remaining move count: one
move can eliminate at most one color and can never introduce a new
one. -/
theorem color_heuristic_admissible (sp : SolvablePuzzle)
    (hwf : PuzzleWF sp.toPuzzle) (ms : List Move) (hsol : SolvesPz sp ms) :
    colorHeuristic sp.toPuzzle ≤ (ms.length : Int) := by
  have hb := solves_colors_bound ms sp hwf hsol.2
  unfold colorHeuristic
  have hcard : (colorFinset sp.toPuzzle).card =
      (sp.toPuzzle.nodes.map sp.toPuzzle.color).dedup.length :=
    List.card_toFinset _
  omega

/-- C7 witness: the demo cycle shows three colors, so the heuristic is
`2`, and its two-move solution `(1 ↦ DarkBlue, 1 ↦ Cream)` attains the
bound. -/
theorem color_heuristic_admissible_witness :
    PuzzleWF demoSolvable.toPuzzle ∧
      SolvesPz demoSolvable [(1, 1), (1, 2)] ∧
      colorHeuristic demoSolvable.toPuzzle ≤
        (([((1 : Nat), (1 : Nat)), (1, 2)] : List Move).length : Int) := by
  have hsol : SolvesPz demoSolvable [(1, 1), (1, 2)] := by
    refine ⟨⟨?_, ?_, trivial⟩, ?_⟩
    · decide
    · decide
    · decide
  exact ⟨by decide, hsol,
    color_heuristic_admissible demoSolvable (by decide) [(1, 1), (1, 2)]
      hsol⟩

/-! ## C8: one-hop propagation of `set_color` -/

/-- C8: `set_color(node, color, propagate=True)` recolors exactly the
target node and those direct neighbors that shared the node's original
color; one hop only — every other node, including a same-colored node two
hops away, keeps its color — and the node and edge structure is
untouched. -/
theorem setColor_propagate_frame (p : Puzzle) (v c : Nat) (hv : v ∈ p.nodes) :
    (p.setColor v c true).color v = c ∧
    (∀ u ∈ p.neighbors v, p.color u = p.color v →
      (p.setColor v c true).color u = c) ∧
    (∀ u, u ≠ v → (u ∉ p.neighbors v ∨ p.color u ≠ p.color v) →
      (p.setColor v c true).color u = p.color u) ∧
    (p.setColor v c true).nodes = p.nodes ∧
    (p.setColor v c true).edges = p.edges := by
  refine ⟨?_, ?_, ?_, rfl, rfl⟩
  · simp [Puzzle.setColor]
  · intro u hu hcol
    simp only [Puzzle.setColor, if_pos rfl]
    have : u = v ∨ u ∈ p.sameColorNeighbors v :=
      Or.inr (mem_sameColorNeighbors.mpr ⟨hu, hcol⟩)
    simp [this]
  · intro u hne hcase
    have hnot : ¬(u = v ∨ u ∈ p.sameColorNeighbors v) := by
      rintro (rfl | hmem)
      · exact hne rfl
      · rcases mem_sameColorNeighbors.mp hmem with ⟨hnb, hcol⟩
        rcases hcase with h | h
        · exact h hnb
        · exact h hcol
    simp [Puzzle.setColor, hnot]

/-- C8 witness: the concrete path `1 - 2 - 3` colored `[0, 0, 0]`;
recoloring node `1` to color `7` with propagation recolors `1` and its direct
neighbor `2` but not the same-colored distance-2 node `3`. -/
theorem setColor_propagate_frame_witness :
    (1 ∈ (((Puzzle.mk [] (fun _ => 0) []).addNode 1 0).addNode 2 0 |>.addNode 3 0
      |>.addEdge 1 2 |>.addEdge 2 3).nodes) ∧
    ((((Puzzle.mk [] (fun _ => 0) []).addNode 1 0).addNode 2 0 |>.addNode 3 0
      |>.addEdge 1 2 |>.addEdge 2 3).setColor 1 7 true).color 1 = 7 := by
  have h := setColor_propagate_frame
    (((Puzzle.mk [] (fun _ => 0) []).addNode 1 0).addNode 2 0 |>.addNode 3 0
      |>.addEdge 1 2 |>.addEdge 2 3) 1 7 (by decide)
  exact ⟨by decide, h.1⟩

/-! ## C10: the empty puzzle is unsolved and BFS returns `None` on it -/

/-- C10: on the puzzle with no nodes the set of colors present is empty,
so `is_solved` is `False` (the set's size is `0`, not `1`), and
`bfs_solve` explores the start state, finds no moves, exhausts its queue
and returns `None` — not the empty move list (any fuel beyond the two
loop entries gives the same result). -/
theorem emptyPuzzle_unsolved_bfs_none (fuel : Nat) :
    (emptySolvable.toPuzzle.nodes.map emptySolvable.toPuzzle.color).dedup
      = [] ∧
    emptySolvable.toPuzzle.isSolved = false ∧
    bfsSolve (fuel + 2) emptySolvable = some none := by
  refine ⟨rfl, rfl, rfl⟩

/-! ## C9: popping an empty heap fails loudly, peeking returns `None` -/

/-- C9: on both heaps, `pop()` of a heap holding no items is the raised
`IndexError` (modelled `none`; no value is returned), while `peek()` is
the regular value `None`. -/
theorem pop_empty_raises_peek_none {It N C : Type} [DecidableEq N]
    [LinearOrder C] (nm : It → N) (cst scr : It → C) (h hx : HeapSt It N)
    (hemp : h.heap = []) (hempx : hx.heap = []) :
    mPop nm cst h = none ∧ mPeek h = none ∧
    xPop nm scr hx = none ∧ xPeek hx = none := by
  obtain ⟨hp, pos⟩ := h
  obtain ⟨hpx, posx⟩ := hx
  simp only at hemp hempx
  subst hemp hempx
  exact ⟨rfl, rfl, rfl, rfl⟩

/-- C9 witness: the freshly constructed empty heaps over natural-number
names and keys. -/
theorem pop_empty_raises_peek_none_witness :
    mPop (fun it : HItem Nat Nat => it.name) (fun it => it.key)
      (emptyHeap : HeapSt (HItem Nat Nat) Nat) = none ∧
    xPop (fun it : HItem Nat Nat => it.name) (fun it => it.key)
      (emptyHeap : HeapSt (HItem Nat Nat) Nat) = none := by
  have h := pop_empty_raises_peek_none
    (fun it : HItem Nat Nat => it.name) (fun it => it.key) (fun it => it.key)
    (emptyHeap : HeapSt (HItem Nat Nat) Nat) emptyHeap rfl rfl
  exact ⟨h.1, h.2.2.1⟩


/-! ## The indexed heaps: dictionary lemmas -/

theorem alookup_append {α β : Type} [DecidableEq α] (l1 l2 : List (α × β))
    (x : α) :
    alookup (l1 ++ l2) x =
      match alookup l1 x with
      | some v => some v
      | none => alookup l2 x := by
  induction l1 with
  | nil => rfl
  | cons kv rest ih =>
    by_cases h : x = kv.1
    · simp [alookup, h]
    · simp only [List.cons_append, alookup, if_neg h]
      exact ih

theorem adel_cons_eq {α β : Type} [DecidableEq α] {k : α} {v : β}
    {rest : List (α × β)} {a : α} (h : k = a) :
    adel ((k, v) :: rest) a = adel rest a := by
  unfold adel
  rw [List.filter_cons_of_neg (by simp [h])]

theorem adel_cons_ne {α β : Type} [DecidableEq α] {k : α} {v : β}
    {rest : List (α × β)} {a : α} (h : k ≠ a) :
    adel ((k, v) :: rest) a = (k, v) :: adel rest a := by
  unfold adel
  rw [List.filter_cons_of_pos (by simp [h])]

theorem alookup_adel_eq {α β : Type} [DecidableEq α] (l : List (α × β))
    (a : α) : alookup (adel l a) a = none := by
  induction l with
  | nil => rfl
  | cons kv rest ih =>
    obtain ⟨k, v⟩ := kv
    by_cases h : k = a
    · rw [adel_cons_eq h]
      exact ih
    · rw [adel_cons_ne h]
      show (if a = k then some v else alookup (adel rest a) a) = none
      rw [if_neg (fun he => h he.symm)]
      exact ih

theorem alookup_adel_ne {α β : Type} [DecidableEq α] (l : List (α × β))
    {a x : α} (h : x ≠ a) : alookup (adel l a) x = alookup l x := by
  induction l with
  | nil => rfl
  | cons kv rest ih =>
    obtain ⟨k, v⟩ := kv
    by_cases hk : k = a
    · rw [adel_cons_eq hk]
      show alookup (adel rest a) x = if x = k then some v else alookup rest x
      rw [if_neg (fun he => h (he.trans hk)), ih]
    · rw [adel_cons_ne hk]
      show (if x = k then some v else alookup (adel rest a) x) =
        if x = k then some v else alookup rest x
      rw [ih]

theorem alookup_aset_eq {α β : Type} [DecidableEq α] (l : List (α × β))
    (a : α) (b : β) : alookup (aset l a b) a = some b := by
  unfold aset
  rw [alookup_append, alookup_adel_eq]
  simp [alookup]

theorem alookup_aset_ne {α β : Type} [DecidableEq α] (l : List (α × β))
    {a x : α} (b : β) (h : x ≠ a) :
    alookup (aset l a b) x = alookup l x := by
  unfold aset
  rw [alookup_append, alookup_adel_ne l h]
  cases hv : alookup l x with
  | none => simp [alookup, h]
  | some v => rfl

theorem mem_adel {α β : Type} [DecidableEq α] {l : List (α × β)}
    {a : α} {kv : α × β} : kv ∈ adel l a ↔ kv ∈ l ∧ kv.1 ≠ a := by
  unfold adel
  rw [List.mem_filter]
  simp

theorem mem_aset {α β : Type} [DecidableEq α] {l : List (α × β)}
    {a : α} {b : β} {kv : α × β} :
    kv ∈ aset l a b ↔ (kv ∈ l ∧ kv.1 ≠ a) ∨ kv = (a, b) := by
  unfold aset
  rw [List.mem_append, List.mem_singleton, mem_adel]

theorem adel_keys_nodup {α β : Type} [DecidableEq α] {l : List (α × β)}
    (h : (l.map Prod.fst).Nodup) (a : α) :
    ((adel l a).map Prod.fst).Nodup := by
  unfold adel
  exact List.Nodup.sublist (List.Sublist.map _ (List.filter_sublist _)) h

theorem aset_keys_nodup {α β : Type} [DecidableEq α] {l : List (α × β)}
    (h : (l.map Prod.fst).Nodup) (a : α) (b : β) :
    ((aset l a b).map Prod.fst).Nodup := by
  unfold aset
  rw [List.map_append, List.nodup_append]
  refine ⟨adel_keys_nodup h a, List.nodup_singleton _, ?_⟩
  intro x hx hxm
  rcases List.mem_map.mp hx with ⟨kv, hkv, rfl⟩
  rcases List.mem_singleton.mp hxm with h'
  simp only [List.map_cons, List.map_nil, List.mem_singleton] at h'
  exact (mem_adel.mp hkv).2 h'

theorem alookup_mem {α β : Type} [DecidableEq α] {l : List (α × β)}
    {a : α} {b : β} (h : alookup l a = some b) : (a, b) ∈ l := by
  induction l with
  | nil => simp [alookup] at h
  | cons kv rest ih =>
    unfold alookup at h
    split at h
    · next heq =>
      simp only [Option.some.injEq] at h
      subst h
      subst heq
      exact List.mem_cons_self _ _
    · exact List.mem_cons_of_mem _ (ih h)

theorem mem_alookup {α β : Type} [DecidableEq α] {l : List (α × β)}
    (hnd : (l.map Prod.fst).Nodup) {a : α} {b : β} (h : (a, b) ∈ l) :
    alookup l a = some b := by
  induction l with
  | nil => simp at h
  | cons kv rest ih =>
    rcases List.mem_cons.mp h with rfl | hmem
    · unfold alookup
      rw [if_pos rfl]
    · unfold alookup
      have hk : a ≠ kv.1 := by
        intro he
        have : kv.1 ∈ rest.map Prod.fst :=
          List.mem_map.mpr ⟨(a, b), hmem, (he ▸ rfl)⟩
        exact (List.nodup_cons.mp hnd).1 this
      rw [if_neg hk]
      exact ih (List.nodup_cons.mp hnd).2 hmem

/-! ## The indexed heaps: array-index lemmas -/

theorem get?_set_self {α : Type} {l : List α} {i : Nat} (h : i < l.length)
    (a : α) : (l.set i a).get? i = some a :=
  List.get?_set_eq_of_lt a h

theorem get?_set_other {α : Type} {l : List α} {i j : Nat} (h : i ≠ j)
    (a : α) : (l.set i a).get? j = l.get? j :=
  List.get?_set_ne a l h

theorem names_get?_inj {It N : Type} (nm : It → N) {l : List It}
    (hnd : (l.map nm).Nodup) {i j : Nat} {x y : It}
    (hx : l.get? i = some x) (hy : l.get? j = some y)
    (hxy : nm x = nm y) : i = j := by
  have hi : i < l.length := by
    by_contra hlt
    rw [List.get?_eq_none.mpr (Nat.le_of_not_lt hlt)] at hx
    exact Option.noConfusion hx
  have hmx : (l.map nm).get? i = some (nm x) := by
    rw [List.get?_map, hx]; rfl
  have hmy : (l.map nm).get? j = some (nm y) := by
    rw [List.get?_map, hy]; rfl
  refine List.get?_inj (by simpa using hi) hnd ?_
  rw [hmx, hmy, hxy]

theorem cons_set_perm {α : Type} :
    ∀ (l : List α) (k : Nat) (x y : α), l.get? k = some y →
      (y :: l.set k x).Perm (x :: l)
  | [], k, x, y, h => by simp [List.get?] at h
  | b :: t, 0, x, y, h => by
    have hb : b = y := by simpa using h
    rw [hb]
    exact List.Perm.swap x y t
  | b :: t, k + 1, x, y, h => by
    have ih := cons_set_perm t k x y (by simpa using h)
    show (y :: b :: t.set k x).Perm (x :: b :: t)
    exact ((List.Perm.swap b y _).trans (ih.cons b)).trans
      (List.Perm.swap x b t)

theorem set_swap_perm {α : Type} :
    ∀ (l : List α) (i j : Nat) (x y : α), i ≠ j →
      l.get? i = some x → l.get? j = some y →
      ((l.set i y).set j x).Perm l
  | [], i, _, _, _, _, hi, _ => by simp [List.get?] at hi
  | a :: t, 0, 0, x, y, hij, _, _ => absurd rfl hij
  | a :: t, 0, j + 1, x, y, hij, hi, hj => by
    have ha : a = x := by simpa using hi
    have hj' : t.get? j = some y := by simpa using hj
    show (y :: t.set j x).Perm (a :: t)
    rw [ha]
    exact cons_set_perm t j x y hj'
  | a :: t, i + 1, 0, x, y, hij, hi, hj => by
    have ha : a = y := by simpa using hj
    have hi' : t.get? i = some x := by simpa using hi
    show (x :: t.set i y).Perm (a :: t)
    rw [ha]
    exact cons_set_perm t i y x hi'
  | a :: t, i + 1, j + 1, x, y, hij, hi, hj => by
    have ih := set_swap_perm t i j x y (fun h => hij (by rw [h]))
      (by simpa using hi) (by simpa using hj)
    exact ih.cons a

theorem set_same {α : Type} :
    ∀ {l : List α} {i : Nat} {a : α}, l.get? i = some a → l.set i a = l
  | [], i, a, h => by simp [List.get?] at h
  | b :: t, 0, a, h => by
    have hb : b = a := by simpa using h
    rw [List.set_cons_zero, hb]
  | b :: t, i + 1, a, h => by
    rw [List.set_cons_succ, set_same (by simpa using h)]

theorem perm_append_singleton_cons {α : Type} (a : α) (l : List α) :
    (l ++ [a]).Perm (a :: l) := by
  induction l with
  | nil => exact List.Perm.refl _
  | cons b t ih =>
    show (b :: (t ++ [a])).Perm (a :: b :: t)
    exact (ih.cons b).trans (List.Perm.swap a b t)

/-! ## The indexed heaps: sift-up -/

theorem optLE_right_none {It C : Type} [LinearOrder C] (cst : It → C)
    (o : Option It) : optLE cst o none := by
  cases o with
  | none => exact trivial
  | some x => exact trivial

theorem heapProp_place {It C : Type} [LinearOrder C] (cst : It → C)
    {heap : List It} {idx : Nat} {item : It}
    (hC1 : ∀ j, j < heap.length → 0 < j → j ≠ idx →
      optLE cst ((heap.set idx item).get? ((j - 1) / 2))
        ((heap.set idx item).get? j))
    (hpair : 0 < idx →
      optLE cst ((heap.set idx item).get? ((idx - 1) / 2))
        ((heap.set idx item).get? idx)) :
    HeapProp cst (heap.set idx item) := by
  intro j hj hj0
  rw [List.length_set] at hj
  by_cases hji : j = idx
  · subst hji
    exact hpair hj0
  · exact hC1 j hj hj0 hji

theorem posExact_place {It N : Type} [DecidableEq N] (nm : It → N)
    {heap : List It} {pos : List (N × Nat)} {idx : Nat} {item : It}
    (hlen : idx < heap.length)
    (hnd : ((heap.set idx item).map nm).Nodup)
    (hex : PosExactExcept nm (heap.set idx item) pos (nm item)) :
    PosExact nm (heap.set idx item) (aset pos (nm item) idx) := by
  obtain ⟨hsnd, hcmp, hknd⟩ := hex
  refine ⟨?_, ?_, aset_keys_nodup hknd _ _⟩
  · intro kv hkv
    rcases mem_aset.mp hkv with ⟨hmem, hne⟩ | hkv'
    · exact hsnd kv hmem hne
    · rw [hkv']
      exact ⟨item, get?_set_self hlen item, rfl⟩
  · intro j hj
    cases hgj : (heap.set idx item).get? j with
    | none => exact trivial
    | some it =>
      simp only [Option.elim]
      by_cases hni : nm it = nm item
      · have hj0 : j = idx :=
          names_get?_inj nm hnd hgj (get?_set_self hlen item) hni

        rw [hj0, hni]
        exact mem_aset.mpr (Or.inr rfl)
      · have hcm := hcmp j hj
        rw [hgj] at hcm
        simp only [Option.elim] at hcm
        exact mem_aset.mpr (Or.inl ⟨hcm hni, hni⟩)

theorem msiftUpGo_place0 {It N C : Type} [DecidableEq N] [LinearOrder C]
    (nm : It → N) (cst : It → C) (fuel : Nat) (heap : List It)
    (pos : List (N × Nat)) (item : It) :
    msiftUpGo nm cst (fuel + 1) heap pos 0 item =
      (heap.set 0 item, aset pos (nm item) 0) := by
  simp [msiftUpGo]

theorem msiftUpGo_stop {It N C : Type} [DecidableEq N] [LinearOrder C]
    (nm : It → N) (cst : It → C) {fuel : Nat} {heap : List It}
    {pos : List (N × Nat)} {idx : Nat} {item pit : It}
    (hidx : ¬ idx = 0) (hp : heap.get? ((idx - 1) / 2) = some pit)
    (hge : cst item ≥ cst pit) :
    msiftUpGo nm cst (fuel + 1) heap pos idx item =
      (heap.set idx item, aset pos (nm item) idx) := by
  simp only [msiftUpGo, if_neg hidx, hp, if_pos hge]

theorem msiftUpGo_step {It N C : Type} [DecidableEq N] [LinearOrder C]
    (nm : It → N) (cst : It → C) {fuel : Nat} {heap : List It}
    {pos : List (N × Nat)} {idx : Nat} {item pit : It}
    (hidx : ¬ idx = 0) (hp : heap.get? ((idx - 1) / 2) = some pit)
    (hge : ¬ cst item ≥ cst pit) :
    msiftUpGo nm cst (fuel + 1) heap pos idx item =
      msiftUpGo nm cst fuel (heap.set idx pit) (aset pos (nm pit) idx)
        ((idx - 1) / 2) item := by
  simp only [msiftUpGo, if_neg hidx, hp, if_neg hge]

theorem msiftUpGo_spec {It N C : Type} [DecidableEq N] [LinearOrder C]
    (nm : It → N) (cst : It → C) :
    ∀ (fuel : Nat) (heap : List It) (pos : List (N × Nat)) (idx : Nat)
      (item : It),
      idx ≤ fuel → idx < heap.length →
      (∀ j, j < heap.length → 0 < j → j ≠ idx →
        optLE cst ((heap.set idx item).get? ((j - 1) / 2))
          ((heap.set idx item).get? j)) →
      (0 < idx → ∀ j, j < heap.length → (j - 1) / 2 = idx →
        optLE cst ((heap.set idx item).get? ((idx - 1) / 2))
          ((heap.set idx item).get? j)) →
      ((heap.set idx item).map nm).Nodup →
      PosExactExcept nm (heap.set idx item) pos (nm item) →
      HeapProp cst (msiftUpGo nm cst fuel heap pos idx item).1 ∧
      (msiftUpGo nm cst fuel heap pos idx item).1.Perm
        (heap.set idx item) ∧
      PosExact nm (msiftUpGo nm cst fuel heap pos idx item).1
        (msiftUpGo nm cst fuel heap pos idx item).2 := by
  intro fuel
  induction fuel with
  | zero =>
    intro heap pos idx item hfu hlen hC1 hC2 hnd hex
    have hidx0 : idx = 0 := Nat.le_zero.mp hfu
    subst hidx0
    exact ⟨heapProp_place cst hC1 (fun h0 => absurd h0 (lt_irrefl 0)),
      List.Perm.refl _, posExact_place nm hlen hnd hex⟩
  | succ fuel ih =>
    intro heap pos idx item hfu hlen hC1 hC2 hnd hex
    by_cases hidx : idx = 0
    · subst hidx
      rw [msiftUpGo_place0]
      exact ⟨heapProp_place cst hC1 (fun h0 => absurd h0 (lt_irrefl 0)),
        List.Perm.refl _, posExact_place nm hlen hnd hex⟩
    · have hpos : 0 < idx := Nat.pos_of_ne_zero hidx
      have hparlt : (idx - 1) / 2 < idx := by omega
      have hparlen : (idx - 1) / 2 < heap.length := lt_trans hparlt hlen
      obtain ⟨pit, hp⟩ : ∃ pit, heap.get? ((idx - 1) / 2) = some pit := by
        cases hg : heap.get? ((idx - 1) / 2) with
        | none =>
          exact absurd (List.get?_eq_none.mp hg) (Nat.not_le.mpr hparlen)
        | some pit => exact ⟨pit, rfl⟩
      have hAi : (heap.set idx item).get? idx = some item :=
        get?_set_self hlen item
      have hAp : (heap.set idx item).get? ((idx - 1) / 2) = some pit := by
        rw [get?_set_other (Nat.ne_of_gt hparlt) item]
        exact hp
      have hAo : ∀ j, j ≠ idx → (heap.set idx item).get? j = heap.get? j :=
        fun j h => get?_set_other (fun he => h he.symm) item
      by_cases hge : cst item ≥ cst pit
      · rw [msiftUpGo_stop nm cst hidx hp hge]
        refine ⟨heapProp_place cst hC1 ?_, List.Perm.refl _,
          posExact_place nm hlen hnd hex⟩
        intro _
        rw [hAp, hAi]
        exact hge
      · rw [msiftUpGo_step nm cst hidx hp hge]
        have hA'p : ((heap.set idx pit).set ((idx - 1) / 2) item).get?
            ((idx - 1) / 2) = some item :=
          get?_set_self (by rw [List.length_set]; exact hparlen) item
        have hA'i : ((heap.set idx pit).set ((idx - 1) / 2) item).get? idx =
            some pit := by
          rw [get?_set_other (Nat.ne_of_lt hparlt) item]
          exact get?_set_self hlen pit
        have hA'o : ∀ j, j ≠ (idx - 1) / 2 → j ≠ idx →
            ((heap.set idx pit).set ((idx - 1) / 2) item).get? j =
              heap.get? j := by
          intro j h1 h2
          rw [get?_set_other (fun he => h1 he.symm) item,
            get?_set_other (fun he => h2 he.symm) pit]
        have hperm : (((heap.set idx pit).set ((idx - 1) / 2) item)).Perm
            (heap.set idx item) := by
          have h1 : heap.set idx pit = (heap.set idx item).set idx pit := by
            rw [List.set_set]
          rw [h1]
          exact set_swap_perm (heap.set idx item) idx ((idx - 1) / 2) item pit
            (Nat.ne_of_gt hparlt) hAi hAp
        have hnd' : (((heap.set idx pit).set ((idx - 1) / 2) item).map
            nm).Nodup := (hperm.map nm).nodup_iff.mpr hnd
        have hC1' : ∀ j, j < (heap.set idx pit).length → 0 < j →
            j ≠ (idx - 1) / 2 →
            optLE cst (((heap.set idx pit).set ((idx - 1) / 2) item).get?
              ((j - 1) / 2))
              (((heap.set idx pit).set ((idx - 1) / 2) item).get? j) := by
          intro j hj hj0 hjp
          rw [List.length_set] at hj
          by_cases hji : j = idx
          · subst hji
            rw [hA'p, hA'i]
            exact le_of_lt (lt_of_not_ge hge)
          · by_cases hpj : (j - 1) / 2 = idx
            · rw [hpj, hA'i, hA'o j hjp hji]
              have h2 := hC2 hpos j hj hpj
              rw [hAp, hAo j hji] at h2
              exact h2
            · by_cases hpp : (j - 1) / 2 = (idx - 1) / 2
              · rw [hpp, hA'p, hA'o j hjp hji]
                have h1 := hC1 j hj hj0 hji
                rw [hpp, hAp, hAo j hji] at h1
                cases hw : heap.get? j with
                | none => exact trivial
                | some w =>
                  rw [hw] at h1
                  show cst item ≤ cst w
                  exact le_trans (le_of_lt (lt_of_not_ge hge)) h1
              · rw [hA'o _ hpp hpj, hA'o j hjp hji]
                have h1 := hC1 j hj hj0 hji
                rw [hAo _ hpj, hAo j hji] at h1
                exact h1
        have hC2' : 0 < (idx - 1) / 2 → ∀ j,
            j < (heap.set idx pit).length → (j - 1) / 2 = (idx - 1) / 2 →
            optLE cst (((heap.set idx pit).set ((idx - 1) / 2) item).get?
              (((idx - 1) / 2 - 1) / 2))
              (((heap.set idx pit).set ((idx - 1) / 2) item).get? j) := by
          intro hpp0 j hj hpj
          rw [List.length_set] at hj
          have hgp_lt : ((idx - 1) / 2 - 1) / 2 < (idx - 1) / 2 := by omega
          have hgp_ne_i : ((idx - 1) / 2 - 1) / 2 ≠ idx := by omega
          have hgp_ne_p : ((idx - 1) / 2 - 1) / 2 ≠ (idx - 1) / 2 :=
            Nat.ne_of_lt hgp_lt
          have hgpar := hC1 ((idx - 1) / 2) hparlen hpp0 (Nat.ne_of_lt hparlt)
          rw [hAp, hAo _ hgp_ne_i] at hgpar
          by_cases hji : j = idx
          · rw [hji, hA'i, hA'o _ hgp_ne_p hgp_ne_i]
            exact hgpar
          · have hjne_p : j ≠ (idx - 1) / 2 := by omega
            rw [hA'o j hjne_p hji, hA'o _ hgp_ne_p hgp_ne_i]
            have h1 := hC1 j hj (by omega) hji
            rw [hpj, hAp, hAo j hji] at h1
            cases hw : heap.get? j with
            | none => exact optLE_right_none cst _
            | some w =>
              rw [hw] at h1
              cases hg : heap.get? (((idx - 1) / 2 - 1) / 2) with
              | none => exact trivial
              | some g =>
                rw [hg] at hgpar
                show cst g ≤ cst w
                exact le_trans hgpar h1
        have hex' : PosExactExcept nm
            ((heap.set idx pit).set ((idx - 1) / 2) item)
            (aset pos (nm pit) idx) (nm item) := by
          obtain ⟨hsnd, hcmp, hknd⟩ := hex
          refine ⟨?_, ?_, aset_keys_nodup hknd _ _⟩
          · intro kv hkv hne
            rcases mem_aset.mp hkv with ⟨hmem, hnep⟩ | hkv'
            · obtain ⟨it0, hit0, hn0⟩ := hsnd kv hmem hne
              have hkv2i : kv.2 ≠ idx := by
                intro he
                rw [he, hAi] at hit0
                injection hit0 with h0
                exact hne (by rw [← hn0, ← h0])
              have hkv2p : kv.2 ≠ (idx - 1) / 2 := by
                intro he
                rw [he, hAp] at hit0
                injection hit0 with h0
                exact hnep (by rw [← hn0, ← h0])
              refine ⟨it0, ?_, hn0⟩
              rw [hA'o kv.2 hkv2p hkv2i, ← hAo kv.2 hkv2i]
              exact hit0
            · rw [hkv']
              exact ⟨pit, hA'i, rfl⟩
          · intro j hj
            rw [List.length_set, List.length_set] at hj
            cases hgj : ((heap.set idx pit).set ((idx - 1) / 2) item).get? j
              with
            | none => exact trivial
            | some it =>
              simp only [Option.elim]
              intro hni
              by_cases hjp : j = (idx - 1) / 2
              · rw [hjp, hA'p] at hgj
                injection hgj with h0
                exact absurd (by rw [h0]) hni
              · by_cases hji : j = idx
                · rw [hji, hA'i] at hgj
                  injection hgj with h0
                  rw [hji, ← h0]
                  exact mem_aset.mpr (Or.inr rfl)
                · rw [hA'o j hjp hji] at hgj
                  have hcm := hcmp j (by rw [List.length_set]; exact hj)
                  rw [hAo j hji, hgj] at hcm
                  simp only [Option.elim] at hcm
                  have hnp : nm it ≠ nm pit := by
                    intro he
                    exact hjp (names_get?_inj nm hnd
                      (by rw [hAo j hji]; exact hgj) hAp he)
                  exact mem_aset.mpr (Or.inl ⟨hcm hni, hnp⟩)
        have main := ih (heap.set idx pit) (aset pos (nm pit) idx)
          ((idx - 1) / 2) item (by omega)
          (by rw [List.length_set]; exact hparlen) hC1' hC2' hnd' hex'
        exact ⟨main.1, main.2.1.trans hperm, main.2.2⟩

/-! ## The indexed heaps: sift-down -/

theorem msiftDownGo_leaf {It N C : Type} [DecidableEq N] [LinearOrder C]
    (nm : It → N) (cst : It → C) {fuel : Nat} {heap : List It}
    {pos : List (N × Nat)} {idx : Nat} {item : It}
    (h : heap.length ≤ 2 * idx + 1) :
    msiftDownGo nm cst (fuel + 1) heap pos idx item =
      (heap.set idx item, aset pos (nm item) idx) := by
  simp only [msiftDownGo, if_pos h]

theorem msiftDownGo_stopR {It N C : Type} [DecidableEq N] [LinearOrder C]
    (nm : It → N) (cst : It → C) {fuel : Nat} {heap : List It}
    {pos : List (N × Nat)} {idx : Nat} {item lit rit : It}
    (h : ¬ heap.length ≤ 2 * idx + 1)
    (hl : heap.get? (2 * idx + 1) = some lit)
    (hr : heap.get? (2 * idx + 2) = some rit)
    (hcond : 2 * idx + 2 < heap.length ∧ cst rit < cst lit)
    (hge : cst rit ≥ cst item) :
    msiftDownGo nm cst (fuel + 1) heap pos idx item =
      (heap.set idx item, aset pos (nm item) idx) := by
  simp only [msiftDownGo, if_neg h, hl, hr, if_pos hcond, if_pos hge]

theorem msiftDownGo_stepR {It N C : Type} [DecidableEq N] [LinearOrder C]
    (nm : It → N) (cst : It → C) {fuel : Nat} {heap : List It}
    {pos : List (N × Nat)} {idx : Nat} {item lit rit : It}
    (h : ¬ heap.length ≤ 2 * idx + 1)
    (hl : heap.get? (2 * idx + 1) = some lit)
    (hr : heap.get? (2 * idx + 2) = some rit)
    (hcond : 2 * idx + 2 < heap.length ∧ cst rit < cst lit)
    (hge : ¬ cst rit ≥ cst item) :
    msiftDownGo nm cst (fuel + 1) heap pos idx item =
      msiftDownGo nm cst fuel (heap.set idx rit) (aset pos (nm rit) idx)
        (2 * idx + 2) item := by
  simp only [msiftDownGo, if_neg h, hl, hr, if_pos hcond, if_neg hge]

theorem msiftDownGo_stopLr {It N C : Type} [DecidableEq N] [LinearOrder C]
    (nm : It → N) (cst : It → C) {fuel : Nat} {heap : List It}
    {pos : List (N × Nat)} {idx : Nat} {item lit rit : It}
    (h : ¬ heap.length ≤ 2 * idx + 1)
    (hl : heap.get? (2 * idx + 1) = some lit)
    (hr : heap.get? (2 * idx + 2) = some rit)
    (hcond : ¬ (2 * idx + 2 < heap.length ∧ cst rit < cst lit))
    (hge : cst lit ≥ cst item) :
    msiftDownGo nm cst (fuel + 1) heap pos idx item =
      (heap.set idx item, aset pos (nm item) idx) := by
  simp only [msiftDownGo, if_neg h, hl, hr, if_neg hcond, if_pos hge]

theorem msiftDownGo_stepLr {It N C : Type} [DecidableEq N] [LinearOrder C]
    (nm : It → N) (cst : It → C) {fuel : Nat} {heap : List It}
    {pos : List (N × Nat)} {idx : Nat} {item lit rit : It}
    (h : ¬ heap.length ≤ 2 * idx + 1)
    (hl : heap.get? (2 * idx + 1) = some lit)
    (hr : heap.get? (2 * idx + 2) = some rit)
    (hcond : ¬ (2 * idx + 2 < heap.length ∧ cst rit < cst lit))
    (hge : ¬ cst lit ≥ cst item) :
    msiftDownGo nm cst (fuel + 1) heap pos idx item =
      msiftDownGo nm cst fuel (heap.set idx lit) (aset pos (nm lit) idx)
        (2 * idx + 1) item := by
  simp only [msiftDownGo, if_neg h, hl, hr, if_neg hcond, if_neg hge]

theorem msiftDownGo_stopLn {It N C : Type} [DecidableEq N] [LinearOrder C]
    (nm : It → N) (cst : It → C) {fuel : Nat} {heap : List It}
    {pos : List (N × Nat)} {idx : Nat} {item lit : It}
    (h : ¬ heap.length ≤ 2 * idx + 1)
    (hl : heap.get? (2 * idx + 1) = some lit)
    (hr : heap.get? (2 * idx + 2) = none)
    (hge : cst lit ≥ cst item) :
    msiftDownGo nm cst (fuel + 1) heap pos idx item =
      (heap.set idx item, aset pos (nm item) idx) := by
  simp only [msiftDownGo, if_neg h, hl, hr, if_pos hge]

theorem msiftDownGo_stepLn {It N C : Type} [DecidableEq N] [LinearOrder C]
    (nm : It → N) (cst : It → C) {fuel : Nat} {heap : List It}
    {pos : List (N × Nat)} {idx : Nat} {item lit : It}
    (h : ¬ heap.length ≤ 2 * idx + 1)
    (hl : heap.get? (2 * idx + 1) = some lit)
    (hr : heap.get? (2 * idx + 2) = none)
    (hge : ¬ cst lit ≥ cst item) :
    msiftDownGo nm cst (fuel + 1) heap pos idx item =
      msiftDownGo nm cst fuel (heap.set idx lit) (aset pos (nm lit) idx)
        (2 * idx + 1) item := by
  simp only [msiftDownGo, if_neg h, hl, hr, if_neg hge]

theorem heapProp_place_down {It C : Type} [LinearOrder C] (cst : It → C)
    {heap : List It} {idx : Nat} {item : It}
    (hD1 : ∀ j, j < heap.length → 0 < j → (j - 1) / 2 ≠ idx →
      optLE cst ((heap.set idx item).get? ((j - 1) / 2))
        ((heap.set idx item).get? j))
    (hchild : ∀ j, j < heap.length → 0 < j → (j - 1) / 2 = idx →
      optLE cst ((heap.set idx item).get? idx)
        ((heap.set idx item).get? j)) :
    HeapProp cst (heap.set idx item) := by
  intro j hj hj0
  rw [List.length_set] at hj
  by_cases hpj : (j - 1) / 2 = idx
  · rw [hpj]
    exact hchild j hj hj0 hpj
  · exact hD1 j hj hj0 hpj

theorem msiftDown_step_inv {It N C : Type} [DecidableEq N] [LinearOrder C]
    (nm : It → N) (cst : It → C) {heap : List It} {pos : List (N × Nat)}
    {idx c : Nat} {item cit : It}
    (hlen : idx < heap.length) (hcr : c < heap.length)
    (hcc : (c - 1) / 2 = idx) (hcg : idx < c)
    (hget : heap.get? c = some cit)
    (hlt : cst cit < cst item)
    (hsib : ∀ s, s < heap.length → 0 < s → (s - 1) / 2 = idx → s ≠ c →
      optLE cst (some cit) (heap.get? s))
    (hD1 : ∀ j, j < heap.length → 0 < j → (j - 1) / 2 ≠ idx →
      optLE cst ((heap.set idx item).get? ((j - 1) / 2))
        ((heap.set idx item).get? j))
    (hD2 : 0 < idx → ∀ j, j < heap.length → (j - 1) / 2 = idx →
      optLE cst ((heap.set idx item).get? ((idx - 1) / 2))
        ((heap.set idx item).get? j))
    (hnd : ((heap.set idx item).map nm).Nodup)
    (hex : PosExactExcept nm (heap.set idx item) pos (nm item)) :
    ((heap.set idx cit).set c item).Perm (heap.set idx item) ∧
    (∀ j, j < heap.length → 0 < j → (j - 1) / 2 ≠ c →
      optLE cst (((heap.set idx cit).set c item).get? ((j - 1) / 2))
        (((heap.set idx cit).set c item).get? j)) ∧
    (0 < c → ∀ j, j < heap.length → (j - 1) / 2 = c →
      optLE cst (((heap.set idx cit).set c item).get? ((c - 1) / 2))
        (((heap.set idx cit).set c item).get? j)) ∧
    (((heap.set idx cit).set c item).map nm).Nodup ∧
    PosExactExcept nm ((heap.set idx cit).set c item)
      (aset pos (nm cit) idx) (nm item) := by
  have hci : c ≠ idx := Nat.ne_of_gt hcg
  have hAi : (heap.set idx item).get? idx = some item :=
    get?_set_self hlen item
  have hAc : (heap.set idx item).get? c = some cit := by
    rw [get?_set_other (fun he => hci he.symm) item]
    exact hget
  have hAo : ∀ j, j ≠ idx → (heap.set idx item).get? j = heap.get? j :=
    fun j h => get?_set_other (fun he => h he.symm) item
  have hA'c : ((heap.set idx cit).set c item).get? c = some item :=
    get?_set_self (by rw [List.length_set]; exact hcr) item
  have hA'i : ((heap.set idx cit).set c item).get? idx = some cit := by
    rw [get?_set_other hci item]
    exact get?_set_self hlen cit
  have hA'o : ∀ j, j ≠ c → j ≠ idx →
      ((heap.set idx cit).set c item).get? j = heap.get? j := by
    intro j h1 h2
    rw [get?_set_other (fun he => h1 he.symm) item,
      get?_set_other (fun he => h2 he.symm) cit]
  have hperm : (((heap.set idx cit).set c item)).Perm
      (heap.set idx item) := by
    have h1 : heap.set idx cit = (heap.set idx item).set idx cit := by
      rw [List.set_set]
    rw [h1]
    exact set_swap_perm (heap.set idx item) idx c item cit
      (fun he => hci he.symm) hAi hAc
  refine ⟨hperm, ?_, ?_, (hperm.map nm).nodup_iff.mpr hnd, ?_⟩
  · intro j hj hj0 hjpc
    by_cases hjc : j = c
    · rw [hjc, hcc, hA'i, hA'c]
      exact le_of_lt hlt
    · by_cases hji : j = idx
      · have hidx0 : 0 < idx := by rw [hji] at hj0; exact hj0
        have hparlt : (idx - 1) / 2 < idx := by omega
        have hd2 := hD2 hidx0 c hcr hcc
        rw [hAc, hAo _ (Nat.ne_of_lt hparlt)] at hd2
        rw [hji, hA'i, hA'o ((idx - 1) / 2)
          (by omega) (Nat.ne_of_lt hparlt)]
        exact hd2
      · by_cases hpj : (j - 1) / 2 = idx
        · rw [hpj, hA'i, hA'o j hjc hji]
          exact hsib j hj hj0 hpj hjc
        · rw [hA'o _ hjpc hpj, hA'o j hjc hji]
          have h1 := hD1 j hj hj0 hpj
          rw [hAo _ hpj, hAo j hji] at h1
          exact h1
  · intro _ j hj hpj
    have hjc : j ≠ c := by omega
    have hji : j ≠ idx := by omega
    rw [hcc, hA'i, hA'o j hjc hji]
    have h1 := hD1 j hj (by omega) (by omega)
    rw [hpj, hAc, hAo j hji] at h1
    exact h1
  · obtain ⟨hsnd, hcmp, hknd⟩ := hex
    refine ⟨?_, ?_, aset_keys_nodup hknd _ _⟩
    · intro kv hkv hne
      rcases mem_aset.mp hkv with ⟨hmem, hnep⟩ | hkv'
      · obtain ⟨it0, hit0, hn0⟩ := hsnd kv hmem hne
        have hkv2i : kv.2 ≠ idx := by
          intro he
          rw [he, hAi] at hit0
          injection hit0 with h0
          exact hne (by rw [← hn0, ← h0])
        have hkv2c : kv.2 ≠ c := by
          intro he
          rw [he, hAc] at hit0
          injection hit0 with h0
          exact hnep (by rw [← hn0, ← h0])
        refine ⟨it0, ?_, hn0⟩
        rw [hA'o kv.2 hkv2c hkv2i, ← hAo kv.2 hkv2i]
        exact hit0
      · rw [hkv']
        exact ⟨cit, hA'i, rfl⟩
    · intro j hj
      rw [List.length_set, List.length_set] at hj
      cases hgj : ((heap.set idx cit).set c item).get? j with
      | none => exact trivial
      | some it =>
        simp only [Option.elim]
        intro hni
        by_cases hjc : j = c
        · rw [hjc, hA'c] at hgj
          injection hgj with h0
          exact absurd (by rw [h0]) hni
        · by_cases hji : j = idx
          · rw [hji, hA'i] at hgj
            injection hgj with h0
            rw [hji, ← h0]
            exact mem_aset.mpr (Or.inr rfl)
          · rw [hA'o j hjc hji] at hgj
            have hcm := hcmp j (by rw [List.length_set]; exact hj)
            rw [hAo j hji, hgj] at hcm
            simp only [Option.elim] at hcm
            have hnc : nm it ≠ nm cit := by
              intro he
              exact hjc (names_get?_inj nm hnd
                (by rw [hAo j hji]; exact hgj) hAc he)
            exact mem_aset.mpr (Or.inl ⟨hcm hni, hnc⟩)

theorem msiftDownGo_spec {It N C : Type} [DecidableEq N] [LinearOrder C]
    (nm : It → N) (cst : It → C) :
    ∀ (fuel : Nat) (heap : List It) (pos : List (N × Nat)) (idx : Nat)
      (item : It),
      heap.length ≤ fuel + idx → idx < heap.length →
      (∀ j, j < heap.length → 0 < j → (j - 1) / 2 ≠ idx →
        optLE cst ((heap.set idx item).get? ((j - 1) / 2))
          ((heap.set idx item).get? j)) →
      (0 < idx → ∀ j, j < heap.length → (j - 1) / 2 = idx →
        optLE cst ((heap.set idx item).get? ((idx - 1) / 2))
          ((heap.set idx item).get? j)) →
      ((heap.set idx item).map nm).Nodup →
      PosExactExcept nm (heap.set idx item) pos (nm item) →
      HeapProp cst (msiftDownGo nm cst fuel heap pos idx item).1 ∧
      (msiftDownGo nm cst fuel heap pos idx item).1.Perm
        (heap.set idx item) ∧
      PosExact nm (msiftDownGo nm cst fuel heap pos idx item).1
        (msiftDownGo nm cst fuel heap pos idx item).2 := by
  intro fuel
  induction fuel with
  | zero =>
    intro heap pos idx item hfu hlen _ _ _ _
    exact absurd hlen (Nat.not_lt.mpr (by omega))
  | succ fuel ih =>
    intro heap pos idx item hfu hlen hD1 hD2 hnd hex
    have hAi : (heap.set idx item).get? idx = some item :=
      get?_set_self hlen item
    have hAo : ∀ j, j ≠ idx → (heap.set idx item).get? j = heap.get? j :=
      fun j h => get?_set_other (fun he => h he.symm) item
    by_cases hleaf : heap.length ≤ 2 * idx + 1
    · rw [msiftDownGo_leaf nm cst hleaf]
      refine ⟨heapProp_place_down cst hD1 ?_, List.Perm.refl _,
        posExact_place nm hlen hnd hex⟩
      intro j hj hj0 hpj
      exact absurd hj (by omega)
    · have hlr : 2 * idx + 1 < heap.length := Nat.lt_of_not_le hleaf
      obtain ⟨lit, hl⟩ : ∃ lit, heap.get? (2 * idx + 1) = some lit := by
        cases hg : heap.get? (2 * idx + 1) with
        | none =>
          exact absurd (List.get?_eq_none.mp hg) (Nat.not_le.mpr hlr)
        | some lit => exact ⟨lit, rfl⟩
      have hl_child : (2 * idx + 1 - 1) / 2 = idx := by omega
      have hr_child : (2 * idx + 2 - 1) / 2 = idx := by omega
      cases hr : heap.get? (2 * idx + 2) with
      | some rit =>
        have hrr : 2 * idx + 2 < heap.length := by
          by_contra hcon
          rw [List.get?_eq_none.mpr (Nat.le_of_not_lt hcon)] at hr
          exact Option.noConfusion hr
        by_cases hcond : 2 * idx + 2 < heap.length ∧ cst rit < cst lit
        · by_cases hge : cst rit ≥ cst item
          · rw [msiftDownGo_stopR nm cst hleaf hl hr hcond hge]
            refine ⟨heapProp_place_down cst hD1 ?_, List.Perm.refl _,
              posExact_place nm hlen hnd hex⟩
            intro j hj hj0 hpj
            have hj12 : j = 2 * idx + 1 ∨ j = 2 * idx + 2 := by omega
            rw [hAi]
            rcases hj12 with hj1 | hj2
            · rw [hj1, hAo _ (by omega), hl]
              exact le_trans hge (le_of_lt hcond.2)
            · rw [hj2, hAo _ (by omega), hr]
              exact hge
          · rw [msiftDownGo_stepR nm cst hleaf hl hr hcond hge]
            have hinv := msiftDown_step_inv nm cst hlen hrr hr_child
              (by omega) hr (lt_of_not_ge hge) ?_ hD1 hD2 hnd hex
            · have main := ih (heap.set idx rit) (aset pos (nm rit) idx)
                (2 * idx + 2) item (by rw [List.length_set]; omega)
                (by rw [List.length_set]; exact hrr)
                (by rw [List.length_set]; exact hinv.2.1)
                (by rw [List.length_set]; exact hinv.2.2.1)
                hinv.2.2.2.1 hinv.2.2.2.2
              exact ⟨main.1, main.2.1.trans hinv.1, main.2.2⟩
            · intro s hs hs0 hps hsc
              have hs1 : s = 2 * idx + 1 := by omega
              rw [hs1, hl]
              exact le_of_lt hcond.2
        · by_cases hge : cst lit ≥ cst item
          · rw [msiftDownGo_stopLr nm cst hleaf hl hr hcond hge]
            refine ⟨heapProp_place_down cst hD1 ?_, List.Perm.refl _,
              posExact_place nm hlen hnd hex⟩
            intro j hj hj0 hpj
            have hj12 : j = 2 * idx + 1 ∨ j = 2 * idx + 2 := by omega
            rw [hAi]
            rcases hj12 with hj1 | hj2
            · rw [hj1, hAo _ (by omega), hl]
              exact hge
            · rw [hj2, hAo _ (by omega), hr]
              have hrl : cst lit ≤ cst rit := by
                by_contra hcon
                exact hcond ⟨hrr, lt_of_not_ge hcon⟩
              exact le_trans hge hrl
          · rw [msiftDownGo_stepLr nm cst hleaf hl hr hcond hge]
            have hinv := msiftDown_step_inv nm cst hlen hlr hl_child
              (by omega) hl (lt_of_not_ge hge) ?_ hD1 hD2 hnd hex
            · have main := ih (heap.set idx lit) (aset pos (nm lit) idx)
                (2 * idx + 1) item (by rw [List.length_set]; omega)
                (by rw [List.length_set]; exact hlr)
                (by rw [List.length_set]; exact hinv.2.1)
                (by rw [List.length_set]; exact hinv.2.2.1)
                hinv.2.2.2.1 hinv.2.2.2.2
              exact ⟨main.1, main.2.1.trans hinv.1, main.2.2⟩
            · intro s hs hs0 hps hsc
              have hs2 : s = 2 * idx + 2 := by omega
              rw [hs2, hr]
              have hrl : cst lit ≤ cst rit := by
                by_contra hcon
                exact hcond ⟨hrr, lt_of_not_ge hcon⟩
              exact hrl
      | none =>
        have hlen2 : heap.length ≤ 2 * idx + 2 := List.get?_eq_none.mp hr
        by_cases hge : cst lit ≥ cst item
        · rw [msiftDownGo_stopLn nm cst hleaf hl hr hge]
          refine ⟨heapProp_place_down cst hD1 ?_, List.Perm.refl _,
            posExact_place nm hlen hnd hex⟩
          intro j hj hj0 hpj
          have hj1 : j = 2 * idx + 1 := by omega
          rw [hAi, hj1, hAo _ (by omega), hl]
          exact hge
        · rw [msiftDownGo_stepLn nm cst hleaf hl hr hge]
          have hinv := msiftDown_step_inv nm cst hlen hlr hl_child
            (by omega) hl (lt_of_not_ge hge) ?_ hD1 hD2 hnd hex
          · have main := ih (heap.set idx lit) (aset pos (nm lit) idx)
              (2 * idx + 1) item (by rw [List.length_set]; omega)
              (by rw [List.length_set]; exact hlr)
              (by rw [List.length_set]; exact hinv.2.1)
              (by rw [List.length_set]; exact hinv.2.2.1)
              hinv.2.2.2.1 hinv.2.2.2.2
            exact ⟨main.1, main.2.1.trans hinv.1, main.2.2⟩
          · intro s hs hs0 hps hsc
            exact absurd hs (by omega)

/-! ## The indexed heaps: the public operations preserve well-formedness -/

theorem heapProp_root_min {It C : Type} [LinearOrder C] (cst : It → C)
    {heap : List It} (hp : HeapProp cst heap) {top : It}
    (htop : heap.get? 0 = some top) :
    ∀ x ∈ heap, cst top ≤ cst x := by
  have hidx : ∀ j, j < heap.length → ∀ x, heap.get? j = some x →
      cst top ≤ cst x := by
    intro j
    induction j using Nat.strong_induction_on with
    | _ j ihj =>
      intro hj x hx
      cases Nat.eq_zero_or_pos j with
      | inl h0 =>
        subst h0
        rw [htop] at hx
        injection hx with h
        rw [h]
      | inr hpos =>
        have hplt : (j - 1) / 2 < j := by omega
        have hple : (j - 1) / 2 < heap.length := lt_trans hplt hj
        obtain ⟨p, hpv⟩ : ∃ p, heap.get? ((j - 1) / 2) = some p := by
          cases hg : heap.get? ((j - 1) / 2) with
          | none =>
            exact absurd (List.get?_eq_none.mp hg) (Nat.not_le.mpr hple)
          | some p => exact ⟨p, rfl⟩
        have h1 := hp j hj hpos
        rw [hpv, hx] at h1
        exact le_trans (ihj _ hplt hple p hpv) h1
  intro x hx
  obtain ⟨n, hn⟩ := List.mem_iff_get?.mp hx
  have hnlen : n < heap.length := by
    by_contra hc
    rw [List.get?_eq_none.mpr (Nat.le_of_not_lt hc)] at hn
    exact Option.noConfusion hn
  exact hidx n hnlen x hn

theorem mPop_top {It N C : Type} [DecidableEq N] [LinearOrder C]
    {nm : It → N} {cst : It → C} {h : HeapSt It N} {it : It}
    {h' : HeapSt It N} (hp : mPop nm cst h = some (it, h')) :
    h.heap.get? 0 = some it := by
  obtain ⟨heap, pos⟩ := h
  match heap with
  | [] => exact Option.noConfusion hp
  | [top] =>
    simp only [mPop] at hp
    injection hp with hp1
    injection hp1 with hp2 hp3
    rw [hp2]
    rfl
  | top :: next :: rest =>
    simp only [mPop] at hp
    injection hp with hp1
    injection hp1 with hp2 hp3
    rw [hp2]
    rfl

theorem emptyHeap_wf {It N C : Type} [DecidableEq N] [LinearOrder C]
    (nm : It → N) (cst : It → C) :
    MinHeapWF nm cst (@emptyHeap It N) := by
  refine ⟨?_, List.nodup_nil, ?_, ?_, List.nodup_nil⟩
  · intro j hj _
    exact absurd hj (by simp [emptyHeap])
  · intro kv hkv
    exact absurd hkv (List.not_mem_nil kv)
  · intro j hj
    exact absurd hj (by simp [emptyHeap])

theorem mAddOrUpdate_wf {It N C : Type} [DecidableEq N] [LinearOrder C]
    (nm : It → N) (cst : It → C) (h : HeapSt It N) (obj : It)
    (hwf : MinHeapWF nm cst h) :
    MinHeapWF nm cst (mAddOrUpdate nm cst h obj) := by
  obtain ⟨hhp, hnd, hsnd, hcmp, hknd⟩ := hwf
  cases halk : alookup h.pos (nm obj) with
  | none =>
    have hfresh : nm obj ∉ h.heap.map nm := by
      intro hmem
      obtain ⟨j, hj⟩ := List.mem_iff_get?.mp hmem
      rw [List.get?_map] at hj
      cases hg : h.heap.get? j with
      | none => rw [hg] at hj; exact Option.noConfusion hj
      | some it =>
        rw [hg] at hj
        injection hj with hj1
        have hjlen : j < h.heap.length := by
          by_contra hc
          rw [List.get?_eq_none.mpr (Nat.le_of_not_lt hc)] at hg
          exact Option.noConfusion hg
        have hcm := hcmp j hjlen
        rw [hg] at hcm
        simp only [Option.elim] at hcm
        rw [hj1] at hcm
        rw [mem_alookup hknd hcm] at halk
        exact Option.noConfusion halk
    have hres : mAddOrUpdate nm cst h obj =
        ⟨(msiftUpGo nm cst h.heap.length (h.heap ++ [obj])
            (aset h.pos (nm obj) h.heap.length) h.heap.length obj).1,
          (msiftUpGo nm cst h.heap.length (h.heap ++ [obj])
            (aset h.pos (nm obj) h.heap.length) h.heap.length obj).2⟩ := by
      simp only [mAddOrUpdate, halk]
    have hBset : (h.heap ++ [obj]).set h.heap.length obj =
        h.heap ++ [obj] :=
      set_same (List.get?_concat_length h.heap obj)
    have hBlen : h.heap.length < (h.heap ++ [obj]).length := by
      rw [List.length_append]
      simp
    have hBget : ∀ j, j < h.heap.length →
        (h.heap ++ [obj]).get? j = h.heap.get? j :=
      fun j hj => List.get?_append hj
    have hnd' : (((h.heap ++ [obj]).set h.heap.length obj).map nm).Nodup := by
      rw [hBset, List.map_append]
      refine List.Nodup.append hnd (List.nodup_singleton _) ?_
      intro a ha hb
      simp only [List.map_cons, List.map_nil, List.mem_singleton] at hb
      rw [hb] at ha
      exact hfresh ha
    have spec := msiftUpGo_spec nm cst h.heap.length (h.heap ++ [obj])
      (aset h.pos (nm obj) h.heap.length) h.heap.length obj
      (le_refl _) hBlen
      (by
        intro j hj hj0 hjl
        rw [List.length_append] at hj
        have hjlt : j < h.heap.length := by simp at hj; omega
        have hplt : (j - 1) / 2 < h.heap.length := by omega
        rw [hBset, hBget j hjlt, hBget _ hplt]
        exact hhp j hjlt hj0)
      (by
        intro h0 j hj hpj
        rw [List.length_append] at hj
        simp at hj
        omega)
      hnd'
      (by
        rw [hBset]
        refine ⟨?_, ?_, aset_keys_nodup hknd _ _⟩
        · intro kv hkv hne
          rcases mem_aset.mp hkv with ⟨hmem, _⟩ | hkv'
          · obtain ⟨it, hit, hn0⟩ := hsnd kv hmem
            have hkvlen : kv.2 < h.heap.length := by
              by_contra hc
              rw [List.get?_eq_none.mpr (Nat.le_of_not_lt hc)] at hit
              exact Option.noConfusion hit
            exact ⟨it, by rw [hBget kv.2 hkvlen]; exact hit, hn0⟩
          · exact absurd (by rw [hkv']) hne
        · intro j hj
          rw [List.length_append] at hj
          simp only [List.length_singleton] at hj
          cases hgj : (h.heap ++ [obj]).get? j with
          | none => exact trivial
          | some it =>
            simp only [Option.elim]
            intro hni
            have hjlt : j < h.heap.length := by
              by_contra hc
              have hjeq : j = h.heap.length := by omega
              rw [hjeq, List.get?_concat_length] at hgj
              injection hgj with h0
              exact hni (by rw [← h0])
            rw [hBget j hjlt] at hgj
            have hcm := hcmp j hjlt
            rw [hgj] at hcm
            simp only [Option.elim] at hcm
            exact mem_aset.mpr (Or.inl ⟨hcm, hni⟩))
    rw [hres]
    rw [hBset] at spec
    exact ⟨spec.1, (spec.2.1.map nm).nodup_iff.mpr
      (by rw [← hBset]; exact hnd'), spec.2.2⟩
  | some idx =>
    cases hgi : h.heap.get? idx with
    | none =>
      have hres : mAddOrUpdate nm cst h obj = h := by
        simp only [mAddOrUpdate, halk, hgi]
      rw [hres]
      exact ⟨hhp, hnd, hsnd, hcmp, hknd⟩
    | some old =>
      have hidxlen : idx < h.heap.length := by
        by_contra hc
        rw [List.get?_eq_none.mpr (Nat.le_of_not_lt hc)] at hgi
        exact Option.noConfusion hgi
      have hnmold : nm old = nm obj := by
        obtain ⟨it0, hit0, hn0⟩ := hsnd (nm obj, idx) (alookup_mem halk)
        rw [hgi] at hit0
        injection hit0 with h0
        rw [← h0] at hn0
        exact hn0
      have hnd1 : ((h.heap.set idx obj).map nm).Nodup := by
        rw [List.map_set]
        rw [set_same (by
          rw [List.get?_map, hgi]
          show some (nm old) = some (nm obj)
          rw [hnmold])]
        exact hnd
      have hex1 : PosExactExcept nm (h.heap.set idx obj) h.pos (nm obj) := by
        refine ⟨?_, ?_, hknd⟩
        · intro kv hkv hne
          obtain ⟨it0, hit0, hn0⟩ := hsnd kv hkv
          have hkv2 : kv.2 ≠ idx := by
            intro he
            rw [he, hgi] at hit0
            injection hit0 with h0
            rw [← h0, hnmold] at hn0
            exact hne hn0.symm
          exact ⟨it0, by
            rw [get?_set_other (fun heq => hkv2 heq.symm) obj]
            exact hit0, hn0⟩
        · intro j hj
          rw [List.length_set] at hj
          cases hgj : (h.heap.set idx obj).get? j with
          | none => exact trivial
          | some it =>
            simp only [Option.elim]
            intro hni
            have hji : j ≠ idx := by
              intro he
              rw [he, get?_set_self hidxlen obj] at hgj
              injection hgj with h0
              exact hni (by rw [h0])
            rw [get?_set_other (fun heq => hji heq.symm) obj] at hgj
            have hcm := hcmp j hj
            rw [hgj] at hcm
            simp only [Option.elim] at hcm
            exact hcm
      have hAo : ∀ j, j ≠ idx →
          (h.heap.set idx obj).get? j = h.heap.get? j :=
        fun j hji => get?_set_other (fun heq => hji heq.symm) obj
      have hAi : (h.heap.set idx obj).get? idx = some obj :=
        get?_set_self hidxlen obj
      by_cases hup : cst obj < cst old
      · have hres : mAddOrUpdate nm cst h obj =
            ⟨(msiftUpGo nm cst idx (h.heap.set idx obj) h.pos idx obj).1,
              (msiftUpGo nm cst idx (h.heap.set idx obj) h.pos
                idx obj).2⟩ := by
          simp only [mAddOrUpdate, halk, hgi, if_pos hup]
        have hset2 : (h.heap.set idx obj).set idx obj =
            h.heap.set idx obj := List.set_set obj obj h.heap idx
        have spec := msiftUpGo_spec nm cst idx (h.heap.set idx obj) h.pos
          idx obj (le_refl _) (by rw [List.length_set]; exact hidxlen)
          (by
            rw [List.length_set, hset2]
            intro j hj hj0 hji
            by_cases hpj : (j - 1) / 2 = idx
            · rw [hpj, hAi, hAo j hji]
              have h1 := hhp j hj hj0
              rw [hpj, hgi] at h1
              cases hw : h.heap.get? j with
              | none => exact trivial
              | some w =>
                rw [hw] at h1
                exact le_trans (le_of_lt hup) h1
            · rw [hAo _ hpj, hAo j hji]
              exact hhp j hj hj0
          )
          (by
            rw [List.length_set, hset2]
            intro h0 j hj hpj
            have hparlt : (idx - 1) / 2 < idx := by omega
            have hparlen : (idx - 1) / 2 < h.heap.length :=
              lt_trans hparlt hidxlen
            have hji : j ≠ idx := by omega
            rw [hAo _ (Nat.ne_of_lt hparlt), hAo j hji]
            have h1 := hhp idx hidxlen h0
            rw [hgi] at h1
            have h2 := hhp j hj (by omega)
            rw [hpj, hgi] at h2
            cases hw : h.heap.get? j with
            | none => exact optLE_right_none cst _
            | some w =>
              rw [hw] at h2
              cases hg : h.heap.get? ((idx - 1) / 2) with
              | none => exact trivial
              | some g =>
                rw [hg] at h1
                show cst g ≤ cst w
                exact le_trans h1 h2
          )
          (by rw [hset2]; exact hnd1)
          (by rw [hset2]; exact hex1)
        rw [hres]
        rw [hset2] at spec
        exact ⟨spec.1, (spec.2.1.map nm).nodup_iff.mpr hnd1, spec.2.2⟩
      · by_cases hdown : cst obj > cst old
        · have hres : mAddOrUpdate nm cst h obj =
              ⟨(msiftDownGo nm cst (h.heap.set idx obj).length
                  (h.heap.set idx obj) h.pos idx obj).1,
                (msiftDownGo nm cst (h.heap.set idx obj).length
                  (h.heap.set idx obj) h.pos idx obj).2⟩ := by
            simp only [mAddOrUpdate, halk, hgi, if_neg hup, if_pos hdown]
          have hset2 : (h.heap.set idx obj).set idx obj =
              h.heap.set idx obj := List.set_set obj obj h.heap idx
          have spec := msiftDownGo_spec nm cst (h.heap.set idx obj).length
            (h.heap.set idx obj) h.pos idx obj
            (by omega)
            (by rw [List.length_set]; exact hidxlen)
            (by
              rw [List.length_set, hset2]
              intro j hj hj0 hpj
              by_cases hji : j = idx
              · rw [hji, hAi, hAo _ (by omega)]
                have h1 := hhp idx hidxlen (by omega)
                rw [hgi] at h1
                cases hg : h.heap.get? ((idx - 1) / 2) with
                | none => exact trivial
                | some g =>
                  rw [hg] at h1
                  show cst g ≤ cst obj
                  exact le_trans h1 (le_of_lt hdown)
              · rw [hAo _ hpj, hAo j hji]
                exact hhp j hj hj0
            )
            (by
              rw [List.length_set, hset2]
              intro h0 j hj hpj
              have hparlt : (idx - 1) / 2 < idx := by omega
              have hji : j ≠ idx := by omega
              rw [hAo _ (Nat.ne_of_lt hparlt), hAo j hji]
              have h1 := hhp idx hidxlen h0
              rw [hgi] at h1
              have h2 := hhp j hj (by omega)
              rw [hpj, hgi] at h2
              cases hw : h.heap.get? j with
              | none => exact optLE_right_none cst _
              | some w =>
                rw [hw] at h2
                cases hg : h.heap.get? ((idx - 1) / 2) with
                | none => exact trivial
                | some g =>
                  rw [hg] at h1
                  show cst g ≤ cst w
                  exact le_trans h1 h2
            )
            (by rw [hset2]; exact hnd1)
            (by rw [hset2]; exact hex1)
          rw [hres]
          rw [hset2] at spec
          exact ⟨spec.1, (spec.2.1.map nm).nodup_iff.mpr hnd1, spec.2.2⟩
        · have heq : cst obj = cst old :=
            le_antisymm (le_of_not_lt hdown) (le_of_not_lt hup)
          have hres : mAddOrUpdate nm cst h obj =
              ⟨h.heap.set idx obj, h.pos⟩ := by
            simp only [mAddOrUpdate, halk, hgi, if_neg hup, if_neg hdown]
          rw [hres]
          refine ⟨?_, hnd1, ?_, ?_, hknd⟩
          · intro j hj hj0
            rw [List.length_set] at hj
            by_cases hji : j = idx
            · have hpj_ne : (j - 1) / 2 ≠ idx := by omega
              rw [hji, hAi, hAo _ (by omega)]
              have h1 := hhp idx hidxlen (by rw [hji] at hj0; exact hj0)
              rw [hgi] at h1
              cases hg : h.heap.get? ((idx - 1) / 2) with
              | none => exact trivial
              | some g =>
                rw [hg] at h1
                show cst g ≤ cst obj
                rw [heq]
                exact h1
            · by_cases hpj : (j - 1) / 2 = idx
              · rw [hpj, hAi, hAo j hji]
                have h1 := hhp j hj hj0
                rw [hpj, hgi] at h1
                cases hw : h.heap.get? j with
                | none => exact trivial
                | some w =>
                  rw [hw] at h1
                  show cst obj ≤ cst w
                  rw [heq]
                  exact h1
              · rw [hAo _ hpj, hAo j hji]
                exact hhp j hj hj0
          · intro kv hkv
            obtain ⟨it0, hit0, hn0⟩ := hsnd kv hkv
            by_cases hkv2 : kv.2 = idx
            · refine ⟨obj, by rw [hkv2]; exact hAi, ?_⟩
              rw [hkv2, hgi] at hit0
              injection hit0 with h0
              rw [← hnmold, h0]
              exact hn0
            · exact ⟨it0, by rw [hAo kv.2 hkv2]; exact hit0, hn0⟩
          · intro j hj
            rw [List.length_set] at hj
            cases hgj : (h.heap.set idx obj).get? j with
            | none => exact trivial
            | some it =>
              simp only [Option.elim]
              by_cases hji : j = idx
              · rw [hji, hAi] at hgj
                injection hgj with h0
                rw [hji, ← h0]
                exact alookup_mem halk
              · rw [hAo j hji] at hgj
                have hcm := hcmp j hj
                rw [hgj] at hcm
                simp only [Option.elim] at hcm
                exact hcm

theorem mPop_rest_spec {It N C : Type} [DecidableEq N] [LinearOrder C]
    (nm : It → N) (cst : It → C) (top : It) (tl : List It)
    (pos : List (N × Nat)) (hne : tl ≠ [])
    (hhp : HeapProp cst (top :: tl)) (hnd : ((top :: tl).map nm).Nodup)
    (hsnd : ∀ kv ∈ pos, ∃ it,
      (top :: tl).get? kv.2 = some it ∧ nm it = kv.1)
    (hcmp : ∀ j, j < (top :: tl).length →
      (((top :: tl).get? j).elim True fun it => (nm it, j) ∈ pos))
    (hknd : (pos.map Prod.fst).Nodup) :
    MinHeapWF nm cst
      ⟨(msiftDownGo nm cst (tl.getLast hne :: tl.dropLast).length
          (tl.getLast hne :: tl.dropLast)
          (aset (adel pos (nm top)) (nm (tl.getLast hne)) 0) 0
          (tl.getLast hne)).1,
        (msiftDownGo nm cst (tl.getLast hne :: tl.dropLast).length
          (tl.getLast hne :: tl.dropLast)
          (aset (adel pos (nm top)) (nm (tl.getLast hne)) 0) 0
          (tl.getLast hne)).2⟩ ∧
    (msiftDownGo nm cst (tl.getLast hne :: tl.dropLast).length
        (tl.getLast hne :: tl.dropLast)
        (aset (adel pos (nm top)) (nm (tl.getLast hne)) 0) 0
        (tl.getLast hne)).1.length + 1 = (top :: tl).length ∧
    ∀ x ∈ (msiftDownGo nm cst (tl.getLast hne :: tl.dropLast).length
        (tl.getLast hne :: tl.dropLast)
        (aset (adel pos (nm top)) (nm (tl.getLast hne)) 0) 0
        (tl.getLast hne)).1, x ∈ top :: tl := by
  obtain ⟨lastv, hgl⟩ : ∃ v, tl.getLast hne = v := ⟨_, rfl⟩
  obtain ⟨ds, hgd⟩ : ∃ d, tl.dropLast = d := ⟨_, rfl⟩
  rw [hgl, hgd]
  have hsplit : ds ++ [lastv] = tl := by
    rw [← hgl, ← hgd]
    exact List.dropLast_append_getLast hne
  rw [← hsplit] at hhp hnd hsnd hcmp ⊢
  have hLtop : (top :: (ds ++ [lastv])).get? 0 = some top := rfl
  have hL : ∀ m, m < ds.length →
      (top :: (ds ++ [lastv])).get? (m + 1) = ds.get? m := by
    intro m hm
    show (ds ++ [lastv]).get? m = ds.get? m
    exact List.get?_append hm
  have hLlast : (top :: (ds ++ [lastv])).get? (ds.length + 1) =
      some lastv := by
    show (ds ++ [lastv]).get? ds.length = some lastv
    exact List.get?_concat_length ds lastv
  have hB : ∀ m, (lastv :: ds).get? (m + 1) = ds.get? m := fun m => rfl
  have hLforB : ∀ k, 0 < k → k < ds.length + 1 →
      (lastv :: ds).get? k = (top :: (ds ++ [lastv])).get? k := by
    intro k hk0 hk
    obtain ⟨m, rfl⟩ : ∃ m, k = m + 1 := ⟨k - 1, by omega⟩
    rw [hB m, hL m (by omega)]
  have hLlen : (top :: (ds ++ [lastv])).length = ds.length + 2 := by
    simp
  rw [List.map_cons, List.map_append] at hnd
  obtain ⟨hnotmem, htail⟩ := List.nodup_cons.mp hnd
  have hnd' : (((lastv :: ds).set 0 lastv).map nm).Nodup := by
    show ((lastv :: ds).map nm).Nodup
    show (nm lastv :: ds.map nm).Nodup
    exact (perm_append_singleton_cons (nm lastv) (ds.map nm)).nodup_iff.mp
      (by simpa using htail)
  have hnd2 : ((top :: (ds ++ [lastv])).map nm).Nodup := by
    rw [List.map_cons, List.map_append]
    exact hnd
  have spec := msiftDownGo_spec nm cst (lastv :: ds).length (lastv :: ds)
    (aset (adel pos (nm top)) (nm lastv) 0) 0 lastv
    (by omega)
    (by simp)
    (by
      intro j hj hj0 hpj
      simp only [List.length_cons] at hj
      show optLE cst ((lastv :: ds).get? ((j - 1) / 2))
        ((lastv :: ds).get? j)
      rw [hLforB j hj0 hj, hLforB ((j - 1) / 2) (by omega) (by omega)]
      exact hhp j (by omega) hj0)
    (fun h0 => absurd h0 (lt_irrefl 0))
    hnd'
    (by
      refine ⟨?_, ?_, aset_keys_nodup (adel_keys_nodup hknd _) _ _⟩
      · intro kv hkv hne2
        rcases mem_aset.mp hkv with ⟨hmem1, _⟩ | hkv'
        · obtain ⟨hkm, hkne_top⟩ := mem_adel.mp hmem1
          obtain ⟨it0, hit0, hn0⟩ := hsnd kv hkm
          have hkvlen : kv.2 < (top :: (ds ++ [lastv])).length := by
            by_contra hc
            rw [List.get?_eq_none.mpr (Nat.le_of_not_lt hc)] at hit0
            exact Option.noConfusion hit0
          rw [hLlen] at hkvlen
          by_cases hz : kv.2 = 0
          · rw [hz, hLtop] at hit0
            injection hit0 with h0
            exact absurd (by rw [← hn0, ← h0]) hkne_top
          · by_cases hlast : kv.2 = ds.length + 1
            · rw [hlast, hLlast] at hit0
              injection hit0 with h0
              exact absurd (by rw [← hn0, ← h0]) hne2
            · refine ⟨it0, ?_, hn0⟩
              show (lastv :: ds).get? kv.2 = some it0
              rw [hLforB kv.2 (by omega) (by omega)]
              exact hit0
        · rw [hkv'] at hne2
          exact absurd rfl hne2
      · intro j hj
        simp only [List.length_set, List.length_cons] at hj
        show (((lastv :: ds).get? j).elim True fun it =>
          nm it ≠ nm lastv →
            (nm it, j) ∈ aset (adel pos (nm top)) (nm lastv) 0)
        cases hgj : (lastv :: ds).get? j with
        | none => exact trivial
        | some it =>
          simp only [Option.elim]
          intro hni
          by_cases hz : j = 0
          · rw [hz] at hgj
            injection hgj with h0
            exact absurd (by rw [← h0]) hni
          · rw [hLforB j (by omega) hj] at hgj
            have hnt : nm it ≠ nm top := by
              intro he
              exact hz (names_get?_inj nm hnd2 hgj hLtop he)
            have hcm := hcmp j (by omega)
            rw [hgj] at hcm
            simp only [Option.elim] at hcm
            exact mem_aset.mpr (Or.inl ⟨mem_adel.mpr ⟨hcm, hnt⟩, hni⟩))
  refine ⟨⟨spec.1, (spec.2.1.map nm).nodup_iff.mpr hnd', spec.2.2⟩, ?_, ?_⟩
  · rw [spec.2.1.length_eq]
    simp
  · intro x hx
    have hx' : x ∈ lastv :: ds := spec.2.1.mem_iff.mp hx
    rcases List.mem_cons.mp hx' with h1 | h2
    · rw [h1]
      exact List.mem_cons_of_mem top
        (List.mem_append_right ds (List.mem_singleton_self lastv))
    · exact List.mem_cons_of_mem top (List.mem_append_left [lastv] h2)

theorem mPop_spec {It N C : Type} [DecidableEq N] [LinearOrder C]
    (nm : It → N) (cst : It → C) (h : HeapSt It N)
    (hwf : MinHeapWF nm cst h) :
    ∀ it h', mPop nm cst h = some (it, h') →
      h.heap.get? 0 = some it ∧ MinHeapWF nm cst h' ∧
      h'.heap.length + 1 = h.heap.length ∧
      ∀ x ∈ h'.heap, x ∈ h.heap := by
  obtain ⟨heap, pos⟩ := h
  obtain ⟨hhp, hnd, hsnd, hcmp, hknd⟩ := hwf
  intro it h' hp
  rcases heap with _ | ⟨top, _ | ⟨next, rest⟩⟩
  · exact Option.noConfusion hp
  · simp only [mPop] at hp
    injection hp with hp1
    injection hp1 with hpit hph'
    subst hph'
    refine ⟨by rw [← hpit]; rfl,
      ⟨?_, List.nodup_nil, ?_, ?_, adel_keys_nodup hknd _⟩, by simp, ?_⟩
    · intro j hj _
      simp at hj
    · intro kv hkv
      exfalso
      obtain ⟨hkm, hkne⟩ := mem_adel.mp hkv
      obtain ⟨it0, hit0, hn0⟩ := hsnd kv hkm
      cases hkv2 : kv.2 with
      | zero =>
        rw [hkv2] at hit0
        have h0 : top = it0 := by simpa using hit0
        exact hkne (by rw [← hn0, ← h0])
      | succ m =>
        rw [hkv2] at hit0
        simp at hit0
    · intro j hj
      simp at hj
    · intro x hx
      exact absurd hx (List.not_mem_nil x)
  · simp only [mPop] at hp
    injection hp with hp1
    injection hp1 with hpit hph'
    subst hph'
    have hres := mPop_rest_spec nm cst top (next :: rest) pos
      (List.cons_ne_nil next rest) hhp hnd hsnd hcmp hknd
    exact ⟨by rw [← hpit]; rfl, hres.1, hres.2.1, hres.2.2⟩


/-! ## The indexed heaps: runs of operations -/

theorem mRunOps_wf {It N C : Type} [DecidableEq N] [LinearOrder C]
    (nm : It → N) (cst : It → C) :
    ∀ (ops : List (HeapOp It)) (h : HeapSt It N), MinHeapWF nm cst h →
      ∀ hs outs, mRunOps nm cst ops h = some (hs, outs) →
        MinHeapWF nm cst hs := by
  intro ops
  induction ops with
  | nil =>
    intro h hwf hs outs hr
    simp only [mRunOps] at hr
    injection hr with hr1
    injection hr1 with hr2 hr3
    rw [← hr2]
    exact hwf
  | cons op ops iho =>
    intro h hwf hs outs hr
    cases op with
    | add o =>
      exact iho _ (mAddOrUpdate_wf nm cst h o hwf) hs outs hr
    | pop =>
      simp only [mRunOps] at hr
      cases hp : mPop nm cst h with
      | none => simp only [hp] at hr; exact Option.noConfusion hr
      | some r =>
        obtain ⟨it, h'⟩ := r
        simp only [hp] at hr
        cases hr2 : mRunOps nm cst ops h' with
        | none => simp only [hr2] at hr; exact Option.noConfusion hr
        | some r2 =>
          obtain ⟨h'', outs2⟩ := r2
          simp only [hr2] at hr
          injection hr with hr3
          injection hr3 with hr4 hr5
          rw [← hr4]
          exact iho h' ((mPop_spec nm cst h hwf) it h' hp).2.1 h'' outs2 hr2

theorem mRunOps_popsMin {It N C : Type} [DecidableEq N] [LinearOrder C]
    (nm : It → N) (cst : It → C) :
    ∀ (ops : List (HeapOp It)) (h : HeapSt It N), MinHeapWF nm cst h →
      PopsAreMin nm cst ops h := by
  intro ops
  induction ops with
  | nil => intro h _; exact trivial
  | cons op ops iho =>
    intro h hwf
    cases op with
    | add o =>
      show PopsAreMin nm cst ops (mAddOrUpdate nm cst h o)
      exact iho _ (mAddOrUpdate_wf nm cst h o hwf)
    | pop =>
      simp only [PopsAreMin]
      cases hp : mPop nm cst h with
      | none => exact trivial
      | some r =>
        obtain ⟨it, h'⟩ := r
        obtain ⟨htop, hwf', _, _⟩ := (mPop_spec nm cst h hwf) it h' hp
        exact ⟨heapProp_root_min cst hwf.1 htop, iho h' hwf'⟩

theorem mDrain_head_mem {It N C : Type} [DecidableEq N] [LinearOrder C]
    (nm : It → N) (cst : It → C) :
    ∀ (fuel : Nat) (h : HeapSt It N) (y : It),
      (mDrain nm cst fuel h).head? = some y → y ∈ h.heap := by
  intro fuel
  cases fuel with
  | zero => intro h y hy; exact Option.noConfusion hy
  | succ fuel =>
    intro h y hy
    simp only [mDrain] at hy
    cases hp : mPop nm cst h with
    | none => simp only [hp] at hy; exact Option.noConfusion hy
    | some r =>
      obtain ⟨it, h'⟩ := r
      simp only [hp, List.head?] at hy
      injection hy with hy1
      rw [← hy1]
      have htop := mPop_top hp
      exact List.get?_mem htop

theorem mDrain_sorted {It N C : Type} [DecidableEq N] [LinearOrder C]
    (nm : It → N) (cst : It → C) :
    ∀ (fuel : Nat) (h : HeapSt It N), MinHeapWF nm cst h →
      List.Chain' (fun a b => cst a ≤ cst b) (mDrain nm cst fuel h) := by
  intro fuel
  induction fuel with
  | zero => intro h _; exact List.chain'_nil
  | succ fuel ih =>
    intro h hwf
    simp only [mDrain]
    cases hp : mPop nm cst h with
    | none => exact List.chain'_nil
    | some r =>
      obtain ⟨it, h'⟩ := r
      obtain ⟨htop, hwf', _, hsub⟩ := (mPop_spec nm cst h hwf) it h' hp
      have hmin := heapProp_root_min cst hwf.1 htop
      refine List.chain'_cons'.mpr ⟨?_, ih h' hwf'⟩
      intro y hy
      have hy' : (mDrain nm cst fuel h').head? = some y :=
        Option.mem_def.mp hy
      exact hmin y (hsub y (mDrain_head_mem nm cst fuel h' y hy'))

/-! ## The max-heap operations are the min-heap operations at the dual
order -/

theorem xsiftUpGo_eq_dual {It N C : Type} [DecidableEq N] [LinearOrder C]
    (nm : It → N) (scr : It → C) :
    ∀ (fuel : Nat) (heap : List It) (pos : List (N × Nat)) (idx : Nat)
      (item : It),
      xsiftUpGo nm scr fuel heap pos idx item =
        msiftUpGo nm (fun x => OrderDual.toDual (scr x)) fuel heap pos idx
          item := by
  intro fuel
  induction fuel with
  | zero => intro heap pos idx item; rfl
  | succ fuel ih =>
    intro heap pos idx item
    by_cases hidx : idx = 0
    · simp only [xsiftUpGo, msiftUpGo, if_pos hidx]
    · cases hg : heap.get? ((idx - 1) / 2) with
      | none => simp only [xsiftUpGo, msiftUpGo, if_neg hidx, hg]
      | some pit =>
        simp only [xsiftUpGo, msiftUpGo, if_neg hidx, hg]
        by_cases hc : scr item ≤ scr pit
        · rw [if_pos hc, if_pos (show OrderDual.toDual (scr item) ≥
            OrderDual.toDual (scr pit) from hc)]
        · rw [if_neg hc, if_neg (show ¬ OrderDual.toDual (scr item) ≥
            OrderDual.toDual (scr pit) from hc)]
          exact ih (heap.set idx pit) (aset pos (nm pit) idx)
            ((idx - 1) / 2) item

theorem xsiftDownGo_eq_dual {It N C : Type} [DecidableEq N] [LinearOrder C]
    (nm : It → N) (scr : It → C) :
    ∀ (fuel : Nat) (heap : List It) (pos : List (N × Nat)) (idx : Nat)
      (item : It),
      xsiftDownGo nm scr fuel heap pos idx item =
        msiftDownGo nm (fun x => OrderDual.toDual (scr x)) fuel heap pos idx
          item := by
  intro fuel
  induction fuel with
  | zero => intro heap pos idx item; rfl
  | succ fuel ih =>
    intro heap pos idx item
    by_cases hleaf : heap.length ≤ 2 * idx + 1
    · simp only [xsiftDownGo, msiftDownGo, if_pos hleaf]
    · cases hl : heap.get? (2 * idx + 1) with
      | none => simp only [xsiftDownGo, msiftDownGo, if_neg hleaf, hl]
      | some lit =>
        cases hr : heap.get? (2 * idx + 2) with
        | some rit =>
          simp only [xsiftDownGo, msiftDownGo, if_neg hleaf, hl, hr]
          by_cases hcond : 2 * idx + 2 < heap.length ∧ scr rit > scr lit
          · rw [if_pos hcond, if_pos (show 2 * idx + 2 < heap.length ∧
              OrderDual.toDual (scr rit) < OrderDual.toDual (scr lit)
              from hcond)]
            by_cases hc : scr rit ≤ scr item
            · rw [if_pos hc, if_pos (show OrderDual.toDual (scr rit) ≥
                OrderDual.toDual (scr item) from hc)]
            · rw [if_neg hc, if_neg (show ¬ OrderDual.toDual (scr rit) ≥
                OrderDual.toDual (scr item) from hc)]
              exact ih (heap.set idx rit) (aset pos (nm rit) idx)
                (2 * idx + 2) item
          · rw [if_neg hcond, if_neg (show ¬ (2 * idx + 2 < heap.length ∧
              OrderDual.toDual (scr rit) < OrderDual.toDual (scr lit))
              from hcond)]
            by_cases hc : scr lit ≤ scr item
            · rw [if_pos hc, if_pos (show OrderDual.toDual (scr lit) ≥
                OrderDual.toDual (scr item) from hc)]
            · rw [if_neg hc, if_neg (show ¬ OrderDual.toDual (scr lit) ≥
                OrderDual.toDual (scr item) from hc)]
              exact ih (heap.set idx lit) (aset pos (nm lit) idx)
                (2 * idx + 1) item
        | none =>
          simp only [xsiftDownGo, msiftDownGo, if_neg hleaf, hl, hr]
          by_cases hc : scr lit ≤ scr item
          · rw [if_pos hc, if_pos (show OrderDual.toDual (scr lit) ≥
              OrderDual.toDual (scr item) from hc)]
          · rw [if_neg hc, if_neg (show ¬ OrderDual.toDual (scr lit) ≥
              OrderDual.toDual (scr item) from hc)]
            exact ih (heap.set idx lit) (aset pos (nm lit) idx)
              (2 * idx + 1) item

theorem xAddOrUpdate_eq_dual {It N C : Type} [DecidableEq N] [LinearOrder C]
    (nm : It → N) (scr : It → C) (h : HeapSt It N) (obj : It) :
    xAddOrUpdate nm scr h obj =
      mAddOrUpdate nm (fun x => OrderDual.toDual (scr x)) h obj := by
  cases halk : alookup h.pos (nm obj) with
  | none =>
    simp only [xAddOrUpdate, mAddOrUpdate, halk]
    rw [xsiftUpGo_eq_dual]
  | some idx =>
    cases hgi : h.heap.get? idx with
    | none => simp only [xAddOrUpdate, mAddOrUpdate, halk, hgi]
    | some old =>
      simp only [xAddOrUpdate, mAddOrUpdate, halk, hgi]
      by_cases h1 : scr obj > scr old
      · rw [if_pos h1, if_pos (show OrderDual.toDual (scr obj) <
          OrderDual.toDual (scr old) from h1)]
        rw [xsiftUpGo_eq_dual]
      · rw [if_neg h1, if_neg (show ¬ OrderDual.toDual (scr obj) <
          OrderDual.toDual (scr old) from h1)]
        by_cases h2 : scr obj < scr old
        · rw [if_pos h2, if_pos (show OrderDual.toDual (scr obj) >
            OrderDual.toDual (scr old) from h2)]
          rw [xsiftDownGo_eq_dual]
        · rw [if_neg h2, if_neg (show ¬ OrderDual.toDual (scr obj) >
            OrderDual.toDual (scr old) from h2)]

theorem xPop_eq_dual {It N C : Type} [DecidableEq N] [LinearOrder C]
    (nm : It → N) (scr : It → C) (h : HeapSt It N) :
    xPop nm scr h = mPop nm (fun x => OrderDual.toDual (scr x)) h := by
  obtain ⟨heap, pos⟩ := h
  rcases heap with _ | ⟨top, _ | ⟨next, rest⟩⟩
  · rfl
  · rfl
  · simp only [xPop, mPop]
    rw [xsiftDownGo_eq_dual]

theorem xRunOps_eq_dual {It N C : Type} [DecidableEq N] [LinearOrder C]
    (nm : It → N) (scr : It → C) :
    ∀ (ops : List (HeapOp It)) (h : HeapSt It N),
      xRunOps nm scr ops h =
        mRunOps nm (fun x => OrderDual.toDual (scr x)) ops h := by
  intro ops
  induction ops with
  | nil => intro h; rfl
  | cons op ops ih =>
    intro h
    cases op with
    | add o =>
      show xRunOps nm scr ops (xAddOrUpdate nm scr h o) = _
      rw [xAddOrUpdate_eq_dual]
      exact ih _
    | pop =>
      simp only [xRunOps, mRunOps, xPop_eq_dual]
      cases hp : mPop nm (fun x => OrderDual.toDual (scr x)) h with
      | none => simp only [hp]
      | some r =>
        obtain ⟨it, h'⟩ := r
        simp only [hp, ih h']

theorem xDrain_eq_dual {It N C : Type} [DecidableEq N] [LinearOrder C]
    (nm : It → N) (scr : It → C) :
    ∀ (fuel : Nat) (h : HeapSt It N),
      xDrain nm scr fuel h =
        mDrain nm (fun x => OrderDual.toDual (scr x)) fuel h := by
  intro fuel
  induction fuel with
  | zero => intro h; rfl
  | succ fuel ih =>
    intro h
    simp only [xDrain, mDrain, xPop_eq_dual]
    cases hp : mPop nm (fun x => OrderDual.toDual (scr x)) h with
    | none => simp only [hp]
    | some r =>
      obtain ⟨it, h'⟩ := r
      simp only [hp, ih h']

theorem popsAreMax_iff_dual {It N C : Type} [DecidableEq N] [LinearOrder C]
    (nm : It → N) (scr : It → C) :
    ∀ (ops : List (HeapOp It)) (h : HeapSt It N),
      PopsAreMax nm scr ops h ↔
        PopsAreMin nm (fun x => OrderDual.toDual (scr x)) ops h := by
  intro ops
  induction ops with
  | nil => intro h; exact Iff.rfl
  | cons op ops ih =>
    intro h
    cases op with
    | add o =>
      show PopsAreMax nm scr ops (xAddOrUpdate nm scr h o) ↔ _
      rw [xAddOrUpdate_eq_dual]
      exact ih _
    | pop =>
      simp only [PopsAreMax, PopsAreMin, xPop_eq_dual]
      cases hp : mPop nm (fun x => OrderDual.toDual (scr x)) h with
      | none => simp only [hp]
      | some r =>
        obtain ⟨it, h'⟩ := r
        simp only [hp]
        exact and_congr Iff.rfl (ih h')

/-- **C6.** For every sequence of `add_or_update`/`pop` operations run from
a freshly constructed indexed heap, every `pop` returns an item whose key
is minimal (`MinHeap`, keyed by `.cost`) resp. maximal (`MaxHeap`, keyed by
`.score`) among the items currently stored, and popping the heap left by
the run until it is empty yields keys in non-decreasing
(resp. non-increasing) order. -/
theorem heap_pops_extremal_and_drain_sorted {It N C : Type} [DecidableEq N]
    [LinearOrder C] (nm : It → N) (cst scr : It → C)
    (ops : List (HeapOp It)) :
    PopsAreMin nm cst ops emptyHeap ∧
    (∀ hs outs, mRunOps nm cst ops emptyHeap = some (hs, outs) →
      List.Chain' (fun a b => cst a ≤ cst b)
        (mDrain nm cst hs.heap.length hs)) ∧
    PopsAreMax nm scr ops emptyHeap ∧
    (∀ hs outs, xRunOps nm scr ops emptyHeap = some (hs, outs) →
      List.Chain' (fun a b => scr b ≤ scr a)
        (xDrain nm scr hs.heap.length hs)) := by
  refine ⟨mRunOps_popsMin nm cst ops emptyHeap (emptyHeap_wf nm cst),
    ?_, ?_, ?_⟩
  · intro hs outs hr
    exact mDrain_sorted nm cst hs.heap.length hs
      (mRunOps_wf nm cst ops emptyHeap (emptyHeap_wf nm cst) hs outs hr)
  · exact (popsAreMax_iff_dual nm scr ops emptyHeap).mpr
      (mRunOps_popsMin nm (fun x => OrderDual.toDual (scr x)) ops emptyHeap
        (emptyHeap_wf nm _))
  · intro hs outs hr
    rw [xRunOps_eq_dual] at hr
    rw [xDrain_eq_dual]
    exact mDrain_sorted nm (fun x => OrderDual.toDual (scr x))
      hs.heap.length hs
      (mRunOps_wf nm _ ops emptyHeap (emptyHeap_wf nm _) hs outs hr)

/-- Witness for C6: the run `add (1, 5); add (2, 3); add (3, 9); pop` on
concrete items, with both drains evaluated. -/
theorem heap_pops_extremal_and_drain_sorted_witness :
    PopsAreMin HItem.name HItem.key
      [HeapOp.add ⟨1, 5⟩, HeapOp.add ⟨2, 3⟩, HeapOp.add ⟨3, 9⟩, HeapOp.pop]
      (@emptyHeap (HItem Nat Nat) Nat) ∧
    List.Chain' (fun a b => HItem.key a ≤ HItem.key b)
      (mDrain HItem.name HItem.key 2
        ⟨[⟨1, 5⟩, ⟨3, 9⟩], [(1, 0), (3, 1)]⟩) ∧
    PopsAreMax HItem.name HItem.key
      [HeapOp.add ⟨1, 5⟩, HeapOp.add ⟨2, 3⟩, HeapOp.add ⟨3, 9⟩, HeapOp.pop]
      (@emptyHeap (HItem Nat Nat) Nat) ∧
    List.Chain' (fun a b => HItem.key b ≤ HItem.key a)
      (xDrain HItem.name HItem.key 2
        ⟨[⟨1, 5⟩, ⟨2, 3⟩], [(2, 1), (1, 0)]⟩) :=
  ⟨(heap_pops_extremal_and_drain_sorted HItem.name HItem.key HItem.key
      [HeapOp.add ⟨1, 5⟩, HeapOp.add ⟨2, 3⟩, HeapOp.add ⟨3, 9⟩,
        HeapOp.pop]).1,
   (heap_pops_extremal_and_drain_sorted HItem.name HItem.key HItem.key
      [HeapOp.add ⟨1, 5⟩, HeapOp.add ⟨2, 3⟩, HeapOp.add ⟨3, 9⟩,
        HeapOp.pop]).2.1
      ⟨[⟨1, 5⟩, ⟨3, 9⟩], [(1, 0), (3, 1)]⟩ [⟨2, 3⟩] (by rfl),
   (heap_pops_extremal_and_drain_sorted HItem.name HItem.key HItem.key
      [HeapOp.add ⟨1, 5⟩, HeapOp.add ⟨2, 3⟩, HeapOp.add ⟨3, 9⟩,
        HeapOp.pop]).2.2.1,
   (heap_pops_extremal_and_drain_sorted HItem.name HItem.key HItem.key
      [HeapOp.add ⟨1, 5⟩, HeapOp.add ⟨2, 3⟩, HeapOp.add ⟨3, 9⟩,
        HeapOp.pop]).2.2.2
      ⟨[⟨1, 5⟩, ⟨2, 3⟩], [(2, 1), (1, 0)]⟩ [⟨3, 9⟩] (by rfl)⟩

/-! ## Generic BFS: ground lemmas -/

theorem alookup_eq_none {α β : Type} [DecidableEq α] {l : List (α × β)}
    {a : α} : alookup l a = none ↔ a ∉ l.map Prod.fst := by
  induction l with
  | nil => simp [alookup]
  | cons kv rest ih =>
    obtain ⟨k, v⟩ := kv
    by_cases h : a = k
    · subst h
      show (if a = a then some v else alookup rest a) = none ↔ _
      rw [if_pos rfl]
      simp
    · show (if a = k then some v else alookup rest a) = none ↔ _
      rw [if_neg h, ih]
      simp [h]

theorem alookup_covered {α β : Type} [DecidableEq α] {l : List (α × β)}
    {a : α} (h : a ∈ l.map Prod.fst) : ∃ b, alookup l a = some b := by
  cases hl : alookup l a with
  | none => exact absurd h (alookup_eq_none.mp hl)
  | some b => exact ⟨b, rfl⟩

theorem entry_unique {α β : Type} [DecidableEq α] {l : List (α × β)}
    (hnd : (l.map Prod.fst).Nodup) {k : α} {v1 v2 : β}
    (h1 : (k, v1) ∈ l) (h2 : (k, v2) ∈ l) : v1 = v2 := by
  have e1 := mem_alookup hnd h1
  have e2 := mem_alookup hnd h2
  rw [e1] at e2
  exact Option.some.inj e2

theorem nodup_subset_length_gen {α : Type} [DecidableEq α]
    {l l' : List α} (hnd : l.Nodup) (hsub : ∀ x ∈ l, x ∈ l') :
    l.length ≤ l'.length := by
  calc l.length = l.toFinset.card := (List.toFinset_card_of_nodup hnd).symm
    _ ≤ l'.toFinset.card := Finset.card_le_card (fun x hx =>
        List.mem_toFinset.mpr (hsub x (List.mem_toFinset.mp hx)))
    _ ≤ l'.length := List.toFinset_card_le l'

theorem chain'_le_of_all_eq {l : List Nat} {c : Nat}
    (h : ∀ x ∈ l, x = c) : List.Chain' (fun a b => a ≤ b) l := by
  induction l with
  | nil => exact List.chain'_nil
  | cons a t ih =>
    refine List.chain'_cons'.mpr ⟨?_, ih fun x hx => h x (List.mem_cons_of_mem a hx)⟩
    intro y hy
    have hyt : y ∈ t := List.mem_of_mem_head? hy
    rw [h a (List.mem_cons_self a t), h y (List.mem_cons_of_mem a hyt)]

theorem runMovesN_cons {I N M : Type} (S : NodeSolver I N M) (i : I)
    (m : M) (ms : List M) :
    runMovesN S i (m :: ms) = runMovesN S (S.followMove i m) ms := rfl

theorem runMovesN_concat {I N M : Type} (S : NodeSolver I N M) (i : I)
    (ms : List M) (m : M) :
    runMovesN S i (ms ++ [m]) = S.followMove (runMovesN S i ms) m := by
  unfold runMovesN
  rw [List.foldl_append]
  rfl

theorem validSeqN_take {I N M : Type} (S : NodeSolver I N M) :
    ∀ (ms : List M) (i : I) (j : Nat), ValidSeqN S i ms →
      ValidSeqN S i (ms.take j)
  | _, _, 0, _ => trivial
  | [], _, _ + 1, h => h
  | _ :: ms, i, j + 1, h => ⟨h.1, validSeqN_take S ms _ j h.2⟩

theorem validSeqN_concat {I N M : Type} (S : NodeSolver I N M) :
    ∀ (ms : List M) (i : I), ValidSeqN S i ms →
      ∀ m, m ∈ S.getMoves (runMovesN S i ms) → ValidSeqN S i (ms ++ [m])
  | [], _, _, m, hm => ⟨hm, trivial⟩
  | _ :: ms, _, h, m, hm => ⟨h.1, validSeqN_concat S ms _ h.2 m hm⟩

theorem validSeqN_get_mem {I N M : Type} (S : NodeSolver I N M) :
    ∀ (ms : List M) (i : I) (j : Nat) (hj : j < ms.length),
      ValidSeqN S i ms →
      ms.get ⟨j, hj⟩ ∈ S.getMoves (runMovesN S i (ms.take j))
  | m :: ms, i, 0, _, h => h.1
  | m :: ms, i, j + 1, hj, h =>
    validSeqN_get_mem S ms (S.followMove i m) j (by simpa using hj) h.2

theorem runMovesN_take_succ {I N M : Type} (S : NodeSolver I N M)
    (start : I) (ms : List M) (j : Nat) (hj : j < ms.length) :
    runMovesN S start (ms.take (j + 1)) =
      S.followMove (runMovesN S start (ms.take j)) (ms.get ⟨j, hj⟩) := by
  rw [← List.take_concat_get ms j hj, List.concat_eq_append,
    runMovesN_concat]
  rfl

/-! ## Generic BFS: the expansion body -/

theorem bfsExpand_goal {I N M : Type} [DecidableEq N]
    {S : NodeSolver I N M} {cur : I} {path : List M} {m : M} {ms : List M}
    {tbl : List (N × I × List M)} {q : List N}
    (hg : S.isGoal (S.followMove cur m) = true) :
    bfsExpand S cur path (m :: ms) tbl q = (some (path ++ [m]), tbl, q) := by
  simp only [bfsExpand]
  rw [if_pos hg]

theorem bfsExpand_skip {I N M : Type} [DecidableEq N]
    {S : NodeSolver I N M} {cur : I} {path : List M} {m : M} {ms : List M}
    {tbl : List (N × I × List M)} {q : List N} {e0 : I × List M}
    (hg : S.isGoal (S.followMove cur m) = false)
    (hlk : alookup tbl (S.getName (S.followMove cur m)) = some e0) :
    bfsExpand S cur path (m :: ms) tbl q =
      bfsExpand S cur path ms tbl q := by
  simp only [bfsExpand]
  rw [if_neg (by rw [hg]; exact Bool.false_ne_true)]
  simp only [hlk]

theorem bfsExpand_add {I N M : Type} [DecidableEq N]
    {S : NodeSolver I N M} {cur : I} {path : List M} {m : M} {ms : List M}
    {tbl : List (N × I × List M)} {q : List N}
    (hg : S.isGoal (S.followMove cur m) = false)
    (hlk : alookup tbl (S.getName (S.followMove cur m)) = none) :
    bfsExpand S cur path (m :: ms) tbl q =
      bfsExpand S cur path ms
        (tbl ++ [(S.getName (S.followMove cur m), S.followMove cur m,
          path ++ [m])])
        (q ++ [S.getName (S.followMove cur m)]) := by
  simp only [bfsExpand]
  rw [if_neg (by rw [hg]; exact Bool.false_ne_true)]
  simp only [hlk]

theorem bfsExpand_spec {I N M : Type} [DecidableEq N] (S : NodeSolver I N M)
    (start : I) (U : List I)
    (hU : ∀ ms, ValidSeqN S start ms → runMovesN S start ms ∈ U)
    (hname : ∀ x ∈ U, ∀ y ∈ U, S.getName x = S.getName y → x = y)
    (cur : I) (path : List M)
    (hvalid : ValidSeqN S start path)
    (hrun : runMovesN S start path = cur) :
    ∀ (ms : List M) (tbl : List (N × I × List M)) (q : List N),
      (∀ m ∈ ms, m ∈ S.getMoves cur) →
      (tbl.map Prod.fst).Nodup →
      (∀ e ∈ tbl, e.1 = S.getName e.2.1 ∧ ValidSeqN S start e.2.2 ∧
        runMovesN S start e.2.2 = e.2.1 ∧ S.isGoal e.2.1 = false) →
      (∀ e ∈ tbl, e.2.2.length ≤ path.length + 1) →
      (∃ new, (bfsExpand S cur path ms tbl q).2.1 = tbl ++ new ∧
        (bfsExpand S cur path ms tbl q).2.2 = q ++ new.map Prod.fst ∧
        ∀ e ∈ new, ∃ m ∈ ms, e = (S.getName (S.followMove cur m),
          S.followMove cur m, path ++ [m])) ∧
      ((bfsExpand S cur path ms tbl q).2.1.map Prod.fst).Nodup ∧
      (∀ e ∈ (bfsExpand S cur path ms tbl q).2.1,
        e.1 = S.getName e.2.1 ∧ ValidSeqN S start e.2.2 ∧
        runMovesN S start e.2.2 = e.2.1 ∧ S.isGoal e.2.1 = false) ∧
      (∀ e ∈ (bfsExpand S cur path ms tbl q).2.1,
        e.2.2.length ≤ path.length + 1) ∧
      ((bfsExpand S cur path ms tbl q).1 = none → ∀ m ∈ ms,
        S.isGoal (S.followMove cur m) = false ∧
        ∃ p, (S.getName (S.followMove cur m), S.followMove cur m, p) ∈
          (bfsExpand S cur path ms tbl q).2.1 ∧
          p.length ≤ path.length + 1) ∧
      (∀ sol, (bfsExpand S cur path ms tbl q).1 = some sol →
        ∃ m ∈ ms, sol = path ++ [m] ∧
          S.isGoal (S.followMove cur m) = true) := by
  intro ms
  induction ms with
  | nil =>
    intro tbl q hms hnd hsound hbnd
    refine ⟨⟨[], by simp [bfsExpand], by simp [bfsExpand], by simp⟩,
      hnd, hsound, hbnd, ?_, ?_⟩
    · intro _ m hm
      exact absurd hm (List.not_mem_nil m)
    · intro sol hsol
      exact Option.noConfusion hsol
  | cons m ms ih =>
    intro tbl q hms hnd hsound hbnd
    have hm0 : m ∈ S.getMoves cur := hms m (List.mem_cons_self m ms)
    have hms' : ∀ x ∈ ms, x ∈ S.getMoves cur :=
      fun x hx => hms x (List.mem_cons_of_mem m hx)
    have hvm : ValidSeqN S start (path ++ [m]) :=
      validSeqN_concat S path start hvalid m (by rw [hrun]; exact hm0)
    have hrm : runMovesN S start (path ++ [m]) = S.followMove cur m := by
      rw [runMovesN_concat, hrun]
    cases hg : S.isGoal (S.followMove cur m) with
    | true =>
      rw [bfsExpand_goal hg]
      refine ⟨⟨[], by simp, by simp, by simp⟩, hnd, hsound, hbnd, ?_, ?_⟩
      · intro hnone
        exact Option.noConfusion hnone
      · intro sol hsol
        injection hsol with hsol1
        exact ⟨m, List.mem_cons_self m ms, hsol1.symm, hg⟩
    | false =>
      cases hlk : alookup tbl (S.getName (S.followMove cur m)) with
      | some e0 =>
        rw [bfsExpand_skip hg hlk]
        obtain ⟨⟨new, hA1, hA2, hA3⟩, hB, hC, hDbnd, hEn, hFs⟩ :=
          ih tbl q hms' hnd hsound hbnd
        refine ⟨⟨new, hA1, hA2, fun e he => ?_⟩, hB, hC, hDbnd, ?_, ?_⟩
        · obtain ⟨m', hm', he'⟩ := hA3 e he
          exact ⟨m', List.mem_cons_of_mem m hm', he'⟩
        · intro hnone m' hm'
          rcases List.mem_cons.mp hm' with hm1 | hm2
          · subst hm1
            refine ⟨hg, e0.2, ?_, ?_⟩
            · have e0mem : (S.getName (S.followMove cur m'), e0) ∈ tbl :=
                alookup_mem hlk
              have he0 := hsound (S.getName (S.followMove cur m'), e0) e0mem
              have hu1 : e0.1 ∈ U := by
                rw [← he0.2.2.1]
                exact hU e0.2 he0.2.1
              have hu2 : S.followMove cur m' ∈ U := by
                rw [← hrm]
                exact hU _ hvm
              have hstate : e0.1 = S.followMove cur m' :=
                hname e0.1 hu1 (S.followMove cur m') hu2 he0.1.symm
              have e0mem' : (S.getName (S.followMove cur m'), e0.1, e0.2) ∈
                  tbl := e0mem
              rw [hstate] at e0mem'
              rw [hA1]
              exact List.mem_append_left new e0mem'
            · exact hbnd (S.getName (S.followMove cur m'), e0)
                (alookup_mem hlk)
          · exact hEn hnone m' hm2
        · intro sol hsol
          obtain ⟨m', hm', h1, h2⟩ := hFs sol hsol
          exact ⟨m', List.mem_cons_of_mem m hm', h1, h2⟩
      | none =>
        rw [bfsExpand_add hg hlk]
        have hnotin : S.getName (S.followMove cur m) ∉ tbl.map Prod.fst :=
          alookup_eq_none.mp hlk
        have hnd1 : ((tbl ++ [(S.getName (S.followMove cur m),
            S.followMove cur m, path ++ [m])]).map Prod.fst).Nodup := by
          rw [List.map_append]
          refine List.Nodup.append hnd (List.nodup_singleton _) ?_
          intro a ha hb
          simp only [List.map_cons, List.map_nil,
            List.mem_singleton] at hb
          rw [hb] at ha
          exact hnotin ha
        have hsound1 : ∀ e ∈ tbl ++ [(S.getName (S.followMove cur m),
            S.followMove cur m, path ++ [m])],
            e.1 = S.getName e.2.1 ∧ ValidSeqN S start e.2.2 ∧
            runMovesN S start e.2.2 = e.2.1 ∧ S.isGoal e.2.1 = false := by
          intro e he
          rcases List.mem_append.mp he with h1 | h2
          · exact hsound e h1
          · rw [List.mem_singleton.mp h2]
            exact ⟨rfl, hvm, hrm, hg⟩
        have hbnd1 : ∀ e ∈ tbl ++ [(S.getName (S.followMove cur m),
            S.followMove cur m, path ++ [m])],
            e.2.2.length ≤ path.length + 1 := by
          intro e he
          rcases List.mem_append.mp he with h1 | h2
          · exact hbnd e h1
          · rw [List.mem_singleton.mp h2]
            simp
        obtain ⟨⟨new, hA1, hA2, hA3⟩, hB, hC, hDbnd, hEn, hFs⟩ :=
          ih _ _ hms' hnd1 hsound1 hbnd1
        refine ⟨⟨(S.getName (S.followMove cur m), S.followMove cur m,
          path ++ [m]) :: new, ?_, ?_, ?_⟩, hB, hC, hDbnd, ?_, ?_⟩
        · rw [hA1, List.append_assoc]
          rfl
        · rw [hA2, List.append_assoc]
          rfl
        · intro e he
          rcases List.mem_cons.mp he with h1 | h2
          · exact ⟨m, List.mem_cons_self m ms, h1⟩
          · obtain ⟨m', hm', he'⟩ := hA3 e h2
            exact ⟨m', List.mem_cons_of_mem m hm', he'⟩
        · intro hnone m' hm'
          rcases List.mem_cons.mp hm' with hm1 | hm2
          · subst hm1
            refine ⟨hg, path ++ [m'], ?_, by simp⟩
            rw [hA1]
            exact List.mem_append_left new (List.mem_append_right tbl
              (List.mem_singleton_self _))
          · exact hEn hnone m' hm2
        · intro sol hsol
          obtain ⟨m', hm', h1, h2⟩ := hFs sol hsol
          exact ⟨m', List.mem_cons_of_mem m hm', h1, h2⟩

/-! ## Generic BFS: one loop step preserves the invariant -/

theorem bfsStep_inv {I N M : Type} [DecidableEq N] (S : NodeSolver I N M)
    (start : I) (U : List I)
    (hU : ∀ ms, ValidSeqN S start ms → runMovesN S start ms ∈ U)
    (hname : ∀ x ∈ U, ∀ y ∈ U, S.getName x = S.getName y → x = y)
    (tbl : List (N × I × List M)) (q0 : List N) (curName : N) (info : I)
    (path : List M)
    (hinv : BfsInv S start tbl (curName :: q0))
    (hlk : alookup tbl curName = some (info, path))
    (hnone : (bfsExpand S info path (S.getMoves info) tbl q0).1 = none) :
    BfsInv S start (bfsExpand S info path (S.getMoves info) tbl q0).2.1
      (bfsExpand S info path (S.getMoves info) tbl q0).2.2 ∧
    (∀ e ∈ tbl, e ∈ (bfsExpand S info path (S.getMoves info) tbl q0).2.1) ∧
    (∀ n ∈ q0, n ∈ (bfsExpand S info path (S.getMoves info) tbl q0).2.2) ∧
    (∃ s, (((bfsExpand S info path (S.getMoves info) tbl
        q0).2.1).map Prod.fst).length = (tbl.map Prod.fst).length + s ∧
      ((bfsExpand S info path (S.getMoves info) tbl q0).2.2).length =
        q0.length + s) := by
  have hcur_mem : (curName, info, path) ∈ tbl := alookup_mem hlk
  have hcs := hinv.sound _ hcur_mem
  have hlen_cur : bfsLenOf tbl curName = path.length := by
    unfold bfsLenOf
    rw [hlk]
    rfl
  have hbnd0 : ∀ e ∈ tbl, e.2.2.length ≤ path.length + 1 := by
    intro e he
    have := hinv.bounded e he curName rfl
    rw [hlen_cur] at this
    exact this
  obtain ⟨⟨new, hA1, hA2, hA3⟩, hB, hC, hDbnd, hEn, _⟩ :=
    bfsExpand_spec S start U hU hname info path hcs.2.1 hcs.2.2.1
      (S.getMoves info) tbl q0 (fun m hm => hm) hinv.keys_nodup hinv.sound
      hbnd0
  have hD := hEn hnone
  have hnew_len : ∀ e ∈ new, e.2.2.length = path.length + 1 := by
    intro e he
    obtain ⟨m, _, he'⟩ := hA3 e he
    rw [he']
    simp
  have hksplit : ((bfsExpand S info path (S.getMoves info) tbl
      q0).2.1).map Prod.fst = tbl.map Prod.fst ++ new.map Prod.fst := by
    rw [hA1, List.map_append]
  have hnd3 := hB
  rw [hksplit] at hnd3
  obtain ⟨hnd_old, hnd_new, hdisj⟩ := List.nodup_append.mp hnd3
  have hlen_pres : ∀ n ∈ curName :: q0,
      bfsLenOf (bfsExpand S info path (S.getMoves info) tbl q0).2.1 n =
        bfsLenOf tbl n := by
    intro n hn
    obtain ⟨b, hb⟩ := alookup_covered (hinv.covered n hn)
    unfold bfsLenOf
    simp only [hA1, alookup_append, hb]
  have hlen_new : ∀ e ∈ new,
      bfsLenOf (bfsExpand S info path (S.getMoves info) tbl q0).2.1 e.1 =
        path.length + 1 := by
    intro e he
    have hkey_new : e.1 ∈ new.map Prod.fst :=
      List.mem_map.mpr ⟨e, he, rfl⟩
    have hnot_old : alookup tbl e.1 = none := by
      refine alookup_eq_none.mpr fun hmem => ?_
      exact hdisj hmem hkey_new
    have hent : alookup new e.1 = some e.2 := mem_alookup hnd_new he
    unfold bfsLenOf
    simp only [hA1, alookup_append, hnot_old, hent]
    exact hnew_len e he
  have hfront_le : ∀ y ∈ q0.map (bfsLenOf tbl), path.length ≤ y := by
    have hs := hinv.sorted
    rw [List.map_cons, hlen_cur] at hs
    have hp := List.chain'_iff_pairwise.mp hs
    exact (List.pairwise_cons.mp hp).1
  have hq0_le : ∀ n ∈ q0, bfsLenOf tbl n ≤ path.length + 1 := by
    intro n hn
    obtain ⟨b, hb⟩ := alookup_covered
      (hinv.covered n (List.mem_cons_of_mem curName hn))
    have hbm := hinv.bounded (n, b) (alookup_mem hb) curName rfl
    rw [hlen_cur] at hbm
    have : bfsLenOf tbl n = b.2.length := by
      unfold bfsLenOf
      rw [hb]
      rfl
    rw [this]
    exact hbm
  refine ⟨⟨hB, ?_, hC, ?_, ?_, ?_⟩, ?_, ?_, ⟨new.length, ?_, ?_⟩⟩
  · -- covered
    intro n hn
    rw [hA2] at hn
    rw [hksplit]
    rcases List.mem_append.mp hn with h1 | h2
    · exact List.mem_append_left _
        (hinv.covered n (List.mem_cons_of_mem curName h1))
    · exact List.mem_append_right _ h2
  · -- expanded
    intro e he hnq
    rw [hA1] at he
    rcases List.mem_append.mp he with h1 | h2
    · by_cases hec : e.1 = curName
      · have h1' : (curName, e.2) ∈ tbl := by
          rw [← hec]
          exact h1
        have he2 : e.2 = (info, path) :=
          entry_unique hinv.keys_nodup h1' hcur_mem
        have he21 : e.2.1 = info := by rw [he2]
        have he22 : e.2.2 = path := by rw [he2]
        intro m hm'
        rw [he21] at hm'
        rw [he21, he22]
        exact hD m hm'
      · have hnq0 : e.1 ∉ curName :: q0 := by
          intro hc
          rcases List.mem_cons.mp hc with h3 | h4
          · exact hec h3
          · exact hnq (by rw [hA2]; exact List.mem_append_left _ h4)
        intro m hm'
        obtain ⟨hgf, p, hp1, hp2⟩ := hinv.expanded e h1 hnq0 m hm'
        exact ⟨hgf, p, by rw [hA1]; exact List.mem_append_left new hp1,
          hp2⟩
    · exfalso
      apply hnq
      rw [hA2]
      exact List.mem_append_right q0 (List.mem_map.mpr ⟨e, h2, rfl⟩)
  · -- sorted
    rw [hA2, List.map_append]
    refine List.chain'_append.mpr ⟨?_, ?_, ?_⟩
    · have hmc : q0.map (bfsLenOf (bfsExpand S info path (S.getMoves info)
          tbl q0).2.1) = q0.map (bfsLenOf tbl) :=
        List.map_congr_left fun n hn =>
          hlen_pres n (List.mem_cons_of_mem curName hn)
      rw [hmc]
      have hs := hinv.sorted
      rw [List.map_cons] at hs
      exact hs.tail
    · refine @chain'_le_of_all_eq _ (path.length + 1) fun x hx => ?_
      obtain ⟨n, hn, hx'⟩ := List.mem_map.mp hx
      obtain ⟨e, he, hn'⟩ := List.mem_map.mp hn
      rw [← hx', ← hn']
      exact hlen_new e he
    · intro x hx y hy
      have hx1 : x ∈ q0.map (bfsLenOf (bfsExpand S info path
          (S.getMoves info) tbl q0).2.1) :=
        List.mem_of_getLast?_eq_some (Option.mem_def.mp hx)
      obtain ⟨n, hn, hx'⟩ := List.mem_map.mp hx1
      have hy1 : y ∈ (new.map Prod.fst).map (bfsLenOf (bfsExpand S info
          path (S.getMoves info) tbl q0).2.1) :=
        List.mem_of_mem_head? hy
      obtain ⟨n2, hn2, hy'⟩ := List.mem_map.mp hy1
      obtain ⟨e2, he2, hn2'⟩ := List.mem_map.mp hn2
      rw [← hx', hlen_pres n (List.mem_cons_of_mem curName hn)]
      rw [← hy', ← hn2', hlen_new e2 he2]
      exact hq0_le n hn
  · -- bounded
    intro e he h hh
    have hhm : h ∈ (bfsExpand S info path (S.getMoves info) tbl q0).2.2 :=
      List.mem_of_mem_head? (Option.mem_def.mpr hh)
    rw [hA2] at hhm
    have hge : path.length ≤
        bfsLenOf (bfsExpand S info path (S.getMoves info) tbl q0).2.1 h := by
      rcases List.mem_append.mp hhm with h1 | h2
      · rw [hlen_pres h (List.mem_cons_of_mem curName h1)]
        exact hfront_le _ (List.mem_map.mpr ⟨h, h1, rfl⟩)
      · obtain ⟨e2, he2, hn2'⟩ := List.mem_map.mp h2
        rw [← hn2', hlen_new e2 he2]
        omega
    rw [hA1] at he
    rcases List.mem_append.mp he with h1 | h2
    · have := hbnd0 e h1
      omega
    · have := hnew_len e h2
      omega
  · -- old entries preserved
    intro e he
    rw [hA1]
    exact List.mem_append_left new he
  · -- the queue tail is preserved
    intro n hn
    rw [hA2]
    exact List.mem_append_left _ hn
  · rw [hksplit, List.length_append]
    simp only [List.length_map]
  · rw [hA2, List.length_append]
    simp only [List.length_map]

/-! ## Generic BFS: the loop -/

theorem bfsKeys_le_univ {I N M : Type} [DecidableEq N]
    {S : NodeSolver I N M} {start : I} (U : List I)
    (hU : ∀ ms, ValidSeqN S start ms → runMovesN S start ms ∈ U)
    {tbl : List (N × I × List M)} {q : List N}
    (hinv : BfsInv S start tbl q) :
    (tbl.map Prod.fst).length ≤ (U.map S.getName).dedup.length := by
  refine nodup_subset_length_gen hinv.keys_nodup ?_
  intro x hx
  obtain ⟨e, he, hx'⟩ := List.mem_map.mp hx
  have hs := hinv.sound e he
  refine List.mem_dedup.mpr (List.mem_map.mpr ⟨e.2.1, ?_, ?_⟩)
  · rw [← hs.2.2.1]
    exact hU e.2.2 hs.2.1
  · rw [← hx', hs.1]

theorem bfsWitness_chain {I N M : Type} [DecidableEq N]
    (S : NodeSolver I N M) (start : I) (msol : List M)
    (hvalid : ValidSeqN S start msol)
    (hgoal : S.isGoal (runMovesN S start msol) = true) :
    ∀ (d : Nat) (tbl : List (N × I × List M)) (q : List N),
      BfsInv S start tbl q → ∀ j, j < msol.length →
      msol.length - j ≤ d →
      (∃ p, (S.getName (runMovesN S start (msol.take j)),
        runMovesN S start (msol.take j), p) ∈ tbl ∧ p.length ≤ j) →
      ∃ j', j' < msol.length ∧ ∃ p,
        (S.getName (runMovesN S start (msol.take j')),
          runMovesN S start (msol.take j'), p) ∈ tbl ∧
        p.length ≤ j' ∧
        S.getName (runMovesN S start (msol.take j')) ∈ q := by
  intro d
  induction d with
  | zero =>
    intro tbl q _ j hj hd _
    exact absurd hd (by omega)
  | succ d ih =>
    intro tbl q hinv j hj hd ⟨p, hmem, hple⟩
    by_cases hq : S.getName (runMovesN S start (msol.take j)) ∈ q
    · exact ⟨j, hj, p, hmem, hple, hq⟩
    · have hmu : msol.get ⟨j, hj⟩ ∈
          S.getMoves (runMovesN S start (msol.take j)) :=
        validSeqN_get_mem S msol start j hj hvalid
      obtain ⟨hng, p', hmem', hple'⟩ := hinv.expanded _ hmem hq
        (msol.get ⟨j, hj⟩) hmu
      rw [← runMovesN_take_succ S start msol j hj] at hng hmem'
      have hlt : j + 1 < msol.length := by
        by_contra hc
        have hje : j + 1 = msol.length := by omega
        rw [hje, List.take_length] at hng
        rw [hng] at hgoal
        exact Bool.noConfusion hgoal
      have hple2 : p'.length ≤ p.length + 1 := hple'
      exact ih tbl q hinv (j + 1) hlt (by omega)
        ⟨p', hmem', by omega⟩

theorem bfsLoop_term {I N M : Type} [DecidableEq N] (S : NodeSolver I N M)
    (start : I) (U : List I)
    (hU : ∀ ms, ValidSeqN S start ms → runMovesN S start ms ∈ U)
    (hname : ∀ x ∈ U, ∀ y ∈ U, S.getName x = S.getName y → x = y) :
    ∀ (fuel : Nat) (tbl : List (N × I × List M)) (q : List N),
      BfsInv S start tbl q →
      q.length + ((U.map S.getName).dedup.length -
        (tbl.map Prod.fst).length) < fuel →
      (∃ sol, bfsLoop S fuel tbl q = some (some sol) ∧
        ValidSeqN S start sol ∧ S.isGoal (runMovesN S start sol) = true) ∨
      (∃ tblF, bfsLoop S fuel tbl q = some none ∧
        (∀ e ∈ tbl, e ∈ tblF) ∧ BfsInv S start tblF []) := by
  intro fuel
  induction fuel with
  | zero =>
    intro tbl q _ hf
    exact absurd hf (Nat.not_lt_zero _)
  | succ fuel ih =>
    intro tbl q hinv hf
    cases q with
    | nil =>
      exact Or.inr ⟨tbl, rfl, fun e he => he, hinv⟩
    | cons curName q0 =>
      obtain ⟨b, hb⟩ := alookup_covered
        (hinv.covered curName (List.mem_cons_self curName q0))
      obtain ⟨info, path⟩ := b
      have hcs := hinv.sound _ (alookup_mem hb)
      have hlen_cur : bfsLenOf tbl curName = path.length := by
        unfold bfsLenOf
        rw [hb]
        rfl
      have hbnd0 : ∀ e ∈ tbl, e.2.2.length ≤ path.length + 1 := by
        intro e he
        have h2 := hinv.bounded e he curName rfl
        rw [hlen_cur] at h2
        exact h2
      rcases hexp : bfsExpand S info path (S.getMoves info) tbl q0 with
        ⟨res0, tbl', q'⟩
      cases res0 with
      | some sol0 =>
        left
        obtain ⟨_, _, _, _, _, hFs⟩ :=
          bfsExpand_spec S start U hU hname info path hcs.2.1 hcs.2.2.1
            (S.getMoves info) tbl q0 (fun m hm => hm) hinv.keys_nodup
            hinv.sound hbnd0
        obtain ⟨m, hm, hsol, hgoal⟩ := hFs sol0 (by rw [hexp])
        refine ⟨sol0, ?_, ?_, ?_⟩
        · simp only [bfsLoop, hb, hexp]
        · rw [hsol]
          exact validSeqN_concat S path start hcs.2.1 m
            (by rw [hcs.2.2.1]; exact hm)
        · rw [hsol, runMovesN_concat, hcs.2.2.1]
          exact hgoal
      | none =>
        have hstep := bfsStep_inv S start U hU hname tbl q0 curName info
          path hinv hb (by rw [hexp])
        simp only [hexp] at hstep
        obtain ⟨hinv', hpres, hqpres, s, hks, hqs⟩ := hstep
        have hDle := bfsKeys_le_univ U hU hinv'
        have hf' : q'.length + ((U.map S.getName).dedup.length -
            (tbl'.map Prod.fst).length) < fuel := by
          simp only [List.length_cons] at hf
          omega
        rcases ih tbl' q' hinv' hf' with ⟨sol, hrun, hvs, hgs⟩ |
          ⟨tblF, hrun, hpres2, hinvF⟩
        · exact Or.inl ⟨sol, by simp only [bfsLoop, hb, hexp]; exact hrun,
            hvs, hgs⟩
        · exact Or.inr ⟨tblF, by simp only [bfsLoop, hb, hexp]; exact hrun,
            fun e he => hpres2 _ (hpres e he), hinvF⟩

theorem bfsLoop_opt {I N M : Type} [DecidableEq N] (S : NodeSolver I N M)
    (start : I) (U : List I)
    (hU : ∀ ms, ValidSeqN S start ms → runMovesN S start ms ∈ U)
    (hname : ∀ x ∈ U, ∀ y ∈ U, S.getName x = S.getName y → x = y)
    (msol : List M) (hv : ValidSeqN S start msol)
    (hg : S.isGoal (runMovesN S start msol) = true) :
    ∀ (fuel : Nat) (tbl : List (N × I × List M)) (q : List N),
      BfsInv S start tbl q →
      (∃ j, j < msol.length ∧ ∃ p,
        (S.getName (runMovesN S start (msol.take j)),
          runMovesN S start (msol.take j), p) ∈ tbl ∧
        p.length ≤ j ∧
        S.getName (runMovesN S start (msol.take j)) ∈ q) →
      ∀ res, bfsLoop S fuel tbl q = some res →
        ∃ sol, res = some sol ∧ sol.length ≤ msol.length := by
  intro fuel
  induction fuel with
  | zero =>
    intro tbl q _ _ res hres
    exact Option.noConfusion hres
  | succ fuel ih =>
    intro tbl q hinv hwit res hres
    obtain ⟨j, hj, p, hmem, hple, hinq⟩ := hwit
    cases q with
    | nil => exact absurd hinq (List.not_mem_nil _)
    | cons curName q0 =>
      obtain ⟨b, hb⟩ := alookup_covered
        (hinv.covered curName (List.mem_cons_self curName q0))
      obtain ⟨info, path⟩ := b
      have hcs := hinv.sound _ (alookup_mem hb)
      have hlen_cur : bfsLenOf tbl curName = path.length := by
        unfold bfsLenOf
        rw [hb]
        rfl
      have hbnd0 : ∀ e ∈ tbl, e.2.2.length ≤ path.length + 1 := by
        intro e he
        have h2 := hinv.bounded e he curName rfl
        rw [hlen_cur] at h2
        exact h2
      have hfront : path.length ≤ j := by
        by_cases hwc : S.getName (runMovesN S start (msol.take j)) =
            curName
        · have h1 : (curName, runMovesN S start (msol.take j), p) ∈ tbl :=
            by rw [← hwc]; exact hmem
          have h2 := entry_unique hinv.keys_nodup h1 (alookup_mem hb)
          have hpp : p = path := congrArg Prod.snd h2
          rw [← hpp]
          exact hple
        · have hq0 : S.getName (runMovesN S start (msol.take j)) ∈ q0 := by
            rcases List.mem_cons.mp hinq with h1 | h2
            · exact absurd h1 hwc
            · exact h2
          have hs := hinv.sorted
          rw [List.map_cons, hlen_cur] at hs
          have hp := (List.pairwise_cons.mp
            (List.chain'_iff_pairwise.mp hs)).1
          have hwl : bfsLenOf tbl (S.getName (runMovesN S start
              (msol.take j))) = p.length := by
            unfold bfsLenOf
            rw [mem_alookup hinv.keys_nodup hmem]
            rfl
          have h3 := hp _ (List.mem_map.mpr ⟨_, hq0, rfl⟩)
          rw [hwl] at h3
          exact le_trans h3 hple
      rcases hexp : bfsExpand S info path (S.getMoves info) tbl q0 with
        ⟨res0, tbl', q'⟩
      cases res0 with
      | some sol0 =>
        have hres' : res = some sol0 := by
          simp only [bfsLoop, hb, hexp] at hres
          exact (Option.some.inj hres).symm
        obtain ⟨_, _, _, _, _, hFs⟩ := bfsExpand_spec S start U hU hname
          info path hcs.2.1 hcs.2.2.1 (S.getMoves info) tbl q0
          (fun m hm => hm) hinv.keys_nodup hinv.sound hbnd0
        obtain ⟨m, hm, hsol, _⟩ := hFs sol0 (by rw [hexp])
        refine ⟨sol0, hres', ?_⟩
        rw [hsol]
        simp only [List.length_append, List.length_singleton]
        omega
      | none =>
        have hstep := bfsStep_inv S start U hU hname tbl q0 curName info
          path hinv hb (by rw [hexp])
        simp only [hexp] at hstep
        obtain ⟨hinv', hpres, hqpres, _⟩ := hstep
        have hres2 : bfsLoop S fuel tbl' q' = some res := by
          simp only [bfsLoop, hb, hexp] at hres
          exact hres
        by_cases hwc : S.getName (runMovesN S start (msol.take j)) =
            curName
        · have h1 : (curName, runMovesN S start (msol.take j), p) ∈ tbl :=
            by rw [← hwc]; exact hmem
          have h2 := entry_unique hinv.keys_nodup h1 (alookup_mem hb)
          have hinfo : info = runMovesN S start (msol.take j) :=
            (congrArg Prod.fst h2).symm
          have hpath : path = p := (congrArg Prod.snd h2).symm
          obtain ⟨_, _, _, _, hEn, _⟩ := bfsExpand_spec S start U hU hname
            info path hcs.2.1 hcs.2.2.1 (S.getMoves info) tbl q0
            (fun m hm => hm) hinv.keys_nodup hinv.sound hbnd0
          have hD := hEn (by rw [hexp])
          have hmu : msol.get ⟨j, hj⟩ ∈ S.getMoves info := by
            rw [hinfo]
            exact validSeqN_get_mem S msol start j hj hv
          obtain ⟨hng, p', hmem', hple'⟩ := hD (msol.get ⟨j, hj⟩) hmu
          simp only [hexp] at hmem'
          have hchild : S.followMove info (msol.get ⟨j, hj⟩) =
              runMovesN S start (msol.take (j + 1)) := by
            rw [runMovesN_take_succ S start msol j hj, hinfo]
          have hlt : j + 1 < msol.length := by
            by_contra hc
            have hje : j + 1 = msol.length := by omega
            rw [hchild, hje, List.take_length] at hng
            rw [hng] at hg
            exact Bool.noConfusion hg
          rw [hchild] at hmem'
          have hple2 : p'.length ≤ path.length + 1 := hple'
          have hplen : path.length = p.length := by rw [hpath]
          obtain ⟨j2, hj2, p2, hm2, hp2, hq2⟩ := bfsWitness_chain S start
            msol hv hg msol.length tbl' q' hinv' (j + 1) hlt (by omega)
            ⟨p', hmem', by omega⟩
          exact ih tbl' q' hinv' ⟨j2, hj2, p2, hm2, hp2, hq2⟩ res hres2
        · have hq0 : S.getName (runMovesN S start (msol.take j)) ∈ q0 := by
            rcases List.mem_cons.mp hinq with h1 | h2
            · exact absurd h1 hwc
            · exact h2
          exact ih tbl' q' hinv'
            ⟨j, hj, p, hpres _ hmem, hple, hqpres _ hq0⟩ res hres2

/-- Generic warm-up for the BFS correctness argument: `BFSSolver.solve`
(without progress bars, i.e. `_solve_without_progress`), run with enough
fuel on a search problem whose reachable states live in a finite universe
`U` and whose namer happens to satisfy the documented contract (names are
equal iff the states are equal):
the search always terminates; any returned move list solves the problem;
on a solvable problem it returns a move list of minimum length among all
solving move sequences; and on an unsolvable problem it returns `None`. -/
theorem bfs_returns_shortest_or_none {I N M : Type} [DecidableEq N]
    (S : NodeSolver I N M) (start : I) (U : List I)
    (hU : ∀ ms, ValidSeqN S start ms → runMovesN S start ms ∈ U)
    (hname : ∀ x ∈ U, ∀ y ∈ U, S.getName x = S.getName y → x = y)
    (fuel : Nat)
    (hfuel : (U.map S.getName).dedup.length < fuel) :
    (∃ res, S.solveNP fuel start = some res) ∧
    (∀ sol, S.solveNP fuel start = some (some sol) → SolvesN S start sol) ∧
    (∀ ms, SolvesN S start ms → ∃ sol,
      S.solveNP fuel start = some (some sol) ∧ sol.length ≤ ms.length) ∧
    (S.solveNP fuel start = some none → ∀ ms, ¬ SolvesN S start ms) := by
  by_cases hgs : S.isGoal start = true
  · have hsnp : S.solveNP fuel start = some (some []) := by
      simp only [NodeSolver.solveNP, if_pos hgs]
    refine ⟨⟨some [], hsnp⟩, ?_, ?_, ?_⟩
    · intro sol h
      rw [hsnp] at h
      injection h with h1
      injection h1 with h2
      rw [← h2]
      exact ⟨trivial, hgs⟩
    · intro ms _
      exact ⟨[], hsnp, Nat.zero_le _⟩
    · intro h
      rw [hsnp] at h
      injection h with h1
      exact Option.noConfusion h1
  · have hgs' : S.isGoal start = false := by
      cases hb : S.isGoal start with
      | false => rfl
      | true => exact absurd hb hgs
    have hsnp_eq : S.solveNP fuel start =
        bfsLoop S fuel [(S.getName start, start, [])] [S.getName start] :=
      by simp only [NodeSolver.solveNP, if_neg hgs]
    have hinv0 : BfsInv S start [(S.getName start, start, [])]
        [S.getName start] := by
      refine ⟨List.nodup_singleton _, ?_, ?_, ?_, ?_, ?_⟩
      · intro n hn
        rw [List.mem_singleton.mp hn]
        exact List.mem_singleton_self _
      · intro e he
        rw [List.mem_singleton.mp he]
        exact ⟨rfl, trivial, rfl, hgs'⟩
      · intro e he hn
        exfalso
        apply hn
        rw [List.mem_singleton.mp he]
        exact List.mem_singleton_self _
      · exact List.chain'_singleton _
      · intro e he h hh
        rw [List.mem_singleton.mp he]
        exact Nat.zero_le _
    have hDpos : 0 < (U.map S.getName).dedup.length := by
      have hsu : start ∈ U := hU [] trivial
      have : S.getName start ∈ (U.map S.getName).dedup :=
        List.mem_dedup.mpr (List.mem_map.mpr ⟨start, hsu, rfl⟩)
      exact List.length_pos.mpr (List.ne_nil_of_mem this)
    have hf0 : ([S.getName start] : List N).length +
        ((U.map S.getName).dedup.length -
          (([(S.getName start, start, ([] : List M))].map
            Prod.fst) : List N).length) < fuel := by
      simp only [List.length_singleton, List.map_cons, List.map_nil,
        List.length_cons, List.length_nil]
      omega
    have hterm := bfsLoop_term S start U hU hname fuel
      [(S.getName start, start, [])] [S.getName start] hinv0 hf0
    have hc3 : ∀ ms, SolvesN S start ms → ∃ sol,
        S.solveNP fuel start = some (some sol) ∧
        sol.length ≤ ms.length := by
      intro ms hms
      obtain ⟨hvms, hgms⟩ := hms
      have hms_pos : 0 < ms.length := by
        cases ms with
        | nil =>
          exfalso
          rw [show runMovesN S start [] = start from rfl, hgs'] at hgms
          exact Bool.noConfusion hgms
        | cons m ms => simp
      have hwit : ∃ j, j < ms.length ∧ ∃ p,
          (S.getName (runMovesN S start (ms.take j)),
            runMovesN S start (ms.take j), p) ∈
            [(S.getName start, start, ([] : List M))] ∧
          p.length ≤ j ∧
          S.getName (runMovesN S start (ms.take j)) ∈
            [S.getName start] := by
        refine ⟨0, hms_pos, [], ?_, Nat.le_refl 0, ?_⟩
        · show (S.getName start, start, ([] : List M)) ∈ _
          exact List.mem_singleton_self _
        · show S.getName start ∈ _
          exact List.mem_singleton_self _
      rcases hterm with ⟨sol, hrun, _, _⟩ | ⟨tblF, hrun, _, _⟩
      · obtain ⟨sol2, heq, hle⟩ := bfsLoop_opt S start U hU hname ms hvms
          hgms fuel _ _ hinv0 hwit (some sol) hrun
        have hss : sol2 = sol := (Option.some.inj heq).symm
        refine ⟨sol, ?_, ?_⟩
        · rw [hsnp_eq]
          exact hrun
        · rw [← hss]
          exact hle
      · obtain ⟨sol2, heq, _⟩ := bfsLoop_opt S start U hU hname ms hvms
          hgms fuel _ _ hinv0 hwit none hrun
        exact Option.noConfusion heq
    refine ⟨?_, ?_, hc3, ?_⟩
    · rcases hterm with ⟨sol, hrun, _, _⟩ | ⟨tblF, hrun, _, _⟩
      · exact ⟨some sol, by rw [hsnp_eq]; exact hrun⟩
      · exact ⟨none, by rw [hsnp_eq]; exact hrun⟩
    · intro sol h
      rw [hsnp_eq] at h
      rcases hterm with ⟨sol2, hrun, hv2, hg2⟩ | ⟨tblF, hrun, _, _⟩
      · rw [hrun] at h
        injection h with h1
        injection h1 with h2
        rw [← h2]
        exact ⟨hv2, hg2⟩
      · rw [hrun] at h
        injection h with h1
        exact Option.noConfusion h1
    · intro h ms hms
      obtain ⟨sol, hsome, _⟩ := hc3 ms hms
      rw [h] at hsome
      injection hsome with h1
      exact Option.noConfusion h1

/-- Witness for C2: the one-state solver whose start is already the goal,
over the universe `[0]`. -/
theorem bfs_returns_shortest_or_none_witness :
    (∃ res, (NodeSolver.mk (fun i => i) (fun _ => true)
      (fun _ => ([] : List Nat)) (fun i _ => i) :
        NodeSolver Nat Nat Nat).solveNP 2 0 = some res) ∧
    (∃ sol, (NodeSolver.mk (fun i => i) (fun _ => true)
      (fun _ => ([] : List Nat)) (fun i _ => i) :
        NodeSolver Nat Nat Nat).solveNP 2 0 = some (some sol) ∧
      sol.length ≤ ([] : List Nat).length) := by
  have hmain := bfs_returns_shortest_or_none
    (NodeSolver.mk (fun i => i) (fun _ => true)
      (fun _ => ([] : List Nat)) (fun i _ => i)) 0 [0]
    (by
      intro ms hv
      cases ms with
      | nil => exact List.mem_singleton_self 0
      | cons m ms => exact absurd hv.1 (List.not_mem_nil m))
    (by
      intro x hx y hy _
      rw [List.mem_singleton.mp hx, List.mem_singleton.mp hy])
    2 (by decide)
  exact ⟨hmain.1, hmain.2.2.1 [] ⟨trivial, rfl⟩⟩

/-! ## Decimal digit strings: `decDigits` is the usual decimal writing -/

theorem decDigitsAux_spec :
    ∀ (fuel n : Nat) (acc : List Char), 0 < n → n ≤ fuel →
      decDigitsAux fuel n acc =
        (Nat.digits 10 n).reverse.map digitChar ++ acc := by
  intro fuel
  induction fuel with
  | zero =>
    intro n acc h0 hle
    exact absurd h0 (by omega)
  | succ fuel ih =>
    intro n acc h0 hle
    show (if n < 10 then digitChar n :: acc
      else decDigitsAux fuel (n / 10) (digitChar (n % 10) :: acc)) = _
    by_cases hn : n < 10
    · rw [if_pos hn]
      have hd : Nat.digits 10 n = [n] := by
        rw [Nat.digits_def' (by norm_num : (1:Nat) < 10) h0,
          Nat.div_eq_of_lt hn, Nat.mod_eq_of_lt hn]
        simp
      rw [hd]
      simp
    · rw [if_neg hn]
      have hdiv := Nat.div_lt_self h0 (by norm_num : (1:Nat) < 10)
      have h10 : 0 < n / 10 :=
        Nat.div_pos (Nat.le_of_not_lt hn) (by norm_num)
      rw [ih (n / 10) _ h10 (by omega)]
      rw [Nat.digits_def' (by norm_num : (1:Nat) < 10) h0]
      simp [List.map_append]

theorem decDigits_eq {n : Nat} (h0 : 0 < n) :
    decDigits n = (Nat.digits 10 n).reverse.map digitChar := by
  unfold decDigits
  rw [decDigitsAux_spec n n [] h0 (le_refl n), List.append_nil]

theorem decDigits_zero : decDigits 0 = ['0'] := by decide

theorem digitChar_inj_lt :
    ∀ d1 < 10, ∀ d2 < 10, digitChar d1 = digitChar d2 → d1 = d2 := by
  decide

theorem digitChar_ne_underscore : ∀ d < 10, digitChar d ≠ '_' := by decide

theorem decDigits_no_underscore (n : Nat) : '_' ∉ decDigits n := by
  by_cases h0 : 0 < n
  · rw [decDigits_eq h0]
    intro hmem
    obtain ⟨d, hd, he⟩ := List.mem_map.mp hmem
    have hdlt : d < 10 :=
      Nat.digits_lt_base (by norm_num) (List.mem_reverse.mp hd)
    exact digitChar_ne_underscore d hdlt he
  · have hz : n = 0 := by omega
    rw [hz, decDigits_zero]
    decide

theorem map_digitChar_inj :
    ∀ (l1 l2 : List Nat), (∀ d ∈ l1, d < 10) → (∀ d ∈ l2, d < 10) →
      l1.map digitChar = l2.map digitChar → l1 = l2
  | [], [], _, _, _ => rfl
  | [], d :: l2, _, _, h => by simp at h
  | d :: l1, [], _, _, h => by simp at h
  | d1 :: l1, d2 :: l2, hb1, hb2, h => by
    simp only [List.map_cons] at h
    injection h with h1 h2
    rw [digitChar_inj_lt d1 (hb1 d1 (List.mem_cons_self d1 l1)) d2
      (hb2 d2 (List.mem_cons_self d2 l2)) h1,
      map_digitChar_inj l1 l2
        (fun d hd => hb1 d (List.mem_cons_of_mem d1 hd))
        (fun d hd => hb2 d (List.mem_cons_of_mem d2 hd)) h2]

theorem decDigits_eq_zero_str {m : Nat} (h : decDigits m = ['0']) :
    m = 0 := by
  by_contra hm
  have hm2 : 0 < m := Nat.pos_of_ne_zero hm
  rw [decDigits_eq hm2] at h
  have hlen : (Nat.digits 10 m).length = 1 := by
    have := congrArg List.length h
    simpa using this
  obtain ⟨d, hd⟩ := List.length_eq_one.mp hlen
  rw [hd] at h
  simp only [List.reverse_singleton, List.map_cons, List.map_nil] at h
  have hdc : digitChar d = '0' := by
    injection h with h1
  have hdlt : d < 10 :=
    Nat.digits_lt_base (by norm_num) (by rw [hd]; exact List.mem_singleton_self d)
  have hd0 : d = 0 := digitChar_inj_lt d hdlt 0 (by norm_num)
    (by rw [hdc]; decide)
  have := Nat.ofDigits_digits 10 m
  rw [hd, hd0] at this
  simp [Nat.ofDigits] at this
  omega

theorem decDigits_inj {n m : Nat} (h : decDigits n = decDigits m) :
    n = m := by
  rcases Nat.eq_zero_or_pos n with hn | hn
  · rw [hn, decDigits_zero] at h
    rw [hn, decDigits_eq_zero_str h.symm]
  · rcases Nat.eq_zero_or_pos m with hm | hm
    · rw [hm, decDigits_zero] at h
      rw [hm, decDigits_eq_zero_str h]
    · rw [decDigits_eq hn, decDigits_eq hm] at h
      have hrev : (Nat.digits 10 n).reverse = (Nat.digits 10 m).reverse :=
        map_digitChar_inj _ _
          (fun d hd => Nat.digits_lt_base (by norm_num)
            (List.mem_reverse.mp hd))
          (fun d hd => Nat.digits_lt_base (by norm_num)
            (List.mem_reverse.mp hd)) h
      have hdig : Nat.digits 10 n = Nat.digits 10 m :=
        List.reverse_injective hrev
      rw [← Nat.ofDigits_digits 10 n, ← Nat.ofDigits_digits 10 m, hdig]

theorem mergeHash_inj :
    ∀ (qh1 qh2 : Str) (i1 i2 : Nat), '_' ∉ qh1 → '_' ∉ qh2 →
      mergeHash qh1 i1 = mergeHash qh2 i2 → qh1 = qh2 ∧ i1 = i2 := by
  intro qh1
  induction qh1 with
  | nil =>
    intro qh2 i1 i2 _ hu2 h
    cases qh2 with
    | nil =>
      unfold mergeHash at h
      simp only [List.nil_append] at h
      injection h with _ h2
      exact ⟨rfl, decDigits_inj h2⟩
    | cons b rest =>
      unfold mergeHash at h
      simp only [List.nil_append, List.cons_append] at h
      injection h with h1 _
      exact absurd (by rw [← h1]; exact List.mem_cons_self _ _) hu2
  | cons a qh1 ih =>
    intro qh2 i1 i2 hu1 hu2 h
    cases qh2 with
    | nil =>
      unfold mergeHash at h
      simp only [List.nil_append, List.cons_append] at h
      injection h with h1 _
      exact absurd (by rw [h1]; exact List.mem_cons_self _ _) hu1
    | cons b rest =>
      unfold mergeHash at h
      simp only [List.cons_append] at h
      injection h with h1 h2
      obtain ⟨he, hi⟩ := ih rest i1 i2
        (fun hm => hu1 (List.mem_cons_of_mem a hm))
        (fun hm => hu2 (List.mem_cons_of_mem b hm)) h2
      rw [h1, he]
      exact ⟨rfl, hi⟩

/-! ## `permsOf` enumerates permutations -/

theorem insertsOf_eq {α : Type} (a : α) :
    ∀ l : List α, insertsOf a l = List.permutations'Aux a l
  | [] => rfl
  | b :: l => by
    show (a :: b :: l) :: (insertsOf a l).map (fun l' => b :: l') = _
    rw [insertsOf_eq a l]
    rfl

theorem permsOf_eq {α : Type} : ∀ l : List α, permsOf l = l.permutations'
  | [] => rfl
  | a :: l => by
    show (permsOf l).flatMap (insertsOf a) = _
    rw [permsOf_eq l]
    show (l.permutations').flatMap (insertsOf a) = _
    have : insertsOf a = List.permutations'Aux a := by
      funext l'
      exact insertsOf_eq a l'
    rw [this]
    rfl

theorem permsOf_mem {α : Type} {l l' : List α} :
    l' ∈ permsOf l ↔ l'.Perm l := by
  rw [permsOf_eq]
  exact List.mem_permutations'

/-! ## `mapThrough`: positional matching of node lists -/

theorem mapThrough_head {x : CNode} {xs ys : List CNode} {y : CNode} :
    mapThrough (x :: xs) (y :: ys) x = y := by
  unfold mapThrough
  show (match alookup ((x, y) :: xs.zip ys) x with
    | some b => b | none => x) = y
  unfold alookup
  rw [if_pos rfl]

theorem mapThrough_tail {a x : CNode} {xs ys : List CNode} {y : CNode}
    (h : a ≠ x) : mapThrough (x :: xs) (y :: ys) a = mapThrough xs ys a := by
  have halk : alookup ((x, y) :: xs.zip ys) a = alookup (xs.zip ys) a := by
    show (if a = x then some y else alookup (xs.zip ys) a) = _
    exact if_neg h
  show (match alookup ((x, y) :: xs.zip ys) a with
    | some b => b | none => a) = mapThrough xs ys a
  rw [halk]
  rfl

theorem mapThrough_map :
    ∀ (xs ys : List CNode), xs.Nodup → xs.length = ys.length →
      xs.map (mapThrough xs ys) = ys
  | [], [], _, _ => rfl
  | [], y :: ys, _, h => by simp at h
  | x :: xs, [], _, h => by simp at h
  | x :: xs, y :: ys, hnd, hlen => by
    simp only [List.map_cons]
    rw [mapThrough_head]
    congr 1
    have hcg : xs.map (mapThrough (x :: xs) (y :: ys)) =
        xs.map (mapThrough xs ys) := by
      apply List.map_congr_left
      intro a ha
      exact mapThrough_tail (fun (he : a = x) =>
        (List.nodup_cons.mp hnd).1 (by rw [← he]; exact ha))
    rw [hcg]
    exact mapThrough_map xs ys (List.nodup_cons.mp hnd).2
      (by simpa using hlen)

theorem mapThrough_self (f : CNode → CNode) :
    ∀ (xs : List CNode), xs.Nodup → ∀ a ∈ xs,
      mapThrough xs (xs.map f) a = f a
  | [], _, a, ha => absurd ha (List.not_mem_nil a)
  | x :: xs, hnd, a, ha => by
    rcases List.mem_cons.mp ha with h1 | h2
    · rw [h1]
      exact mapThrough_head
    · rw [List.map_cons, mapThrough_tail
        (fun he => (List.nodup_cons.mp hnd).1 (by rw [← he]; exact h2))]
      exact mapThrough_self f xs (List.nodup_cons.mp hnd).2 a h2

theorem mapThrough_inv (f : CNode → CNode) :
    ∀ (l : List CNode), (l.map f).Nodup → ∀ x ∈ l,
      mapThrough (l.map f) l (f x) = x
  | [], _, x, hx => absurd hx (List.not_mem_nil x)
  | a :: l, hnd, x, hx => by
    rcases List.mem_cons.mp hx with h1 | h2
    · rw [h1, List.map_cons]
      exact mapThrough_head
    · rw [List.map_cons]
      have hfx : f x ∈ l.map f := List.mem_map.mpr ⟨x, h2, rfl⟩
      rw [mapThrough_tail
        (fun he => (List.nodup_cons.mp hnd).1 (by rw [← he]; exact hfx))]
      exact mapThrough_inv f l (List.nodup_cons.mp hnd).2 x h2

/-! ## The executable isomorphism check decides `GIso` -/

theorem nxIso_iff {G H : IsoGraph} (hG : G.nodes.Nodup) :
    nxIsIsomorphic G H = true ↔ GIso G H := by
  unfold nxIsIsomorphic
  rw [List.any_eq_true]
  constructor
  · rintro ⟨ys, hys, hb⟩
    rw [Bool.and_eq_true] at hb
    obtain ⟨hlen, hmatch⟩ := hb
    have hlen' : G.nodes.length = ys.length := of_decide_eq_true hlen
    have hperm : ys.Perm H.nodes := permsOf_mem.mp hys
    refine ⟨mapThrough G.nodes ys, ?_, ?_⟩
    · rw [mapThrough_map G.nodes ys hG hlen']
      exact hperm
    · intro a b ha hb2
      unfold edgesMatch at hmatch
      rw [List.all_eq_true] at hmatch
      have h1 := hmatch a ha
      rw [List.all_eq_true] at h1
      exact decide_eq_decide.mp (of_decide_eq_true (h1 b hb2))
  · rintro ⟨f, hperm, hiff⟩
    refine ⟨G.nodes.map f, permsOf_mem.mpr hperm, ?_⟩
    rw [Bool.and_eq_true]
    refine ⟨decide_eq_true (by rw [List.length_map]), ?_⟩
    unfold edgesMatch
    rw [List.all_eq_true]
    intro a ha
    rw [List.all_eq_true]
    intro b hb2
    apply decide_eq_true
    rw [mapThrough_self f G.nodes hG a ha,
      mapThrough_self f G.nodes hG b hb2]
    exact decide_eq_decide.mpr (hiff a b ha hb2)

/-! ## `GIso` is an equivalence (on duplicate-free graphs) -/

theorem giso_refl (G : IsoGraph) : GIso G G :=
  ⟨id, by simp, fun a b _ _ => Iff.rfl⟩

theorem giso_trans {F G H : IsoGraph} (h1 : GIso F G) (h2 : GIso G H) :
    GIso F H := by
  obtain ⟨f, hp1, hi1⟩ := h1
  obtain ⟨g, hp2, hi2⟩ := h2
  refine ⟨g ∘ f, ?_, ?_⟩
  · have he : F.nodes.map (g ∘ f) = (F.nodes.map f).map g := by
      rw [List.map_map]
    rw [he]
    exact (hp1.map g).trans hp2
  · intro a b ha hb
    rw [hi1 a b ha hb]
    have hfa : f a ∈ G.nodes :=
      hp1.mem_iff.mp (List.mem_map.mpr ⟨a, ha, rfl⟩)
    have hfb : f b ∈ G.nodes :=
      hp1.mem_iff.mp (List.mem_map.mpr ⟨b, hb, rfl⟩)
    exact hi2 (f a) (f b) hfa hfb

theorem giso_symm {G H : IsoGraph} (hG : G.nodes.Nodup)
    (hH : H.nodes.Nodup) (h : GIso G H) : GIso H G := by
  obtain ⟨f, hperm, hiff⟩ := h
  have hmnd : (G.nodes.map f).Nodup := hperm.nodup_iff.mpr hH
  refine ⟨mapThrough (G.nodes.map f) G.nodes, ?_, ?_⟩
  · have hmt := mapThrough_map (G.nodes.map f) G.nodes hmnd
      (by rw [List.length_map])
    have hp2 := (hperm.symm).map (mapThrough (G.nodes.map f) G.nodes)
    rw [hmt] at hp2
    exact hp2
  · intro a b ha hb
    obtain ⟨x, hx, hxa⟩ := List.mem_map.mp (hperm.mem_iff.mpr ha)
    obtain ⟨y, hy, hyb⟩ := List.mem_map.mp (hperm.mem_iff.mpr hb)
    have hfa : mapThrough (G.nodes.map f) G.nodes a = x := by
      rw [← hxa]
      exact mapThrough_inv f G.nodes hmnd x hx
    have hfb : mapThrough (G.nodes.map f) G.nodes b = y := by
      rw [← hyb]
      exact mapThrough_inv f G.nodes hmnd y hy
    rw [hfa, hfb, ← hxa, ← hyb]
    exact (hiff x y hx hy).symm

/-! ## Membership characterization of the canonical digraph -/

theorem addNodeD_edges (g : IsoGraph) (n : CNode) :
    (g.addNodeD n).edges = g.edges := by
  unfold IsoGraph.addNodeD
  split <;> rfl

theorem mem_addNodeD_nodes {g : IsoGraph} {n m : CNode} :
    m ∈ (g.addNodeD n).nodes ↔ m ∈ g.nodes ∨ m = n := by
  unfold IsoGraph.addNodeD
  split
  · next h =>
    constructor
    · exact Or.inl
    · rintro (hm | rfl)
      · exact hm
      · exact h
  · next h =>
    rw [List.mem_append, List.mem_singleton]

theorem addNodeD_nodes_nodup {g : IsoGraph} (h : g.nodes.Nodup)
    (n : CNode) : (g.addNodeD n).nodes.Nodup := by
  unfold IsoGraph.addNodeD
  split
  · exact h
  · next hn =>
    rw [List.nodup_append]
    refine ⟨h, List.nodup_singleton n, ?_⟩
    intro x hx hxm
    rw [List.mem_singleton] at hxm
    subst hxm
    exact hn hx

theorem addEdgeD_nodes (g : IsoGraph) (e : CNode × CNode) :
    (g.addEdgeD e).nodes = ((g.addNodeD e.1).addNodeD e.2).nodes := by
  show (if e ∈ ((g.addNodeD e.1).addNodeD e.2).edges
      then (g.addNodeD e.1).addNodeD e.2
      else { (g.addNodeD e.1).addNodeD e.2 with
        edges := ((g.addNodeD e.1).addNodeD e.2).edges ++ [e] }).nodes = _
  split <;> rfl

theorem mem_addEdgeD_nodes {g : IsoGraph} {e : CNode × CNode} {m : CNode} :
    m ∈ (g.addEdgeD e).nodes ↔ m ∈ g.nodes ∨ m = e.1 ∨ m = e.2 := by
  rw [addEdgeD_nodes, mem_addNodeD_nodes, mem_addNodeD_nodes]
  tauto

theorem addEdgeD_nodes_nodup {g : IsoGraph} (h : g.nodes.Nodup)
    (e : CNode × CNode) : (g.addEdgeD e).nodes.Nodup := by
  rw [addEdgeD_nodes]
  exact addNodeD_nodes_nodup (addNodeD_nodes_nodup h e.1) e.2

theorem mem_addEdgeD_edges {g : IsoGraph} {e f : CNode × CNode} :
    f ∈ (g.addEdgeD e).edges ↔ f ∈ g.edges ∨ f = e := by
  have hge : ((g.addNodeD e.1).addNodeD e.2).edges = g.edges := by
    rw [addNodeD_edges, addNodeD_edges]
  show f ∈ (if e ∈ ((g.addNodeD e.1).addNodeD e.2).edges
      then (g.addNodeD e.1).addNodeD e.2
      else { (g.addNodeD e.1).addNodeD e.2 with
        edges := ((g.addNodeD e.1).addNodeD e.2).edges ++ [e] }).edges ↔ _
  split
  · next h =>
    rw [hge] at h ⊢
    constructor
    · exact Or.inl
    · rintro (hm | rfl)
      · exact hm
      · exact h
  · show f ∈ ((g.addNodeD e.1).addNodeD e.2).edges ++ [e] ↔ _
    rw [List.mem_append, List.mem_singleton, hge]

/-- The three-phase shape of `toColoredDigraph`, with the `let`s spelled
out. -/
theorem cdg_eq (p : Puzzle) :
    p.toColoredDigraph =
      p.edges.foldl
        (fun g e => ((g.addEdgeD (CNode.v e.1, CNode.v e.2)).addEdgeD
          (CNode.v e.2, CNode.v e.1)))
        (p.nodes.foldl
          (fun g v => ((g.addNodeD (CNode.c (p.color v))).addEdgeD
            (CNode.c (p.color v), CNode.v v)))
          { nodes := p.nodes.map CNode.v, edges := [] }) := rfl

theorem phase1_nodes_mem (p : Puzzle) :
    ∀ (l : List Nat) (g : IsoGraph) (m : CNode),
      (m ∈ (l.foldl
        (fun g v => ((g.addNodeD (CNode.c (p.color v))).addEdgeD
          (CNode.c (p.color v), CNode.v v))) g).nodes ↔
        m ∈ g.nodes ∨ ∃ x ∈ l, m = CNode.c (p.color x) ∨ m = CNode.v x)
  | [], g, m => by simp
  | v :: l, g, m => by
    rw [List.foldl_cons, phase1_nodes_mem p l _ m, mem_addEdgeD_nodes,
      mem_addNodeD_nodes, List.exists_mem_cons_iff]
    aesop

theorem phase1_edges_mem (p : Puzzle) :
    ∀ (l : List Nat) (g : IsoGraph) (f : CNode × CNode),
      (f ∈ (l.foldl
        (fun g v => ((g.addNodeD (CNode.c (p.color v))).addEdgeD
          (CNode.c (p.color v), CNode.v v))) g).edges ↔
        f ∈ g.edges ∨ ∃ x ∈ l, f = (CNode.c (p.color x), CNode.v x))
  | [], g, f => by simp
  | v :: l, g, f => by
    rw [List.foldl_cons, phase1_edges_mem p l _ f, mem_addEdgeD_edges,
      addNodeD_edges, List.exists_mem_cons_iff]
    aesop

theorem phase2_nodes_mem :
    ∀ (l : List (Nat × Nat)) (g : IsoGraph) (m : CNode),
      (m ∈ (l.foldl
        (fun g e => ((g.addEdgeD (CNode.v e.1, CNode.v e.2)).addEdgeD
          (CNode.v e.2, CNode.v e.1))) g).nodes ↔
        m ∈ g.nodes ∨ ∃ e ∈ l, m = CNode.v e.1 ∨ m = CNode.v e.2)
  | [], g, m => by simp
  | e :: l, g, m => by
    rw [List.foldl_cons, phase2_nodes_mem l _ m, mem_addEdgeD_nodes,
      mem_addEdgeD_nodes, List.exists_mem_cons_iff]
    aesop

theorem phase2_edges_mem :
    ∀ (l : List (Nat × Nat)) (g : IsoGraph) (f : CNode × CNode),
      (f ∈ (l.foldl
        (fun g e => ((g.addEdgeD (CNode.v e.1, CNode.v e.2)).addEdgeD
          (CNode.v e.2, CNode.v e.1))) g).edges ↔
        f ∈ g.edges ∨ ∃ e ∈ l, f = (CNode.v e.1, CNode.v e.2) ∨
          f = (CNode.v e.2, CNode.v e.1))
  | [], g, f => by simp
  | e :: l, g, f => by
    rw [List.foldl_cons, phase2_edges_mem l _ f, mem_addEdgeD_edges,
      mem_addEdgeD_edges, List.exists_mem_cons_iff]
    aesop

theorem phase1_nodes_nodup (p : Puzzle) :
    ∀ (l : List Nat) (g : IsoGraph), g.nodes.Nodup →
      (l.foldl
        (fun g v => ((g.addNodeD (CNode.c (p.color v))).addEdgeD
          (CNode.c (p.color v), CNode.v v))) g).nodes.Nodup
  | [], _, h => h
  | v :: l, g, h =>
    phase1_nodes_nodup p l _
      (addEdgeD_nodes_nodup (addNodeD_nodes_nodup h _) _)

theorem phase2_nodes_nodup :
    ∀ (l : List (Nat × Nat)) (g : IsoGraph), g.nodes.Nodup →
      (l.foldl
        (fun g e => ((g.addEdgeD (CNode.v e.1, CNode.v e.2)).addEdgeD
          (CNode.v e.2, CNode.v e.1))) g).nodes.Nodup
  | [], _, h => h
  | e :: l, g, h =>
    phase2_nodes_nodup l _
      (addEdgeD_nodes_nodup (addEdgeD_nodes_nodup h _) _)

/-- Nodes of the canonical digraph: one `("v", x)` per puzzle node and one
`("c", col)` per color present. -/
theorem mem_cdg_nodes {p : Puzzle} (hwf : PuzzleWF p) {m : CNode} :
    m ∈ p.toColoredDigraph.nodes ↔
      (∃ x ∈ p.nodes, m = CNode.v x) ∨
      ∃ x ∈ p.nodes, m = CNode.c (p.color x) := by
  rw [cdg_eq, phase2_nodes_mem, phase1_nodes_mem]
  constructor
  · rintro ((hbase | ⟨x, hx, (hc | hv)⟩) | ⟨e, he, (h1 | h2)⟩)
    · obtain ⟨x, hx, he⟩ := List.mem_map.mp hbase
      exact Or.inl ⟨x, hx, he.symm⟩
    · exact Or.inr ⟨x, hx, hc⟩
    · exact Or.inl ⟨x, hx, hv⟩
    · exact Or.inl ⟨e.1, (hwf.2.2.1 e he).1, h1⟩
    · exact Or.inl ⟨e.2, (hwf.2.2.1 e he).2, h2⟩
  · rintro (⟨x, hx, rfl⟩ | ⟨x, hx, rfl⟩)
    · exact Or.inl (Or.inl (List.mem_map.mpr ⟨x, hx, rfl⟩))
    · exact Or.inl (Or.inr ⟨x, hx, Or.inl rfl⟩)

/-- Edges of the canonical digraph: color → vertex edges plus both
orientations of each puzzle adjacency. -/
theorem mem_cdg_edges {p : Puzzle} {f : CNode × CNode} :
    f ∈ p.toColoredDigraph.edges ↔
      (∃ x ∈ p.nodes, f = (CNode.c (p.color x), CNode.v x)) ∨
      ∃ a b, p.Adj a b ∧ f = (CNode.v a, CNode.v b) := by
  rw [cdg_eq, phase2_edges_mem, phase1_edges_mem]
  constructor
  · rintro ((hbase | ⟨x, hx, he⟩) | ⟨e, he, (h1 | h2)⟩)
    · exact absurd hbase (List.not_mem_nil f)
    · exact Or.inl ⟨x, hx, he⟩
    · exact Or.inr ⟨e.1, e.2, Or.inl (by rwa [Prod.mk.eta]), h1⟩
    · exact Or.inr ⟨e.2, e.1, Or.inr (by rwa [Prod.mk.eta]), h2⟩
  · rintro (⟨x, hx, rfl⟩ | ⟨a, b, hadj, rfl⟩)
    · exact Or.inl (Or.inr ⟨x, hx, rfl⟩)
    · rcases hadj with h | h
      · exact Or.inr ⟨(a, b), h, Or.inl rfl⟩
      · exact Or.inr ⟨(b, a), h, Or.inr rfl⟩

theorem cdg_nodes_nodup {p : Puzzle} (h : p.nodes.Nodup) :
    p.toColoredDigraph.nodes.Nodup := by
  rw [cdg_eq]
  apply phase2_nodes_nodup
  apply phase1_nodes_nodup
  exact h.map fun a b hab => CNode.v.inj hab

/-! ## A colored-graph isomorphism of puzzles induces a digraph
isomorphism of their canonical digraphs -/

/-- Vertex-to-vertex edges of the canonical digraph are exactly the
puzzle adjacencies. -/
theorem cdg_vv_mem {p : Puzzle} {x y : Nat} :
    (CNode.v x, CNode.v y) ∈ p.toColoredDigraph.edges ↔ p.Adj x y := by
  rw [mem_cdg_edges]
  constructor
  · rintro (⟨z, hz, he⟩ | ⟨a, b, hab, he⟩)
    · exact absurd he (by simp)
    · rw [Prod.mk.injEq] at he
      rw [CNode.v.inj he.1, CNode.v.inj he.2]
      exact hab
  · intro hadj
    exact Or.inr ⟨x, y, hadj, rfl⟩

/-- Color-to-vertex edges of the canonical digraph are exactly the color
classes. -/
theorem cdg_cv_mem {p : Puzzle} {col y : Nat} :
    (CNode.c col, CNode.v y) ∈ p.toColoredDigraph.edges ↔
      y ∈ p.nodes ∧ p.color y = col := by
  rw [mem_cdg_edges]
  constructor
  · rintro (⟨z, hz, he⟩ | ⟨a, b, hab, he⟩)
    · rw [Prod.mk.injEq] at he
      rw [CNode.v.inj he.2]
      exact ⟨hz, (CNode.c.inj he.1).symm⟩
    · exact absurd he (by simp)
  · rintro ⟨hy, hc⟩
    exact Or.inl ⟨y, hy, by rw [hc]⟩

/-- No vertex-to-color edges exist in the canonical digraph. -/
theorem cdg_vc_not {p : Puzzle} {x col : Nat} :
    (CNode.v x, CNode.c col) ∉ p.toColoredDigraph.edges := by
  rw [mem_cdg_edges]
  rintro (⟨z, _, he⟩ | ⟨a, b, _, he⟩) <;> simp [Prod.ext_iff] at he

/-- No color-to-color edges exist in the canonical digraph. -/
theorem cdg_cc_not {p : Puzzle} {c1 c2 : Nat} :
    (CNode.c c1, CNode.c c2) ∉ p.toColoredDigraph.edges := by
  rw [mem_cdg_edges]
  rintro (⟨z, _, he⟩ | ⟨a, b, _, he⟩) <;> simp [Prod.ext_iff] at he

theorem puzzleColorIso_cdg {p q : Puzzle} (hwfp : PuzzleWF p)
    (hwfq : PuzzleWF q) (h : PuzzleColorIso p q) :
    GIso p.toColoredDigraph q.toColoredDigraph := by
  obtain ⟨f, hperm, hcol, hadj⟩ := h
  have hinj : ∀ x ∈ p.nodes, ∀ y ∈ p.nodes, f x = f y → x = y :=
    List.inj_on_of_nodup_map (hperm.nodup_iff.mpr hwfq.1)
  have hmemf : ∀ x ∈ p.nodes, f x ∈ q.nodes := fun x hx =>
    hperm.mem_iff.mp (List.mem_map.mpr ⟨x, hx, rfl⟩)
  have hsurj : ∀ y ∈ q.nodes, ∃ x, x ∈ p.nodes ∧ f x = y := fun y hy =>
    List.mem_map.mp (hperm.mem_iff.mpr hy)
  refine ⟨fun n => match n with
    | CNode.v x => CNode.v (f x)
    | CNode.c col => CNode.c col, ?_, ?_⟩
  · rw [List.perm_ext_iff_of_nodup]
    · intro m
      rw [List.mem_map, mem_cdg_nodes hwfq]
      constructor
      · rintro ⟨n, hn, rfl⟩
        rcases (mem_cdg_nodes hwfp).mp hn with ⟨x, hx, rfl⟩ | ⟨x, hx, rfl⟩
        · exact Or.inl ⟨f x, hmemf x hx, rfl⟩
        · exact Or.inr ⟨f x, hmemf x hx, by
            show CNode.c (p.color x) = CNode.c (q.color (f x))
            rw [hcol x hx]⟩
      · rintro (⟨y, hy, rfl⟩ | ⟨y, hy, rfl⟩)
        · obtain ⟨x, hx, rfl⟩ := hsurj y hy
          exact ⟨CNode.v x, (mem_cdg_nodes hwfp).mpr (Or.inl ⟨x, hx, rfl⟩),
            rfl⟩
        · obtain ⟨x, hx, rfl⟩ := hsurj y hy
          refine ⟨CNode.c (p.color x),
            (mem_cdg_nodes hwfp).mpr (Or.inr ⟨x, hx, rfl⟩), ?_⟩
          show CNode.c (p.color x) = CNode.c (q.color (f x))
          rw [hcol x hx]
    · apply List.Nodup.map_on
      · intro a ha b hb he
        rcases (mem_cdg_nodes hwfp).mp ha with ⟨x, hx, rfl⟩ | ⟨x, hx, rfl⟩ <;>
          rcases (mem_cdg_nodes hwfp).mp hb with ⟨y, hy, rfl⟩ | ⟨y, hy, rfl⟩
        · show CNode.v x = CNode.v y
          have hfe : f x = f y := CNode.v.inj he
          rw [hinj x hx y hy hfe]
        · exact absurd he (by simp)
        · exact absurd he (by simp)
        · exact he
      · exact cdg_nodes_nodup hwfp.1
    · exact cdg_nodes_nodup hwfq.1
  · intro a b ha hb
    rcases (mem_cdg_nodes hwfp).mp ha with ⟨x, hx, rfl⟩ | ⟨x, hx, rfl⟩ <;>
      rcases (mem_cdg_nodes hwfp).mp hb with ⟨y, hy, rfl⟩ | ⟨y, hy, rfl⟩
    · show (CNode.v x, CNode.v y) ∈ p.toColoredDigraph.edges ↔
        (CNode.v (f x), CNode.v (f y)) ∈ q.toColoredDigraph.edges
      rw [cdg_vv_mem, cdg_vv_mem]
      exact hadj x y hx hy
    · show (CNode.v x, CNode.c (p.color y)) ∈ p.toColoredDigraph.edges ↔
        (CNode.v (f x), CNode.c (p.color y)) ∈ q.toColoredDigraph.edges
      exact iff_of_false cdg_vc_not cdg_vc_not
    · show (CNode.c (p.color x), CNode.v y) ∈ p.toColoredDigraph.edges ↔
        (CNode.c (p.color x), CNode.v (f y)) ∈ q.toColoredDigraph.edges
      rw [cdg_cv_mem, cdg_cv_mem]
      constructor
      · rintro ⟨_, hc⟩
        exact ⟨hmemf y hy, by rw [hcol y hy, hc]⟩
      · rintro ⟨_, hc⟩
        rw [hcol y hy] at hc
        exact ⟨hy, hc⟩
    · show (CNode.c (p.color x), CNode.c (p.color y)) ∈
          p.toColoredDigraph.edges ↔
        (CNode.c (p.color x), CNode.c (p.color y)) ∈
          q.toColoredDigraph.edges
      exact iff_of_false cdg_cc_not cdg_cc_not

/-! ## Collapse commutes with colored-graph isomorphism -/

theorem monoReach_transport {p q : Puzzle} (hwfp : PuzzleWF p)
    {f : Nat → Nat}
    (hcol : ∀ x ∈ p.nodes, q.color (f x) = p.color x)
    (hadj : ∀ a b, a ∈ p.nodes → b ∈ p.nodes →
      (p.Adj a b ↔ q.Adj (f a) (f b)))
    {col x y : Nat} (h : MonoReach p col x y) :
    MonoReach q col (f x) (f y) := by
  induction h with
  | refl => exact Relation.ReflTransGen.refl
  | tail _ hstep ih =>
    have hb := (adj_mem_nodes hwfp hstep.1).1
    have hc := (adj_mem_nodes hwfp hstep.1).2
    refine Relation.ReflTransGen.tail ih
      ⟨(hadj _ _ hb hc).mp hstep.1, ?_, ?_⟩
    · rw [hcol _ hb]
      exact hstep.2.1
    · rw [hcol _ hc]
      exact hstep.2.2

theorem monoReach_transport_back {p q : Puzzle} (hwfq : PuzzleWF q)
    {f : Nat → Nat} (hperm : (p.nodes.map f).Perm q.nodes)
    (hcol : ∀ x ∈ p.nodes, q.color (f x) = p.color x)
    (hadj : ∀ a b, a ∈ p.nodes → b ∈ p.nodes →
      (p.Adj a b ↔ q.Adj (f a) (f b)))
    {col x : Nat} (hx : x ∈ p.nodes) {v : Nat}
    (h : MonoReach q col (f x) v) :
    ∃ c ∈ p.nodes, v = f c ∧ MonoReach p col x c := by
  induction h with
  | refl => exact ⟨x, hx, rfl, Relation.ReflTransGen.refl⟩
  | tail _ hstep ih =>
    obtain ⟨c, hc, rfl, hre⟩ := ih
    have hw := (adj_mem_nodes hwfq hstep.1).2
    obtain ⟨d, hd, rfl⟩ := List.mem_map.mp (hperm.mem_iff.mpr hw)
    refine ⟨d, hd, rfl, Relation.ReflTransGen.tail hre
      ⟨(hadj c d hc hd).mpr hstep.1, ?_, ?_⟩⟩
    · rw [← hcol c hc]
      exact hstep.2.1
    · rw [← hcol d hd]
      exact hstep.2.2

theorem monoEquiv_transport {p q : Puzzle} (hwfp : PuzzleWF p)
    {f : Nat → Nat}
    (hcol : ∀ x ∈ p.nodes, q.color (f x) = p.color x)
    (hadj : ∀ a b, a ∈ p.nodes → b ∈ p.nodes →
      (p.Adj a b ↔ q.Adj (f a) (f b)))
    {x y : Nat} (hx : x ∈ p.nodes) (h : MonoEquiv p x y) :
    MonoEquiv q (f x) (f y) := by
  have hy : y ∈ p.nodes := monoEquiv_mem_nodes hwfp hx h
  refine ⟨?_, ?_⟩
  · rw [hcol x hx, hcol y hy]
    exact h.1
  · rw [hcol x hx]
    exact monoReach_transport hwfp hcol hadj h.2

theorem monoEquiv_transport_back {p q : Puzzle} (hwfp : PuzzleWF p)
    (hwfq : PuzzleWF q) {f : Nat → Nat}
    (hperm : (p.nodes.map f).Perm q.nodes)
    (hcol : ∀ x ∈ p.nodes, q.color (f x) = p.color x)
    (hadj : ∀ a b, a ∈ p.nodes → b ∈ p.nodes →
      (p.Adj a b ↔ q.Adj (f a) (f b)))
    {x y : Nat} (hx : x ∈ p.nodes) (hy : y ∈ p.nodes)
    (h : MonoEquiv q (f x) (f y)) : MonoEquiv p x y := by
  have hinj : ∀ a ∈ p.nodes, ∀ b ∈ p.nodes, f a = f b → a = b :=
    List.inj_on_of_nodup_map (hperm.nodup_iff.mpr hwfq.1)
  have hreach : MonoReach q (p.color x) (f x) (f y) := by
    rw [← hcol x hx]
    exact h.2
  obtain ⟨c, hc, hfe, hre⟩ :=
    monoReach_transport_back hwfq hperm hcol hadj hx hreach
  have hyc : y = c := hinj y hy c hc hfe
  subst hyc
  refine ⟨?_, hre⟩
  have := h.1
  rw [hcol x hx, hcol y hy] at this
  exact this

theorem puzzleColorIso_collapseAll {p q : Puzzle} (hwfp : PuzzleWF p)
    (hwfq : PuzzleWF q) (h : PuzzleColorIso p q) :
    PuzzleColorIso p.collapseAll q.collapseAll := by
  obtain ⟨f, hperm, hcol, hadj⟩ := h
  have sp := collapseAll_spec p hwfp
  have sq := collapseAll_spec q hwfq
  have hmemf : ∀ x ∈ p.nodes, f x ∈ q.nodes := fun x hx =>
    hperm.mem_iff.mp (List.mem_map.mpr ⟨x, hx, rfl⟩)
  have hsurj : ∀ y ∈ q.nodes, ∃ x, x ∈ p.nodes ∧ f x = y := fun y hy =>
    List.mem_map.mp (hperm.mem_iff.mpr hy)
  -- pick the representative of `f r` in the collapsed `q`
  have hrep : ∀ r : Nat, r ∈ p.collapseAll.nodes →
      ∃ s, s ∈ q.collapseAll.nodes ∧ MonoEquiv q (f r) s := by
    intro r hr
    obtain ⟨s, hs, he⟩ :=
      sq.rep_exists (f r) (hmemf r (sp.nodes_sub r hr))
    exact ⟨s, hs, he⟩
  classical
  set F : Nat → Nat := fun r =>
    if hm : r ∈ p.collapseAll.nodes then Classical.choose (hrep r hm)
    else f r with hFdef
  have hFmem : ∀ r ∈ p.collapseAll.nodes, F r ∈ q.collapseAll.nodes := by
    intro r hr
    rw [hFdef]
    simp only [dif_pos hr]
    exact (Classical.choose_spec (hrep r hr)).1
  have hFequiv : ∀ r ∈ p.collapseAll.nodes, MonoEquiv q (f r) (F r) := by
    intro r hr
    rw [hFdef]
    simp only [dif_pos hr]
    exact (Classical.choose_spec (hrep r hr)).2
  have hFinj : ∀ r ∈ p.collapseAll.nodes, ∀ s ∈ p.collapseAll.nodes,
      F r = F s → r = s := by
    intro r hr s hs he
    have h1 := hFequiv r hr
    have h2 := hFequiv s hs
    rw [he] at h1
    have hfe : MonoEquiv q (f r) (f s) :=
      monoEquiv_trans h1 (monoEquiv_symm h2)
    have hpe : MonoEquiv p r s :=
      monoEquiv_transport_back hwfp hwfq hperm hcol hadj
        (sp.nodes_sub r hr) (sp.nodes_sub s hs) hfe
    exact sp.rep_unique r hr s hs hpe
  -- MonoEquiv between the two puzzle quotients via `f` and `F`
  have hFofEquiv : ∀ r ∈ p.collapseAll.nodes, ∀ u,
      MonoEquiv p r u → MonoEquiv q (F r) (f u) := by
    intro r hr u he
    exact monoEquiv_trans (monoEquiv_symm (hFequiv r hr))
      (monoEquiv_transport hwfp hcol hadj (sp.nodes_sub r hr) he)
  refine ⟨F, ?_, ?_, ?_⟩
  · rw [List.perm_ext_iff_of_nodup]
    · intro m
      rw [List.mem_map]
      constructor
      · rintro ⟨r, hr, rfl⟩
        exact hFmem r hr
      · intro hm
        have hmq : m ∈ q.nodes := sq.nodes_sub m hm
        obtain ⟨x, hx, rfl⟩ := hsurj m hmq
        obtain ⟨r, hr, hxe⟩ := sp.rep_exists x hx
        refine ⟨r, hr, ?_⟩
        have h1 : MonoEquiv q (F r) (f x) :=
          hFofEquiv r hr x (monoEquiv_symm hxe)
        exact sq.rep_unique (F r) (hFmem r hr) (f x) hm h1
    · exact List.Nodup.map_on hFinj sp.wf.1
    · exact sq.wf.1
  · intro r hr
    have hrq := hmemf r (sp.nodes_sub r hr)
    have h1 := (hFequiv r hr).1
    rw [sq.color_eq, sp.color_eq, ← h1]
    exact hcol r (sp.nodes_sub r hr)
  · intro r s hr hs
    rw [sp.adj_iff r hr s hs,
      sq.adj_iff (F r) (hFmem r hr) (F s) (hFmem s hs)]
    constructor
    · rintro ⟨hne, x, y, hrx, hsy, hxy⟩
      refine ⟨?_, f x, f y, ?_, ?_, ?_⟩
      · intro hq
        have h1 : MonoEquiv q (f r) (f s) :=
          monoEquiv_trans (hFequiv r hr)
            (monoEquiv_trans hq (monoEquiv_symm (hFequiv s hs)))
        exact hne (monoEquiv_transport_back hwfp hwfq hperm hcol hadj
          (sp.nodes_sub r hr) (sp.nodes_sub s hs) h1)
      · exact hFofEquiv r hr x hrx
      · exact hFofEquiv s hs y hsy
      · have hxm := (adj_mem_nodes hwfp hxy).1
        have hym := (adj_mem_nodes hwfp hxy).2
        exact (hadj x y hxm hym).mp hxy
    · rintro ⟨hne, u, v, hru, hsv, huv⟩
      have hum := (adj_mem_nodes hwfq huv).1
      have hvm := (adj_mem_nodes hwfq huv).2
      obtain ⟨x, hx, rfl⟩ := hsurj u hum
      obtain ⟨y, hy, rfl⟩ := hsurj v hvm
      refine ⟨?_, x, y, ?_, ?_, ?_⟩
      · intro hpe
        refine hne ?_
        have h1 : MonoEquiv q (f r) (f s) :=
          monoEquiv_transport hwfp hcol hadj (sp.nodes_sub r hr) hpe
        exact monoEquiv_trans (monoEquiv_symm (hFequiv r hr))
          (monoEquiv_trans h1 (hFequiv s hs))
      · exact monoEquiv_transport_back hwfp hwfq hperm hcol hadj
          (sp.nodes_sub r hr) hx
          (monoEquiv_trans (hFequiv r hr) hru)
      · exact monoEquiv_transport_back hwfp hwfq hperm hcol hadj
          (sp.nodes_sub s hs) hy
          (monoEquiv_trans (hFequiv s hs) hsv)
      · exact (hadj x y hx hy).mpr huv

/-! ## The tracker's full-hash identities separate isomorphism classes -/

theorem puzzleColorIso_canon {p q : Puzzle} (hwfp : PuzzleWF p)
    (hwfq : PuzzleWF q) (h : PuzzleColorIso p q) :
    GIso (canonOf p) (canonOf q) :=
  puzzleColorIso_cdg (collapseAll_spec p hwfp).wf
    (collapseAll_spec q hwfq).wf
    (puzzleColorIso_collapseAll hwfp hwfq h)

theorem bool_eq_of_iff {a b : Bool} (h : a = true ↔ b = true) : a = b := by
  cases a <;> cases b <;> simp_all

theorem findIsoIdxGo_congr {g1 g2 : IsoGraph} :
    ∀ (l : List IsoGraph) (k : Nat),
      (∀ h ∈ l, nxIsIsomorphic g2 h = nxIsIsomorphic g1 h) →
      findIsoIdxGo g2 l k = findIsoIdxGo g1 l k
  | [], _, _ => rfl
  | h :: l, k, hall => by
    unfold findIsoIdxGo
    rw [hall h (List.mem_cons_self h l),
      findIsoIdxGo_congr l (k + 1)
        (fun h' hm => hall h' (List.mem_cons_of_mem h hm))]

theorem findIsoIdxGo_append_none {g : IsoGraph} :
    ∀ (l1 l2 : List IsoGraph) (k : Nat), findIsoIdxGo g l1 k = none →
      findIsoIdxGo g (l1 ++ l2) k = findIsoIdxGo g l2 (k + l1.length)
  | [], l2, k, _ => by rw [List.nil_append, List.length_nil, Nat.add_zero]
  | h :: l1, l2, k, hn => by
    rw [List.cons_append]
    show (if nxIsIsomorphic g h = true then some k
      else findIsoIdxGo g (l1 ++ l2) (k + 1)) = _
    have hn2 : (if nxIsIsomorphic g h = true then some k
        else findIsoIdxGo g l1 (k + 1)) = none := hn
    split
    · next hiso =>
      rw [if_pos hiso] at hn2
      exact absurd hn2 (by simp)
    · next hiso =>
      rw [if_neg hiso] at hn2
      rw [findIsoIdxGo_append_none l1 l2 (k + 1) hn2]
      have he : k + 1 + l1.length = k + (h :: l1).length := by
        rw [List.length_cons]
        omega
      rw [he]

theorem findIsoIdxGo_some {g : IsoGraph} :
    ∀ (l : List IsoGraph) (k i : Nat), findIsoIdxGo g l k = some i →
      k ≤ i ∧ i - k < l.length ∧
      (∃ h, l.get? (i - k) = some h ∧ nxIsIsomorphic g h = true) ∧
      ∀ j h', j < i - k → l.get? j = some h' →
        nxIsIsomorphic g h' = false
  | [], k, i, h => by simp [findIsoIdxGo] at h
  | h :: l, k, i, hf => by
    unfold findIsoIdxGo at hf
    split at hf
    · next hiso =>
      have hik : i = k := (Option.some.inj hf).symm
      subst hik
      refine ⟨Nat.le_refl i, ?_, ⟨h, ?_, hiso⟩, ?_⟩
      · rw [Nat.sub_self]
        exact Nat.succ_pos _
      · rw [Nat.sub_self]
        rfl
      · intro j h' hj _
        rw [Nat.sub_self] at hj
        exact absurd hj (Nat.not_lt_zero j)
    · next hiso =>
      obtain ⟨hk1, hlen, ⟨hh, hget, hti⟩, hpri⟩ :=
        findIsoIdxGo_some l (k + 1) i hf
      have hki : k ≤ i := Nat.le_of_succ_le hk1
      have hsub : i - k = (i - (k + 1)) + 1 := by omega
      refine ⟨hki, ?_, ⟨hh, ?_, hti⟩, ?_⟩
      · rw [List.length_cons]
        omega
      · rw [hsub]
        exact hget
      · intro j h' hj hgj
        cases j with
        | zero =>
          have hh' : h' = h := by
            rw [List.get?_cons_zero] at hgj
            exact (Option.some.inj hgj).symm
          subst hh'
          exact Bool.eq_false_iff.mpr hiso
        | succ j' =>
          rw [List.get?_cons_succ] at hgj
          exact hpri j' h' (by omega) hgj

/-- The heart of C1: hashing two canonical graphs through one tracker in
sequence yields equal identities exactly when the graphs are isomorphic,
for any isomorphism-invariant underscore-free quick hash. -/
theorem trackerFullHash_pair (qhash : IsoGraph → Str)
    (hqinv : ∀ G H : IsoGraph, GIso G H → qhash G = qhash H)
    (hqus : ∀ G, '_' ∉ qhash G)
    {t : HashTracker} (hwt : TrackerWF t)
    {g1 g2 : IsoGraph} (h1 : g1.nodes.Nodup) (h2 : g2.nodes.Nodup) :
    ((trackerFullHash qhash (trackerFullHash qhash t g1).2 g2).1 =
      (trackerFullHash qhash t g1).1 ↔ GIso g1 g2) := by
  by_cases hqe : qhash g2 = qhash g1
  · -- same quick hash: compare positions inside the shared bucket
    cases hAl : alookup t (qhash g1) with
    | none =>
      have hs1 : trackerFullHash qhash t g1 =
          (mergeHash (qhash g1) 0, aset t (qhash g1) [g1]) := by
        unfold trackerFullHash
        simp only [hAl]
      have hAl2 : alookup (aset t (qhash g1) [g1]) (qhash g2) =
          some [g1] := by
        rw [hqe]
        exact alookup_aset_eq t (qhash g1) [g1]
      rw [hs1]
      show (trackerFullHash qhash (aset t (qhash g1) [g1]) g2).1 =
        mergeHash (qhash g1) 0 ↔ GIso g1 g2
      by_cases hiso : nxIsIsomorphic g2 g1 = true
      · have hf2 : findIsoIdxGo g2 [g1] 0 = some 0 := by
          unfold findIsoIdxGo
          rw [if_pos hiso]
        have hs2 : trackerFullHash qhash (aset t (qhash g1) [g1]) g2 =
            (mergeHash (qhash g2) 0, aset t (qhash g1) [g1]) := by
          unfold trackerFullHash
          simp only [hAl2, hf2]
        rw [hs2]
        show mergeHash (qhash g2) 0 = mergeHash (qhash g1) 0 ↔ GIso g1 g2
        rw [hqe]
        exact iff_of_true rfl (giso_symm h2 h1 ((nxIso_iff h2).mp hiso))
      · have hf2 : findIsoIdxGo g2 [g1] 0 = none := by
          unfold findIsoIdxGo
          rw [if_neg hiso]
          rfl
        have hs2 : trackerFullHash qhash (aset t (qhash g1) [g1]) g2 =
            (mergeHash (qhash g2) 1,
              aset (aset t (qhash g1) [g1]) (qhash g2) [g1, g2]) := by
          unfold trackerFullHash
          simp only [hAl2, hf2]
          rfl
        rw [hs2]
        show mergeHash (qhash g2) 1 = mergeHash (qhash g1) 0 ↔ GIso g1 g2
        refine iff_of_false ?_ ?_
        · intro he
          exact absurd (mergeHash_inj _ _ _ _ (hqus g2) (hqus g1) he).2
            (by omega)
        · intro hgi
          exact absurd ((nxIso_iff h2).mpr (giso_symm h1 h2 hgi)) hiso
    | some B =>
      have hbnd : ∀ g ∈ B, g.nodes.Nodup :=
        hwt.2 (qhash g1, B) (alookup_mem hAl)
      have hAl2B : alookup t (qhash g2) = some B := by
        rw [hqe]
        exact hAl
      cases hf1 : findIsoIdxGo g1 B 0 with
      | some i =>
        have hs1 : trackerFullHash qhash t g1 =
            (mergeHash (qhash g1) i, t) := by
          unfold trackerFullHash
          simp only [hAl, hf1]
        obtain ⟨_, hilen, ⟨hB, hgetB, hisoB⟩, hpriB⟩ :=
          findIsoIdxGo_some B 0 i hf1
        rw [Nat.sub_zero] at hilen hgetB hpriB
        rw [hs1]
        show (trackerFullHash qhash t g2).1 = mergeHash (qhash g1) i ↔
          GIso g1 g2
        by_cases hgi : GIso g1 g2
        · have hcongr : ∀ h ∈ B, nxIsIsomorphic g2 h =
              nxIsIsomorphic g1 h := by
            intro h hm
            apply bool_eq_of_iff
            rw [nxIso_iff h2, nxIso_iff h1]
            constructor
            · exact fun hx => giso_trans hgi hx
            · exact fun hx => giso_trans (giso_symm h1 h2 hgi) hx
          have hf2 : findIsoIdxGo g2 B 0 = some i := by
            rw [findIsoIdxGo_congr B 0 hcongr]
            exact hf1
          have hs2 : trackerFullHash qhash t g2 =
              (mergeHash (qhash g2) i, t) := by
            unfold trackerFullHash
            simp only [hAl2B, hf2]
          rw [hs2]
          show mergeHash (qhash g2) i = mergeHash (qhash g1) i ↔ GIso g1 g2
          rw [hqe]
          exact iff_of_true rfl hgi
        · refine iff_of_false ?_ hgi
          cases hf2 : findIsoIdxGo g2 B 0 with
          | none =>
            have hs2 : trackerFullHash qhash t g2 =
                (mergeHash (qhash g2) B.length,
                  aset t (qhash g2) (B ++ [g2])) := by
              unfold trackerFullHash
              simp only [hAl2B, hf2]
            rw [hs2]
            show mergeHash (qhash g2) B.length ≠ mergeHash (qhash g1) i
            intro he
            have := (mergeHash_inj _ _ _ _ (hqus g2) (hqus g1) he).2
            omega
          | some j =>
            have hs2 : trackerFullHash qhash t g2 =
                (mergeHash (qhash g2) j, t) := by
              unfold trackerFullHash
              simp only [hAl2B, hf2]
            rw [hs2]
            show mergeHash (qhash g2) j ≠ mergeHash (qhash g1) i
            intro he
            have hji := (mergeHash_inj _ _ _ _ (hqus g2) (hqus g1) he).2
            subst hji
            obtain ⟨_, hjlen, ⟨hB2, hgetB2, hisoB2⟩, _⟩ :=
              findIsoIdxGo_some B 0 j hf2
            rw [Nat.sub_zero] at hgetB2
            have hBe : hB2 = hB := by
              rw [hgetB] at hgetB2
              exact (Option.some.inj hgetB2).symm
            subst hBe
            have hBmem : hB2 ∈ B := List.get?_mem hgetB
            exact hgi (giso_trans ((nxIso_iff h1).mp hisoB)
              (giso_symm h2 (hbnd hB2 hBmem) ((nxIso_iff h2).mp hisoB2)))
      | none =>
        have hs1 : trackerFullHash qhash t g1 =
            (mergeHash (qhash g1) B.length,
              aset t (qhash g1) (B ++ [g1])) := by
          unfold trackerFullHash
          simp only [hAl, hf1]
        have hAl2 : alookup (aset t (qhash g1) (B ++ [g1])) (qhash g2) =
            some (B ++ [g1]) := by
          rw [hqe]
          exact alookup_aset_eq t (qhash g1) (B ++ [g1])
        rw [hs1]
        show (trackerFullHash qhash (aset t (qhash g1) (B ++ [g1]))
            g2).1 = mergeHash (qhash g1) B.length ↔ GIso g1 g2
        by_cases hgi : GIso g1 g2
        · have hcongr : ∀ h ∈ B, nxIsIsomorphic g2 h =
              nxIsIsomorphic g1 h := by
            intro h hm
            apply bool_eq_of_iff
            rw [nxIso_iff h2, nxIso_iff h1]
            constructor
            · exact fun hx => giso_trans hgi hx
            · exact fun hx => giso_trans (giso_symm h1 h2 hgi) hx
          have hf2B : findIsoIdxGo g2 B 0 = none := by
            rw [findIsoIdxGo_congr B 0 hcongr]
            exact hf1
          have hf2 : findIsoIdxGo g2 (B ++ [g1]) 0 = some B.length := by
            rw [findIsoIdxGo_append_none B [g1] 0 hf2B]
            show (if nxIsIsomorphic g2 g1 = true then some (0 + B.length)
              else findIsoIdxGo g2 [] (0 + B.length + 1)) = _
            rw [if_pos ((nxIso_iff h2).mpr (giso_symm h1 h2 hgi)),
              Nat.zero_add]
          have hs2 : trackerFullHash qhash
              (aset t (qhash g1) (B ++ [g1])) g2 =
              (mergeHash (qhash g2) B.length,
                aset t (qhash g1) (B ++ [g1])) := by
            unfold trackerFullHash
            simp only [hAl2, hf2]
          rw [hs2]
          show mergeHash (qhash g2) B.length =
            mergeHash (qhash g1) B.length ↔ GIso g1 g2
          rw [hqe]
          exact iff_of_true rfl hgi
        · refine iff_of_false ?_ hgi
          cases hf2 : findIsoIdxGo g2 (B ++ [g1]) 0 with
          | none =>
            have hs2 : trackerFullHash qhash
                (aset t (qhash g1) (B ++ [g1])) g2 =
                (mergeHash (qhash g2) (B ++ [g1]).length,
                  aset (aset t (qhash g1) (B ++ [g1])) (qhash g2)
                    ((B ++ [g1]) ++ [g2])) := by
              unfold trackerFullHash
              simp only [hAl2, hf2]
            rw [hs2]
            show mergeHash (qhash g2) (B ++ [g1]).length ≠
              mergeHash (qhash g1) B.length
            intro he
            have := (mergeHash_inj _ _ _ _ (hqus g2) (hqus g1) he).2
            rw [List.length_append, List.length_singleton] at this
            omega
          | some j =>
            have hs2 : trackerFullHash qhash
                (aset t (qhash g1) (B ++ [g1])) g2 =
                (mergeHash (qhash g2) j,
                  aset t (qhash g1) (B ++ [g1])) := by
              unfold trackerFullHash
              simp only [hAl2, hf2]
            rw [hs2]
            show mergeHash (qhash g2) j ≠ mergeHash (qhash g1) B.length
            intro he
            have hji := (mergeHash_inj _ _ _ _ (hqus g2) (hqus g1) he).2
            subst hji
            obtain ⟨_, _, ⟨hB2, hgetB2, hisoB2⟩, _⟩ :=
              findIsoIdxGo_some (B ++ [g1]) 0 B.length hf2
            rw [Nat.sub_zero] at hgetB2
            have hg1e : hB2 = g1 := by
              rw [List.get?_concat_length] at hgetB2
              exact (Option.some.inj hgetB2).symm
            subst hg1e
            exact hgi (giso_symm h2 h1 ((nxIso_iff h2).mp hisoB2))
  · -- distinct quick hashes: identities differ and graphs cannot be
    -- isomorphic
    have hout1 : ∀ (t' : HashTracker) (g : IsoGraph),
        ∃ i, (trackerFullHash qhash t' g).1 = mergeHash (qhash g) i := by
      intro t' g
      unfold trackerFullHash
      cases hA : alookup t' (qhash g) with
      | none =>
        simp only [hA]
        exact ⟨0, rfl⟩
      | some bucket =>
        simp only [hA]
        cases hF : findIsoIdxGo g bucket 0 with
        | none =>
          simp only [hF]
          exact ⟨bucket.length, rfl⟩
        | some i =>
          simp only [hF]
          exact ⟨i, rfl⟩
    obtain ⟨i1, hs1⟩ := hout1 t g1
    obtain ⟨i2, hs2⟩ := hout1 (trackerFullHash qhash t g1).2 g2
    rw [hs1, hs2]
    refine iff_of_false ?_ ?_
    · intro he
      exact hqe (mergeHash_inj _ _ _ _ (hqus g2) (hqus g1) he).1
    · intro hgi
      exact hqe (hqinv g2 g1 (giso_symm h1 h2 hgi))

/-! ## C1: the full-identity contract -/

theorem wlHashModel_iso_invariant :
    ∀ G H : IsoGraph, GIso G H → wlHashModel G = wlHashModel H := by
  rintro G H ⟨f, hperm, _⟩
  unfold wlHashModel
  have hlen : G.nodes.length = H.nodes.length := by
    rw [← hperm.length_eq, List.length_map]
  rw [hlen]

theorem wlHashModel_no_underscore (G : IsoGraph) : '_' ∉ wlHashModel G :=
  decDigits_no_underscore _

theorem trackerWF_nil : TrackerWF [] :=
  ⟨List.nodup_nil, fun kv h => absurd h (List.not_mem_nil kv)⟩

/-- C1: For puzzles `P, Q` hashed in sequence through one shared tracker
(with any isomorphism-invariant, underscore-free quick hash, as
`nx.weisfeiler_lehman_graph_hash` is contracted to be), the full identity
returned for `Q` equals the full identity returned for `P` **iff their
collapsed canonical digraphs are isomorphic as digraphs** — not iff the
puzzles are isomorphic as colored graphs, because the canonical digraph
encodes color classes anonymously.  Of the claim's two directions, only
one survives: colored-graph-isomorphic puzzles do get equal identities
(conjunct 2), and puzzles with non-isomorphic canonical digraphs get
distinct identities (conjunct 3); but non-isomorphic (as colored graphs)
puzzles can share an identity, refuted separately by
`puzzle_identity_collision_cex`. -/
theorem puzzle_identity_iff_canonical_iso
    (qhash : IsoGraph → Str)
    (hqinv : ∀ G H : IsoGraph, GIso G H → qhash G = qhash H)
    (hqus : ∀ G, '_' ∉ qhash G)
    (t : HashTracker) (hwt : TrackerWF t)
    (p q : Puzzle) (hwfp : PuzzleWF p) (hwfq : PuzzleWF q) :
    ((puzzleFullHash qhash (puzzleFullHash qhash t p).2 q).1 =
        (puzzleFullHash qhash t p).1 ↔ GIso (canonOf p) (canonOf q)) ∧
    (PuzzleColorIso p q →
      (puzzleFullHash qhash (puzzleFullHash qhash t p).2 q).1 =
        (puzzleFullHash qhash t p).1) ∧
    (¬GIso (canonOf p) (canonOf q) →
      (puzzleFullHash qhash (puzzleFullHash qhash t p).2 q).1 ≠
        (puzzleFullHash qhash t p).1) := by
  have hnd1 : (canonOf p).nodes.Nodup :=
    cdg_nodes_nodup (collapseAll_spec p hwfp).wf.1
  have hnd2 : (canonOf q).nodes.Nodup :=
    cdg_nodes_nodup (collapseAll_spec q hwfq).wf.1
  have hiff := trackerFullHash_pair qhash hqinv hqus hwt hnd1 hnd2
  exact ⟨hiff, fun hci => hiff.mpr (puzzleColorIso_canon hwfp hwfq hci),
    fun hng he => hng (hiff.mp he)⟩

/-- Witness for C1's amended theorem at a concrete instance: the same
single-node puzzle hashed twice receives the same identity, via the
reflexivity of canonical-digraph isomorphism. -/
theorem puzzle_identity_iff_canonical_iso_witness :
    (puzzleFullHash wlHashModel (puzzleFullHash wlHashModel [] p0cex).2
        p0cex).1 = (puzzleFullHash wlHashModel [] p0cex).1 :=
  (puzzle_identity_iff_canonical_iso wlHashModel wlHashModel_iso_invariant
    wlHashModel_no_underscore [] trackerWF_nil p0cex p0cex (by decide)
    (by decide)).1.mpr (giso_refl _)

/-- C1 counterexample to the claim as stated: `p0cex` and `p1cex` (one
node, colored `0` resp. `1`) are *not* isomorphic as colored graphs, yet
hashing them through one shared tracker returns the same full identity
`"2_0"` for both — the canonical digraph encodes color classes
anonymously (a structural `("c", col)` node), so recoloring a puzzle
cannot change its identity. -/
theorem puzzle_identity_collision_cex :
    runFullHashes wlHashModel [] [p0cex, p1cex] =
      [['2', '_', '0'], ['2', '_', '0']] ∧
    ¬PuzzleColorIso p0cex p1cex := by
  constructor
  · rfl
  · rintro ⟨f, _, hcol, _⟩
    have h : (1 : Nat) = 0 := hcol 0 (by decide)
    exact absurd h (by decide)

/-! ## Tracker semantics: full-hash identities are stable names for
isomorphism classes of canonical graphs -/

theorem get?_some_lt {α : Type} {l : List α} {i : Nat} {a : α}
    (h : l.get? i = some a) : i < l.length := by
  by_contra hc
  rw [List.get?_eq_none.mpr (Nat.le_of_not_lt hc)] at h
  exact Option.noConfusion h

/-- A missing `findIsoIdxGo` helper: `none` means no bucket element is
isomorphic. -/
theorem findIsoIdxGo_none {g : IsoGraph} :
    ∀ (l : List IsoGraph) (k : Nat), findIsoIdxGo g l k = none →
      ∀ h ∈ l, nxIsIsomorphic g h = false
  | [], _, _, h, hm => absurd hm (List.not_mem_nil h)
  | h0 :: l, k, hn, h, hm => by
    have hn2 : (if nxIsIsomorphic g h0 = true then some k
        else findIsoIdxGo g l (k + 1)) = none := hn
    rcases List.mem_cons.mp hm with rfl | hml
    · by_cases hi : nxIsIsomorphic g h = true
      · rw [if_pos hi] at hn2
        exact absurd hn2 (by simp)
      · exact Bool.eq_false_iff.mpr hi
    · by_cases hi : nxIsIsomorphic g h0 = true
      · rw [if_pos hi] at hn2
        exact absurd hn2 (by simp)
      · rw [if_neg hi] at hn2
        exact findIsoIdxGo_none l (k + 1) hn2 h hml

/-- One `full_hash` call registers the graph's class (or finds it
registered), returns its identity, keeps the tracker well-formed, and
disturbs no previously registered class. -/
theorem tfh_reg {t : HashTracker} (hwt : TrackerWF t) {g : IsoGraph}
    (hg : g.nodes.Nodup) :
    Reg (trackerFullHash wlHashModel t g).2 g
      (trackerFullHash wlHashModel t g).1 ∧
    TrackerWF (trackerFullHash wlHashModel t g).2 ∧
    ∀ g0 s0, Reg t g0 s0 → Reg (trackerFullHash wlHashModel t g).2 g0 s0 := by
  cases hAl : alookup t (wlHashModel g) with
  | none =>
    have hs : trackerFullHash wlHashModel t g =
        (mergeHash (wlHashModel g) 0,
          aset t (wlHashModel g) [g]) := by
      unfold trackerFullHash
      simp only [hAl]
    rw [hs]
    refine ⟨⟨[g], alookup_aset_eq t (wlHashModel g) [g], 0, g, rfl,
      giso_refl g, ?_, rfl⟩, ⟨?_, ?_⟩, ?_⟩
    · intro j h' hj _
      exact absurd hj (Nat.not_lt_zero j)
    · exact aset_keys_nodup hwt.1 _ _
    · intro kv hkv g' hg'
      rcases mem_aset.mp hkv with ⟨hold, _⟩ | rfl
      · exact hwt.2 kv hold g' hg'
      · rw [List.mem_singleton.mp hg']
        exact hg
    · rintro g0 s0 ⟨bucket0, hA0, i0, h0, hget0, hiso0, hpri0, hs0⟩
      have hne : wlHashModel g0 ≠ wlHashModel g := by
        intro he
        rw [he, hAl] at hA0
        exact Option.noConfusion hA0
      exact ⟨bucket0, by rw [alookup_aset_ne t [g] hne]; exact hA0,
        i0, h0, hget0, hiso0, hpri0, hs0⟩
  | some B =>
    have hBnd : ∀ h ∈ B, h.nodes.Nodup :=
      hwt.2 (wlHashModel g, B) (alookup_mem hAl)
    cases hf : findIsoIdxGo g B 0 with
    | some i =>
      have hs : trackerFullHash wlHashModel t g =
          (mergeHash (wlHashModel g) i, t) := by
        unfold trackerFullHash
        simp only [hAl, hf]
      rw [hs]
      obtain ⟨_, _, ⟨h, hget, hiso⟩, hpri⟩ := findIsoIdxGo_some B 0 i hf
      rw [Nat.sub_zero] at hget hpri
      refine ⟨⟨B, hAl, i, h, hget, (nxIso_iff hg).mp hiso, ?_, rfl⟩,
        hwt, fun g0 s0 h0 => h0⟩
      intro j h' hj hgj
      intro hgi
      exact absurd ((nxIso_iff hg).mpr hgi) (by rw [hpri j h' hj hgj]; simp)
    | none =>
      have hs : trackerFullHash wlHashModel t g =
          (mergeHash (wlHashModel g) B.length,
            aset t (wlHashModel g) (B ++ [g])) := by
        unfold trackerFullHash
        simp only [hAl, hf]
      rw [hs]
      have hnone := findIsoIdxGo_none B 0 hf
      refine ⟨⟨B ++ [g], alookup_aset_eq t (wlHashModel g) (B ++ [g]),
        B.length, g, List.get?_concat_length B g, giso_refl g, ?_, rfl⟩,
        ⟨?_, ?_⟩, ?_⟩
      · intro j h' hj hgj
        rw [List.get?_append hj] at hgj
        intro hgi
        exact absurd ((nxIso_iff hg).mpr hgi)
          (by rw [hnone h' (List.get?_mem hgj)]; simp)
      · exact aset_keys_nodup hwt.1 _ _
      · intro kv hkv g' hg'
        rcases mem_aset.mp hkv with ⟨hold, _⟩ | rfl
        · exact hwt.2 kv hold g' hg'
        · rcases List.mem_append.mp hg' with hB | hgs
          · exact hBnd g' hB
          · rw [List.mem_singleton.mp hgs]
            exact hg
      · rintro g0 s0 ⟨bucket0, hA0, i0, h0, hget0, hiso0, hpri0, hs0⟩
        by_cases hqe : wlHashModel g0 = wlHashModel g
        · rw [hqe, hAl] at hA0
          have hB0 : bucket0 = B := (Option.some.inj hA0).symm
          subst hB0
          have hi0 : i0 < bucket0.length := get?_some_lt hget0
          refine ⟨bucket0 ++ [g], ?_, i0, h0, ?_, hiso0, ?_, hs0⟩
          · rw [hqe]
            exact alookup_aset_eq t (wlHashModel g) (bucket0 ++ [g])
          · rw [List.get?_append hi0]
            exact hget0
          · intro j h' hj hgj
            rw [List.get?_append (by omega)] at hgj
            exact hpri0 j h' hj hgj
        · exact ⟨bucket0,
            (by rw [alookup_aset_ne t (B ++ [g]) hqe]; exact hA0 :
              alookup (aset t (wlHashModel g) (B ++ [g]))
                (wlHashModel g0) = some bucket0),
            i0, h0, hget0, hiso0, hpri0, hs0⟩

/-- Identities are equal exactly for isomorphic registered graphs. -/
theorem reg_inj {t : HashTracker} (hwt : TrackerWF t) {g1 g2 : IsoGraph}
    (h1 : g1.nodes.Nodup) (h2 : g2.nodes.Nodup) {s1 s2 : Str}
    (hr1 : Reg t g1 s1) (hr2 : Reg t g2 s2) : s1 = s2 ↔ GIso g1 g2 := by
  obtain ⟨B1, hA1, i1, e1, hget1, hiso1, hpri1, hs1⟩ := hr1
  obtain ⟨B2, hA2, i2, e2, hget2, hiso2, hpri2, hs2⟩ := hr2
  constructor
  · intro he
    rw [hs1, hs2] at he
    obtain ⟨hq, hi⟩ := mergeHash_inj _ _ _ _ (wlHashModel_no_underscore g1)
      (wlHashModel_no_underscore g2) he
    rw [hq, hA2] at hA1
    have hB : B1 = B2 := (Option.some.inj hA1).symm
    subst hB
    subst hi
    rw [hget2] at hget1
    have hee : e1 = e2 := (Option.some.inj hget1).symm
    subst hee
    have hend : e1.nodes.Nodup :=
      hwt.2 (wlHashModel g2, B1) (alookup_mem hA2) e1
        (List.get?_mem hget2)
    exact giso_trans hiso1 (giso_symm h2 hend hiso2)
  · intro hgi
    have hq : wlHashModel g1 = wlHashModel g2 :=
      wlHashModel_iso_invariant g1 g2 hgi
    rw [hq, hA2] at hA1
    have hB : B1 = B2 := (Option.some.inj hA1).symm
    subst hB
    have hii : i1 = i2 := by
      by_contra hne
      rcases Nat.lt_or_ge i1 i2 with hlt | hge
      · exact hpri2 i1 e1 hlt hget1
          (giso_trans (giso_symm h1 h2 hgi) hiso1)
      · have hlt2 : i2 < i1 := by omega
        exact hpri1 i2 e2 hlt2 hget2 (giso_trans hgi hiso2)
    rw [hs1, hs2, hq, hii]

/-- Registration is a property of the isomorphism class. -/
theorem reg_of_giso {t : HashTracker} {g g' : IsoGraph}
    (hg : g.nodes.Nodup) (hg' : g'.nodes.Nodup) (hgi : GIso g' g)
    {s : Str} (hr : Reg t g s) : Reg t g' s := by
  obtain ⟨B, hA, i, e, hget, hiso, hpri, hs⟩ := hr
  have hq : wlHashModel g' = wlHashModel g :=
    wlHashModel_iso_invariant g' g hgi
  refine ⟨B, by rw [hq]; exact hA, i, e, hget, giso_trans hgi hiso,
    ?_, by rw [hq]; exact hs⟩
  intro j h' hj hgj hgi'
  exact hpri j h' hj hgj (giso_trans (giso_symm hg' hg hgi) hgi')

/-! ## Palette-blind isomorphism of puzzle states -/

theorem palIso_of_colorIso {p q : Puzzle} (h : PuzzleColorIso p q) :
    PalIso p q := by
  obtain ⟨f, hperm, hcol, hadj⟩ := h
  refine ⟨f, hperm, ?_, hadj⟩
  intro x y hx hy
  rw [hcol x hx, hcol y hy]

theorem palIso_refl (p : Puzzle) : PalIso p p :=
  ⟨id, by simp, fun _ _ _ _ => Iff.rfl, fun _ _ _ _ => Iff.rfl⟩

theorem palIso_trans {p q r : Puzzle} (h1 : PalIso p q)
    (h2 : PalIso q r) : PalIso p r := by
  obtain ⟨f, hp1, hc1, ha1⟩ := h1
  obtain ⟨g, hp2, hc2, ha2⟩ := h2
  have hmem : ∀ x ∈ p.nodes, f x ∈ q.nodes := fun x hx =>
    hp1.mem_iff.mp (List.mem_map.mpr ⟨x, hx, rfl⟩)
  refine ⟨g ∘ f, ?_, ?_, ?_⟩
  · have he : p.nodes.map (g ∘ f) = (p.nodes.map f).map g := by
      rw [List.map_map]
    rw [he]
    exact (hp1.map g).trans hp2
  · intro x y hx hy
    rw [hc1 x y hx hy, hc2 (f x) (f y) (hmem x hx) (hmem y hy)]
    exact Iff.rfl
  · intro a b ha hb
    rw [ha1 a b ha hb, ha2 (f a) (f b) (hmem a ha) (hmem b hb)]
    exact Iff.rfl

theorem palIso_symm {p q : Puzzle} (hp : p.nodes.Nodup)
    (hq : q.nodes.Nodup) (h : PalIso p q) : PalIso q p := by
  classical
  obtain ⟨f, hperm, hciff, hadj⟩ := h
  have hinj : ∀ x ∈ p.nodes, ∀ y ∈ p.nodes, f x = f y → x = y :=
    List.inj_on_of_nodup_map (hperm.nodup_iff.mpr hq)
  have hmem : ∀ x ∈ p.nodes, f x ∈ q.nodes := fun x hx =>
    hperm.mem_iff.mp (List.mem_map.mpr ⟨x, hx, rfl⟩)
  have hsurj : ∀ y ∈ q.nodes, ∃ x, x ∈ p.nodes ∧ f x = y := fun y hy =>
    List.mem_map.mp (hperm.mem_iff.mpr hy)
  set finv : Nat → Nat := fun y =>
    if h : ∃ x, x ∈ p.nodes ∧ f x = y then Classical.choose h else y
    with hfinv
  have hfi : ∀ y ∈ q.nodes, finv y ∈ p.nodes ∧ f (finv y) = y := by
    intro y hy
    rw [hfinv]
    simp only [dif_pos (hsurj y hy)]
    exact ⟨(Classical.choose_spec (hsurj y hy)).1,
      (Classical.choose_spec (hsurj y hy)).2⟩
  have hfix : ∀ x ∈ p.nodes, finv (f x) = x := by
    intro x hx
    have hfx : f x ∈ q.nodes := hmem x hx
    obtain ⟨hm, he⟩ := hfi (f x) hfx
    exact hinj (finv (f x)) hm x hx he
  refine ⟨finv, ?_, ?_, ?_⟩
  · rw [List.perm_ext_iff_of_nodup]
    · intro a
      rw [List.mem_map]
      constructor
      · rintro ⟨y, hy, rfl⟩
        exact (hfi y hy).1
      · intro ha
        exact ⟨f a, hmem a ha, hfix a ha⟩
    · refine List.Nodup.map_on ?_ hq
      intro y1 hy1 y2 hy2 he
      obtain ⟨hm1, he1⟩ := hfi y1 hy1
      obtain ⟨hm2, he2⟩ := hfi y2 hy2
      rw [← he1, ← he2, he]
    · exact hp
  · intro y1 y2 hy1 hy2
    obtain ⟨hm1, he1⟩ := hfi y1 hy1
    obtain ⟨hm2, he2⟩ := hfi y2 hy2
    have := hciff (finv y1) (finv y2) hm1 hm2
    rw [he1, he2] at this
    exact this.symm
  · intro a b ha hb
    obtain ⟨hm1, he1⟩ := hfi a ha
    obtain ⟨hm2, he2⟩ := hfi b hb
    have := hadj (finv a) (finv b) hm1 hm2
    rw [he1, he2] at this
    exact this.symm

/-- Two functions inducing the same partition on a list produce equally
many distinct values. -/
theorem dedup_length_map_eq {α β γ : Type} [DecidableEq β] [DecidableEq γ] :
    ∀ (l : List α) (g : α → β) (h : α → γ),
      (∀ x ∈ l, ∀ y ∈ l, (g x = g y ↔ h x = h y)) →
      (l.map g).dedup.length = (l.map h).dedup.length
  | [], _, _, _ => rfl
  | a :: l, g, h, hiff => by
    have hrest : ∀ x ∈ l, ∀ y ∈ l, (g x = g y ↔ h x = h y) :=
      fun x hx y hy => hiff x (List.mem_cons_of_mem a hx) y
        (List.mem_cons_of_mem a hy)
    have hmem : g a ∈ l.map g ↔ h a ∈ l.map h := by
      rw [List.mem_map, List.mem_map]
      constructor
      · rintro ⟨y, hy, he⟩
        exact ⟨y, hy, (hiff y (List.mem_cons_of_mem a hy) a
          (List.mem_cons_self a l)).mp he⟩
      · rintro ⟨y, hy, he⟩
        exact ⟨y, hy, (hiff y (List.mem_cons_of_mem a hy) a
          (List.mem_cons_self a l)).mpr he⟩
    rw [List.map_cons, List.map_cons]
    by_cases hin : g a ∈ l.map g
    · rw [List.dedup_cons_of_mem hin,
        List.dedup_cons_of_mem (hmem.mp hin)]
      exact dedup_length_map_eq l g h hrest
    · rw [List.dedup_cons_of_not_mem hin,
        List.dedup_cons_of_not_mem (fun hc => hin (hmem.mpr hc)),
        List.length_cons, List.length_cons,
        dedup_length_map_eq l g h hrest]

theorem palIso_dedup_colors {p q : Puzzle} (h : PalIso p q) :
    (p.nodes.map p.color).dedup.length =
      (q.nodes.map q.color).dedup.length := by
  obtain ⟨f, hperm, hciff, _⟩ := h
  have h1 : (q.nodes.map q.color).dedup.length =
      ((p.nodes.map f).map q.color).dedup.length := by
    have := ((hperm.symm).map q.color).dedup
    rw [this.length_eq]
  rw [h1, List.map_map]
  exact dedup_length_map_eq p.nodes p.color (q.color ∘ f)
    (fun x hx y hy => hciff x y hx hy)

/-- Palette-blind isomorphic states agree on being solved. -/
theorem palIso_isSolved {p q : Puzzle} (h : PalIso p q) :
    p.isSolved = q.isSolved := by
  unfold Puzzle.isSolved
  rw [palIso_dedup_colors h]

/-- Palette-blind isomorphic states have equally many colors present. -/
theorem palIso_colorFinset_card {p q : Puzzle} (h : PalIso p q) :
    (colorFinset p).card = (colorFinset q).card := by
  unfold colorFinset
  rw [List.card_toFinset, List.card_toFinset]
  exact palIso_dedup_colors h

/-! ## Canonical digraphs decide palette-blind isomorphism -/

/-- Inversion: a digraph isomorphism of canonical graphs induces a
palette-blind isomorphism of the underlying puzzles (an isomorphism maps
vertex nodes to vertex nodes and color nodes to color nodes, because only
color nodes have no incoming edge). -/
theorem cdg_palIso {p q : Puzzle} (hwfp : PuzzleWF p) (hwfq : PuzzleWF q)
    (h : GIso p.toColoredDigraph q.toColoredDigraph) : PalIso p q := by
  obtain ⟨F, hperm, hiff⟩ := h
  have hndq : q.toColoredDigraph.nodes.Nodup := cdg_nodes_nodup hwfq.1
  have hinj : ∀ n ∈ p.toColoredDigraph.nodes,
      ∀ m ∈ p.toColoredDigraph.nodes, F n = F m → n = m :=
    List.inj_on_of_nodup_map (hperm.nodup_iff.mpr hndq)
  have hMem : ∀ n ∈ p.toColoredDigraph.nodes,
      F n ∈ q.toColoredDigraph.nodes :=
    fun n hn => hperm.mem_iff.mp (List.mem_map.mpr ⟨n, hn, rfl⟩)
  have hSurj : ∀ m ∈ q.toColoredDigraph.nodes,
      ∃ n, n ∈ p.toColoredDigraph.nodes ∧ F n = m :=
    fun m hm => List.mem_map.mp (hperm.mem_iff.mpr hm)
  have hvmem : ∀ x ∈ p.nodes, CNode.v x ∈ p.toColoredDigraph.nodes :=
    fun x hx => (mem_cdg_nodes hwfp).mpr (Or.inl ⟨x, hx, rfl⟩)
  have hcmem : ∀ x ∈ p.nodes,
      CNode.c (p.color x) ∈ p.toColoredDigraph.nodes :=
    fun x hx => (mem_cdg_nodes hwfp).mpr (Or.inr ⟨x, hx, rfl⟩)
  have hkindv : ∀ x ∈ p.nodes, ∃ y ∈ q.nodes,
      F (CNode.v x) = CNode.v y := by
    intro x hx
    have hFm := hMem _ (hvmem x hx)
    rcases (mem_cdg_nodes hwfq).mp hFm with ⟨y, hy, hFe⟩ | ⟨y, hy, hFe⟩
    · exact ⟨y, hy, hFe⟩
    · exfalso
      have hedge : (CNode.c (p.color x), CNode.v x) ∈
          p.toColoredDigraph.edges := cdg_cv_mem.mpr ⟨hx, rfl⟩
      have h2 := (hiff _ _ (hcmem x hx) (hvmem x hx)).mp hedge
      rw [hFe] at h2
      cases hFc : F (CNode.c (p.color x)) with
      | v z =>
        rw [hFc] at h2
        exact cdg_vc_not h2
      | c col =>
        rw [hFc] at h2
        exact cdg_cc_not h2
  set f : Nat → Nat := fun x =>
    match F (CNode.v x) with
    | CNode.v y => y
    | CNode.c _ => 0
    with hf
  have hfv : ∀ x ∈ p.nodes, F (CNode.v x) = CNode.v (f x) := by
    intro x hx
    obtain ⟨y, _, hFe⟩ := hkindv x hx
    rw [hf]
    show F (CNode.v x) = CNode.v (match F (CNode.v x) with
      | CNode.v y => y
      | CNode.c _ => 0)
    rw [hFe]
  have hfmem : ∀ x ∈ p.nodes, f x ∈ q.nodes := by
    intro x hx
    obtain ⟨y, hy, hFe⟩ := hkindv x hx
    have h2 := hfv x hx
    rw [hFe] at h2
    rw [← CNode.v.inj h2]
    exact hy
  have hkindc0 : ∀ x ∈ p.nodes, ∃ col,
      F (CNode.c (p.color x)) = CNode.c col := by
    intro x hx
    have hFm := hMem _ (hcmem x hx)
    rcases (mem_cdg_nodes hwfq).mp hFm with ⟨y, hy, hFe⟩ | ⟨y, hy, hFe⟩
    · exfalso
      have hedgeq : (CNode.c (q.color y), CNode.v y) ∈
          q.toColoredDigraph.edges := cdg_cv_mem.mpr ⟨hy, rfl⟩
      have hcq : CNode.c (q.color y) ∈ q.toColoredDigraph.nodes :=
        (mem_cdg_nodes hwfq).mpr (Or.inr ⟨y, hy, rfl⟩)
      obtain ⟨z, hz, hFz⟩ := hSurj _ hcq
      have h2 := (hiff z (CNode.c (p.color x)) hz (hcmem x hx)).mpr
        (by rw [hFz, hFe]; exact hedgeq)
      cases z with
      | v zz => exact cdg_vc_not h2
      | c cc => exact cdg_cc_not h2
    · exact ⟨q.color y, hFe⟩
  have hcF : ∀ x ∈ p.nodes,
      F (CNode.c (p.color x)) = CNode.c (q.color (f x)) := by
    intro x hx
    obtain ⟨col, hFe⟩ := hkindc0 x hx
    have hedge : (CNode.c (p.color x), CNode.v x) ∈
        p.toColoredDigraph.edges := cdg_cv_mem.mpr ⟨hx, rfl⟩
    have h2 := (hiff _ _ (hcmem x hx) (hvmem x hx)).mp hedge
    rw [hFe, hfv x hx] at h2
    have hcol := (cdg_cv_mem.mp h2).2
    rw [hFe, ← hcol]
  refine ⟨f, ?_, ?_, ?_⟩
  · rw [List.perm_ext_iff_of_nodup]
    · intro y
      rw [List.mem_map]
      constructor
      · rintro ⟨x, hx, rfl⟩
        exact hfmem x hx
      · intro hy
        have hvq : CNode.v y ∈ q.toColoredDigraph.nodes :=
          (mem_cdg_nodes hwfq).mpr (Or.inl ⟨y, hy, rfl⟩)
        obtain ⟨n, hn, hFn⟩ := hSurj _ hvq
        rcases (mem_cdg_nodes hwfp).mp hn with ⟨x, hx, rfl⟩ | ⟨x, hx, rfl⟩
        · refine ⟨x, hx, ?_⟩
          have h2 := hfv x hx
          rw [hFn] at h2
          exact (CNode.v.inj h2).symm
        · exfalso
          rw [hcF x hx] at hFn
          exact CNode.noConfusion hFn
    · refine List.Nodup.map_on ?_ hwfp.1
      intro x1 hx1 x2 hx2 he
      have h2 : F (CNode.v x1) = F (CNode.v x2) := by
        rw [hfv x1 hx1, hfv x2 hx2, he]
      exact CNode.v.inj (hinj _ (hvmem x1 hx1) _ (hvmem x2 hx2) h2)
    · exact hwfq.1
  · intro x y hx hy
    constructor
    · intro hc
      have h2 : F (CNode.c (p.color x)) = F (CNode.c (p.color y)) := by
        rw [hc]
      rw [hcF x hx, hcF y hy] at h2
      exact CNode.c.inj h2
    · intro hc
      have h2 : F (CNode.c (p.color x)) = F (CNode.c (p.color y)) := by
        rw [hcF x hx, hcF y hy, hc]
      exact CNode.c.inj (hinj _ (hcmem x hx) _ (hcmem y hy) h2)
  · intro a b ha hb
    rw [← cdg_vv_mem, ← @cdg_vv_mem q]
    have h2 := hiff (CNode.v a) (CNode.v b) (hvmem a ha) (hvmem b hb)
    rw [hfv a ha, hfv b hb] at h2
    exact h2

/-- Forward: a palette-blind isomorphism of puzzles induces a digraph
isomorphism of their canonical digraphs (generalizing
`puzzleColorIso_cdg` to a relabeling of the color values). -/
theorem palIso_cdg {p q : Puzzle} (hwfp : PuzzleWF p) (hwfq : PuzzleWF q)
    (h : PalIso p q) : GIso p.toColoredDigraph q.toColoredDigraph := by
  classical
  obtain ⟨f, hperm, hciff, hadj⟩ := h
  have hinj : ∀ x ∈ p.nodes, ∀ y ∈ p.nodes, f x = f y → x = y :=
    List.inj_on_of_nodup_map (hperm.nodup_iff.mpr hwfq.1)
  have hmemf : ∀ x ∈ p.nodes, f x ∈ q.nodes := fun x hx =>
    hperm.mem_iff.mp (List.mem_map.mpr ⟨x, hx, rfl⟩)
  have hsurj : ∀ y ∈ q.nodes, ∃ x, x ∈ p.nodes ∧ f x = y := fun y hy =>
    List.mem_map.mp (hperm.mem_iff.mpr hy)
  set σ : Nat → Nat := fun col =>
    if h : ∃ x, x ∈ p.nodes ∧ p.color x = col then
      q.color (f (Classical.choose h)) else col with hσ
  have hσc : ∀ x ∈ p.nodes, σ (p.color x) = q.color (f x) := by
    intro x hx
    rw [hσ]
    have hex : ∃ y, y ∈ p.nodes ∧ p.color y = p.color x := ⟨x, hx, rfl⟩
    simp only [dif_pos hex]
    exact (hciff _ x (Classical.choose_spec hex).1 hx).mp
      (Classical.choose_spec hex).2
  refine ⟨fun n => match n with
    | CNode.v x => CNode.v (f x)
    | CNode.c col => CNode.c (σ col), ?_, ?_⟩
  · rw [List.perm_ext_iff_of_nodup]
    · intro m
      rw [List.mem_map, mem_cdg_nodes hwfq]
      constructor
      · rintro ⟨n, hn, rfl⟩
        rcases (mem_cdg_nodes hwfp).mp hn with ⟨x, hx, rfl⟩ | ⟨x, hx, rfl⟩
        · exact Or.inl ⟨f x, hmemf x hx, rfl⟩
        · exact Or.inr ⟨f x, hmemf x hx, by
            show CNode.c (σ (p.color x)) = CNode.c (q.color (f x))
            rw [hσc x hx]⟩
      · rintro (⟨y, hy, rfl⟩ | ⟨y, hy, rfl⟩)
        · obtain ⟨x, hx, rfl⟩ := hsurj y hy
          exact ⟨CNode.v x, (mem_cdg_nodes hwfp).mpr (Or.inl ⟨x, hx, rfl⟩),
            rfl⟩
        · obtain ⟨x, hx, rfl⟩ := hsurj y hy
          refine ⟨CNode.c (p.color x),
            (mem_cdg_nodes hwfp).mpr (Or.inr ⟨x, hx, rfl⟩), ?_⟩
          show CNode.c (σ (p.color x)) = CNode.c (q.color (f x))
          rw [hσc x hx]
    · apply List.Nodup.map_on
      · intro a ha b hb he
        rcases (mem_cdg_nodes hwfp).mp ha with ⟨x, hx, rfl⟩ | ⟨x, hx, rfl⟩ <;>
          rcases (mem_cdg_nodes hwfp).mp hb with ⟨y, hy, rfl⟩ | ⟨y, hy, rfl⟩
        · show CNode.v x = CNode.v y
          have hfe : f x = f y := CNode.v.inj he
          rw [hinj x hx y hy hfe]
        · exact absurd he (by simp)
        · exact absurd he (by simp)
        · show CNode.c (p.color x) = CNode.c (p.color y)
          have hce : σ (p.color x) = σ (p.color y) := CNode.c.inj he
          rw [hσc x hx, hσc y hy] at hce
          rw [(hciff x y hx hy).mpr hce]
      · exact cdg_nodes_nodup hwfp.1
    · exact cdg_nodes_nodup hwfq.1
  · intro a b ha hb
    rcases (mem_cdg_nodes hwfp).mp ha with ⟨x, hx, rfl⟩ | ⟨x, hx, rfl⟩ <;>
      rcases (mem_cdg_nodes hwfp).mp hb with ⟨y, hy, rfl⟩ | ⟨y, hy, rfl⟩
    · show (CNode.v x, CNode.v y) ∈ p.toColoredDigraph.edges ↔
        (CNode.v (f x), CNode.v (f y)) ∈ q.toColoredDigraph.edges
      rw [cdg_vv_mem, cdg_vv_mem]
      exact hadj x y hx hy
    · show (CNode.v x, CNode.c (p.color y)) ∈ p.toColoredDigraph.edges ↔
        (CNode.v (f x), CNode.c (σ (p.color y))) ∈ q.toColoredDigraph.edges
      exact iff_of_false cdg_vc_not cdg_vc_not
    · show (CNode.c (p.color x), CNode.v y) ∈ p.toColoredDigraph.edges ↔
        (CNode.c (σ (p.color x)), CNode.v (f y)) ∈ q.toColoredDigraph.edges
      rw [cdg_cv_mem, cdg_cv_mem, hσc x hx]
      constructor
      · rintro ⟨_, hc⟩
        exact ⟨hmemf y hy, (hciff y x hy hx).mp hc⟩
      · rintro ⟨_, hc⟩
        exact ⟨hy, (hciff y x hy hx).mpr hc⟩
    · show (CNode.c (p.color x), CNode.c (p.color y)) ∈
          p.toColoredDigraph.edges ↔
        (CNode.c (σ (p.color x)), CNode.c (σ (p.color y))) ∈
          q.toColoredDigraph.edges
      exact iff_of_false cdg_cc_not cdg_cc_not

/-! ## Collapse commutes with palette-blind isomorphism -/

theorem monoEquivP_transport {p q : Puzzle} (hwfp : PuzzleWF p)
    {f : Nat → Nat}
    (hciff : ∀ x y, x ∈ p.nodes → y ∈ p.nodes →
      (p.color x = p.color y ↔ q.color (f x) = q.color (f y)))
    (hadj : ∀ a b, a ∈ p.nodes → b ∈ p.nodes →
      (p.Adj a b ↔ q.Adj (f a) (f b)))
    {x y : Nat} (hx : x ∈ p.nodes) (h : MonoEquiv p x y) :
    MonoEquiv q (f x) (f y) := by
  have hy : y ∈ p.nodes := monoEquiv_mem_nodes hwfp hx h
  have htr : ∀ z, MonoReach p (p.color x) x z →
      MonoReach q (q.color (f x)) (f x) (f z) := by
    intro z hr
    induction hr with
    | refl => exact Relation.ReflTransGen.refl
    | tail _ hstep ih =>
      have hb := (adj_mem_nodes hwfp hstep.1).1
      have hc := (adj_mem_nodes hwfp hstep.1).2
      refine Relation.ReflTransGen.tail ih
        ⟨(hadj _ _ hb hc).mp hstep.1, ?_, ?_⟩
      · exact (hciff _ x hb hx).mp hstep.2.1
      · exact (hciff _ x hc hx).mp hstep.2.2
  exact ⟨(hciff x y hx hy).mp h.1, htr y h.2⟩

theorem monoEquivP_transport_back {p q : Puzzle} (hwfp : PuzzleWF p)
    (hwfq : PuzzleWF q) {f : Nat → Nat}
    (hperm : (p.nodes.map f).Perm q.nodes)
    (hciff : ∀ x y, x ∈ p.nodes → y ∈ p.nodes →
      (p.color x = p.color y ↔ q.color (f x) = q.color (f y)))
    (hadj : ∀ a b, a ∈ p.nodes → b ∈ p.nodes →
      (p.Adj a b ↔ q.Adj (f a) (f b)))
    {x y : Nat} (hx : x ∈ p.nodes) (hy : y ∈ p.nodes)
    (h : MonoEquiv q (f x) (f y)) : MonoEquiv p x y := by
  have hback : ∀ v, MonoReach q (q.color (f x)) (f x) v →
      ∃ c ∈ p.nodes, v = f c ∧ MonoReach p (p.color x) x c := by
    intro v hr
    induction hr with
    | refl => exact ⟨x, hx, rfl, Relation.ReflTransGen.refl⟩
    | tail _ hstep ih =>
      obtain ⟨c, hc, rfl, hre⟩ := ih
      have hw := (adj_mem_nodes hwfq hstep.1).2
      obtain ⟨d, hd, rfl⟩ := List.mem_map.mp (hperm.mem_iff.mpr hw)
      refine ⟨d, hd, rfl, Relation.ReflTransGen.tail hre
        ⟨(hadj c d hc hd).mpr hstep.1, ?_, ?_⟩⟩
      · exact (hciff c x hc hx).mpr hstep.2.1
      · exact (hciff d x hd hx).mpr hstep.2.2
  obtain ⟨hce, hreach⟩ := h
  obtain ⟨c, hc, hfe, hre⟩ := hback (f y) hreach
  have hinj : ∀ a ∈ p.nodes, ∀ b ∈ p.nodes, f a = f b → a = b :=
    List.inj_on_of_nodup_map (hperm.nodup_iff.mpr hwfq.1)
  have hyc : y = c := hinj y hy c hc hfe
  subst hyc
  exact ⟨(hciff x y hx hy).mpr hce, hre⟩

theorem palIso_collapseAll {p q : Puzzle} (hwfp : PuzzleWF p)
    (hwfq : PuzzleWF q) (h : PalIso p q) :
    PalIso p.collapseAll q.collapseAll := by
  obtain ⟨f, hperm, hciff, hadj⟩ := h
  have sp := collapseAll_spec p hwfp
  have sq := collapseAll_spec q hwfq
  have hmemf : ∀ x ∈ p.nodes, f x ∈ q.nodes := fun x hx =>
    hperm.mem_iff.mp (List.mem_map.mpr ⟨x, hx, rfl⟩)
  have hsurj : ∀ y ∈ q.nodes, ∃ x, x ∈ p.nodes ∧ f x = y := fun y hy =>
    List.mem_map.mp (hperm.mem_iff.mpr hy)
  have hrep : ∀ r : Nat, r ∈ p.collapseAll.nodes →
      ∃ s, s ∈ q.collapseAll.nodes ∧ MonoEquiv q (f r) s := by
    intro r hr
    obtain ⟨s, hs, he⟩ :=
      sq.rep_exists (f r) (hmemf r (sp.nodes_sub r hr))
    exact ⟨s, hs, he⟩
  classical
  set F : Nat → Nat := fun r =>
    if hm : r ∈ p.collapseAll.nodes then Classical.choose (hrep r hm)
    else f r with hFdef
  have hFmem : ∀ r ∈ p.collapseAll.nodes, F r ∈ q.collapseAll.nodes := by
    intro r hr
    rw [hFdef]
    simp only [dif_pos hr]
    exact (Classical.choose_spec (hrep r hr)).1
  have hFequiv : ∀ r ∈ p.collapseAll.nodes, MonoEquiv q (f r) (F r) := by
    intro r hr
    rw [hFdef]
    simp only [dif_pos hr]
    exact (Classical.choose_spec (hrep r hr)).2
  have hFinj : ∀ r ∈ p.collapseAll.nodes, ∀ s ∈ p.collapseAll.nodes,
      F r = F s → r = s := by
    intro r hr s hs he
    have h1 := hFequiv r hr
    have h2 := hFequiv s hs
    rw [he] at h1
    have hfe : MonoEquiv q (f r) (f s) :=
      monoEquiv_trans h1 (monoEquiv_symm h2)
    have hpe : MonoEquiv p r s :=
      monoEquivP_transport_back hwfp hwfq hperm hciff hadj
        (sp.nodes_sub r hr) (sp.nodes_sub s hs) hfe
    exact sp.rep_unique r hr s hs hpe
  have hFofEquiv : ∀ r ∈ p.collapseAll.nodes, ∀ u,
      MonoEquiv p r u → MonoEquiv q (F r) (f u) := by
    intro r hr u he
    exact monoEquiv_trans (monoEquiv_symm (hFequiv r hr))
      (monoEquivP_transport hwfp hciff hadj (sp.nodes_sub r hr) he)
  refine ⟨F, ?_, ?_, ?_⟩
  · rw [List.perm_ext_iff_of_nodup]
    · intro m
      rw [List.mem_map]
      constructor
      · rintro ⟨r, hr, rfl⟩
        exact hFmem r hr
      · intro hm
        have hmq : m ∈ q.nodes := sq.nodes_sub m hm
        obtain ⟨x, hx, rfl⟩ := hsurj m hmq
        obtain ⟨r, hr, hxe⟩ := sp.rep_exists x hx
        refine ⟨r, hr, ?_⟩
        have h1 : MonoEquiv q (F r) (f x) :=
          hFofEquiv r hr x (monoEquiv_symm hxe)
        exact sq.rep_unique (F r) (hFmem r hr) (f x) hm h1
    · exact List.Nodup.map_on hFinj sp.wf.1
    · exact sq.wf.1
  · intro r s hr hs
    have h1 := (hFequiv r hr).1
    have h2 := (hFequiv s hs).1
    show p.collapseAll.color r = p.collapseAll.color s ↔
      q.collapseAll.color (F r) = q.collapseAll.color (F s)
    rw [sq.color_eq, sp.color_eq, ← h1, ← h2]
    exact hciff r s (sp.nodes_sub r hr) (sp.nodes_sub s hs)
  · intro r s hr hs
    rw [sp.adj_iff r hr s hs,
      sq.adj_iff (F r) (hFmem r hr) (F s) (hFmem s hs)]
    constructor
    · rintro ⟨hne, x, y, hrx, hsy, hxy⟩
      refine ⟨?_, f x, f y, ?_, ?_, ?_⟩
      · intro hq
        have h1 : MonoEquiv q (f r) (f s) :=
          monoEquiv_trans (hFequiv r hr)
            (monoEquiv_trans hq (monoEquiv_symm (hFequiv s hs)))
        exact hne (monoEquivP_transport_back hwfp hwfq hperm hciff hadj
          (sp.nodes_sub r hr) (sp.nodes_sub s hs) h1)
      · exact hFofEquiv r hr x hrx
      · exact hFofEquiv s hs y hsy
      · have hxm := (adj_mem_nodes hwfp hxy).1
        have hym := (adj_mem_nodes hwfp hxy).2
        exact (hadj x y hxm hym).mp hxy
    · rintro ⟨hne, u, v, hru, hsv, huv⟩
      have hum := (adj_mem_nodes hwfq huv).1
      have hvm := (adj_mem_nodes hwfq huv).2
      obtain ⟨x, hx, rfl⟩ := hsurj u hum
      obtain ⟨y, hy, rfl⟩ := hsurj v hvm
      refine ⟨?_, x, y, ?_, ?_, ?_⟩
      · intro hpe
        refine hne ?_
        have h1 : MonoEquiv q (f r) (f s) :=
          monoEquivP_transport hwfp hciff hadj (sp.nodes_sub r hr) hpe
        exact monoEquiv_trans (monoEquiv_symm (hFequiv r hr))
          (monoEquiv_trans h1 (hFequiv s hs))
      · exact monoEquivP_transport_back hwfp hwfq hperm hciff hadj
          (sp.nodes_sub r hr) hx
          (monoEquiv_trans (hFequiv r hr) hru)
      · exact monoEquivP_transport_back hwfp hwfq hperm hciff hadj
          (sp.nodes_sub s hs) hy
          (monoEquiv_trans (hFequiv s hs) hsv)
      · exact (hadj x y hx hy).mpr huv

/-! ## Search states are fixed points of collapse, up to relabeling -/

/-- Collapsing twice is a colored-graph no-op (the content of C4, derived
directly from the collapse specification). -/
theorem collapseAll_fix {p : Puzzle} (hwf : PuzzleWF p) :
    PuzzleColorIso p.collapseAll.collapseAll p.collapseAll := by
  have hspec1 := collapseAll_spec p hwf
  have hfr := collapseAll_frozen p hwf
  have hspec2 := collapseAll_spec p.collapseAll hspec1.wf
  have hnodes : ∀ x, x ∈ p.collapseAll.collapseAll.nodes ↔
      x ∈ p.collapseAll.nodes := by
    intro x
    constructor
    · exact hspec2.nodes_sub x
    · intro hx
      obtain ⟨r, hr, hxr⟩ := hspec2.rep_exists x hx
      have := monoEquiv_eq_of_frozen (hfr x) hxr
      rw [← this]
      exact hr
  have hadj : ∀ a b, p.collapseAll.collapseAll.Adj a b ↔
      p.collapseAll.Adj a b := by
    intro a b
    constructor
    · intro h
      have ha := (adj_mem_nodes hspec2.wf h).1
      have hb := (adj_mem_nodes hspec2.wf h).2
      obtain ⟨_, x, y, hax, hby, hxy⟩ := (hspec2.adj_iff a ha b hb).mp h
      have hx := monoEquiv_eq_of_frozen (hfr a) hax
      have hy := monoEquiv_eq_of_frozen (hfr b) hby
      rw [hx, hy] at hxy
      exact hxy
    · intro h
      have ha := (adj_mem_nodes hspec1.wf h).1
      have hb := (adj_mem_nodes hspec1.wf h).2
      refine (hspec2.adj_iff a ((hnodes a).mpr ha) b
        ((hnodes b).mpr hb)).mpr ⟨?_, a, b, monoEquiv_refl a,
          monoEquiv_refl b, h⟩
      intro heq
      have hba := monoEquiv_eq_of_frozen (hfr a) heq
      rw [← hba] at h
      exact hspec1.adj_ne b b h rfl
  refine ⟨id, ?_, ?_, ?_⟩
  · rw [List.map_id, List.perm_ext_iff_of_nodup hspec2.wf.1 hspec1.wf.1]
    exact hnodes
  · intro x _
    exact (congrFun hspec2.color_eq x).symm
  · intro a b _ _
    exact hadj a b

theorem goodSt_fix {V : List Nat} {N : Finset Nat} {sp : SolvablePuzzle}
    (h : GoodSt V N sp) : PalIso sp.toPuzzle.collapseAll sp.toPuzzle := by
  obtain ⟨_, _, _, _, p0, hwf0, he⟩ := h
  rw [he]
  exact palIso_of_colorIso (collapseAll_fix hwf0)

/-- Two good states whose canonical graphs are isomorphic are themselves
palette-blind isomorphic. -/
theorem states_palIso {V : List Nat} {N : Finset Nat}
    {st1 st2 : SolvablePuzzle} (h1 : GoodSt V N st1) (h2 : GoodSt V N st2)
    (h : GIso (canonOf st1.toPuzzle) (canonOf st2.toPuzzle)) :
    PalIso st1.toPuzzle st2.toPuzzle := by
  have hwf1 := h1.2.1
  have hwf2 := h2.2.1
  have hmid : PalIso st1.toPuzzle.collapseAll st2.toPuzzle.collapseAll :=
    cdg_palIso (collapseAll_spec _ hwf1).wf (collapseAll_spec _ hwf2).wf h
  exact palIso_trans
    (palIso_symm (collapseAll_spec _ hwf1).wf.1 hwf1.1 (goodSt_fix h1))
    (palIso_trans hmid (goodSt_fix h2))

/-- Conversely, palette-blind isomorphic states have isomorphic canonical
graphs. -/
theorem states_canon {p q : Puzzle} (hwfp : PuzzleWF p)
    (hwfq : PuzzleWF q) (h : PalIso p q) :
    GIso (canonOf p) (canonOf q) :=
  palIso_cdg (collapseAll_spec _ hwfp).wf (collapseAll_spec _ hwfq).wf
    (palIso_collapseAll hwfp hwfq h)

/-! ## Move transport between palette-blind isomorphic states -/

theorem getValidMoves_mem {sp : SolvablePuzzle} {m : Move} :
    m ∈ getValidMoves sp ↔
      m.1 ∈ sp.toPuzzle.nodes ∧ m.2 ∈ sp.validColors ∧
        m.2 ≠ sp.toPuzzle.color m.1 := by
  unfold getValidMoves
  rw [List.mem_flatMap]
  constructor
  · rintro ⟨node, hnode, hm⟩
    rw [List.mem_map] at hm
    obtain ⟨c, hc, rfl⟩ := hm
    rw [List.mem_filter] at hc
    exact ⟨hnode, hc.1, of_decide_eq_true hc.2⟩
  · rintro ⟨h1, h2, h3⟩
    refine ⟨m.1, h1, ?_⟩
    rw [List.mem_map]
    refine ⟨m.2, ?_, rfl⟩
    rw [List.mem_filter]
    exact ⟨h2, decide_eq_true h3⟩

theorem setColor_true_color (p : Puzzle) (v c u : Nat) :
    (p.setColor v c true).color u =
      if u = v ∨ u ∈ p.sameColorNeighbors v then c else p.color u := rfl

theorem setColor_true_nodes (p : Puzzle) (v c : Nat) :
    (p.setColor v c true).nodes = p.nodes := rfl

theorem setColor_adj (p : Puzzle) (v c : Nat) (b : Bool) (a a' : Nat) :
    (p.setColor v c b).Adj a a' ↔ p.Adj a a' := by
  unfold Puzzle.setColor
  split <;> exact Iff.rfl

/-- Recoloring corresponding nodes to partition-corresponding colors
preserves palette-blind isomorphism (before collapsing). -/
theorem setColor_palIso {p q : Puzzle} {f : Nat → Nat}
    (hndq : q.nodes.Nodup)
    (hperm : (p.nodes.map f).Perm q.nodes)
    (hciff : ∀ x y, x ∈ p.nodes → y ∈ p.nodes →
      (p.color x = p.color y ↔ q.color (f x) = q.color (f y)))
    (hadjf : ∀ a b, a ∈ p.nodes → b ∈ p.nodes →
      (p.Adj a b ↔ q.Adj (f a) (f b)))
    {x : Nat} (hx : x ∈ p.nodes) {c c' : Nat}
    (hcc : ∀ y ∈ p.nodes, (p.color y = c ↔ q.color (f y) = c')) :
    PalIso (p.setColor x c true) (q.setColor (f x) c' true) := by
  have hinj : ∀ a ∈ p.nodes, ∀ b ∈ p.nodes, f a = f b → a = b :=
    List.inj_on_of_nodup_map (hperm.nodup_iff.mpr hndq)
  have hscn : ∀ u ∈ p.nodes,
      (u ∈ p.sameColorNeighbors x ↔ f u ∈ q.sameColorNeighbors (f x)) := by
    intro u hu
    rw [mem_sameColorNeighbors, mem_sameColorNeighbors, mem_neighbors,
      mem_neighbors]
    constructor
    · rintro ⟨ha, hc0⟩
      exact ⟨(hadjf x u hx hu).mp ha, (hciff u x hu hx).mp hc0⟩
    · rintro ⟨ha, hc0⟩
      exact ⟨(hadjf x u hx hu).mpr ha, (hciff u x hu hx).mpr hc0⟩
  have hrec : ∀ u ∈ p.nodes,
      ((u = x ∨ u ∈ p.sameColorNeighbors x) ↔
        (f u = f x ∨ f u ∈ q.sameColorNeighbors (f x))) := by
    intro u hu
    constructor
    · rintro (rfl | hs)
      · exact Or.inl rfl
      · exact Or.inr ((hscn u hu).mp hs)
    · rintro (hfe | hs)
      · exact Or.inl (hinj u hu x hx hfe)
      · exact Or.inr ((hscn u hu).mpr hs)
  refine ⟨f, ?_, ?_, ?_⟩
  · rw [setColor_true_nodes, setColor_true_nodes]
    exact hperm
  · intro u v hu hv
    rw [setColor_true_nodes] at hu hv
    rw [setColor_true_color, setColor_true_color, setColor_true_color,
      setColor_true_color]
    by_cases hhu : u = x ∨ u ∈ p.sameColorNeighbors x <;>
      by_cases hhv : v = x ∨ v ∈ p.sameColorNeighbors x
    · rw [if_pos hhu, if_pos hhv, if_pos ((hrec u hu).mp hhu),
        if_pos ((hrec v hv).mp hhv)]
      exact iff_of_true rfl rfl
    · rw [if_pos hhu, if_neg hhv, if_pos ((hrec u hu).mp hhu),
        if_neg (fun hc => hhv ((hrec v hv).mpr hc))]
      constructor
      · intro he
        exact ((hcc v hv).mp he.symm).symm
      · intro he
        exact ((hcc v hv).mpr he.symm).symm
    · rw [if_neg hhu, if_pos hhv, if_neg
        (fun hc => hhu ((hrec u hu).mpr hc)), if_pos ((hrec v hv).mp hhv)]
      constructor
      · intro he
        exact (hcc u hu).mp he
      · intro he
        exact (hcc u hu).mpr he
    · rw [if_neg hhu, if_neg hhv, if_neg
        (fun hc => hhu ((hrec u hu).mpr hc)),
        if_neg (fun hc => hhv ((hrec v hv).mpr hc))]
      exact hciff u v hu hv
  · intro a b ha hb
    rw [setColor_true_nodes] at ha hb
    rw [setColor_adj, setColor_adj]
    exact hadjf a b ha hb

theorem goodSt_follow {V : List Nat} {N : Finset Nat}
    {sp : SolvablePuzzle} (h : GoodSt V N sp) {m : Move}
    (hm : m ∈ getValidMoves sp) : GoodSt V N (searchFollower sp m) := by
  obtain ⟨hV, hwf, hcol, hsub, _⟩ := h
  obtain ⟨hx, hcV, _⟩ := getValidMoves_mem.mp hm
  have hwf1 : PuzzleWF (sp.toPuzzle.setColor m.1 m.2 true) :=
    setColor_wf hwf _ _ _
  have hspec := collapseAll_spec _ hwf1
  refine ⟨hV, hspec.wf, ?_, ?_, ?_⟩
  · intro a ha
    have ha2 : a ∈ (sp.toPuzzle.setColor m.1 m.2 true).nodes :=
      hspec.nodes_sub a ha
    have hce : (searchFollower sp m).toPuzzle.color a =
        (sp.toPuzzle.setColor m.1 m.2 true).color a :=
      congrFun hspec.color_eq a
    rw [hce, setColor_true_color]
    split
    · rw [← hV]
      exact hcV
    · rw [setColor_true_nodes] at ha2
      exact hcol a ha2
  · intro a ha
    rw [List.mem_toFinset] at ha
    have ha2 := hspec.nodes_sub a ha
    rw [setColor_true_nodes] at ha2
    exact hsub (List.mem_toFinset.mpr ha2)
  · exact ⟨sp.toPuzzle.setColor m.1 m.2 true, hwf1, rfl⟩

/-- The mimicking lemma: a valid move on one state can be matched on any
palette-blind isomorphic state with an isomorphic successor. -/
theorem move_transport {V : List Nat} {N : Finset Nat}
    {sp sq : SolvablePuzzle} (hgp : GoodSt V N sp) (hgq : GoodSt V N sq)
    (hiso : PalIso sp.toPuzzle sq.toPuzzle) {m : Move}
    (hm : m ∈ getValidMoves sp) :
    ∃ m', m' ∈ getValidMoves sq ∧
      PalIso (searchFollower sp m).toPuzzle
        (searchFollower sq m').toPuzzle := by
  classical
  obtain ⟨hVp, hwfp, hcolp, _, _⟩ := hgp
  obtain ⟨hVq, hwfq, hcolq, _, _⟩ := hgq
  obtain ⟨f, hperm, hciff, hadjf⟩ := hiso
  have hmemf : ∀ x ∈ sp.toPuzzle.nodes, f x ∈ sq.toPuzzle.nodes :=
    fun x hx => hperm.mem_iff.mp (List.mem_map.mpr ⟨x, hx, rfl⟩)
  obtain ⟨hx, hcV, hcne⟩ := getValidMoves_mem.mp hm
  rw [hVp] at hcV
  by_cases hpres : ∃ z, z ∈ sp.toPuzzle.nodes ∧ sp.toPuzzle.color z = m.2
  · obtain ⟨z, hz, hcz⟩ := hpres
    have hcc : ∀ y ∈ sp.toPuzzle.nodes,
        (sp.toPuzzle.color y = m.2 ↔
          sq.toPuzzle.color (f y) = sq.toPuzzle.color (f z)) := by
      intro y hy
      rw [← hcz]
      exact hciff y z hy hz
    refine ⟨(f m.1, sq.toPuzzle.color (f z)), ?_, ?_⟩
    · rw [getValidMoves_mem]
      refine ⟨hmemf m.1 hx, ?_, ?_⟩
      · rw [hVq]
        exact hcolq (f z) (hmemf z hz)
      · intro he
        have he2 : sq.toPuzzle.color (f z) = sq.toPuzzle.color (f m.1) :=
          he
        have h2 := (hciff z m.1 hz hx).mpr he2
        rw [hcz] at h2
        exact hcne h2
    · show PalIso (sp.toPuzzle.setColor m.1 m.2 true).collapseAll
        (sq.toPuzzle.setColor (f m.1) (sq.toPuzzle.color (f z))
          true).collapseAll
      exact palIso_collapseAll (setColor_wf hwfp _ _ _)
        (setColor_wf hwfq _ _ _)
        (setColor_palIso hwfq.1 hperm hciff hadjf hx hcc)
  · have hcard : (colorFinset sp.toPuzzle).card =
        (colorFinset sq.toPuzzle).card :=
      palIso_colorFinset_card ⟨f, hperm, hciff, hadjf⟩
    have hsubP : colorFinset sp.toPuzzle ⊆ V.toFinset := by
      intro col hcol0
      obtain ⟨u, hu, hcu⟩ := mem_colorFinset.mp hcol0
      rw [List.mem_toFinset, ← hcu]
      exact hcolp u hu
    have hsubQ : colorFinset sq.toPuzzle ⊆ V.toFinset := by
      intro col hcol0
      obtain ⟨u, hu, hcu⟩ := mem_colorFinset.mp hcol0
      rw [List.mem_toFinset, ← hcu]
      exact hcolq u hu
    have hcmem : m.2 ∈ V.toFinset \ colorFinset sp.toPuzzle := by
      rw [Finset.mem_sdiff]
      exact ⟨List.mem_toFinset.mpr hcV,
        fun hc => hpres (mem_colorFinset.mp hc)⟩
    have hcards : (V.toFinset \ colorFinset sq.toPuzzle).card =
        (V.toFinset \ colorFinset sp.toPuzzle).card := by
      rw [Finset.card_sdiff hsubQ, Finset.card_sdiff hsubP, hcard]
    obtain ⟨c', hc'⟩ := Finset.card_pos.mp
      (by rw [hcards]; exact Finset.card_pos.mpr ⟨m.2, hcmem⟩)
    rw [Finset.mem_sdiff] at hc'
    obtain ⟨hc'V, hc'fresh⟩ := hc'
    have hcc : ∀ y ∈ sp.toPuzzle.nodes,
        (sp.toPuzzle.color y = m.2 ↔ sq.toPuzzle.color (f y) = c') := by
      intro y hy
      constructor
      · intro hcy
        exact absurd ⟨y, hy, hcy⟩ hpres
      · intro hcy
        exact absurd (mem_colorFinset.mpr ⟨f y, hmemf y hy, hcy⟩) hc'fresh
    refine ⟨(f m.1, c'), ?_, ?_⟩
    · rw [getValidMoves_mem]
      refine ⟨hmemf m.1 hx, ?_, ?_⟩
      · rw [hVq]
        exact List.mem_toFinset.mp hc'V
      · intro he
        exact hc'fresh (mem_colorFinset.mpr ⟨f m.1, hmemf m.1 hx, he.symm⟩)
    · show PalIso (sp.toPuzzle.setColor m.1 m.2 true).collapseAll
        (sq.toPuzzle.setColor (f m.1) c' true).collapseAll
      exact palIso_collapseAll (setColor_wf hwfp _ _ _)
        (setColor_wf hwfq _ _ _)
        (setColor_palIso hwfq.1 hperm hciff hadjf hx hcc)

/-! ## Valid move sequences of the puzzle adapter -/

theorem applyMoves_cons (sp : SolvablePuzzle) (m : Move) (ms : List Move) :
    applyMoves sp (m :: ms) = applyMoves (searchFollower sp m) ms := rfl

theorem applyMoves_concat (sp : SolvablePuzzle) (ms : List Move)
    (m : Move) :
    applyMoves sp (ms ++ [m]) = searchFollower (applyMoves sp ms) m := by
  unfold applyMoves
  rw [List.foldl_append]
  rfl

theorem validMS_take :
    ∀ (ms : List Move) (sp : SolvablePuzzle) (j : Nat),
      ValidMoveSeq sp ms → ValidMoveSeq sp (ms.take j)
  | _, _, 0, _ => trivial
  | [], _, _ + 1, h => h
  | _ :: ms, sp, j + 1, h => ⟨h.1, validMS_take ms _ j h.2⟩

theorem validMS_concat :
    ∀ (ms : List Move) (sp : SolvablePuzzle), ValidMoveSeq sp ms →
      ∀ m, m ∈ getValidMoves (applyMoves sp ms) →
        ValidMoveSeq sp (ms ++ [m])
  | [], _, _, m, hm => ⟨hm, trivial⟩
  | _ :: ms, _, h, m, hm => ⟨h.1, validMS_concat ms _ h.2 m hm⟩

theorem validMS_get_mem :
    ∀ (ms : List Move) (sp : SolvablePuzzle) (j : Nat)
      (hj : j < ms.length), ValidMoveSeq sp ms →
      ms.get ⟨j, hj⟩ ∈ getValidMoves (applyMoves sp (ms.take j))
  | m :: ms, sp, 0, _, h => h.1
  | m :: ms, sp, j + 1, hj, h =>
    validMS_get_mem ms (searchFollower sp m) j (by simpa using hj) h.2

theorem applyMoves_take_succ (start : SolvablePuzzle) (ms : List Move)
    (j : Nat) (hj : j < ms.length) :
    applyMoves start (ms.take (j + 1)) =
      searchFollower (applyMoves start (ms.take j)) (ms.get ⟨j, hj⟩) := by
  rw [← List.take_concat_get ms j hj, List.concat_eq_append,
    applyMoves_concat]
  rfl

theorem goodSt_applyMoves {V : List Nat} {N : Finset Nat} :
    ∀ (ms : List Move) (sp : SolvablePuzzle), GoodSt V N sp →
      ValidMoveSeq sp ms → GoodSt V N (applyMoves sp ms)
  | [], _, h, _ => h
  | m :: ms, sp, h, hv =>
    goodSt_applyMoves ms (searchFollower sp m) (goodSt_follow h hv.1) hv.2

theorem canon_nodup {p : Puzzle} (hwf : PuzzleWF p) :
    (canonOf p).nodes.Nodup :=
  cdg_nodes_nodup (collapseAll_spec p hwf).wf.1

/-! ## The instantiated BFS expansion body -/

theorem bfsPzExpand_goal {cur : SolvablePuzzle} {path : List Move}
    {m : Move} {ms : List Move} {t : HashTracker}
    {tbl : List (Str × SolvablePuzzle × List Move)} {q : List Str}
    (hg : (searchFollower cur m).isSolved = true) :
    bfsPzExpand cur path (m :: ms) t tbl q =
      (some (path ++ [m]), t, tbl, q) := by
  simp only [bfsPzExpand]
  rw [if_pos hg]

theorem bfsPzExpand_skip {cur : SolvablePuzzle} {path : List Move}
    {m : Move} {ms : List Move} {t : HashTracker}
    {tbl : List (Str × SolvablePuzzle × List Move)} {q : List Str}
    {e0 : SolvablePuzzle × List Move}
    (hg : (searchFollower cur m).isSolved = false)
    (hlk : alookup tbl (puzzleFullHash wlHashModel t
      (searchFollower cur m).toPuzzle).1 = some e0) :
    bfsPzExpand cur path (m :: ms) t tbl q =
      bfsPzExpand cur path ms
        (puzzleFullHash wlHashModel t (searchFollower cur m).toPuzzle).2
        tbl q := by
  simp only [bfsPzExpand]
  rw [if_neg (by rw [hg]; exact Bool.false_ne_true)]
  simp only [hlk]

theorem bfsPzExpand_add {cur : SolvablePuzzle} {path : List Move}
    {m : Move} {ms : List Move} {t : HashTracker}
    {tbl : List (Str × SolvablePuzzle × List Move)} {q : List Str}
    (hg : (searchFollower cur m).isSolved = false)
    (hlk : alookup tbl (puzzleFullHash wlHashModel t
      (searchFollower cur m).toPuzzle).1 = none) :
    bfsPzExpand cur path (m :: ms) t tbl q =
      bfsPzExpand cur path ms
        (puzzleFullHash wlHashModel t (searchFollower cur m).toPuzzle).2
        (tbl ++ [((puzzleFullHash wlHashModel t
          (searchFollower cur m).toPuzzle).1, searchFollower cur m,
          path ++ [m])])
        (q ++ [(puzzleFullHash wlHashModel t
          (searchFollower cur m).toPuzzle).1]) := by
  simp only [bfsPzExpand]
  rw [if_neg (by rw [hg]; exact Bool.false_ne_true)]
  simp only [hlk]

theorem bfsPzExpand_spec (V : List Nat) (N : Finset Nat)
    (start cur : SolvablePuzzle) (path : List Move)
    (hgcur : GoodSt V N cur) (hvalid : ValidMoveSeq start path)
    (hrun : applyMoves start path = cur) :
    ∀ (ms : List Move) (t : HashTracker)
      (tbl : List (Str × SolvablePuzzle × List Move)) (q : List Str),
      (∀ m ∈ ms, m ∈ getValidMoves cur) →
      TrackerWF t →
      (tbl.map Prod.fst).Nodup →
      (∀ e ∈ tbl, GoodSt V N e.2.1 ∧
        Reg t (canonOf e.2.1.toPuzzle) e.1 ∧ ValidMoveSeq start e.2.2 ∧
        applyMoves start e.2.2 = e.2.1 ∧ e.2.1.isSolved = false) →
      (∀ e ∈ tbl, e.2.2.length ≤ path.length + 1) →
      (∃ new, (bfsPzExpand cur path ms t tbl q).2.2.1 = tbl ++ new ∧
        (bfsPzExpand cur path ms t tbl q).2.2.2 = q ++ new.map Prod.fst ∧
        ∀ e ∈ new, ∃ m ∈ ms, e.2.1 = searchFollower cur m ∧
          e.2.2 = path ++ [m]) ∧
      TrackerWF (bfsPzExpand cur path ms t tbl q).2.1 ∧
      (∀ g s, Reg t g s →
        Reg (bfsPzExpand cur path ms t tbl q).2.1 g s) ∧
      ((bfsPzExpand cur path ms t tbl q).2.2.1.map Prod.fst).Nodup ∧
      (∀ e ∈ (bfsPzExpand cur path ms t tbl q).2.2.1, GoodSt V N e.2.1 ∧
        Reg (bfsPzExpand cur path ms t tbl q).2.1
          (canonOf e.2.1.toPuzzle) e.1 ∧ ValidMoveSeq start e.2.2 ∧
        applyMoves start e.2.2 = e.2.1 ∧ e.2.1.isSolved = false) ∧
      (∀ e ∈ (bfsPzExpand cur path ms t tbl q).2.2.1,
        e.2.2.length ≤ path.length + 1) ∧
      ((bfsPzExpand cur path ms t tbl q).1 = none → ∀ m ∈ ms,
        (searchFollower cur m).isSolved = false ∧
        ∃ e2 ∈ (bfsPzExpand cur path ms t tbl q).2.2.1,
          GIso (canonOf (searchFollower cur m).toPuzzle)
            (canonOf e2.2.1.toPuzzle) ∧
          e2.2.2.length ≤ path.length + 1) ∧
      (∀ sol, (bfsPzExpand cur path ms t tbl q).1 = some sol →
        ∃ m ∈ ms, sol = path ++ [m] ∧
          (searchFollower cur m).isSolved = true) := by
  intro ms
  induction ms with
  | nil =>
    intro t tbl q hms hwt hnd hsound hbnd
    refine ⟨⟨[], by simp [bfsPzExpand], by simp [bfsPzExpand], by simp⟩,
      hwt, fun g s h => h, hnd, hsound, hbnd, ?_, ?_⟩
    · intro _ m hm
      exact absurd hm (List.not_mem_nil m)
    · intro sol hsol
      exact Option.noConfusion hsol
  | cons m ms ih =>
    intro t tbl q hms hwt hnd hsound hbnd
    have hm0 : m ∈ getValidMoves cur := hms m (List.mem_cons_self m ms)
    have hms' : ∀ x ∈ ms, x ∈ getValidMoves cur :=
      fun x hx => hms x (List.mem_cons_of_mem m hx)
    have hgood : GoodSt V N (searchFollower cur m) := goodSt_follow hgcur hm0
    have hvm : ValidMoveSeq start (path ++ [m]) :=
      validMS_concat path start hvalid m (by rw [hrun]; exact hm0)
    have hrm : applyMoves start (path ++ [m]) = searchFollower cur m := by
      rw [applyMoves_concat, hrun]
    cases hg : (searchFollower cur m).isSolved with
    | true =>
      rw [bfsPzExpand_goal hg]
      refine ⟨⟨[], by simp, by simp, by simp⟩, hwt, fun g s h => h, hnd,
        hsound, hbnd, ?_, ?_⟩
      · intro hnone
        exact Option.noConfusion hnone
      · intro sol hsol
        injection hsol with hsol1
        exact ⟨m, List.mem_cons_self m ms, hsol1.symm, hg⟩
    | false =>
      obtain ⟨hregc, hwt', hstab⟩ := tfh_reg hwt (canon_nodup hgood.2.1)
      cases hlk : alookup tbl (puzzleFullHash wlHashModel t
          (searchFollower cur m).toPuzzle).1 with
      | some e0 =>
        rw [bfsPzExpand_skip hg hlk]
        have hsound' : ∀ e ∈ tbl, GoodSt V N e.2.1 ∧
            Reg (puzzleFullHash wlHashModel t
              (searchFollower cur m).toPuzzle).2
              (canonOf e.2.1.toPuzzle) e.1 ∧ ValidMoveSeq start e.2.2 ∧
            applyMoves start e.2.2 = e.2.1 ∧ e.2.1.isSolved = false := by
          intro e he
          obtain ⟨h1, h2, h3, h4, h5⟩ := hsound e he
          exact ⟨h1, hstab _ _ h2, h3, h4, h5⟩
        obtain ⟨⟨new, hA1, hA2, hA3⟩, hTw, hTs, hB, hC, hD, hEn, hFs⟩ :=
          ih (puzzleFullHash wlHashModel t
            (searchFollower cur m).toPuzzle).2 tbl q hms' hwt' hnd
            hsound' hbnd
        refine ⟨⟨new, hA1, hA2, fun e he => ?_⟩, hTw,
          fun g s h => hTs g s (hstab g s h), hB, hC, hD, ?_, ?_⟩
        · obtain ⟨m', hm', he'⟩ := hA3 e he
          exact ⟨m', List.mem_cons_of_mem m hm', he'⟩
        · intro hnone m' hm'
          rcases List.mem_cons.mp hm' with hm1 | hm2
          · subst hm1
            have e0mem : ((puzzleFullHash wlHashModel t
                (searchFollower cur m').toPuzzle).1, e0) ∈ tbl :=
              alookup_mem hlk
            obtain ⟨hge0, hre0, _, _, _⟩ := hsound _ e0mem
            have hre0' := hstab _ _ hre0
            have hgiso : GIso (canonOf (searchFollower cur m').toPuzzle)
                (canonOf e0.1.toPuzzle) :=
              (reg_inj hwt' (canon_nodup hgood.2.1)
                (canon_nodup hge0.2.1) hregc hre0').mp rfl
            refine ⟨hg, ((puzzleFullHash wlHashModel t
              (searchFollower cur m').toPuzzle).1, e0), ?_, hgiso,
              hbnd _ e0mem⟩
            rw [hA1]
            exact List.mem_append_left new e0mem
          · exact hEn hnone m' hm2
        · intro sol hsol
          obtain ⟨m', hm', h1, h2⟩ := hFs sol hsol
          exact ⟨m', List.mem_cons_of_mem m hm', h1, h2⟩
      | none =>
        rw [bfsPzExpand_add hg hlk]
        have hnotin : (puzzleFullHash wlHashModel t
            (searchFollower cur m).toPuzzle).1 ∉ tbl.map Prod.fst :=
          alookup_eq_none.mp hlk
        have hnd1 : ((tbl ++ [((puzzleFullHash wlHashModel t
            (searchFollower cur m).toPuzzle).1, searchFollower cur m,
            path ++ [m])]).map Prod.fst).Nodup := by
          rw [List.map_append]
          refine List.Nodup.append hnd (List.nodup_singleton _) ?_
          intro a ha hb
          simp only [List.map_cons, List.map_nil,
            List.mem_singleton] at hb
          rw [hb] at ha
          exact hnotin ha
        have hsound1 : ∀ e ∈ tbl ++ [((puzzleFullHash wlHashModel t
            (searchFollower cur m).toPuzzle).1, searchFollower cur m,
            path ++ [m])], GoodSt V N e.2.1 ∧
            Reg (puzzleFullHash wlHashModel t
              (searchFollower cur m).toPuzzle).2
              (canonOf e.2.1.toPuzzle) e.1 ∧ ValidMoveSeq start e.2.2 ∧
            applyMoves start e.2.2 = e.2.1 ∧ e.2.1.isSolved = false := by
          intro e he
          rcases List.mem_append.mp he with h1 | h2
          · obtain ⟨hx1, hx2, hx3, hx4, hx5⟩ := hsound e h1
            exact ⟨hx1, hstab _ _ hx2, hx3, hx4, hx5⟩
          · rw [List.mem_singleton.mp h2]
            exact ⟨hgood, hregc, hvm, hrm, hg⟩
        have hbnd1 : ∀ e ∈ tbl ++ [((puzzleFullHash wlHashModel t
            (searchFollower cur m).toPuzzle).1, searchFollower cur m,
            path ++ [m])], e.2.2.length ≤ path.length + 1 := by
          intro e he
          rcases List.mem_append.mp he with h1 | h2
          · exact hbnd e h1
          · rw [List.mem_singleton.mp h2]
            simp
        obtain ⟨⟨new, hA1, hA2, hA3⟩, hTw, hTs, hB, hC, hD, hEn, hFs⟩ :=
          ih (puzzleFullHash wlHashModel t
            (searchFollower cur m).toPuzzle).2 _ _ hms' hwt' hnd1
            hsound1 hbnd1
        refine ⟨⟨((puzzleFullHash wlHashModel t
          (searchFollower cur m).toPuzzle).1, searchFollower cur m,
          path ++ [m]) :: new, ?_, ?_, ?_⟩, hTw,
          fun g s h => hTs g s (hstab g s h), hB, hC, hD, ?_, ?_⟩
        · rw [hA1, List.append_assoc]
          rfl
        · rw [hA2, List.append_assoc]
          rfl
        · intro e he
          rcases List.mem_cons.mp he with h1 | h2
          · exact ⟨m, List.mem_cons_self m ms, by rw [h1], by rw [h1]⟩
          · obtain ⟨m', hm', he1, he2⟩ := hA3 e h2
            exact ⟨m', List.mem_cons_of_mem m hm', he1, he2⟩
        · intro hnone m' hm'
          rcases List.mem_cons.mp hm' with hm1 | hm2
          · subst hm1
            refine ⟨hg, ((puzzleFullHash wlHashModel t
              (searchFollower cur m').toPuzzle).1, searchFollower cur m',
              path ++ [m']), ?_, giso_refl _, by simp⟩
            rw [hA1]
            exact List.mem_append_left new (List.mem_append_right tbl
              (List.mem_singleton_self _))
          · exact hEn hnone m' hm2
        · intro sol hsol
          obtain ⟨m', hm', h1, h2⟩ := hFs sol hsol
          exact ⟨m', List.mem_cons_of_mem m hm', h1, h2⟩

/-! ## One instantiated BFS loop step preserves the invariant -/

theorem bfsPzStep_inv (V : List Nat) (N : Finset Nat)
    (start : SolvablePuzzle) (t : HashTracker)
    (tbl : List (Str × SolvablePuzzle × List Move)) (q0 : List Str)
    (curName : Str) (info : SolvablePuzzle) (path : List Move)
    (hinv : PzBfsInv V N start t tbl (curName :: q0))
    (hlk : alookup tbl curName = some (info, path))
    (hnone : (bfsPzExpand info path (getValidMoves info) t tbl q0).1 =
      none) :
    PzBfsInv V N start
      (bfsPzExpand info path (getValidMoves info) t tbl q0).2.1
      (bfsPzExpand info path (getValidMoves info) t tbl q0).2.2.1
      (bfsPzExpand info path (getValidMoves info) t tbl q0).2.2.2 ∧
    (∀ e ∈ tbl, e ∈
      (bfsPzExpand info path (getValidMoves info) t tbl q0).2.2.1) ∧
    (∀ n ∈ q0, n ∈
      (bfsPzExpand info path (getValidMoves info) t tbl q0).2.2.2) ∧
    (∃ s, ((bfsPzExpand info path (getValidMoves info) t
        tbl q0).2.2.1.map Prod.fst).length =
        (tbl.map Prod.fst).length + s ∧
      ((bfsPzExpand info path (getValidMoves info) t
        tbl q0).2.2.2).length = q0.length + s) := by
  have hcur_mem : (curName, info, path) ∈ tbl := alookup_mem hlk
  have hcs := hinv.entries _ hcur_mem
  have hlen_cur : bfsLenOf tbl curName = path.length := by
    unfold bfsLenOf
    rw [hlk]
    rfl
  have hbnd0 : ∀ e ∈ tbl, e.2.2.length ≤ path.length + 1 := by
    intro e he
    have := hinv.bounded e he curName rfl
    rw [hlen_cur] at this
    exact this
  obtain ⟨⟨new, hA1, hA2, hA3⟩, hTw, hTs, hB, hC, hDbnd, hEn, _⟩ :=
    bfsPzExpand_spec V N start info path hcs.1 hcs.2.2.1 hcs.2.2.2.1
      (getValidMoves info) t tbl q0 (fun m hm => hm) hinv.twf
      hinv.keys_nodup hinv.entries hbnd0
  have hD := hEn hnone
  have hnew_len : ∀ e ∈ new, e.2.2.length = path.length + 1 := by
    intro e he
    obtain ⟨m, _, _, he2⟩ := hA3 e he
    rw [he2]
    simp
  have hksplit : ((bfsPzExpand info path (getValidMoves info) t
      tbl q0).2.2.1).map Prod.fst =
      tbl.map Prod.fst ++ new.map Prod.fst := by
    rw [hA1, List.map_append]
  have hnd3 := hB
  rw [hksplit] at hnd3
  obtain ⟨hnd_old, hnd_new, hdisj⟩ := List.nodup_append.mp hnd3
  have hlen_pres : ∀ n ∈ curName :: q0,
      bfsLenOf (bfsPzExpand info path (getValidMoves info) t
        tbl q0).2.2.1 n = bfsLenOf tbl n := by
    intro n hn
    obtain ⟨b, hb⟩ := alookup_covered (hinv.covered n hn)
    unfold bfsLenOf
    simp only [hA1, alookup_append, hb]
  have hlen_new : ∀ e ∈ new,
      bfsLenOf (bfsPzExpand info path (getValidMoves info) t
        tbl q0).2.2.1 e.1 = path.length + 1 := by
    intro e he
    have hkey_new : e.1 ∈ new.map Prod.fst :=
      List.mem_map.mpr ⟨e, he, rfl⟩
    have hnot_old : alookup tbl e.1 = none := by
      refine alookup_eq_none.mpr fun hmem => ?_
      exact hdisj hmem hkey_new
    have hent : alookup new e.1 = some e.2 := mem_alookup hnd_new he
    unfold bfsLenOf
    simp only [hA1, alookup_append, hnot_old, hent]
    exact hnew_len e he
  have hfront_le : ∀ y ∈ q0.map (bfsLenOf tbl), path.length ≤ y := by
    have hs := hinv.sorted
    rw [List.map_cons, hlen_cur] at hs
    have hp := List.chain'_iff_pairwise.mp hs
    exact (List.pairwise_cons.mp hp).1
  have hq0_le : ∀ n ∈ q0, bfsLenOf tbl n ≤ path.length + 1 := by
    intro n hn
    obtain ⟨b, hb⟩ := alookup_covered
      (hinv.covered n (List.mem_cons_of_mem curName hn))
    have hbm := hinv.bounded (n, b) (alookup_mem hb) curName rfl
    rw [hlen_cur] at hbm
    have : bfsLenOf tbl n = b.2.length := by
      unfold bfsLenOf
      rw [hb]
      rfl
    rw [this]
    exact hbm
  refine ⟨⟨hTw, hB, ?_, hC, ?_, ?_, ?_⟩, ?_, ?_, ⟨new.length, ?_, ?_⟩⟩
  · -- covered
    intro n hn
    rw [hA2] at hn
    rw [hksplit]
    rcases List.mem_append.mp hn with h1 | h2
    · exact List.mem_append_left _
        (hinv.covered n (List.mem_cons_of_mem curName h1))
    · exact List.mem_append_right _ h2
  · -- expanded
    intro e he hnq
    rw [hA1] at he
    rcases List.mem_append.mp he with h1 | h2
    · by_cases hec : e.1 = curName
      · have h1' : (curName, e.2) ∈ tbl := by
          rw [← hec]
          exact h1
        have he2 : e.2 = (info, path) :=
          entry_unique hinv.keys_nodup h1' hcur_mem
        have he21 : e.2.1 = info := by rw [he2]
        have he22 : e.2.2 = path := by rw [he2]
        intro m hm'
        rw [he21] at hm'
        rw [he21, he22]
        exact hD m hm'
      · have hnq0 : e.1 ∉ curName :: q0 := by
          intro hc
          rcases List.mem_cons.mp hc with h3 | h4
          · exact hec h3
          · exact hnq (by rw [hA2]; exact List.mem_append_left _ h4)
        intro m hm'
        obtain ⟨hgf, e2, hp1, hp2, hp3⟩ := hinv.expanded e h1 hnq0 m hm'
        exact ⟨hgf, e2, by rw [hA1]; exact List.mem_append_left new hp1,
          hp2, hp3⟩
    · exfalso
      apply hnq
      rw [hA2]
      exact List.mem_append_right q0 (List.mem_map.mpr ⟨e, h2, rfl⟩)
  · -- sorted
    rw [hA2, List.map_append]
    refine List.chain'_append.mpr ⟨?_, ?_, ?_⟩
    · have hmc : q0.map (bfsLenOf (bfsPzExpand info path
          (getValidMoves info) t tbl q0).2.2.1) =
          q0.map (bfsLenOf tbl) :=
        List.map_congr_left fun n hn =>
          hlen_pres n (List.mem_cons_of_mem curName hn)
      rw [hmc]
      have hs := hinv.sorted
      rw [List.map_cons] at hs
      exact hs.tail
    · refine @chain'_le_of_all_eq _ (path.length + 1) fun x hx => ?_
      obtain ⟨n, hn, hx'⟩ := List.mem_map.mp hx
      obtain ⟨e, he, hn'⟩ := List.mem_map.mp hn
      rw [← hx', ← hn']
      exact hlen_new e he
    · intro x hx y hy
      have hx1 : x ∈ q0.map (bfsLenOf (bfsPzExpand info path
          (getValidMoves info) t tbl q0).2.2.1) :=
        List.mem_of_getLast?_eq_some (Option.mem_def.mp hx)
      obtain ⟨n, hn, hx'⟩ := List.mem_map.mp hx1
      have hy1 : y ∈ (new.map Prod.fst).map (bfsLenOf (bfsPzExpand info
          path (getValidMoves info) t tbl q0).2.2.1) :=
        List.mem_of_mem_head? hy
      obtain ⟨n2, hn2, hy'⟩ := List.mem_map.mp hy1
      obtain ⟨e2, he2, hn2'⟩ := List.mem_map.mp hn2
      rw [← hx', hlen_pres n (List.mem_cons_of_mem curName hn)]
      rw [← hy', ← hn2', hlen_new e2 he2]
      exact hq0_le n hn
  · -- bounded
    intro e he h hh
    have hhm : h ∈ (bfsPzExpand info path (getValidMoves info) t
        tbl q0).2.2.2 := List.mem_of_mem_head? (Option.mem_def.mpr hh)
    rw [hA2] at hhm
    have hge : path.length ≤ bfsLenOf (bfsPzExpand info path
        (getValidMoves info) t tbl q0).2.2.1 h := by
      rcases List.mem_append.mp hhm with h1 | h2
      · rw [hlen_pres h (List.mem_cons_of_mem curName h1)]
        exact hfront_le _ (List.mem_map.mpr ⟨h, h1, rfl⟩)
      · obtain ⟨e2, he2, hn2'⟩ := List.mem_map.mp h2
        rw [← hn2', hlen_new e2 he2]
        omega
    rw [hA1] at he
    rcases List.mem_append.mp he with h1 | h2
    · have := hbnd0 e h1
      omega
    · have := hnew_len e h2
      omega
  · -- old entries preserved
    intro e he
    rw [hA1]
    exact List.mem_append_left new he
  · -- the queue tail is preserved
    intro n hn
    rw [hA2]
    exact List.mem_append_left _ hn
  · rw [hksplit, List.length_append]
    simp only [List.length_map]
  · rw [hA2, List.length_append]
    simp only [List.length_map]

/-! ## The table never outgrows the state bound -/

theorem nodup_mem_finset_length {α : Type} [DecidableEq α] {l : List α}
    {s : Finset α} (hnd : l.Nodup) (hsub : ∀ x ∈ l, x ∈ s) :
    l.length ≤ s.card := by
  rw [← List.toFinset_card_of_nodup hnd]
  exact Finset.card_le_card fun x hx => hsub x (List.mem_toFinset.mp hx)

/-- States with equal abstraction are palette-blind isomorphic (via the
identity relabeling). -/
theorem stateAbs_palIso {st1 st2 : SolvablePuzzle}
    (hwf1 : PuzzleWF st1.toPuzzle) (hwf2 : PuzzleWF st2.toPuzzle)
    (h : stateAbs st1 = stateAbs st2) :
    PalIso st1.toPuzzle st2.toPuzzle := by
  unfold stateAbs at h
  rw [Prod.mk.injEq, Prod.mk.injEq] at h
  obtain ⟨h1, h2, h3⟩ := h
  have hnmem : ∀ a, a ∈ st1.toPuzzle.nodes ↔ a ∈ st2.toPuzzle.nodes := by
    intro a
    rw [← List.mem_toFinset, ← List.mem_toFinset]
    show a ∈ nodeFinset st1.toPuzzle ↔ a ∈ nodeFinset st2.toPuzzle
    rw [h1]
  have hceq : ∀ a ∈ st1.toPuzzle.nodes,
      st2.toPuzzle.color a = st1.toPuzzle.color a := by
    intro a ha
    have hm1 : (a, st1.toPuzzle.color a) ∈
        (st1.toPuzzle.nodes.map fun v =>
          (v, st1.toPuzzle.color v)).toFinset :=
      List.mem_toFinset.mpr (List.mem_map.mpr ⟨a, ha, rfl⟩)
    rw [h3] at hm1
    obtain ⟨v, _, hv⟩ := List.mem_map.mp (List.mem_toFinset.mp hm1)
    rw [Prod.mk.injEq] at hv
    obtain ⟨hva, hcv⟩ := hv
    subst hva
    exact hcv
  refine ⟨id, ?_, ?_, ?_⟩
  · rw [List.map_id, List.perm_ext_iff_of_nodup hwf1.1 hwf2.1]
    exact hnmem
  · intro x y hx hy
    show st1.toPuzzle.color x = st1.toPuzzle.color y ↔
      st2.toPuzzle.color x = st2.toPuzzle.color y
    rw [hceq x hx, hceq y hy]
  · intro a b _ _
    show st1.toPuzzle.Adj a b ↔ st2.toPuzzle.Adj a b
    rw [adj_iff_mem_edgeFinset, @adj_iff_mem_edgeFinset st2.toPuzzle,
      h2]

theorem pzKeys_le_bound {V : List Nat} {N : Finset Nat}
    {start : SolvablePuzzle} {t : HashTracker}
    {tbl : List (Str × SolvablePuzzle × List Move)} {q : List Str}
    (hinv : PzBfsInv V N start t tbl q) :
    (tbl.map Prod.fst).length ≤
      (N.powerset ×ˢ ((N ×ˢ N).powerset ×ˢ
        (N ×ˢ V.toFinset).powerset)).card := by
  rw [List.length_map]
  have hpw : List.Pairwise (fun e1 e2 :
      Str × SolvablePuzzle × List Move => e1.1 ≠ e2.1) tbl :=
    List.pairwise_map.mp hinv.keys_nodup
  have habs_pw : List.Pairwise (fun e1 e2 :
      Str × SolvablePuzzle × List Move =>
      stateAbs e1.2.1 ≠ stateAbs e2.2.1) tbl := by
    refine List.Pairwise.imp_of_mem ?_ hpw
    intro e1 e2 h1 h2 hne heq
    obtain ⟨hg1, hr1, _, _, _⟩ := hinv.entries e1 h1
    obtain ⟨hg2, hr2, _, _, _⟩ := hinv.entries e2 h2
    have hpal : PalIso e1.2.1.toPuzzle e2.2.1.toPuzzle :=
      stateAbs_palIso hg1.2.1 hg2.2.1 heq
    have hgi : GIso (canonOf e1.2.1.toPuzzle)
        (canonOf e2.2.1.toPuzzle) :=
      states_canon hg1.2.1 hg2.2.1 hpal
    exact hne ((reg_inj hinv.twf (canon_nodup hg1.2.1)
      (canon_nodup hg2.2.1) hr1 hr2).mpr hgi)
  have hmapnd : (tbl.map fun e => stateAbs e.2.1).Nodup :=
    List.pairwise_map.mpr habs_pw
  have hsub2 : ∀ x ∈ tbl.map fun e => stateAbs e.2.1,
      x ∈ N.powerset ×ˢ ((N ×ˢ N).powerset ×ˢ
        (N ×ˢ V.toFinset).powerset) := by
    intro x hx
    obtain ⟨e, he, rfl⟩ := List.mem_map.mp hx
    obtain ⟨hg, _, _, _, _⟩ := hinv.entries e he
    obtain ⟨hV, hwf, hcol, hsubN, _⟩ := hg
    rw [Finset.mem_product]
    constructor
    · rw [Finset.mem_powerset]
      exact hsubN
    · rw [Finset.mem_product]
      constructor
      · rw [Finset.mem_powerset]
        intro ed hed
        obtain ⟨a, b, rfl, hadj⟩ := edgeFinset_elem_shape hed
        have ha := (adj_mem_nodes hwf hadj).1
        have hb := (adj_mem_nodes hwf hadj).2
        have haN : a ∈ N := hsubN (List.mem_toFinset.mpr ha)
        have hbN : b ∈ N := hsubN (List.mem_toFinset.mpr hb)
        rw [Finset.mem_product]
        unfold normEdge
        split
        · exact ⟨haN, hbN⟩
        · exact ⟨hbN, haN⟩
      · rw [Finset.mem_powerset]
        intro pr hpr
        obtain ⟨v, hv, rfl⟩ := List.mem_map.mp (List.mem_toFinset.mp hpr)
        rw [Finset.mem_product]
        exact ⟨hsubN (List.mem_toFinset.mpr hv),
          List.mem_toFinset.mpr (hcol v hv)⟩
  calc tbl.length = (tbl.map fun e => stateAbs e.2.1).length := by
        rw [List.length_map]
    _ ≤ _ := nodup_mem_finset_length hmapnd hsub2

/-! ## The instantiated BFS loop: chain, termination, optimality -/

/-- Along any solving comparison sequence, the invariant lets the
recorded witness advance (by mimicking the next comparison move at the
recorded isomorphic state) until it sits in the queue. -/
theorem pzWitness_chain (V : List Nat) (N : Finset Nat)
    (start : SolvablePuzzle) (hgstart : GoodSt V N start)
    (msol : List Move) (hvalid : ValidMoveSeq start msol)
    (hgoal : (applyMoves start msol).isSolved = true) :
    ∀ (d : Nat) (t : HashTracker)
      (tbl : List (Str × SolvablePuzzle × List Move)) (q : List Str),
      PzBfsInv V N start t tbl q → ∀ j, j < msol.length →
      msol.length - j ≤ d →
      (∃ e ∈ tbl,
        GIso (canonOf (applyMoves start (msol.take j)).toPuzzle)
          (canonOf e.2.1.toPuzzle) ∧ e.2.2.length ≤ j) →
      ∃ j', j' < msol.length ∧ ∃ e ∈ tbl,
        GIso (canonOf (applyMoves start (msol.take j')).toPuzzle)
          (canonOf e.2.1.toPuzzle) ∧ e.2.2.length ≤ j' ∧ e.1 ∈ q := by
  intro d
  induction d with
  | zero =>
    intro t tbl q _ j hj hd _
    exact absurd hd (by omega)
  | succ d ih =>
    intro t tbl q hinv j hj hd hwit
    obtain ⟨e, hmem, hgiso, hple⟩ := hwit
    by_cases hq : e.1 ∈ q
    · exact ⟨j, hj, e, hmem, hgiso, hple, hq⟩
    · have hgsj : GoodSt V N (applyMoves start (msol.take j)) :=
        goodSt_applyMoves _ start hgstart (validMS_take msol start j hvalid)
      obtain ⟨hge, _, _, _, _⟩ := hinv.entries e hmem
      have hpal : PalIso (applyMoves start (msol.take j)).toPuzzle
          e.2.1.toPuzzle := states_palIso hgsj hge hgiso
      have hmu : msol.get ⟨j, hj⟩ ∈
          getValidMoves (applyMoves start (msol.take j)) :=
        validMS_get_mem msol start j hj hvalid
      obtain ⟨m', hm'mem, hm'pal⟩ := move_transport hgsj hge hpal hmu
      obtain ⟨hng, e2, hmem2, hgiso2, hple2⟩ :=
        hinv.expanded e hmem hq m' hm'mem
      have hchild : applyMoves start (msol.take (j + 1)) =
          searchFollower (applyMoves start (msol.take j))
            (msol.get ⟨j, hj⟩) := applyMoves_take_succ start msol j hj
      have hgiso3 : GIso
          (canonOf (applyMoves start (msol.take (j + 1))).toPuzzle)
          (canonOf e2.2.1.toPuzzle) := by
        have h1 : GIso
            (canonOf (applyMoves start (msol.take (j + 1))).toPuzzle)
            (canonOf (searchFollower e.2.1 m').toPuzzle) := by
          rw [hchild]
          exact states_canon (goodSt_follow hgsj hmu).2.1
            (goodSt_follow hge hm'mem).2.1 hm'pal
        exact giso_trans h1 hgiso2
      have hsolvedeq : (applyMoves start (msol.take (j + 1))).isSolved =
          (searchFollower e.2.1 m').isSolved := by
        rw [hchild]
        exact palIso_isSolved hm'pal
      have hlt : j + 1 < msol.length := by
        by_contra hc
        have hje : j + 1 = msol.length := by omega
        rw [hje, List.take_length, hgoal, hng] at hsolvedeq
        exact Bool.noConfusion hsolvedeq
      exact ih t tbl q hinv (j + 1) hlt (by omega)
        ⟨e2, hmem2, hgiso3, by omega⟩

theorem bfsPzLoop_term (V : List Nat) (N : Finset Nat)
    (start : SolvablePuzzle) :
    ∀ (fuel : Nat) (t : HashTracker)
      (tbl : List (Str × SolvablePuzzle × List Move)) (q : List Str),
      PzBfsInv V N start t tbl q →
      q.length + ((N.powerset ×ˢ ((N ×ˢ N).powerset ×ˢ
        (N ×ˢ V.toFinset).powerset)).card -
        (tbl.map Prod.fst).length) < fuel →
      (∃ sol, bfsPzLoop fuel t tbl q = some (some sol) ∧
        ValidMoveSeq start sol ∧
        (applyMoves start sol).isSolved = true) ∨
      (∃ tF tblF, bfsPzLoop fuel t tbl q = some none ∧
        (∀ e ∈ tbl, e ∈ tblF) ∧ PzBfsInv V N start tF tblF []) := by
  intro fuel
  induction fuel with
  | zero =>
    intro t tbl q _ hf
    exact absurd hf (Nat.not_lt_zero _)
  | succ fuel ih =>
    intro t tbl q hinv hf
    cases q with
    | nil => exact Or.inr ⟨t, tbl, rfl, fun e he => he, hinv⟩
    | cons curName q0 =>
      obtain ⟨b, hb⟩ := alookup_covered
        (hinv.covered curName (List.mem_cons_self curName q0))
      obtain ⟨info, path⟩ := b
      have hcs := hinv.entries _ (alookup_mem hb)
      have hlen_cur : bfsLenOf tbl curName = path.length := by
        unfold bfsLenOf
        rw [hb]
        rfl
      have hbnd0 : ∀ e ∈ tbl, e.2.2.length ≤ path.length + 1 := by
        intro e he
        have h2 := hinv.bounded e he curName rfl
        rw [hlen_cur] at h2
        exact h2
      rcases hexp : bfsPzExpand info path (getValidMoves info) t tbl q0
        with ⟨res0, t', tbl', q'⟩
      cases res0 with
      | some sol0 =>
        left
        obtain ⟨_, _, _, _, _, _, _, hFs⟩ :=
          bfsPzExpand_spec V N start info path hcs.1 hcs.2.2.1
            hcs.2.2.2.1 (getValidMoves info) t tbl q0 (fun m hm => hm)
            hinv.twf hinv.keys_nodup hinv.entries hbnd0
        obtain ⟨m, hm, hsol, hgoal⟩ := hFs sol0 (by rw [hexp])
        refine ⟨sol0, ?_, ?_, ?_⟩
        · simp only [bfsPzLoop, hb, hexp]
        · rw [hsol]
          exact validMS_concat path start hcs.2.2.1 m
            (by rw [hcs.2.2.2.1]; exact hm)
        · rw [hsol, applyMoves_concat, hcs.2.2.2.1]
          exact hgoal
      | none =>
        have hstep := bfsPzStep_inv V N start t tbl q0 curName info
          path hinv hb (by rw [hexp])
        simp only [hexp] at hstep
        obtain ⟨hinv', hpres, hqpres, s, hks, hqs⟩ := hstep
        have hDle := pzKeys_le_bound hinv'
        have hf' : q'.length + ((N.powerset ×ˢ ((N ×ˢ N).powerset ×ˢ
            (N ×ˢ V.toFinset).powerset)).card -
            (tbl'.map Prod.fst).length) < fuel := by
          simp only [List.length_cons] at hf
          omega
        have hq_eq : bfsPzLoop (fuel + 1) t tbl (curName :: q0) =
            bfsPzLoop fuel t' tbl' q' := by
          simp only [bfsPzLoop, hb, hexp]
        rcases ih t' tbl' q' hinv' hf' with h1 | h2
        · obtain ⟨sol, hrun, hvs, hgs⟩ := h1
          exact Or.inl ⟨sol, by rw [hq_eq]; exact hrun, hvs, hgs⟩
        · obtain ⟨tF, tblF, hrun, hpres2, hinvF⟩ := h2
          refine Or.inr ⟨tF, tblF, ?_, fun e he => hpres2 _ (hpres e he),
            hinvF⟩
          rw [hq_eq]
          exact hrun

theorem bfsPzLoop_opt (V : List Nat) (N : Finset Nat)
    (start : SolvablePuzzle) (hgstart : GoodSt V N start)
    (msol : List Move) (hv : ValidMoveSeq start msol)
    (hg : (applyMoves start msol).isSolved = true) :
    ∀ (fuel : Nat) (t : HashTracker)
      (tbl : List (Str × SolvablePuzzle × List Move)) (q : List Str),
      PzBfsInv V N start t tbl q →
      (∃ j, j < msol.length ∧ ∃ e ∈ tbl,
        GIso (canonOf (applyMoves start (msol.take j)).toPuzzle)
          (canonOf e.2.1.toPuzzle) ∧ e.2.2.length ≤ j ∧ e.1 ∈ q) →
      ∀ res, bfsPzLoop fuel t tbl q = some res →
        ∃ sol, res = some sol ∧ sol.length ≤ msol.length := by
  intro fuel
  induction fuel with
  | zero =>
    intro t tbl q _ _ res hres
    exact Option.noConfusion hres
  | succ fuel ih =>
    intro t tbl q hinv hwit res hres
    obtain ⟨j, hj, e, hmem, hgiso, hple, hinq⟩ := hwit
    cases q with
    | nil => exact absurd hinq (List.not_mem_nil _)
    | cons curName q0 =>
      obtain ⟨b, hb⟩ := alookup_covered
        (hinv.covered curName (List.mem_cons_self curName q0))
      obtain ⟨info, path⟩ := b
      have hcs := hinv.entries _ (alookup_mem hb)
      have hlen_cur : bfsLenOf tbl curName = path.length := by
        unfold bfsLenOf
        rw [hb]
        rfl
      have hbnd0 : ∀ e2 ∈ tbl, e2.2.2.length ≤ path.length + 1 := by
        intro e2 he2
        have h2 := hinv.bounded e2 he2 curName rfl
        rw [hlen_cur] at h2
        exact h2
      have hfront : path.length ≤ j := by
        by_cases hwc : e.1 = curName
        · have h1 : (curName, e.2) ∈ tbl := by
            rw [← hwc]
            exact hmem
          have h2 := entry_unique hinv.keys_nodup h1 (alookup_mem hb)
          have hpp : e.2.2 = path := congrArg Prod.snd h2
          rw [← hpp]
          exact hple
        · have hq0 : e.1 ∈ q0 := by
            rcases List.mem_cons.mp hinq with h1 | h2
            · exact absurd h1 hwc
            · exact h2
          have hs := hinv.sorted
          rw [List.map_cons, hlen_cur] at hs
          have hp := (List.pairwise_cons.mp
            (List.chain'_iff_pairwise.mp hs)).1
          have hwl : bfsLenOf tbl e.1 = e.2.2.length := by
            unfold bfsLenOf
            rw [show alookup tbl e.1 = some e.2 from
              mem_alookup hinv.keys_nodup hmem]
            rfl
          have h3 := hp _ (List.mem_map.mpr ⟨_, hq0, rfl⟩)
          rw [hwl] at h3
          exact le_trans h3 hple
      rcases hexp : bfsPzExpand info path (getValidMoves info) t tbl q0
        with ⟨res0, t', tbl', q'⟩
      cases res0 with
      | some sol0 =>
        have hres' : res = some sol0 := by
          simp only [bfsPzLoop, hb, hexp] at hres
          exact (Option.some.inj hres).symm
        obtain ⟨_, _, _, _, _, _, _, hFs⟩ :=
          bfsPzExpand_spec V N start info path hcs.1 hcs.2.2.1
            hcs.2.2.2.1 (getValidMoves info) t tbl q0 (fun m hm => hm)
            hinv.twf hinv.keys_nodup hinv.entries hbnd0
        obtain ⟨m, hm, hsol, _⟩ := hFs sol0 (by rw [hexp])
        refine ⟨sol0, hres', ?_⟩
        rw [hsol]
        simp only [List.length_append, List.length_singleton]
        omega
      | none =>
        have hstep := bfsPzStep_inv V N start t tbl q0 curName info
          path hinv hb (by rw [hexp])
        simp only [hexp] at hstep
        obtain ⟨hinv', hpres, hqpres, _⟩ := hstep
        have hres2 : bfsPzLoop fuel t' tbl' q' = some res := by
          simp only [bfsPzLoop, hb, hexp] at hres
          exact hres
        by_cases hwc : e.1 = curName
        · have h1 : (curName, e.2) ∈ tbl := by
            rw [← hwc]
            exact hmem
          have h2 := entry_unique hinv.keys_nodup h1 (alookup_mem hb)
          have hinfo : e.2.1 = info := congrArg Prod.fst h2
          have hpath : e.2.2 = path := congrArg Prod.snd h2
          have hgsj : GoodSt V N (applyMoves start (msol.take j)) :=
            goodSt_applyMoves _ start hgstart
              (validMS_take msol start j hv)
          have hge : GoodSt V N info := hcs.1
          have hgiso' : GIso
              (canonOf (applyMoves start (msol.take j)).toPuzzle)
              (canonOf info.toPuzzle) := by
            rw [← hinfo]
            exact hgiso
          have hpal : PalIso (applyMoves start (msol.take j)).toPuzzle
              info.toPuzzle := states_palIso hgsj hge hgiso'
          have hmu : msol.get ⟨j, hj⟩ ∈
              getValidMoves (applyMoves start (msol.take j)) :=
            validMS_get_mem msol start j hj hv
          obtain ⟨m', hm'mem, hm'pal⟩ := move_transport hgsj hge hpal hmu
          obtain ⟨_, _, _, _, _, _, hEn, _⟩ :=
            bfsPzExpand_spec V N start info path hcs.1 hcs.2.2.1
              hcs.2.2.2.1 (getValidMoves info) t tbl q0 (fun m hm => hm)
              hinv.twf hinv.keys_nodup hinv.entries hbnd0
          have hD := hEn (by rw [hexp])
          obtain ⟨hng, e2, hmem2, hgiso2, hple2⟩ := hD m' hm'mem
          simp only [hexp] at hmem2
          have hchild : applyMoves start (msol.take (j + 1)) =
              searchFollower (applyMoves start (msol.take j))
                (msol.get ⟨j, hj⟩) := applyMoves_take_succ start msol j hj
          have hgiso3 : GIso
              (canonOf (applyMoves start (msol.take (j + 1))).toPuzzle)
              (canonOf e2.2.1.toPuzzle) := by
            have hc1 : GIso
                (canonOf (applyMoves start (msol.take (j + 1))).toPuzzle)
                (canonOf (searchFollower info m').toPuzzle) := by
              rw [hchild]
              exact states_canon (goodSt_follow hgsj hmu).2.1
                (goodSt_follow hge hm'mem).2.1 hm'pal
            exact giso_trans hc1 hgiso2
          have hsolvedeq :
              (applyMoves start (msol.take (j + 1))).isSolved =
                (searchFollower info m').isSolved := by
            rw [hchild]
            exact palIso_isSolved hm'pal
          have hlt : j + 1 < msol.length := by
            by_contra hc
            have hje : j + 1 = msol.length := by omega
            rw [hje, List.take_length, hg, hng] at hsolvedeq
            exact Bool.noConfusion hsolvedeq
          have hplen : path.length = e.2.2.length := by rw [hpath]
          obtain ⟨j2, hj2, e3, hm3, hg3, hp3, hq3⟩ :=
            pzWitness_chain V N start hgstart msol hv hg msol.length
              t' tbl' q' hinv' (j + 1) hlt (by omega)
              ⟨e2, hmem2, hgiso3, by omega⟩
          exact ih t' tbl' q' hinv'
            ⟨j2, hj2, e3, hm3, hg3, hp3, hq3⟩ res hres2
        · have hq0 : e.1 ∈ q0 := by
            rcases List.mem_cons.mp hinq with h1 | h2
            · exact absurd h1 hwc
            · exact h2
          exact ih t' tbl' q' hinv'
            ⟨j, hj, e, hpres _ hmem, hgiso, hple, hqpres _ hq0⟩ res hres2

theorem bfsSolve_eq (fuel : Nat) (sp : SolvablePuzzle) :
    bfsSolve fuel sp =
      if ({ sp with toPuzzle := sp.toPuzzle.collapseAll } :
          SolvablePuzzle).isSolved then some (some [])
      else
        bfsPzLoop fuel
          (puzzleFullHash wlHashModel [] sp.toPuzzle.collapseAll).2
          [((puzzleFullHash wlHashModel [] sp.toPuzzle.collapseAll).1,
            ({ sp with toPuzzle := sp.toPuzzle.collapseAll } :
              SolvablePuzzle), [])]
          [(puzzleFullHash wlHashModel [] sp.toPuzzle.collapseAll).1] := rfl

/-- **C2.** `SolvablePuzzle.bfs_solve` (`BFSSolver.solve` without progress
bars, on the collapsed copy of the puzzle, with states named through the
puzzle's tracker by `full_hash`): on a well-formed puzzle whose colors lie
in its palette, and with fuel beyond the finite state bound (subsets of
nodes × subsets of node pairs × subsets of node-color pairs, which the
identity-based isomorphism-class deduplication keeps the table within),
the search always terminates; any returned move list solves the collapsed
puzzle; for every solvable puzzle the returned move list has minimum
length among all solving move sequences; and on an unsolvable puzzle it
returns `None`. -/
theorem bfsSolve_returns_shortest_or_none (sp : SolvablePuzzle)
    (hwf : PuzzleWF sp.toPuzzle)
    (hcols : ∀ x ∈ sp.toPuzzle.nodes, sp.toPuzzle.color x ∈ sp.validColors)
    (fuel : Nat) (hfuel : stateBound sp < fuel) :
    (∃ res, bfsSolve fuel sp = some res) ∧
    (∀ sol, bfsSolve fuel sp = some (some sol) →
      SolvesPz { sp with toPuzzle := sp.toPuzzle.collapseAll } sol) ∧
    (∀ ms, SolvesPz { sp with toPuzzle := sp.toPuzzle.collapseAll } ms →
      ∃ sol, bfsSolve fuel sp = some (some sol) ∧
        sol.length ≤ ms.length) ∧
    (bfsSolve fuel sp = some none →
      ∀ ms, ¬ SolvesPz { sp with toPuzzle := sp.toPuzzle.collapseAll } ms) := by
  have hspec := collapseAll_spec sp.toPuzzle hwf
  have hwfc : PuzzleWF sp.toPuzzle.collapseAll := hspec.wf
  set start0 : SolvablePuzzle :=
    { sp with toPuzzle := sp.toPuzzle.collapseAll } with hs0
  have hg0 : GoodSt sp.validColors (nodeFinset sp.toPuzzle) start0 := by
    refine ⟨rfl, hwfc, ?_, ?_, sp.toPuzzle, hwf, rfl⟩
    · intro x hx
      have hxs := hspec.nodes_sub x hx
      have hce := congrFun hspec.color_eq x
      show sp.toPuzzle.collapseAll.color x ∈ sp.validColors
      rw [hce]
      exact hcols x hxs
    · intro x hx
      exact List.mem_toFinset.mpr
        (hspec.nodes_sub x (List.mem_toFinset.mp hx))
  by_cases hgs : start0.isSolved = true
  · have hrun : bfsSolve fuel sp = some (some []) := by
      rw [bfsSolve_eq, ← hs0, if_pos hgs]
    refine ⟨⟨some [], hrun⟩, ?_, ?_, ?_⟩
    · intro sol hsol
      rw [hrun] at hsol
      have h2 := Option.some.inj (Option.some.inj hsol)
      rw [← h2]
      exact ⟨trivial, hgs⟩
    · intro ms _
      exact ⟨[], hrun, Nat.zero_le _⟩
    · intro hnone
      rw [hrun] at hnone
      exact absurd (Option.some.inj hnone) (by decide)
  · have hgsf : start0.isSolved = false := by
      cases h : start0.isSolved with
      | false => rfl
      | true => exact absurd h hgs
    set r := puzzleFullHash wlHashModel [] sp.toPuzzle.collapseAll with hr
    obtain ⟨hreg0, htwf0, _⟩ := tfh_reg trackerWF_nil (canon_nodup hwfc)
    have hinv0 : PzBfsInv sp.validColors (nodeFinset sp.toPuzzle) start0
        r.2 [(r.1, start0, [])] [r.1] := by
      refine ⟨htwf0, ?_, ?_, ?_, ?_, ?_, ?_⟩
      · exact List.nodup_singleton _
      · intro n hn
        exact hn
      · intro e he
        rw [List.mem_singleton] at he
        subst he
        exact ⟨hg0, hreg0, trivial, rfl, hgsf⟩
      · intro e he hq
        rw [List.mem_singleton] at he
        subst he
        exact absurd (List.mem_singleton_self _) hq
      · exact List.chain'_singleton _
      · intro e he h hh
        rw [List.mem_singleton] at he
        subst he
        exact Nat.zero_le _
    have hDeq : stateBound sp =
        ((nodeFinset sp.toPuzzle).powerset ×ˢ
          (((nodeFinset sp.toPuzzle) ×ˢ (nodeFinset sp.toPuzzle)).powerset ×ˢ
            ((nodeFinset sp.toPuzzle) ×ˢ
              sp.validColors.toFinset).powerset)).card := rfl
    have hD1 : 0 < stateBound sp := by
      rw [hDeq]
      refine Finset.card_pos.mpr ⟨(∅, ∅, ∅), ?_⟩
      simp [Finset.mem_product]
    have hfuel0 : ([r.1] : List Str).length +
        (((nodeFinset sp.toPuzzle).powerset ×ˢ
          (((nodeFinset sp.toPuzzle) ×ˢ (nodeFinset sp.toPuzzle)).powerset ×ˢ
            ((nodeFinset sp.toPuzzle) ×ˢ
              sp.validColors.toFinset).powerset)).card -
          (([(r.1, start0, ([] : List Move))].map Prod.fst).length)) <
          fuel := by
      rw [← hDeq]
      simp only [List.length_singleton, List.length_map]
      omega
    have hterm := bfsPzLoop_term sp.validColors (nodeFinset sp.toPuzzle)
      start0 fuel r.2 [(r.1, start0, [])] [r.1] hinv0 hfuel0
    have hoptOf : ∀ ms, SolvesPz start0 ms → ∀ res,
        bfsPzLoop fuel r.2 [(r.1, start0, [])] [r.1] = some res →
        ∃ sol, res = some sol ∧ sol.length ≤ ms.length := by
      intro ms hms res hres
      obtain ⟨hmsv, hmsg⟩ := hms
      have hms_pos : 0 < ms.length := by
        by_contra hc
        have hnil : ms = [] := List.eq_nil_of_length_eq_zero (by omega)
        subst hnil
        exact absurd hmsg hgs
      refine bfsPzLoop_opt sp.validColors (nodeFinset sp.toPuzzle) start0
        hg0 ms hmsv hmsg fuel r.2 [(r.1, start0, [])] [r.1] hinv0
        ⟨0, hms_pos, (r.1, start0, []), List.mem_singleton_self _, ?_,
          Nat.le_refl _, List.mem_singleton_self _⟩ res hres
      show GIso (canonOf (applyMoves start0 (ms.take 0)).toPuzzle)
        (canonOf start0.toPuzzle)
      rw [List.take_zero]
      exact giso_refl _
    rcases hterm with ⟨sol, hrun, hvs, hgoal⟩ | ⟨tF, tblF, hrun, _, _⟩
    · have hbfs : bfsSolve fuel sp = some (some sol) := by
        rw [bfsSolve_eq, ← hs0, if_neg hgs, ← hr]
        exact hrun
      refine ⟨⟨some sol, hbfs⟩, ?_, ?_, ?_⟩
      · intro sol2 hsol2
        rw [hbfs] at hsol2
        have h2 := Option.some.inj (Option.some.inj hsol2)
        rw [← h2]
        exact ⟨hvs, hgoal⟩
      · intro ms hms
        obtain ⟨sol2, he2, hl2⟩ := hoptOf ms hms (some sol) hrun
        have h3 : sol2 = sol := (Option.some.inj he2).symm
        subst h3
        exact ⟨sol2, hbfs, hl2⟩
      · intro hnone
        rw [hbfs] at hnone
        exact absurd (Option.some.inj hnone) (by simp)
    · have hbfs : bfsSolve fuel sp = some none := by
        rw [bfsSolve_eq, ← hs0, if_neg hgs, ← hr]
        exact hrun
      refine ⟨⟨none, hbfs⟩, ?_, ?_, ?_⟩
      · intro sol hsol
        rw [hbfs] at hsol
        exact absurd (Option.some.inj hsol) (by simp)
      · intro ms hms
        obtain ⟨sol2, he2, _⟩ := hoptOf ms hms none hrun
        exact absurd he2 (by simp)
      · intro _ ms hms
        obtain ⟨sol2, he2, _⟩ := hoptOf ms hms none hrun
        exact absurd he2 (by simp)

/-- Witness for C2 on a concrete input: the empty puzzle is well formed,
its colors lie in its palette, its state bound `1` is under the fuel `2`,
and the settled theorem then yields termination; concretely the run
returns `some none` (the empty puzzle is unsolvable: it has no single
color). -/
theorem bfsSolve_returns_shortest_or_none_witness :
    (∃ res, bfsSolve 2 emptySolvable = some res) ∧
    bfsSolve 2 emptySolvable = some none :=
  ⟨(bfsSolve_returns_shortest_or_none emptySolvable (by decide)
      (by decide) 2 (by decide)).1,
    by decide⟩

end Kami
